import Mathlib

/-!
# cpp-tensor: reverse-mode automatic differentiation

A shallow embedding of the graph engine of the repository
(InternalTensor.cpp, Tensor.cpp) and theorems about it.

Modelling conventions.

* `double` values are exact rationals: rounding is not modelled.  A division
  by exact zero (IEEE infinity or NaN) leaves the modelled domain and is
  reported as `Err.nonFinite`.
* `std::shared_ptr<InternalTensor>` is an index into a store of nodes (the
  field `World.nodes`); a fresh node is appended, so every node is allocated
  after the nodes it points to.  The static member `use_grad_` is the second
  field of the store.
* The closures stored in `backward_op_` are defunctionalised: one constructor
  of `BackwardOp` per lambda of InternalTensor.cpp, holding what the lambda
  captures.
* A vector element read past the end (undefined behaviour in C++) is
  `Err.outOfBounds`.
* The recursion of `InternalTensor::Backward` is bounded by a depth budget;
  an exhausted budget is `Err.outOfFuel`.
-/

namespace cpp_tensor

/-! ## Data model -/

/-- Ways an evaluation can leave the modelled domain. -/
inductive Err where
  | outOfFuel
  | outOfBounds
  | nullPointer
  | nonFinite
  | diverges
  deriving DecidableEq

/-- A shared pointer to a node: its index in the store. -/
abbrev SharedTensor := Nat

/-- The lambdas passed to ApplyOperation, with their captures. -/
inductive BackwardOp where
  | AddManyOne (a b : SharedTensor)
  | AddManyMany (a b : SharedTensor)
  | AddBias (a b : SharedTensor)
  | MultiplyManyOne (a b : SharedTensor)
  | MultiplyManyMany (a b : SharedTensor)
  | Matmul (a b : SharedTensor)
  | Pow (a : SharedTensor) (exponent : Int) (data : List ℚ)
  | Sum (a : SharedTensor) (data : ℚ)
  | Relu (a : SharedTensor) (leaky : ℚ)
  deriving DecidableEq

/-- The class InternalTensor (InternalTensor.hpp): the member variables that
the code reads.  The counters num_children_ and children_processed_ are never
read or written and are left out. -/
structure InternalTensor where
  data_ : List ℚ
  grad_ : List ℚ
  shape_ : List Nat
  parents_ : List SharedTensor
  backward_op_ : Option BackwardOp
  is_leaf_ : Bool
  requires_grad_ : Bool
  deriving DecidableEq

/-- The heap of nodes together with the static flag InternalTensor::use_grad_. -/
structure World where
  nodes : List InternalTensor
  use_grad_ : Bool
  deriving DecidableEq

/-- The class Tensor (Tensor.hpp): a shared pointer and the stride table. -/
structure Tensor where
  tensor_ : SharedTensor
  strides_ : List Nat
  deriving DecidableEq

/-! ## Store access -/

/-- The state at program start: no node, `use_grad_ = true`
(InternalTensor.cpp line 8). -/
def World.init : World := { nodes := [], use_grad_ := true }

/-- Dereference a shared pointer. -/
def World.deref (w : World) (p : SharedTensor) : Except Err InternalTensor :=
  match w.nodes[p]? with
  | some t => .ok t
  | none => .error .nullPointer

/-- Overwrite the node a shared pointer refers to. -/
def World.store (w : World) (p : SharedTensor) (t : InternalTensor) : World :=
  { w with nodes := w.nodes.set p t }

/-- Allocate a node (std::make_shared): the new pointer and the new store. -/
def World.alloc (w : World) (t : InternalTensor) : SharedTensor × World :=
  (w.nodes.length, { w with nodes := w.nodes ++ [t] })

/-- Read `xs[i]` of a vector of doubles. -/
def rd (xs : List ℚ) (i : Nat) : Except Err ℚ :=
  match xs[i]? with
  | some v => .ok v
  | none => .error .outOfBounds

/-- Read `xs[i]` of a vector of sizes. -/
def rdNat (xs : List Nat) (i : Nat) : Except Err Nat :=
  match xs[i]? with
  | some v => .ok v
  | none => .error .outOfBounds

/-- Floating division `x / y`; a zero divisor leaves the rationals. -/
def fdiv (x y : ℚ) : Except Err ℚ :=
  if y = 0 then .error .nonFinite else .ok (x / y)

/-- Run `f` on the elements in order and collect the results (a loop with
push_back); the first failure ends the run. -/
def mapE {α β : Type} (f : α → Except Err β) : List α → Except Err (List β)
  | [] => .ok []
  | x :: xs => do
    let y ← f x
    let ys ← mapE f xs
    pure (y :: ys)

/-- The loop `for (i = 0; i < n; i++) out[i] = f(i)` over a vector of size n. -/
def forEachIndex (n : Nat) (f : Nat → Except Err ℚ) : Except Err (List ℚ) :=
  mapE f (List.range n)

/-- The call `std::accumulate(begin, end, 0.)`. -/
def accumulate (xs : List ℚ) : ℚ :=
  xs.foldl (fun acc x => acc + x) 0

/-! ## InternalTensor members -/

/-- The constructor: gradient, parents and backward rule start empty. -/
def InternalTensor.new (data : List ℚ) (shape : List Nat)
    (requires_grad : Bool) (is_leaf : Bool) : InternalTensor :=
  { data_ := data, grad_ := [], shape_ := shape, parents_ := [],
    backward_op_ := none, is_leaf_ := is_leaf, requires_grad_ := requires_grad }

/-- The member Size(). -/
def InternalTensor.Size (t : InternalTensor) : Nat := t.data_.length

/-- The member RequiresGrad(): `requires_grad_ && use_grad_`. -/
def InternalTensor.RequiresGrad (t : InternalTensor) (w : World) : Bool :=
  t.requires_grad_ && w.use_grad_

/-- The member SetGrad(std::vector<double>). -/
def InternalTensor.SetGradVec (t : InternalTensor) (grad : List ℚ) : InternalTensor :=
  { t with grad_ := grad }

/-- The member SetGrad(double): a vector of Size() copies. -/
def InternalTensor.SetGrad (t : InternalTensor) (grad : ℚ) : InternalTensor :=
  t.SetGradVec (List.replicate t.Size grad)

/-- The member UpdateGrad(std::vector<double>): an empty buffer is replaced,
otherwise `grad_[i] += grad[i]` for every `i < grad_.size()`; the argument is
read past its end when it is shorter than the buffer. -/
def InternalTensor.UpdateGradVec (t : InternalTensor) (grad : List ℚ) :
    Except Err InternalTensor :=
  if t.grad_.isEmpty then .ok { t with grad_ := grad }
  else do
    let g ← forEachIndex t.grad_.length (fun i => do
      let old ← rd t.grad_ i
      let inc ← rd grad i
      pure (old + inc))
    pure { t with grad_ := g }

/-- The member UpdateGrad(double). -/
def InternalTensor.UpdateGrad (t : InternalTensor) (grad : ℚ) :
    Except Err InternalTensor :=
  t.UpdateGradVec (List.replicate t.Size grad)

/-- The statement `if (p->RequiresGrad()) p->UpdateGrad(contrib)` of a
backward lambda; the contribution is computed only inside the branch. -/
def pushGrad (p : SharedTensor) (contrib : World → Except Err (List ℚ))
    (w : World) : Except Err World := do
  let t ← w.deref p
  if t.RequiresGrad w then
    let g ← contrib w
    let t1 ← t.UpdateGradVec g
    pure (w.store p t1)
  else
    pure w

/-! ## Matrix helpers -/

/-- The function MatmulVectors: `res[i*p + j]` accumulates
`a[i*m + k] * b[j + k*p]` over `k < m`, starting from zero. -/
def MatmulVectors (a b : List ℚ) (n m p : Nat) : Except Err (List ℚ) := do
  let rows ← mapE (fun i =>
    forEachIndex p (fun j =>
      (List.range m).foldlM (fun acc k => do
        let x ← rd a (i * m + k)
        let y ← rd b (j + k * p)
        pure (acc + x * y)) (0 : ℚ))) (List.range n)
  pure rows.flatten

/-- The function Transpose: `res[j*n + i] = a[i*m + j]` for `i < n`, `j < m`;
written as the gather over the indices of `res`. -/
def Transpose (a : List ℚ) (n m : Nat) : Except Err (List ℚ) := do
  let cols ← mapE (fun j =>
    forEachIndex n (fun i => rd a (i * m + j))) (List.range m)
  pure cols.flatten

/-- The accumulation loop of the AddBias lambda: `b_grad[j] += grad[i + j]`
for `i = 0, s, 2s, ... < res_size` and `j < s`, where `s = b->Size()`.
With `s = 0` and a non-empty result the loop never advances. -/
def biasGrad (grad : List ℚ) (res_size b_size : Nat) : Except Err (List ℚ) :=
  if b_size = 0 then
    (if res_size = 0 then .ok [] else .error .diverges)
  else
    (List.range ((res_size + b_size - 1) / b_size)).foldlM (fun b_grad blk =>
      forEachIndex b_size (fun j => do
        let old ← rd b_grad j
        let g ← rd grad (blk * b_size + j)
        pure (old + g))) (List.replicate b_size (0 : ℚ))

/-! ## Backward rules -/

/-- The body of each backward lambda, run on the node `res` that owns it. -/
def BackwardOp.run (op : BackwardOp) (res : SharedTensor) (w : World) :
    Except Err World :=
  match op with
  | .AddManyOne a b => do
    let w ← pushGrad a (fun w => do
      let r ← w.deref res
      pure r.grad_) w
    pushGrad b (fun w => do
      let r ← w.deref res
      let tb ← w.deref b
      pure (List.replicate tb.Size (accumulate r.grad_))) w
  | .AddManyMany a b => do
    let w ← pushGrad a (fun w => do
      let r ← w.deref res
      pure r.grad_) w
    pushGrad b (fun w => do
      let r ← w.deref res
      pure r.grad_) w
  | .AddBias a b => do
    let w ← pushGrad a (fun w => do
      let r ← w.deref res
      pure r.grad_) w
    pushGrad b (fun w => do
      let r ← w.deref res
      let tb ← w.deref b
      biasGrad r.grad_ r.Size tb.Size) w
  | .MultiplyManyOne a b => do
    let w ← pushGrad a (fun w => do
      let r ← w.deref res
      let ta ← w.deref a
      let tb ← w.deref b
      forEachIndex ta.data_.length (fun i => do
        let g ← rd r.grad_ i
        let b0 ← rd tb.data_ 0
        pure (g * b0))) w
    pushGrad b (fun w => do
      let r ← w.deref res
      let ta ← w.deref a
      let tb ← w.deref b
      let b_grad ← (List.range r.grad_.length).foldlM (fun acc i => do
        let g ← rd r.grad_ i
        let x ← rd ta.data_ i
        pure (acc + g * x)) (0 : ℚ)
      pure (List.replicate tb.Size b_grad)) w
  | .MultiplyManyMany a b => do
    let w ← pushGrad a (fun w => do
      let r ← w.deref res
      let ta ← w.deref a
      let tb ← w.deref b
      forEachIndex ta.data_.length (fun i => do
        let g ← rd r.grad_ i
        let y ← rd tb.data_ i
        pure (g * y))) w
    pushGrad b (fun w => do
      let r ← w.deref res
      let ta ← w.deref a
      forEachIndex ta.data_.length (fun i => do
        let g ← rd r.grad_ i
        let x ← rd ta.data_ i
        pure (g * x))) w
  | .Matmul a b => do
    let ta ← w.deref a
    let tb ← w.deref b
    let kN ← rdNat ta.shape_ 0
    let kM ← rdNat ta.shape_ 1
    let kP ← rdNat tb.shape_ 1
    let w ← pushGrad a (fun w => do
      let r ← w.deref res
      let tb ← w.deref b
      let bt ← Transpose tb.data_ kM kP
      MatmulVectors r.grad_ bt kN kP kM) w
    pushGrad b (fun w => do
      let r ← w.deref res
      let ta ← w.deref a
      let at_ ← Transpose ta.data_ kN kM
      MatmulVectors at_ r.grad_ kM kN kP) w
  | .Pow a exponent data =>
    pushGrad a (fun w => do
      let r ← w.deref res
      let ta ← w.deref a
      forEachIndex ta.data_.length (fun i => do
        let g ← rd r.grad_ i
        let d ← rd data i
        let x ← rd ta.data_ i
        let q ← fdiv d x
        pure (g * ((exponent : ℚ) * q)))) w
  | .Sum a _ =>
    pushGrad a (fun w => do
      let r ← w.deref res
      let ta ← w.deref a
      let g0 ← rd r.grad_ 0
      pure (List.replicate ta.data_.length g0)) w
  | .Relu a leaky =>
    pushGrad a (fun w => do
      let r ← w.deref res
      let ta ← w.deref a
      forEachIndex ta.data_.length (fun i => do
        let g ← rd r.grad_ i
        let x ← rd ta.data_ i
        pure (g * (if x < 0 then leaky else 1)))) w

/-! ## Reverse traversal -/

/-- The member InternalTensor::Backward(retain_graph), with a budget on the
recursion depth.  The loop over `parents_` walks the parent list the node has
when the loop starts: a recursive call only changes the lists of ancestors,
and a node is never its own ancestor. -/
def InternalTensor.Backward : Nat → Bool → SharedTensor → World → Except Err World
  | 0, _, _, _ => .error .outOfFuel
  | fuel + 1, retain_graph, self, w => do
    let t ← w.deref self
    if !t.requires_grad_ then
      pure w
    else
      let w ← match t.backward_op_ with
        | some op => op.run self w
        | none => pure w
      let t ← w.deref self
      let w := if !t.is_leaf_ && !retain_graph then w.store self { t with grad_ := [] } else w
      let w ← t.parents_.foldlM (fun acc p => InternalTensor.Backward fuel retain_graph p acc) w
      let t ← w.deref self
      pure (if !retain_graph then
        w.store self { t with backward_op_ := none, parents_ := [] } else w)

/-! ## Node factory and kernels -/

/-- The function ApplyOperation: the flags of the new node, then the node,
linked to its parents only when it requires gradients.  A parent pointer is
dereferenced only inside the `use_grad_` branch. -/
def ApplyOperation (data : List ℚ) (shape : List Nat) (parents : List SharedTensor)
    (backward_op : BackwardOp) (w : World) : Except Err (SharedTensor × World) := do
  let flags ← if w.use_grad_ then
      parents.foldlM (fun (acc : Bool × Bool) kP => do
        let t ← w.deref kP
        pure ((if t.requires_grad_ then true else acc.1),
              (if t.is_leaf_ then true else acc.2))) (false, false)
    else pure (false, false)
  let requires_grad := flags.1
  let is_leaf := flags.2
  let res := InternalTensor.new data shape requires_grad is_leaf
  let res := if requires_grad then
      { res with parents_ := parents, backward_op_ := some backward_op }
    else res
  pure (w.alloc res)

/-- The function AddManyOneInternal. -/
def AddManyOneInternal (a b : SharedTensor) (w : World) :
    Except Err (SharedTensor × World) := do
  let ta ← w.deref a
  let tb ← w.deref b
  let data ← mapE (fun d => do
    let b0 ← rd tb.data_ 0
    pure (d + b0)) ta.data_
  ApplyOperation data ta.shape_ [a, b] (.AddManyOne a b) w

/-- The function AddManyManyInternal. -/
def AddManyManyInternal (a b : SharedTensor) (w : World) :
    Except Err (SharedTensor × World) := do
  let ta ← w.deref a
  let tb ← w.deref b
  let data ← forEachIndex ta.data_.length (fun i => do
    let x ← rd ta.data_ i
    let y ← rd tb.data_ i
    pure (x + y))
  ApplyOperation data ta.shape_ [a, b] (.AddManyMany a b) w

/-- The forward loop of AddBiasInternal: blocks of `b->Size()` elements,
`data[i + j] = a[i + j] + b[j]`; a last block that overhangs the buffer is
an access past the end. -/
def biasData (a b : List ℚ) : Except Err (List ℚ) :=
  if b.length = 0 then
    (if a.length = 0 then .ok [] else .error .diverges)
  else do
    let blocks ← mapE (fun blk =>
      forEachIndex b.length (fun j => do
        let x ← rd a (blk * b.length + j)
        let y ← rd b j
        pure (x + y))) (List.range ((a.length + b.length - 1) / b.length))
    pure blocks.flatten

/-- The function AddBiasInternal. -/
def AddBiasInternal (a b : SharedTensor) (w : World) :
    Except Err (SharedTensor × World) := do
  let ta ← w.deref a
  let tb ← w.deref b
  let data ← biasData ta.data_ tb.data_
  ApplyOperation data ta.shape_ [a, b] (.AddBias a b) w

/-- The function MultiplyManyOneInternal. -/
def MultiplyManyOneInternal (a b : SharedTensor) (w : World) :
    Except Err (SharedTensor × World) := do
  let ta ← w.deref a
  let tb ← w.deref b
  let data ← mapE (fun d => do
    let b0 ← rd tb.data_ 0
    pure (d * b0)) ta.data_
  ApplyOperation data ta.shape_ [a, b] (.MultiplyManyOne a b) w

/-- The function MultiplyManyManyInternal. -/
def MultiplyManyManyInternal (a b : SharedTensor) (w : World) :
    Except Err (SharedTensor × World) := do
  let ta ← w.deref a
  let tb ← w.deref b
  let data ← forEachIndex ta.data_.length (fun i => do
    let x ← rd ta.data_ i
    let y ← rd tb.data_ i
    pure (x * y))
  ApplyOperation data ta.shape_ [a, b] (.MultiplyManyMany a b) w

/-- The function OppositeInternal: multiply by a fresh constant -1 of empty
shape, built with the constructor defaults (no gradient, not a leaf). -/
def OppositeInternal (a : SharedTensor) (w : World) :
    Except Err (SharedTensor × World) :=
  let (c, w) := w.alloc (InternalTensor.new [-1] [] false false)
  MultiplyManyOneInternal a c w

/-- The forward loops of PowInternal: from an all-ones buffer, divide by `a`
while the counter is negative, then multiply by `a` while it is positive. -/
def powData (a : List ℚ) (exponent : Int) : Except Err (List ℚ) := do
  let data := List.replicate a.length (1 : ℚ)
  let data ← (List.range (-exponent).toNat).foldlM (fun data _ =>
    forEachIndex data.length (fun i => do
      let d ← rd data i
      let x ← rd a i
      fdiv d x)) data
  (List.range exponent.toNat).foldlM (fun data _ =>
    forEachIndex data.length (fun i => do
      let d ← rd data i
      let x ← rd a i
      pure (d * x))) data

/-- The function PowInternal. -/
def PowInternal (a : SharedTensor) (exponent : Int) (w : World) :
    Except Err (SharedTensor × World) := do
  let ta ← w.deref a
  let data ← powData ta.data_ exponent
  ApplyOperation data ta.shape_ [a] (.Pow a exponent data) w

/-- The function InverseInternal. -/
def InverseInternal (a : SharedTensor) (w : World) :
    Except Err (SharedTensor × World) :=
  PowInternal a (-1) w

/-- The function MatmulInternal. -/
def MatmulInternal (a b : SharedTensor) (w : World) :
    Except Err (SharedTensor × World) := do
  let ta ← w.deref a
  let tb ← w.deref b
  let n ← rdNat ta.shape_ 0
  let m ← rdNat ta.shape_ 1
  let p ← rdNat tb.shape_ 1
  let data ← MatmulVectors ta.data_ tb.data_ n m p
  ApplyOperation data [n, p] [a, b] (.Matmul a b) w

/-- The function SumInternal. -/
def SumInternal (a : SharedTensor) (w : World) :
    Except Err (SharedTensor × World) := do
  let ta ← w.deref a
  let data := accumulate ta.data_
  ApplyOperation [data] [] [a] (.Sum a data) w

/-- The function ReluInternal. -/
def ReluInternal (a : SharedTensor) (leaky : ℚ) (w : World) :
    Except Err (SharedTensor × World) := do
  let ta ← w.deref a
  let data := ta.data_.map (fun d => if d < 0 then d * leaky else d)
  ApplyOperation data ta.shape_ [a] (.Relu a leaky) w

/-! ## Tensor handle -/

/-- The values pushed by the loop of CalculateStrides, walking the shape from
its last dimension; `size_t` products wrap at 2^64. -/
def stridePushes : List Nat → Nat → List Nat
  | [], _ => []
  | s :: rest, stride => stride :: stridePushes rest (stride * s % 2 ^ 64)

/-- The member CalculateStrides: pushes onto the strides the handle already
has, reverses the whole vector, and falls back to `{1}` when it is empty. -/
def CalculateStrides (strides_ : List Nat) (shape : List Nat) : List Nat :=
  let s := (strides_ ++ stridePushes shape.reverse 1).reverse
  if s.isEmpty then [1] else s

/-- The constructor Tensor(SharedTensor&&). -/
def Tensor.fromShared (p : SharedTensor) (w : World) : Except Err Tensor := do
  let t ← w.deref p
  pure { tensor_ := p, strides_ := CalculateStrides [] t.shape_ }

/-- The constructor Tensor(double value, bool requires_grad): a 0-D leaf. -/
def Tensor.fromValue (value : ℚ) (requires_grad : Bool) (w : World) : Tensor × World :=
  let (p, w) := w.alloc (InternalTensor.new [value] [] requires_grad true)
  ({ tensor_ := p, strides_ := CalculateStrides [] [] }, w)

/-- The constructor Tensor(std::vector<double> values, bool requires_grad):
a 1-D leaf. -/
def Tensor.fromValues (values : List ℚ) (requires_grad : Bool) (w : World) :
    Tensor × World :=
  let (p, w) := w.alloc (InternalTensor.new values [values.length] requires_grad true)
  ({ tensor_ := p, strides_ := CalculateStrides [] [values.length] }, w)

/-- The constructor Tensor(values, shape, requires_grad). -/
def Tensor.fromValuesShape (values : List ℚ) (shape : List Nat) (requires_grad : Bool)
    (w : World) : Tensor × World :=
  let (p, w) := w.alloc (InternalTensor.new values shape requires_grad true)
  ({ tensor_ := p, strides_ := CalculateStrides [] shape }, w)

/-- The member Size(). -/
def Tensor.Size (x : Tensor) (w : World) : Except Err Nat := do
  let t ← w.deref x.tensor_
  pure t.data_.length

/-- The member NumDimensions(). -/
def Tensor.NumDimensions (x : Tensor) (w : World) : Except Err Nat := do
  let t ← w.deref x.tensor_
  pure t.shape_.length

/-- The static member SetUseGrad. -/
def Tensor.SetUseGrad (use_grad : Bool) (w : World) : World :=
  { w with use_grad_ := use_grad }

/-- Wrap the node a kernel returned into a handle. -/
def wrap (r : Except Err (SharedTensor × World)) : Except Err (Tensor × World) := do
  let (p, w) ← r
  let x ← Tensor.fromShared p w
  pure (x, w)

/-- The member operator+ with its shape dispatch. -/
def Tensor.add (x other : Tensor) (w : World) : Except Err (Tensor × World) := do
  let sx ← x.Size w
  let so ← other.Size w
  let dx ← x.NumDimensions w
  let d_other ← other.NumDimensions w
  if so = 1 then wrap (AddManyOneInternal x.tensor_ other.tensor_ w)
  else if sx = 1 then wrap (AddManyOneInternal other.tensor_ x.tensor_ w)
  else if dx > d_other then wrap (AddBiasInternal x.tensor_ other.tensor_ w)
  else if dx < d_other then wrap (AddBiasInternal other.tensor_ x.tensor_ w)
  else wrap (AddManyManyInternal x.tensor_ other.tensor_ w)

/-- The member operator*. -/
def Tensor.mul (x other : Tensor) (w : World) : Except Err (Tensor × World) := do
  let sx ← x.Size w
  let so ← other.Size w
  if so = 1 then wrap (MultiplyManyOneInternal x.tensor_ other.tensor_ w)
  else if sx = 1 then wrap (MultiplyManyOneInternal other.tensor_ x.tensor_ w)
  else wrap (MultiplyManyManyInternal x.tensor_ other.tensor_ w)

/-- The member operator-: the scalar-broadcast rule when an operand has one
element, otherwise the elementwise rule, on the negated right operand (there
is no leading-dims bias branch). -/
def Tensor.sub (x other : Tensor) (w : World) : Except Err (Tensor × World) := do
  let sx ← x.Size w
  let so ← other.Size w
  if so = 1 then do
    let (nb, w) ← OppositeInternal other.tensor_ w
    wrap (AddManyOneInternal x.tensor_ nb w)
  else if sx = 1 then do
    let (nb, w) ← OppositeInternal other.tensor_ w
    wrap (AddManyOneInternal nb x.tensor_ w)
  else do
    let (nb, w) ← OppositeInternal other.tensor_ w
    wrap (AddManyManyInternal x.tensor_ nb w)

/-- The member Pow. -/
def Tensor.Pow (x : Tensor) (exponent : Int) (w : World) : Except Err (Tensor × World) :=
  wrap (PowInternal x.tensor_ exponent w)

/-- The member Sum. -/
def Tensor.Sum (x : Tensor) (w : World) : Except Err (Tensor × World) :=
  wrap (SumInternal x.tensor_ w)

/-- The member Relu. -/
def Tensor.Relu (x : Tensor) (leaky : ℚ) (w : World) : Except Err (Tensor × World) :=
  wrap (ReluInternal x.tensor_ leaky w)

/-- The member Matmul. -/
def Tensor.Matmul (x other : Tensor) (w : World) : Except Err (Tensor × World) :=
  wrap (MatmulInternal x.tensor_ other.tensor_ w)

/-- The member Tensor::Backward: seed the gradient with ones, then traverse. -/
def Tensor.Backward (x : Tensor) (fuel : Nat) (retain_graph : Bool) (w : World) :
    Except Err World := do
  let t ← w.deref x.tensor_
  let w := w.store x.tensor_ (t.SetGrad 1)
  InternalTensor.Backward fuel retain_graph x.tensor_ w

/-- The access `x.GetTensor()->grad_`: the whole gradient buffer of a handle. -/
def Tensor.Grad (x : Tensor) (w : World) : Except Err (List ℚ) := do
  let t ← w.deref x.tensor_
  pure t.grad_

/-- The call `x.GetTensor()->SetGrad(grad)` with a double. -/
def Tensor.SetGrad (x : Tensor) (grad : ℚ) (w : World) : Except Err World := do
  let t ← w.deref x.tensor_
  pure (w.store x.tensor_ (t.SetGrad grad))

/-! ## Value addressing, reshaping and concatenation -/

/-- Conversion of an `int` to `size_t`: modulo 2^64. -/
def toSizeT (i : Int) : Nat := (i % 2 ^ 64).toNat

/-- Conversion of a `size_t` to `int`: the low 32 bits in two's complement. -/
def toInt (n : Nat) : Int :=
  if n % 2 ^ 32 < 2 ^ 31 then ((n % 2 ^ 32 : Nat) : Int)
  else ((n % 2 ^ 32 : Nat) : Int) - 2 ^ 32

/-- The loop `for (i = 0; i < indices.size(); i++) index += indices[i] * strides_[i]`
of Value and ValueTensor, from position `i` with the accumulator `index`.  The
product and the sum are computed in `size_t` and the sum is stored back into
the `int` accumulator; `strides_[i]` is read whatever the number of
dimensions is. -/
def flatIndex (strides_ : List Nat) : List Int → Nat → Int → Except Err Int
  | [], _, index => .ok index
  | ix :: rest, i, index => do
    let s ← rdNat strides_ i
    flatIndex strides_ rest (i + 1)
      (toInt ((toSizeT index + toSizeT ix * s % 2 ^ 64) % 2 ^ 64))

/-- The member Value(indices): `tensor_->data_[index]`. -/
def Tensor.Value (x : Tensor) (indices : List Int) (w : World) : Except Err ℚ := do
  let index ← flatIndex x.strides_ indices 0 0
  let t ← w.deref x.tensor_
  rd t.data_ (toSizeT index)

/-- The read `strides_[indices.size() - 1]` of ValueTensor.  The subscript is
computed in `size_t`: for an empty index list it is 2^64 - 1, beyond the end
of every vector. -/
def lastStride (strides_ : List Nat) : Nat → Except Err Nat
  | 0 => .error .outOfBounds
  | k + 1 => rdNat strides_ k

/-- The member ValueTensor(indices).  The shape of the result is `{1}` when
every dimension is indexed and the unindexed tail of the shape otherwise (an
iterator past the end when there are more indices than dimensions).  The data
of the result is the iterator range from `index` to `next_id`, which has to
lie inside the buffer.  The result is built with the constructor
Tensor(values, shape, requires_grad = false). -/
def Tensor.ValueTensor (x : Tensor) (indices : List Int) (w : World) :
    Except Err (Tensor × World) := do
  let index ← flatIndex x.strides_ indices 0 0
  let t ← w.deref x.tensor_
  let shape_t ← (if indices.length = t.shape_.length then .ok [1]
    else if indices.length < t.shape_.length then .ok (t.shape_.drop indices.length)
    else .error .outOfBounds : Except Err (List Nat))
  let last ← lastStride x.strides_ indices.length
  let next_id := toInt ((toSizeT index + last) % 2 ^ 64)
  (if 0 ≤ index ∧ index ≤ next_id ∧ next_id ≤ (t.data_.length : Int) then
    .ok (Tensor.fromValuesShape
      ((t.data_.drop index.toNat).take (next_id - index).toNat) shape_t false w)
  else .error .outOfBounds)

/-- The member Shape(). -/
def Tensor.Shape (x : Tensor) (w : World) : Except Err (List Nat) := do
  let t ← w.deref x.tensor_
  pure t.shape_

/-- The member Reshape: the shape of the shared node is overwritten and
CalculateStrides runs on the stride table the handle already has.  The
returned handle is a copy of `*this` after the update. -/
def Tensor.Reshape (x : Tensor) (new_shape : List Nat) (w : World) :
    Except Err (Tensor × World) := do
  let t ← w.deref x.tensor_
  let w := w.store x.tensor_ { t with shape_ := new_shape }
  pure ({ x with strides_ := CalculateStrides x.strides_ new_shape }, w)

/-- The member Flatten: Reshape to `{Size()}`. -/
def Tensor.Flatten (x : Tensor) (w : World) : Except Err (Tensor × World) := do
  let t ← w.deref x.tensor_
  let w := w.store x.tensor_ { t with shape_ := [t.data_.length] }
  pure ({ x with strides_ := CalculateStrides x.strides_ [t.data_.length] }, w)

/-- The member Clone: a second handle on the same node, or a new leaf with a
copy of the data and the shape. -/
def Tensor.Clone (x : Tensor) (deep_copy : Bool) (w : World) :
    Except Err (Tensor × World) :=
  if !deep_copy then do
    let h ← Tensor.fromShared x.tensor_ w
    pure (h, w)
  else do
    let t ← w.deref x.tensor_
    pure (Tensor.fromValuesShape t.data_ t.shape_ t.requires_grad_ w)

/-- The static member Concat: the data of the inputs in order, under the
shape `{tensors.size()}` followed by the shape of the first input (which is
dereferenced even when the list is empty). -/
def Tensor.Concat (tensors : List Tensor) (w : World) : Except Err (Tensor × World) := do
  let datas ← mapE (fun (kT : Tensor) => do
    let t ← w.deref kT.tensor_
    pure t.data_) tensors
  let first ← match tensors with
    | [] => .error .outOfBounds
    | kT :: _ => w.deref kT.tensor_
  pure (Tensor.fromValuesShape datas.flatten (tensors.length :: first.shape_) false w)

/-- The member operator/: the multiplication rules on the inverted right
operand. -/
def Tensor.div (x other : Tensor) (w : World) : Except Err (Tensor × World) := do
  let sx ← x.Size w
  let so ← other.Size w
  if so = 1 then do
    let (ib, w) ← InverseInternal other.tensor_ w
    wrap (MultiplyManyOneInternal x.tensor_ ib w)
  else if sx = 1 then do
    let (ib, w) ← InverseInternal other.tensor_ w
    wrap (MultiplyManyOneInternal ib x.tensor_ w)
  else do
    let (ib, w) ← InverseInternal other.tensor_ w
    wrap (MultiplyManyManyInternal x.tensor_ ib w)

/-- The member Mean: the sum times a fresh constant `1.0 / Size()` of empty
shape, built with the constructor defaults. -/
def Tensor.Mean (x : Tensor) (w : World) : Except Err (Tensor × World) := do
  let (s, w) ← SumInternal x.tensor_ w
  let n ← x.Size w
  let c ← fdiv 1 (n : ℚ)
  let (cp, w) := w.alloc (InternalTensor.new [c] [] false false)
  wrap (MultiplyManyOneInternal s cp w)

/-- The right-to-left cumulative products of a shape: entry `j` is the product
of the dimensions after `j`, so the last entry is 1. -/
def cumulativeProducts : List Nat → List Nat
  | [] => []
  | _ :: rest => rest.prod :: cumulativeProducts rest

/-- The row-major offset of an index list into a shape, the missing trailing
indices taken as zero: the sum over `j < k` of `i_j` times the product of the
dimensions after `j`. -/
def rowMajorOffset (shape idx : List Nat) : Nat :=
  ∑ j in Finset.range idx.length, idx.getD j 0 * (shape.drop (j + 1)).prod

/-- An index list is valid for a shape: at most one index per dimension, each
below its dimension. -/
def ValidIndex (shape idx : List Nat) : Prop :=
  idx.length ≤ shape.length ∧ ∀ j, j < idx.length → idx.getD j 0 < shape.getD j 0

/-! ## The programs of tests/test_backprop.cpp

Each graph is built from the initial state with the handle operations, in the
order of the test body; the literals of the tests are parameters.  A graph
builder returns the handle of the leaf `x`, the handle of the output and the
store. -/

/-- The tail shared by the tests: `z.Backward()` and then the whole gradient
buffer of `x` (the tests read `x.GetTensor()->Grad(i)`). -/
def backwardGrad (g : Except Err (Tensor × Tensor × World)) (fuel : Nat)
    (retain_graph : Bool) : Except Err (List ℚ) := do
  let (x, z, w) ← g
  let w ← z.Backward fuel retain_graph w
  x.Grad w

/-- The graph of test_shared_tensor_backprop: `z = x + x`. -/
def shared_graph (v : ℚ) : Except Err (Tensor × Tensor × World) := do
  let w := World.init
  let (x, w) := Tensor.fromValue v true w
  let (z, w) ← x.add x w
  pure (x, z, w)

/-- The program of test_shared_tensor_backprop. -/
def test_shared_tensor_backprop (v : ℚ) (fuel : Nat) : Except Err (List ℚ) :=
  backwardGrad (shared_graph v) fuel false

/-- The graph of test_power_then_add: `y = x.Pow(2)`, `z = y + y`. -/
def power_graph (v : ℚ) : Except Err (Tensor × Tensor × World) := do
  let w := World.init
  let (x, w) := Tensor.fromValue v true w
  let (y, w) ← x.Pow 2 w
  let (z, w) ← y.add y w
  pure (x, z, w)

/-- The program of test_power_then_add. -/
def test_power_then_add (v : ℚ) (fuel : Nat) : Except Err (List ℚ) :=
  backwardGrad (power_graph v) fuel false

/-- The graph of test_diamond_pattern: `y1 = x + c1`, `y2 = x + c2`,
`z = y1 + y2`. -/
def diamond_graph (v c1 c2 : ℚ) : Except Err (Tensor × Tensor × World) := do
  let w := World.init
  let (x, w) := Tensor.fromValue v true w
  let (one, w) := Tensor.fromValue c1 false w
  let (two, w) := Tensor.fromValue c2 false w
  let (y1, w) ← x.add one w
  let (y2, w) ← x.add two w
  let (z, w) ← y1.add y2 w
  pure (x, z, w)

/-- The program of test_diamond_pattern. -/
def test_diamond_pattern (v c1 c2 : ℚ) (fuel : Nat) : Except Err (List ℚ) :=
  backwardGrad (diamond_graph v c1 c2) fuel false

/-- The graph of test_kite_pattern: `y = x + x`, `y1 = y + c1`,
`y2 = y + c2`, `z = y1 + y2`. -/
def kite_graph (v c1 c2 : ℚ) : Except Err (Tensor × Tensor × World) := do
  let w := World.init
  let (x, w) := Tensor.fromValue v true w
  let (y, w) ← x.add x w
  let (one, w) := Tensor.fromValue c1 false w
  let (two, w) := Tensor.fromValue c2 false w
  let (y1, w) ← y.add one w
  let (y2, w) ← y.add two w
  let (z, w) ← y1.add y2 w
  pure (x, z, w)

/-- The program of test_kite_pattern. -/
def test_kite_pattern (v c1 c2 : ℚ) (fuel : Nat) : Except Err (List ℚ) :=
  backwardGrad (kite_graph v c1 c2) fuel false

/-- The graph of test_sum_operation: `y = x + x`, `z = y.Sum()`, for a 1-D
leaf. -/
def sum_graph (xs : List ℚ) : Except Err (Tensor × Tensor × World) := do
  let w := World.init
  let (x, w) := Tensor.fromValues xs true w
  let (y, w) ← x.add x w
  let (z, w) ← y.Sum w
  pure (x, z, w)

/-- The program of test_sum_operation. -/
def test_sum_operation (xs : List ℚ) (fuel : Nat) : Except Err (List ℚ) :=
  backwardGrad (sum_graph xs) fuel false

/-- The graph of test_gradient_clearing_issue: `y = x * x`, `z1 = y + c1`,
`z2 = y + c2`, `loss = z1 + z2`; each constant is a temporary built inside
its sum. -/
def clearing_graph (v c1 c2 : ℚ) : Except Err (Tensor × Tensor × World) := do
  let w := World.init
  let (x, w) := Tensor.fromValue v true w
  let (y, w) ← x.mul x w
  let (one, w) := Tensor.fromValue c1 false w
  let (z1, w) ← y.add one w
  let (two, w) := Tensor.fromValue c2 false w
  let (z2, w) ← y.add two w
  let (loss, w) ← z1.add z2 w
  pure (x, loss, w)

/-- The program of test_gradient_clearing_issue. -/
def test_gradient_clearing_issue (v c1 c2 : ℚ) (fuel : Nat) : Except Err (List ℚ) :=
  backwardGrad (clearing_graph v c1 c2) fuel false

/-- The two retained passes of test_retain_graph_multiple_backward:
backward, read the gradient of `x`, `SetGrad(0)` on `x` only, backward again,
read again. -/
def retainTwice (g : Except Err (Tensor × Tensor × World)) (fuel : Nat) :
    Except Err (List ℚ × List ℚ) := do
  let (x, z, w) ← g
  let w ← z.Backward fuel true w
  let grad1 ← x.Grad w
  let w ← x.SetGrad 0 w
  let w ← z.Backward fuel true w
  let grad2 ← x.Grad w
  pure (grad1, grad2)

/-- The program of test_retain_graph_multiple_backward, on `z = x + x`. -/
def test_retain_graph_multiple_backward (v : ℚ) (fuel : Nat) :
    Except Err (List ℚ × List ℚ) :=
  retainTwice (shared_graph v) fuel

/-- The graph `z = x + x` on a 1-D leaf. -/
def shared_graph_1d (xs : List ℚ) : Except Err (Tensor × Tensor × World) := do
  let w := World.init
  let (x, w) := Tensor.fromValues xs true w
  let (z, w) ← x.add x w
  pure (x, z, w)

/-! ## Reachable stores -/

/-- The linkage invariant of the data model: a node without backward rule has
no parents. -/
def LinkInv (w : World) : Prop :=
  ∀ t ∈ w.nodes, t.backward_op_ = none → t.parents_ = []

/-- The stores a program can reach from the initial state: node construction
(std::make_shared with the constructor, as in the constructors of Tensor and
in OppositeInternal), the node factory (every kernel ends in one call of
ApplyOperation on the store it received), the backward traversal in either
mode, SetUseGrad, and the writes to the public data: SetGrad, the element
references Data(i) and Grad(i), Reshape and Flatten. -/
inductive Reachable : World → Prop where
  | init : Reachable World.init
  | make_shared (w : World) (data : List ℚ) (shape : List Nat) (requires_grad is_leaf : Bool) :
      Reachable w → Reachable (w.alloc (InternalTensor.new data shape requires_grad is_leaf)).2
  | apply (w : World) (data : List ℚ) (shape : List Nat) (parents : List SharedTensor)
      (op : BackwardOp) (res : SharedTensor) (w1 : World) :
      Reachable w → ApplyOperation data shape parents op w = .ok (res, w1) → Reachable w1
  | backward (w : World) (fuel : Nat) (retain_graph : Bool) (p : SharedTensor) (w1 : World) :
      Reachable w → InternalTensor.Backward fuel retain_graph p w = .ok w1 → Reachable w1
  | set_use_grad (w : World) (use_grad : Bool) :
      Reachable w → Reachable (Tensor.SetUseGrad use_grad w)
  | set_grad (w : World) (p : SharedTensor) (t : InternalTensor) (grad : List ℚ) :
      Reachable w → w.deref p = .ok t → Reachable (w.store p (t.SetGradVec grad))
  | set_data (w : World) (p : SharedTensor) (t : InternalTensor) (data : List ℚ) :
      Reachable w → w.deref p = .ok t → Reachable (w.store p { t with data_ := data })
  | set_shape (w : World) (p : SharedTensor) (t : InternalTensor) (shape : List Nat) :
      Reachable w → w.deref p = .ok t → Reachable (w.store p { t with shape_ := shape })

/-! ## Example stores -/

/-- A store with one scalar leaf of value 3 that requires gradients. -/
def leaf_store (use_grad : Bool) : World :=
  { nodes := [InternalTensor.new [3] [] true true], use_grad_ := use_grad }

/-- The store at the end of test_shared_tensor_backprop (`x = 3`, `z = x + x`,
`z.Backward()`): `x` holds the gradient 2 and `z` is severed. -/
def shared_final_store : World :=
  { nodes := [{ data_ := [3], grad_ := [2], shape_ := [], parents_ := [],
                backward_op_ := none, is_leaf_ := true, requires_grad_ := true },
              { data_ := [6], grad_ := [1], shape_ := [], parents_ := [],
                backward_op_ := none, is_leaf_ := true, requires_grad_ := true }],
    use_grad_ := true }

/-! ## Results of handle operations -/

/-- The outcome of a handle operation on the store `w`: a handle to one new
node, appended to the store, with the given shape and data. -/
def Produces (r : Except Err (Tensor × World)) (w : World) (shape : List Nat)
    (data : List ℚ) : Prop :=
  ∃ res : InternalTensor,
    r = .ok ({ tensor_ := w.nodes.length, strides_ := CalculateStrides [] shape },
             { nodes := w.nodes ++ [res], use_grad_ := w.use_grad_ }) ∧
    res.shape_ = shape ∧ res.data_ = data

/-- The spec's reading of subtraction, `Add(a, Negate(b))`: negate the right
operand with OppositeInternal, then apply operator+ with its full dispatch. -/
def Tensor.addNegated (x other : Tensor) (w : World) : Except Err (Tensor × World) := do
  let (nb, w) ← wrap (OppositeInternal other.tensor_ w)
  x.add nb w

/-- The shape and data of the node a handle operation returned. -/
def resultOf (r : Except Err (Tensor × World)) : Except Err (List Nat × List ℚ) := do
  let (z, w) ← r
  let t ← w.deref z.tensor_
  pure (t.shape_, t.data_)

/-- A store with a rank-1 tensor `[1, 2]` at pointer 0 and a tensor of shape
(2,2) with data `[10, 20, 30, 40]` at pointer 1. -/
def rank_store : World :=
  { nodes := [InternalTensor.new [1, 2] [2] false true,
              InternalTensor.new [10, 20, 30, 40] [2, 2] false true],
    use_grad_ := true }

/-- A store with a matrix of shape (1,1), data `[2]`, at pointer 0 and a
matrix of shape (2,1), data `[3, 5]`, at pointer 1. -/
def mismatch_store : World :=
  { nodes := [InternalTensor.new [2] [1, 1] false true,
              InternalTensor.new [3, 5] [2, 1] false true],
    use_grad_ := true }

/-- Run the backward rule of the node behind `z` once, with the gradient
buffer of `z` set to `g` (the output gradient the rule reads). -/
def runRule (z : Tensor) (g : List ℚ) (w : World) : Except Err World := do
  let t ← w.deref z.tensor_
  let w := w.store z.tensor_ (t.SetGradVec g)
  match t.backward_op_ with
  | some op => op.run z.tensor_ w
  | none => pure w

/-- The bias graph: `a` of shape (n,k) and a rank-1 `b`, both requiring
gradients, and `z = a + b`. -/
def bias_graph (as bs : List ℚ) (n k : Nat) :
    Except Err (Tensor × Tensor × Tensor × World) := do
  let w := World.init
  let (a, w) := Tensor.fromValuesShape as [n, k] true w
  let (b, w) := Tensor.fromValues bs true w
  let (z, w) ← a.add b w
  pure (a, b, z, w)

/-- A store for the matrix product: `A = [[1, 2], [3, 4]]` at pointer 0,
`B = [[5, 6], [7, 8]]` at pointer 1, both requiring gradients, and at pointer
2 their product with the output gradient `[1, 0, 0, 1]`. -/
def matmul_store : World :=
  { nodes := [InternalTensor.new [1, 2, 3, 4] [2, 2] true true,
              InternalTensor.new [5, 6, 7, 8] [2, 2] true true,
              { data_ := [19, 22, 43, 50], grad_ := [1, 0, 0, 1], shape_ := [2, 2],
                parents_ := [0, 1], backward_op_ := some (.Matmul 0 1),
                is_leaf_ := true, requires_grad_ := true }],
    use_grad_ := true }

/-- A store for the power rule: `a = [2, 3]` at pointer 0, requiring
gradients, and at pointer 1 its square with the output gradient `[1, 1]`. -/
def pow_store : World :=
  { nodes := [InternalTensor.new [2, 3] [2] true true,
              { data_ := [4, 9], grad_ := [1, 1], shape_ := [2],
                parents_ := [0], backward_op_ := some (.Pow 0 2 [4, 9]),
                is_leaf_ := true, requires_grad_ := true }],
    use_grad_ := true }

/-- The graph `x = Tensor(v, true)`, `y = x.Pow(e)`. -/
def pow_graph (v : ℚ) (e : Int) : Except Err (Tensor × Tensor × World) := do
  let w := World.init
  let (x, w) := Tensor.fromValue v true w
  let (y, w) ← x.Pow e w
  pure (x, y, w)

/-- A store for the rectifier: `a = [-2, 0, 3]` at pointer 0, requiring
gradients, and at pointer 1 its rectification with slope 1/10 and the output
gradient `[1, 1, 1]`. -/
def relu_store : World :=
  { nodes := [InternalTensor.new [-2, 0, 3] [3] true true,
              { data_ := [-1/5, 0, 3], grad_ := [1, 1, 1], shape_ := [3],
                parents_ := [0], backward_op_ := some (.Relu 0 (1/10)),
                is_leaf_ := true, requires_grad_ := true }],
    use_grad_ := true }

/-- The program `t = Tensor(d, S0); t.Reshape(S1)`: the handle after the
reshape and the store. -/
def reshape_program (d : List ℚ) (S0 S1 : List Nat) : Except Err (Tensor × World) := do
  let (t, w) := Tensor.fromValuesShape d S0 false World.init
  t.Reshape S1 w

/-- The program `h1 = Tensor({1, ..., 6}, {2, 3}); h2 = h1.Clone(false);
h1.Reshape({3, 2})`: both handles and the store. -/
def alias_program : Except Err (Tensor × Tensor × World) := do
  let (h1, w) := Tensor.fromValuesShape [1, 2, 3, 4, 5, 6] [2, 3] false World.init
  let (h2, w) ← h1.Clone false w
  let (h1, w) ← h1.Reshape [3, 2] w
  pure (h1, h2, w)

/-- The program `t = Tensor(d, S0); t.Flatten()`: the handle after the call
and the store. -/
def flatten_program (d : List ℚ) (S0 : List Nat) : Except Err (Tensor × World) := do
  let (t, w) := Tensor.fromValuesShape d S0 false World.init
  t.Flatten w

/-- A store with two rank-1 tensors `[1, 2]` and `[3, 4]`. -/
def concat_store : World :=
  { nodes := [InternalTensor.new [1, 2] [2] false true,
              InternalTensor.new [3, 4] [2] false true],
    use_grad_ := true }

/-! ## Predicates on results and stores -/

/-- The outcome of a kernel on the store `w`: a pointer to a node with the
given shape and data, in a store that still holds every node of `w`. -/
def Gives (r : Except Err (SharedTensor × World)) (w : World) (shape : List Nat)
    (data : List ℚ) : Prop :=
  ∃ p w1 res, r = .ok (p, w1) ∧ w1.deref p = .ok res ∧ res.shape_ = shape ∧ res.data_ = data ∧
    ∀ q t, w.deref q = .ok t → w1.deref q = .ok t

/-- A handle operation returned a tensor whose data length is the product of
its shape. -/
def ResultValid (r : Except Err (Tensor × World)) : Prop :=
  ∃ z w1 t, r = .ok (z, w1) ∧ w1.deref z.tensor_ = .ok t ∧ t.data_.length = t.shape_.prod

/-- A handle operation returned a tensor of empty shape with one element. -/
def ResultScalar (r : Except Err (Tensor × World)) : Prop :=
  ∃ z w1 t, r = .ok (z, w1) ∧ w1.deref z.tensor_ = .ok t ∧ t.shape_ = [] ∧ t.data_.length = 1

/-- The nodes of `w` that do not require gradients are the same in `w1`, and
no node changed its requires_grad flag. -/
def Untouched (w w1 : World) : Prop :=
  ∀ q t, w.deref q = .ok t →
    ∃ t1, w1.deref q = .ok t1 ∧ t1.requires_grad_ = t.requires_grad_ ∧
      (t.requires_grad_ = false → t1 = t)

/-- The stores hold the same nodes up to the gradient buffers. -/
def SameButGrad (w w1 : World) : Prop :=
  ∀ q t, w.deref q = .ok t → ∃ t1, w1.deref q = .ok t1 ∧ t1 = { t with grad_ := t1.grad_ }

/-- The store of the diamond graph with `x = 3`, `c1 = 1`, `c2 = 2`: the leaf
at pointer 0, the constants at 1 and 2, `y1`, `y2` at 3 and 4 and `z` at 5. -/
def diamond_store : World :=
  { nodes := [⟨[3], [], [], [], none, true, true⟩,
              ⟨[1], [], [], [], none, true, false⟩,
              ⟨[2], [], [], [], none, true, false⟩,
              ⟨[4], [], [], [0, 1], some (.AddManyOne 0 1), true, true⟩,
              ⟨[5], [], [], [0, 2], some (.AddManyOne 0 2), true, true⟩,
              ⟨[9], [], [], [3, 4], some (.AddManyOne 3 4), true, true⟩],
    use_grad_ := true }

/-- The store after `z.Backward()` on the diamond graph. -/
def diamond_final_store : World :=
  { nodes := [⟨[3], [2], [], [], none, true, true⟩,
              ⟨[1], [], [], [], none, true, false⟩,
              ⟨[2], [], [], [], none, true, false⟩,
              ⟨[4], [1], [], [], none, true, true⟩,
              ⟨[5], [1], [], [], none, true, true⟩,
              ⟨[9], [1], [], [], none, true, true⟩],
    use_grad_ := true }

/-- The program `c = Tensor(5.0); c.Backward()` on a constant: the gradient
buffer of `c` before and after the call. -/
def constant_backward (fuel : Nat) (retain_graph : Bool) :
    Except Err (List ℚ) × Except Err (List ℚ) :=
  let (c, w) := Tensor.fromValue 5 false World.init
  (c.Grad w, c.Backward fuel retain_graph w >>= c.Grad)

/-- The program `c1 = Tensor(1.0); c2 = Tensor(2.0); z = c1 + c2; z.Backward()`
on a graph of constants: the gradient buffer of the output `z` before and
after the call. -/
def constant_sum_backward (fuel : Nat) (retain_graph : Bool) :
    Except Err (List ℚ × List ℚ) := do
  let (c1, w) := Tensor.fromValue 1 false World.init
  let (c2, w) := Tensor.fromValue 2 false w
  let (z, w) ← c1.add c2 w
  let before ← z.Grad w
  let w ← z.Backward fuel retain_graph w
  let after ← z.Grad w
  pure (before, after)

/-- The node behind `q` is cut off from the graph: no parents and no backward
rule. -/
def Severed (w : World) (q : SharedTensor) : Prop :=
  ∃ t, w.deref q = .ok t ∧ t.parents_ = [] ∧ t.backward_op_ = none

/-- The nodes a backward traversal started at `n` visits in the store `w`: `n`
itself when it requires gradients, and the nodes visited from its parents. -/
inductive Visits (w : World) : SharedTensor → SharedTensor → Prop where
  | self (n : SharedTensor) (t : InternalTensor) :
      w.deref n = .ok t → t.requires_grad_ = true → Visits w n n
  | parent (n p q : SharedTensor) (t : InternalTensor) :
      w.deref n = .ok t → t.requires_grad_ = true → p ∈ t.parents_ → Visits w p q →
      Visits w n q

/-- The nodes reachable from `n` through parent links in the store `w`. -/
inductive ParentPath (w : World) : SharedTensor → SharedTensor → Prop where
  | refl (n : SharedTensor) (t : InternalTensor) : w.deref n = .ok t → ParentPath w n n
  | step (n p q : SharedTensor) (t : InternalTensor) :
      w.deref n = .ok t → p ∈ t.parents_ → ParentPath w p q → ParentPath w n q

/-- From `w` to `w1` every node kept its requires_grad flag and either kept
its parents and backward rule or lost both. -/
def Shrinks (w w1 : World) : Prop :=
  ∀ q t, w.deref q = .ok t →
    ∃ t1, w1.deref q = .ok t1 ∧ t1.requires_grad_ = t.requires_grad_ ∧
      ((t1.parents_ = t.parents_ ∧ t1.backward_op_ = t.backward_op_) ∨
       (t1.parents_ = [] ∧ t1.backward_op_ = none))

/-- Every node that lost its parents between `w` and `w1` took the nodes it
visits with it: they are all severed in `w1`. -/
def Closed (w w1 : World) : Prop :=
  ∀ m t t1, w.deref m = .ok t → w1.deref m = .ok t1 → t1.parents_ ≠ t.parents_ →
    ∀ q, Visits w m q → Severed w1 q

/-- The store after a retained pass on the diamond graph. -/
def diamond_retained_store : World :=
  { nodes := [⟨[3], [2], [], [], none, true, true⟩,
              ⟨[1], [], [], [], none, true, false⟩,
              ⟨[2], [], [], [], none, true, false⟩,
              ⟨[4], [1], [], [0, 1], some (.AddManyOne 0 1), true, true⟩,
              ⟨[5], [1], [], [0, 2], some (.AddManyOne 0 2), true, true⟩,
              ⟨[9], [1], [], [3, 4], some (.AddManyOne 3 4), true, true⟩],
    use_grad_ := true }

/-! ## Built stores, leaf flags and the visit order -/

/-- The operand pointers a backward rule has captured: the targets of its
gradient updates. -/
def BackwardOp.operands : BackwardOp → List SharedTensor
  | .AddManyOne a b => [a, b]
  | .AddManyMany a b => [a, b]
  | .AddBias a b => [a, b]
  | .MultiplyManyOne a b => [a, b]
  | .MultiplyManyMany a b => [a, b]
  | .Matmul a b => [a, b]
  | .Pow a _ _ => [a]
  | .Sum a _ => [a]
  | .Relu a _ => [a]

/-- Every node that requires gradients is leaf-flagged. -/
def LeafInv (w : World) : Prop :=
  ∀ q t, w.deref q = .ok t → t.requires_grad_ = true → t.is_leaf_ = true

/-- Every node was allocated after its parents and after the operands of its
backward rule. -/
def BelowInv (w : World) : Prop :=
  ∀ n t, w.deref n = .ok t →
    (∀ p ∈ t.parents_, p < n) ∧ ∀ op, t.backward_op_ = some op → ∀ a ∈ op.operands, a < n

/-- The store `w1` has the nodes of `w` with the same flags; every node has
kept its links or lost them. -/
def FlagsKept (w w1 : World) : Prop :=
  w1.nodes.length = w.nodes.length ∧ w1.use_grad_ = w.use_grad_ ∧
  ∀ q t, w.deref q = .ok t →
    ∃ t1, w1.deref q = .ok t1 ∧ t1.is_leaf_ = t.is_leaf_ ∧
      t1.requires_grad_ = t.requires_grad_ ∧
      ((t1.parents_ = t.parents_ ∧ t1.backward_op_ = t.backward_op_) ∨
        (t1.parents_ = [] ∧ t1.backward_op_ = none))

/-- The stores a program can build: nodes come from the public value
constructors of Tensor (leaf-flagged), from the constants that
OppositeInternal and Mean allocate with the constructor defaults, and from the
node factory called by a kernel on its operands; gradient tracking may be
switched, gradients, data and shapes may be overwritten, and backward passes
may have run. -/
inductive Built : World → Prop where
  | init : Built World.init
  | constructed (w : World) (data : List ℚ) (shape : List Nat) (requires_grad : Bool) :
      Built w → Built (w.alloc (InternalTensor.new data shape requires_grad true)).2
  | constant (w : World) (data : List ℚ) (shape : List Nat) :
      Built w → Built (w.alloc (InternalTensor.new data shape false false)).2
  | apply (w : World) (data : List ℚ) (shape : List Nat) (parents : List SharedTensor)
      (op : BackwardOp) (res : SharedTensor) (w1 : World) :
      Built w → (∀ p ∈ parents, p < w.nodes.length) → (∀ a ∈ op.operands, a ∈ parents) →
      ApplyOperation data shape parents op w = .ok (res, w1) → Built w1
  | set_use_grad (w : World) (use_grad : Bool) :
      Built w → Built (Tensor.SetUseGrad use_grad w)
  | set_grad (w : World) (p : SharedTensor) (t : InternalTensor) (grad : List ℚ) :
      Built w → w.deref p = .ok t → Built (w.store p (t.SetGradVec grad))
  | set_data (w : World) (p : SharedTensor) (t : InternalTensor) (data : List ℚ) :
      Built w → w.deref p = .ok t → Built (w.store p { t with data_ := data })
  | set_shape (w : World) (p : SharedTensor) (t : InternalTensor) (shape : List Nat) :
      Built w → w.deref p = .ok t → Built (w.store p { t with shape_ := shape })
  | backward (w : World) (fuel : Nat) (retain_graph : Bool) (p : SharedTensor) (w1 : World) :
      Built w → InternalTensor.Backward fuel retain_graph p w = .ok w1 → Built w1

/-- The member InternalTensor::Backward with the statement
`if (!is_leaf_ && !retain_graph) grad_.clear();` removed. -/
def InternalTensor.BackwardWithoutClear : Nat → Bool → SharedTensor → World → Except Err World
  | 0, _, _, _ => .error .outOfFuel
  | fuel + 1, retain_graph, self, w => do
    let t ← w.deref self
    if !t.requires_grad_ then
      pure w
    else
      let w ← match t.backward_op_ with
        | some op => op.run self w
        | none => pure w
      let t ← w.deref self
      let w ← t.parents_.foldlM
        (fun acc p => InternalTensor.BackwardWithoutClear fuel retain_graph p acc) w
      let t ← w.deref self
      pure (if !retain_graph then
        w.store self { t with backward_op_ := none, parents_ := [] } else w)

/-- The node behind a pointer is leaf-flagged. -/
def LeafFlagged (w : World) (p : SharedTensor) : Prop :=
  ∃ t, w.deref p = .ok t ∧ t.is_leaf_ = true

/-- Whenever the handle operation returns, its result is leaf-flagged. -/
def LeafResult (r : Except Err (Tensor × World)) : Prop :=
  ∀ z w1, r = .ok (z, w1) → LeafFlagged w1 z.tensor_

/-- A kernel call is a call of the node factory on valid parents that include
the operands of the backward rule. -/
def FactoryCall (w : World) (parents : List SharedTensor)
    (r : Except Err (SharedTensor × World)) : Prop :=
  ∀ p w1, r = .ok (p, w1) → ∃ data shape op,
    ApplyOperation data shape parents op w = .ok (p, w1) ∧
    (∀ q ∈ parents, q < w.nodes.length) ∧ ∀ a ∈ BackwardOp.operands op, a ∈ parents

/-- What a kernel call on the given operands does when it returns: a built
store stays built, the tracking flag and the old nodes are kept, and under
gradient tracking the result is leaf-flagged if one of the operands is. -/
def KernelStep (w : World) (operands : List SharedTensor)
    (r : Except Err (SharedTensor × World)) : Prop :=
  ∀ p w1, r = .ok (p, w1) →
    (Built w → Built w1) ∧ w1.use_grad_ = w.use_grad_ ∧
    (∀ q t, w.deref q = .ok t → w1.deref q = .ok t) ∧
    (w.use_grad_ = true → (∃ q ∈ operands, LeafFlagged w q) → LeafFlagged w1 p)

/-- The same for a handle operation. -/
def HandleStep (w : World) (operands : List SharedTensor)
    (r : Except Err (Tensor × World)) : Prop :=
  ∀ z w1, r = .ok (z, w1) →
    (Built w → Built w1) ∧
    (w.use_grad_ = true → (∃ q ∈ operands, LeafFlagged w q) → LeafFlagged w1 z.tensor_)

/-- Whenever the handle operation returns, the store it returns is built. -/
def BuiltResult (r : Except Err (Tensor × World)) : Prop :=
  ∀ z w1, r = .ok (z, w1) → Built w1

/-- A leaf `x = 3` and the shared node `y = x + x`, at the moment the first
consumer of `y` has added its gradient `[1]` to `y`. -/
def revisit_store : World :=
  { nodes := [⟨[3], [], [], [], none, true, true⟩,
              ⟨[6], [1], [], [0, 0], some (.AddManyOne 0 0), true, true⟩],
    use_grad_ := true }

/-- The store after the first visit of `y`: `x` holds `[2]`, `y` is severed. -/
def revisit_first_store : World :=
  { nodes := [⟨[3], [2], [], [], none, true, true⟩,
              ⟨[6], [1], [], [], none, true, true⟩],
    use_grad_ := true }

/-- The store after a second consumer has added its gradient `[1]` to `y`. -/
def revisit_later_store : World :=
  { nodes := [⟨[3], [2], [], [], none, true, true⟩,
              ⟨[6], [2], [], [], none, true, true⟩],
    use_grad_ := true }

/-- A node with its backward rule and its parent list released. -/
def InternalTensor.released (t : InternalTensor) : InternalTensor :=
  { t with backward_op_ := none, parents_ := [] }

/-- The store in which the nodes selected by `F` have been released. -/
def World.releaseSet (F : SharedTensor → Bool) (w : World) : World :=
  { w with nodes := w.nodes.mapIdx (fun i t => if F i then t.released else t) }

/-- The order in which a traversal that retains the graph visits the nodes
that require gradients, read off the links of the store: the node, then the
visits below each parent in turn. -/
def visitSequence : Nat → SharedTensor → World → List SharedTensor
  | 0, _, _ => []
  | fuel + 1, self, w =>
    match w.deref self with
    | .ok t =>
      if t.requires_grad_ then
        self :: t.parents_.flatMap (fun p => visitSequence fuel p w)
      else []
    | .error _ => []

/-- The node has a backward rule or parents. -/
def linked (w : World) (q : SharedTensor) : Bool :=
  match w.deref q with
  | .ok t => t.backward_op_.isSome || !t.parents_.isEmpty
  | .error _ => false

/-- The graph of test_reference_counting_behavior: `a = x + x`, `b = a + a`. -/
def reference_graph (v : ℚ) : Except Err (Tensor × Tensor × World) := do
  let w := World.init
  let (x, w) := Tensor.fromValue v true w
  let (a, w) ← x.add x w
  let (b, w) ← a.add a w
  pure (x, b, w)

/-- The store of the graph `a = x + x`, `b = a + a` on the leaf `x = 2`. -/
def reference_store : World :=
  { nodes := [⟨[2], [], [], [], none, true, true⟩,
              ⟨[4], [], [], [0, 0], some (.AddManyOne 0 0), true, true⟩,
              ⟨[8], [], [], [1, 1], some (.AddManyOne 1 1), true, true⟩],
    use_grad_ := true }

/-- Every gradient buffer is empty or has the length of the data. -/
def GradSized (w : World) : Prop :=
  ∀ q t, w.deref q = .ok t → t.grad_ = [] ∨ t.grad_.length = t.data_.length

/-- The gradient buffer behind a pointer has the length of the data. -/
def FullGrad (w : World) (q : SharedTensor) : Prop :=
  ∃ t, w.deref q = .ok t ∧ t.grad_.length = t.data_.length

/-- The node is ready to run its backward rule: under gradient tracking, if
it requires gradients and has a rule, its gradient buffer is full. -/
def Ready (w : World) (q : SharedTensor) : Prop :=
  ∀ t, w.deref q = .ok t → w.use_grad_ = true → t.requires_grad_ = true →
    t.backward_op_ ≠ none → t.grad_.length = t.data_.length

/-- The sizes a backward rule relies on, for a result node `t`: the operands
exist and have the lengths (for Matmul: the dimensions) the rule indexes
with; Pow divides by every input element. -/
def ShapeOk (w : World) (t : InternalTensor) : BackwardOp → Prop
  | .AddManyOne a b => ∃ ta tb, w.deref a = .ok ta ∧ w.deref b = .ok tb ∧
      ta.data_.length = t.data_.length
  | .AddManyMany a b => ∃ ta tb, w.deref a = .ok ta ∧ w.deref b = .ok tb ∧
      ta.data_.length = t.data_.length ∧ tb.data_.length = t.data_.length
  | .AddBias a b => ∃ ta tb, w.deref a = .ok ta ∧ w.deref b = .ok tb ∧
      ta.data_.length = t.data_.length ∧ 0 < tb.data_.length ∧
      tb.data_.length ∣ t.data_.length
  | .MultiplyManyOne a b => ∃ ta tb, w.deref a = .ok ta ∧ w.deref b = .ok tb ∧
      ta.data_.length = t.data_.length ∧ 0 < tb.data_.length
  | .MultiplyManyMany a b => ∃ ta tb, w.deref a = .ok ta ∧ w.deref b = .ok tb ∧
      ta.data_.length = t.data_.length ∧ tb.data_.length = t.data_.length
  | .Matmul a b => ∃ ta tb n m p, w.deref a = .ok ta ∧ w.deref b = .ok tb ∧
      rdNat ta.shape_ 0 = .ok n ∧ rdNat ta.shape_ 1 = .ok m ∧ rdNat tb.shape_ 1 = .ok p ∧
      ta.data_.length = n * m ∧ tb.data_.length = m * p ∧ t.data_.length = n * p
  | .Pow a _ data => ∃ ta, w.deref a = .ok ta ∧ ta.data_.length = t.data_.length ∧
      data.length = t.data_.length ∧ ∀ v ∈ ta.data_, v ≠ 0
  | .Sum a _ => ∃ ta, w.deref a = .ok ta ∧ t.data_.length = 1
  | .Relu a _ => ∃ ta, w.deref a = .ok ta ∧ ta.data_.length = t.data_.length

/-- The stores on which a traversal returns: links point to older nodes, a
node without rule has no parents, the parents of a node are operands of its
rule, the rule finds the sizes it relies on, and every gradient buffer is
empty or full. -/
def WellFormed (w : World) : Prop :=
  BelowInv w ∧ GradSized w ∧
  ∀ n t, w.deref n = .ok t →
    (t.backward_op_ = none → t.parents_ = []) ∧
    ∀ op, t.backward_op_ = some op → (∀ p ∈ t.parents_, p ∈ op.operands) ∧ ShapeOk w t op

/-- The store `w1` holds every node of `w` with the same data and shape. -/
def DataOf (w w1 : World) : Prop :=
  ∀ q tq, w.deref q = .ok tq →
    ∃ t1, w1.deref q = .ok t1 ∧ t1.data_ = tq.data_ ∧ t1.shape_ = tq.shape_

/-- From `w` to `w1` flags, data and shapes are kept and links are kept or
lost. -/
def CoreKept (w w1 : World) : Prop := FlagsKept w w1 ∧ DataOf w w1

/-- The operands of every backward rule are among the parents of its node. -/
def OperandsLinked (w : World) : Prop :=
  ∀ n t op, w.deref n = .ok t → t.backward_op_ = some op → ∀ a ∈ op.operands, a ∈ t.parents_

@[simp] theorem ok_bind {α β : Type} (a : α) (f : α → Except Err β) :
    (Except.ok a >>= f) = f a := rfl

@[simp] theorem error_bind {α β : Type} (e : Err) (f : α → Except Err β) :
    (Except.error e >>= f) = Except.error e := rfl

@[simp] theorem pure_eq_ok {α : Type} (a : α) : (pure a : Except Err α) = Except.ok a := rfl

@[simp] theorem map_ok {α β : Type} (a : α) (f : α → β) :
    (f <$> (Except.ok a : Except Err α)) = Except.ok (f a) := rfl

@[simp] theorem map_error {α β : Type} (e : Err) (f : α → β) :
    (f <$> (Except.error e : Except Err α)) = Except.error e := rfl

@[simp] theorem rd_cons_zero (x : ℚ) (xs : List ℚ) : rd (x :: xs) 0 = .ok x := by
  simp [rd]

@[simp] theorem rd_cons_succ (x : ℚ) (xs : List ℚ) (i : Nat) :
    rd (x :: xs) (i + 1) = rd xs i := by
  simp [rd]

@[simp] theorem rd_nil (i : Nat) : rd [] i = .error .outOfBounds := by
  simp [rd]

@[simp] theorem mapE_nil {α β : Type} (f : α → Except Err β) : mapE f [] = .ok [] := rfl

@[simp] theorem mapE_cons {α β : Type} (f : α → Except Err β) (x : α) (xs : List α) :
    mapE f (x :: xs) = (do
      let y ← f x
      let ys ← mapE f xs
      pure (y :: ys)) := rfl

theorem bind_eq_ok {α β : Type} (x : Except Err α) (f : α → Except Err β) (b : β) :
    (x >>= f) = .ok b ↔ ∃ a, x = .ok a ∧ f a = .ok b := by
  cases x with
  | error e => simp
  | ok a => simp

theorem fdiv_ok (x y : ℚ) (hy : y ≠ 0) : fdiv x y = .ok (x / y) := by
  simp [fdiv, hy]

/-! ## Loops over symbolic lengths -/

theorem mapE_map {α β γ : Type} (g : α → β) (f : β → Except Err γ) (xs : List α) :
    mapE f (xs.map g) = mapE (fun x => f (g x)) xs := by
  induction xs with
  | nil => rfl
  | cons x xs ih => simp [ih]

theorem forEachIndex_succ (n : Nat) (f : Nat → Except Err ℚ) :
    forEachIndex (n + 1) f = (do
      let y ← f 0
      let ys ← forEachIndex n (fun i => f (i + 1))
      pure (y :: ys)) := by
  simp [forEachIndex, List.range_succ_eq_map, mapE_map]

theorem forEachIndex_zip (f : ℚ → ℚ → ℚ) (a b : List ℚ) (h : a.length ≤ b.length) :
    forEachIndex a.length (fun i => do
      let x ← rd a i
      let y ← rd b i
      Except.ok (f x y)) = .ok (List.zipWith f a b) := by
  induction a generalizing b with
  | nil => simp [forEachIndex]
  | cons x a ih =>
    cases b with
    | nil => simp at h
    | cons y b =>
      have hle : a.length ≤ b.length := by simpa using h
      have := ih b hle
      simp only [List.length_cons, forEachIndex_succ, rd_cons_zero, rd_cons_succ, ok_bind] 
      rw [this]
      simp

theorem UpdateGradVec_zip (t : InternalTensor) (g : List ℚ) (h : t.grad_.length ≤ g.length) :
    t.UpdateGradVec g =
      .ok { t with grad_ := if t.grad_.isEmpty then g else List.zipWith (fun x y => x + y) t.grad_ g } := by
  unfold InternalTensor.UpdateGradVec
  split
  · rfl
  · simp only [pure_eq_ok]
    rw [forEachIndex_zip (fun x y => x + y) _ _ h]
    rfl

/-! ## The node factory -/

theorem deref_of_lt (w : World) (p : Nat) (h : p < w.nodes.length) :
    w.deref p = .ok (w.nodes.get ⟨p, h⟩) := by
  simp [World.deref, List.getElem?_eq_getElem h]

theorem deref_mem (w : World) (p : Nat) (t : InternalTensor) (h : w.deref p = .ok t) :
    t ∈ w.nodes := by
  unfold World.deref at h
  cases hq : w.nodes[p]? with
  | none => simp [hq] at h
  | some u =>
    simp only [hq, Except.ok.injEq] at h
    subst h
    exact List.mem_iff_getElem?.mpr ⟨p, hq⟩

/-- The flag loop of ApplyOperation over valid parent pointers. -/
theorem flags_fold (w : World) (parents : List SharedTensor) (acc : Bool × Bool)
    (hp : ∀ p ∈ parents, p < w.nodes.length) :
    ∃ r, parents.foldlM (fun (acc : Bool × Bool) kP => do
        let t ← w.deref kP
        pure ((if t.requires_grad_ then true else acc.1),
              (if t.is_leaf_ then true else acc.2))) acc = Except.ok r ∧
      (r.1 = true ↔ acc.1 = true ∨ ∃ p ∈ parents, ∃ t, w.deref p = .ok t ∧ t.requires_grad_ = true) ∧
      (r.2 = true ↔ acc.2 = true ∨ ∃ p ∈ parents, ∃ t, w.deref p = .ok t ∧ t.is_leaf_ = true) := by
  induction parents generalizing acc with
  | nil => exact ⟨acc, rfl, by simp, by simp⟩
  | cons p ps ih =>
    have hlt : p < w.nodes.length := hp p (List.mem_cons_self _ _)
    have hps : ∀ q ∈ ps, q < w.nodes.length := fun q hq => hp q (List.mem_cons_of_mem _ hq)
    obtain ⟨r, hr, h1, h2⟩ := ih
      ((if (w.nodes.get ⟨p, hlt⟩).requires_grad_ then true else acc.1),
       (if (w.nodes.get ⟨p, hlt⟩).is_leaf_ then true else acc.2)) hps
    refine ⟨r, ?_, ?_, ?_⟩
    · simp only [List.foldlM_cons, deref_of_lt w p hlt, ok_bind, pure_eq_ok]
      exact hr
    · rw [h1]
      simp only [List.mem_cons, exists_eq_or_imp, deref_of_lt w p hlt, Except.ok.injEq,
        exists_eq_left']
      cases (w.nodes.get ⟨p, hlt⟩).requires_grad_ <;> simp
    · rw [h2]
      simp only [List.mem_cons, exists_eq_or_imp, deref_of_lt w p hlt, Except.ok.injEq,
        exists_eq_left']
      cases (w.nodes.get ⟨p, hlt⟩).is_leaf_ <;> simp

/-- What ApplyOperation returns on valid parent pointers: the new pointer is
the next free index and the new node is fully determined by the two flags. -/
theorem ApplyOperation_spec (data : List ℚ) (shape : List Nat) (parents : List SharedTensor)
    (op : BackwardOp) (w : World) (hp : ∀ p ∈ parents, p < w.nodes.length) :
    ∃ rg leaf : Bool,
      (rg = true ↔ w.use_grad_ = true ∧
        ∃ p ∈ parents, ∃ t, w.deref p = .ok t ∧ t.requires_grad_ = true) ∧
      (leaf = true ↔ w.use_grad_ = true ∧
        ∃ p ∈ parents, ∃ t, w.deref p = .ok t ∧ t.is_leaf_ = true) ∧
      ApplyOperation data shape parents op w = .ok (w.nodes.length,
        { nodes := w.nodes ++ [{ data_ := data, grad_ := [], shape_ := shape,
                                 parents_ := if rg then parents else [],
                                 backward_op_ := if rg then some op else none,
                                 is_leaf_ := leaf, requires_grad_ := rg }],
          use_grad_ := w.use_grad_ }) := by
  cases hu : w.use_grad_ with
  | false =>
    refine ⟨false, false, by simp, by simp, ?_⟩
    simp [ApplyOperation, hu, World.alloc, InternalTensor.new]
  | true =>
    obtain ⟨r, hr, h1, h2⟩ := flags_fold w parents (false, false) hp
    refine ⟨r.1, r.2, by simpa using h1, by simpa using h2, ?_⟩
    unfold ApplyOperation
    simp only [hu, if_true]
    rw [hr]
    simp only [ok_bind, pure_eq_ok, World.alloc, InternalTensor.new, hu]
    cases r.1 <;> simp

/-! ## The linkage invariant -/

theorem LinkInv_store (w : World) (p : SharedTensor) (t : InternalTensor)
    (hw : LinkInv w) (ht : t.backward_op_ = none → t.parents_ = []) :
    LinkInv (w.store p t) := by
  intro u hu
  rcases List.mem_or_eq_of_mem_set hu with h | h
  · exact hw u h
  · subst h
    exact ht

theorem LinkInv_alloc (w : World) (t : InternalTensor)
    (hw : LinkInv w) (ht : t.backward_op_ = none → t.parents_ = []) :
    LinkInv (w.alloc t).2 := by
  intro u hu
  simp only [World.alloc, List.mem_append, List.mem_singleton] at hu
  rcases hu with h | h
  · exact hw u h
  · subst h
    exact ht

theorem UpdateGradVec_links (t t1 : InternalTensor) (g : List ℚ)
    (h : t.UpdateGradVec g = .ok t1) :
    t1.backward_op_ = t.backward_op_ ∧ t1.parents_ = t.parents_ := by
  unfold InternalTensor.UpdateGradVec at h
  split at h
  · simp only [Except.ok.injEq] at h
    subst h
    exact ⟨rfl, rfl⟩
  · simp only [bind_eq_ok, pure_eq_ok, Except.ok.injEq] at h
    obtain ⟨a, -, rfl⟩ := h
    exact ⟨rfl, rfl⟩

theorem pushGrad_LinkInv (p : SharedTensor) (contrib : World → Except Err (List ℚ))
    (w w1 : World) (h : pushGrad p contrib w = .ok w1) (hw : LinkInv w) : LinkInv w1 := by
  unfold pushGrad at h
  simp only [bind_eq_ok] at h
  obtain ⟨t, ht, h⟩ := h
  split at h
  · simp only [bind_eq_ok, pure_eq_ok, Except.ok.injEq] at h
    obtain ⟨g, -, t1, ht1, rfl⟩ := h
    obtain ⟨hb, hp⟩ := UpdateGradVec_links t t1 g ht1
    refine LinkInv_store w p t1 hw ?_
    rw [hb, hp]
    exact hw t (deref_mem w p t ht)
  · simp only [pure_eq_ok, Except.ok.injEq] at h
    subst h
    exact hw

theorem run_LinkInv (op : BackwardOp) (res : SharedTensor) (w w1 : World)
    (h : op.run res w = .ok w1) (hw : LinkInv w) : LinkInv w1 := by
  cases op with
  | AddManyOne a b =>
    simp only [BackwardOp.run, bind_eq_ok] at h
    obtain ⟨w2, h2, h3⟩ := h
    exact pushGrad_LinkInv _ _ _ _ h3 (pushGrad_LinkInv _ _ _ _ h2 hw)
  | AddManyMany a b =>
    simp only [BackwardOp.run, bind_eq_ok] at h
    obtain ⟨w2, h2, h3⟩ := h
    exact pushGrad_LinkInv _ _ _ _ h3 (pushGrad_LinkInv _ _ _ _ h2 hw)
  | AddBias a b =>
    simp only [BackwardOp.run, bind_eq_ok] at h
    obtain ⟨w2, h2, h3⟩ := h
    exact pushGrad_LinkInv _ _ _ _ h3 (pushGrad_LinkInv _ _ _ _ h2 hw)
  | MultiplyManyOne a b =>
    simp only [BackwardOp.run, bind_eq_ok] at h
    obtain ⟨w2, h2, h3⟩ := h
    exact pushGrad_LinkInv _ _ _ _ h3 (pushGrad_LinkInv _ _ _ _ h2 hw)
  | MultiplyManyMany a b =>
    simp only [BackwardOp.run, bind_eq_ok] at h
    obtain ⟨w2, h2, h3⟩ := h
    exact pushGrad_LinkInv _ _ _ _ h3 (pushGrad_LinkInv _ _ _ _ h2 hw)
  | Matmul a b =>
    simp only [BackwardOp.run, bind_eq_ok] at h
    obtain ⟨ta, -, tb, -, kN, -, kM, -, kP, -, w2, h2, h3⟩ := h
    exact pushGrad_LinkInv _ _ _ _ h3 (pushGrad_LinkInv _ _ _ _ h2 hw)
  | Pow a e d =>
    simp only [BackwardOp.run] at h
    exact pushGrad_LinkInv _ _ _ _ h hw
  | Sum a d =>
    simp only [BackwardOp.run] at h
    exact pushGrad_LinkInv _ _ _ _ h hw
  | Relu a l =>
    simp only [BackwardOp.run] at h
    exact pushGrad_LinkInv _ _ _ _ h hw

theorem foldlM_preserves {σ α : Type} (P : σ → Prop) (f : σ → α → Except Err σ)
    (hf : ∀ s a s1, f s a = .ok s1 → P s → P s1) (l : List α) (s s1 : σ)
    (h : l.foldlM f s = .ok s1) (hs : P s) : P s1 := by
  induction l generalizing s with
  | nil =>
    simp only [List.foldlM_nil, pure_eq_ok, Except.ok.injEq] at h
    subst h
    exact hs
  | cons a l ih =>
    simp only [List.foldlM_cons, bind_eq_ok] at h
    obtain ⟨s2, h2, h3⟩ := h
    exact ih s2 h3 (hf s a s2 h2 hs)

theorem ApplyOperation_LinkInv (data : List ℚ) (shape : List Nat)
    (parents : List SharedTensor) (op : BackwardOp) (w w1 : World) (res : SharedTensor)
    (h : ApplyOperation data shape parents op w = .ok (res, w1)) (hw : LinkInv w) :
    LinkInv w1 := by
  have key : ∀ flags : Bool × Bool, LinkInv (w.alloc
      (if flags.1 = true then
        { InternalTensor.new data shape flags.1 flags.2 with
          parents_ := parents, backward_op_ := some op }
      else InternalTensor.new data shape flags.1 flags.2)).2 := by
    intro flags
    refine LinkInv_alloc w _ hw ?_
    split <;> simp [InternalTensor.new]
  unfold ApplyOperation at h
  split at h
  · simp only [bind_eq_ok, pure_eq_ok, Except.ok.injEq] at h
    obtain ⟨flags, -, h⟩ := h
    have h2 := congrArg Prod.snd h
    simp only at h2
    rw [← h2]
    exact key flags
  · simp only [ok_bind, pure_eq_ok, Except.ok.injEq] at h
    have h2 := congrArg Prod.snd h
    simp only at h2
    rw [← h2]
    exact key (false, false)

theorem Backward_LinkInv (fuel : Nat) (retain_graph : Bool) (self : SharedTensor)
    (w w1 : World) (h : InternalTensor.Backward fuel retain_graph self w = .ok w1)
    (hw : LinkInv w) : LinkInv w1 := by
  induction fuel generalizing self w w1 with
  | zero => simp [InternalTensor.Backward] at h
  | succ fuel ih =>
    have tail : ∀ w2 : World, LinkInv w2 → ∀ t2 : InternalTensor, w2.deref self = .ok t2 → ∀ w3 : World,
        t2.parents_.foldlM (fun acc p => InternalTensor.Backward fuel retain_graph p acc)
          (if (!t2.is_leaf_ && !retain_graph) = true
            then w2.store self { t2 with grad_ := [] } else w2) = .ok w3 →
        ∀ t3 : InternalTensor, LinkInv (if (!retain_graph) = true
          then w3.store self { t3 with backward_op_ := none, parents_ := [] } else w3) := by
      intro w2 hw2 t2 ht2 w3 h3 t3
      have hw2c : LinkInv (if (!t2.is_leaf_ && !retain_graph) = true
          then w2.store self { t2 with grad_ := [] } else w2) := by
        split
        · exact LinkInv_store w2 self _ hw2 (hw2 t2 (deref_mem w2 self t2 ht2))
        · exact hw2
      have hw3 : LinkInv w3 :=
        foldlM_preserves LinkInv _ (fun s a s1 hs hP => ih a s s1 hs hP) _ _ _ h3 hw2c
      split
      · exact LinkInv_store w3 self _ hw3 (fun _ => rfl)
      · exact hw3
    rw [InternalTensor.Backward] at h
    simp only [bind_eq_ok] at h
    obtain ⟨t, ht, h⟩ := h
    split at h
    · simp only [pure_eq_ok, Except.ok.injEq] at h
      subst h
      exact hw
    · cases hop : t.backward_op_ with
      | none =>
        simp only [hop, ok_bind, bind_eq_ok, pure_eq_ok, Except.ok.injEq] at h
        obtain ⟨t2, ht2, w3, h3, t3, -, rfl⟩ := h
        exact tail w hw t2 ht2 w3 h3 t3
      | some op =>
        simp only [hop, bind_eq_ok, pure_eq_ok, Except.ok.injEq] at h
        obtain ⟨w2, h2, t2, ht2, w3, h3, t3, -, rfl⟩ := h
        exact tail w2 (run_LinkInv op self w w2 h2 hw) t2 ht2 w3 h3 t3

/-- Every reachable store satisfies the linkage invariant. -/
theorem Reachable_LinkInv (w : World) (h : Reachable w) : LinkInv w := by
  induction h with
  | init => intro t ht; simp [World.init] at ht
  | make_shared w data shape rg leaf _ ih =>
    exact LinkInv_alloc w _ ih (fun _ => rfl)
  | apply w data shape parents op res w1 _ happ ih =>
    exact ApplyOperation_LinkInv data shape parents op w w1 res happ ih
  | backward w fuel retain p w1 _ hb ih => exact Backward_LinkInv fuel retain p w w1 hb ih
  | set_use_grad w b _ ih => exact ih
  | set_grad w p t g _ hd ih =>
    exact LinkInv_store w p _ ih (ih t (deref_mem w p t hd))
  | set_data w p t d _ hd ih =>
    exact LinkInv_store w p _ ih (ih t (deref_mem w p t hd))
  | set_shape w p t s _ hd ih =>
    exact LinkInv_store w p _ ih (ih t (deref_mem w p t hd))

/-! ## Kernels are node-factory steps -/

theorem AddManyOneInternal_reachable (a b p : SharedTensor) (w w1 : World)
    (h : AddManyOneInternal a b w = .ok (p, w1)) (hw : Reachable w) : Reachable w1 := by
  unfold AddManyOneInternal at h
  simp only [bind_eq_ok] at h
  obtain ⟨ta, -, tb, -, data, -, h⟩ := h
  exact Reachable.apply _ _ _ _ _ _ _ hw h

theorem AddManyManyInternal_reachable (a b p : SharedTensor) (w w1 : World)
    (h : AddManyManyInternal a b w = .ok (p, w1)) (hw : Reachable w) : Reachable w1 := by
  unfold AddManyManyInternal at h
  simp only [bind_eq_ok] at h
  obtain ⟨ta, -, tb, -, data, -, h⟩ := h
  exact Reachable.apply _ _ _ _ _ _ _ hw h

theorem AddBiasInternal_reachable (a b p : SharedTensor) (w w1 : World)
    (h : AddBiasInternal a b w = .ok (p, w1)) (hw : Reachable w) : Reachable w1 := by
  unfold AddBiasInternal at h
  simp only [bind_eq_ok] at h
  obtain ⟨ta, -, tb, -, data, -, h⟩ := h
  exact Reachable.apply _ _ _ _ _ _ _ hw h

theorem MultiplyManyOneInternal_reachable (a b p : SharedTensor) (w w1 : World)
    (h : MultiplyManyOneInternal a b w = .ok (p, w1)) (hw : Reachable w) : Reachable w1 := by
  unfold MultiplyManyOneInternal at h
  simp only [bind_eq_ok] at h
  obtain ⟨ta, -, tb, -, data, -, h⟩ := h
  exact Reachable.apply _ _ _ _ _ _ _ hw h

theorem MultiplyManyManyInternal_reachable (a b p : SharedTensor) (w w1 : World)
    (h : MultiplyManyManyInternal a b w = .ok (p, w1)) (hw : Reachable w) : Reachable w1 := by
  unfold MultiplyManyManyInternal at h
  simp only [bind_eq_ok] at h
  obtain ⟨ta, -, tb, -, data, -, h⟩ := h
  exact Reachable.apply _ _ _ _ _ _ _ hw h

theorem OppositeInternal_reachable (a p : SharedTensor) (w w1 : World)
    (h : OppositeInternal a w = .ok (p, w1)) (hw : Reachable w) : Reachable w1 := by
  unfold OppositeInternal at h
  exact MultiplyManyOneInternal_reachable _ _ _ _ _ h
    (Reachable.make_shared w [-1] [] false false hw)

theorem PowInternal_reachable (a p : SharedTensor) (e : Int) (w w1 : World)
    (h : PowInternal a e w = .ok (p, w1)) (hw : Reachable w) : Reachable w1 := by
  unfold PowInternal at h
  simp only [bind_eq_ok] at h
  obtain ⟨ta, -, data, -, h⟩ := h
  exact Reachable.apply _ _ _ _ _ _ _ hw h

theorem InverseInternal_reachable (a p : SharedTensor) (w w1 : World)
    (h : InverseInternal a w = .ok (p, w1)) (hw : Reachable w) : Reachable w1 :=
  PowInternal_reachable a p (-1) w w1 h hw

theorem MatmulInternal_reachable (a b p : SharedTensor) (w w1 : World)
    (h : MatmulInternal a b w = .ok (p, w1)) (hw : Reachable w) : Reachable w1 := by
  unfold MatmulInternal at h
  simp only [bind_eq_ok] at h
  obtain ⟨ta, -, tb, -, n, -, m, -, q, -, data, -, h⟩ := h
  exact Reachable.apply _ _ _ _ _ _ _ hw h

theorem SumInternal_reachable (a p : SharedTensor) (w w1 : World)
    (h : SumInternal a w = .ok (p, w1)) (hw : Reachable w) : Reachable w1 := by
  unfold SumInternal at h
  simp only [bind_eq_ok] at h
  obtain ⟨ta, -, h⟩ := h
  exact Reachable.apply _ _ _ _ _ _ _ hw h

theorem ReluInternal_reachable (a p : SharedTensor) (leaky : ℚ) (w w1 : World)
    (h : ReluInternal a leaky w = .ok (p, w1)) (hw : Reachable w) : Reachable w1 := by
  unfold ReluInternal at h
  simp only [bind_eq_ok] at h
  obtain ⟨ta, -, h⟩ := h
  exact Reachable.apply _ _ _ _ _ _ _ hw h

/-- The final store of the first test is reachable: leaf construction, the
Add kernel, the seed of Tensor::Backward and the traversal. -/
theorem shared_final_store_reachable : Reachable shared_final_store := by
  have h0 : Reachable (leaf_store true) :=
    Reachable.make_shared World.init [3] [] true true Reachable.init
  have h1 : AddManyOneInternal 0 0 (leaf_store true) =
      .ok (1, { nodes := [InternalTensor.new [3] [] true true,
                          { data_ := [6], grad_ := [], shape_ := [], parents_ := [0, 0],
                            backward_op_ := some (.AddManyOne 0 0), is_leaf_ := true,
                            requires_grad_ := true }],
                use_grad_ := true }) := by
    simp [leaf_store, AddManyOneInternal, ApplyOperation, World.deref, World.alloc,
      InternalTensor.new]
    norm_num
  have h2 := AddManyOneInternal_reachable _ _ _ _ _ h1 h0
  have h3 := Reachable.set_grad _ 1 _ [1] h2 (by simp [World.deref]; rfl)
  refine Reachable.backward _ 2 false 1 _ h3 ?_
  simp [shared_final_store, InternalTensor.new, InternalTensor.SetGradVec,
    World.deref.eq_1 ⟨_, _⟩, World.store.eq_1 ⟨_, _⟩,
    InternalTensor.Backward.eq_2 _ _ ⟨_, _⟩, BackwardOp.run.eq_1 _ ⟨_, _⟩,
    pushGrad.eq_1 _ _ ⟨_, _⟩, InternalTensor.RequiresGrad, InternalTensor.Size,
    InternalTensor.UpdateGradVec, forEachIndex, accumulate, List.range_succ]
  norm_num

/-! ## The backward pass on the test graphs -/

set_option maxHeartbeats 1000000 in
/-- C1 (kite accumulation), as the code runs it.  For every value `v` of the
leaf and all constants `c1`, `c2`, with any recursion budget of at least four
levels, the program of test_kite_pattern ends with the gradient buffer of `x`
equal to `[2]`, not the `[4]` the test expects: the shared node `y` is severed
on its first visit (through `y1`), so the contribution that arrives through
`y2` is never propagated to `x`. -/
theorem kite_pattern_gradient (v c1 c2 : ℚ) (k : Nat) :
    test_kite_pattern v c1 c2 (k + 4) = .ok [2] := by
  simp [test_kite_pattern, backwardGrad, kite_graph, World.init, CalculateStrides, stridePushes,
    Tensor.fromValue.eq_1 _ _ ⟨_, _⟩, Tensor.add.eq_1 _ _ ⟨_, _⟩, Tensor.Size.eq_1 _ ⟨_, _⟩,
    Tensor.NumDimensions.eq_1 _ ⟨_, _⟩, wrap, Tensor.fromShared.eq_1 _ ⟨_, _⟩,
    AddManyOneInternal.eq_1 _ _ ⟨_, _⟩, ApplyOperation.eq_1 _ _ _ _ ⟨_, _⟩, InternalTensor.new,
    Tensor.Backward.eq_1 _ _ _ ⟨_, _⟩, Tensor.Grad.eq_1 _ ⟨_, _⟩,
    World.deref.eq_1 ⟨_, _⟩, World.store.eq_1 ⟨_, _⟩, World.alloc.eq_1 ⟨_, _⟩,
    InternalTensor.SetGrad, InternalTensor.SetGradVec, InternalTensor.Size,
    InternalTensor.Backward.eq_2 _ _ ⟨_, _⟩, BackwardOp.run.eq_1 _ ⟨_, _⟩,
    pushGrad.eq_1 _ _ ⟨_, _⟩, InternalTensor.RequiresGrad,
    InternalTensor.UpdateGradVec, forEachIndex, accumulate, List.range_succ]
  norm_num

set_option maxHeartbeats 1000000 in
/-- C2 (shared product consumed by two nodes), as the code runs it.  For every
value `v` and all constants, the program of test_gradient_clearing_issue ends
with the gradient buffer of `x` equal to `[2 * v]` (10 at `v = 5`), not the
`[4 * v]` the test expects: the shared product is severed on its first visit. -/
theorem gradient_clearing_issue_gradient (v c1 c2 : ℚ) (k : Nat) :
    test_gradient_clearing_issue v c1 c2 (k + 4) = .ok [2 * v] := by
  simp [test_gradient_clearing_issue, backwardGrad, clearing_graph, Tensor.mul.eq_1 _ _ ⟨_, _⟩,
    MultiplyManyOneInternal.eq_1 _ _ ⟨_, _⟩, BackwardOp.run.eq_4 _ ⟨_, _⟩, World.init, CalculateStrides, stridePushes,
    Tensor.fromValue.eq_1 _ _ ⟨_, _⟩, Tensor.add.eq_1 _ _ ⟨_, _⟩, Tensor.Size.eq_1 _ ⟨_, _⟩,
    Tensor.NumDimensions.eq_1 _ ⟨_, _⟩, wrap, Tensor.fromShared.eq_1 _ ⟨_, _⟩,
    AddManyOneInternal.eq_1 _ _ ⟨_, _⟩, ApplyOperation.eq_1 _ _ _ _ ⟨_, _⟩, InternalTensor.new,
    Tensor.Backward.eq_1 _ _ _ ⟨_, _⟩, Tensor.Grad.eq_1 _ ⟨_, _⟩,
    World.deref.eq_1 ⟨_, _⟩, World.store.eq_1 ⟨_, _⟩, World.alloc.eq_1 ⟨_, _⟩,
    InternalTensor.SetGrad, InternalTensor.SetGradVec, InternalTensor.Size,
    InternalTensor.Backward.eq_2 _ _ ⟨_, _⟩, BackwardOp.run.eq_1 _ ⟨_, _⟩,
    pushGrad.eq_1 _ _ ⟨_, _⟩, InternalTensor.RequiresGrad,
    InternalTensor.UpdateGradVec, forEachIndex, accumulate, List.range_succ]
  ring

set_option maxHeartbeats 1000000 in
/-- C3 (diamond accumulation).  For every value `v` of the leaf and all
constants `c1`, `c2`, after `y1 = x + c1`, `y2 = x + c2`, `z = y1 + y2` and
`z.Backward()` the gradient buffer of `x` is `[2]`. -/
theorem diamond_pattern_gradient (v c1 c2 : ℚ) (k : Nat) :
    test_diamond_pattern v c1 c2 (k + 3) = .ok [2] := by
  simp [test_diamond_pattern, backwardGrad, diamond_graph, World.init, CalculateStrides, stridePushes,
    Tensor.fromValue.eq_1 _ _ ⟨_, _⟩, Tensor.add.eq_1 _ _ ⟨_, _⟩, Tensor.Size.eq_1 _ ⟨_, _⟩,
    Tensor.NumDimensions.eq_1 _ ⟨_, _⟩, wrap, Tensor.fromShared.eq_1 _ ⟨_, _⟩,
    AddManyOneInternal.eq_1 _ _ ⟨_, _⟩, ApplyOperation.eq_1 _ _ _ _ ⟨_, _⟩, InternalTensor.new,
    Tensor.Backward.eq_1 _ _ _ ⟨_, _⟩, Tensor.Grad.eq_1 _ ⟨_, _⟩,
    World.deref.eq_1 ⟨_, _⟩, World.store.eq_1 ⟨_, _⟩, World.alloc.eq_1 ⟨_, _⟩,
    InternalTensor.SetGrad, InternalTensor.SetGradVec, InternalTensor.Size,
    InternalTensor.Backward.eq_2 _ _ ⟨_, _⟩, BackwardOp.run.eq_1 _ ⟨_, _⟩,
    pushGrad.eq_1 _ _ ⟨_, _⟩, InternalTensor.RequiresGrad,
    InternalTensor.UpdateGradVec, forEachIndex, accumulate, List.range_succ]
  norm_num

set_option maxHeartbeats 1000000 in
/-- C4 (single-use gradient).  For every value `v` of the leaf, after
`z = x + x` and `z.Backward()` the gradient buffer of `x` is `[2]`: the two
operand slots are summed. -/
theorem shared_tensor_gradient (v : ℚ) (k : Nat) :
    test_shared_tensor_backprop v (k + 2) = .ok [2] := by
  simp [test_shared_tensor_backprop, backwardGrad, shared_graph, World.init, CalculateStrides, stridePushes,
    Tensor.fromValue.eq_1 _ _ ⟨_, _⟩, Tensor.add.eq_1 _ _ ⟨_, _⟩, Tensor.Size.eq_1 _ ⟨_, _⟩,
    Tensor.NumDimensions.eq_1 _ ⟨_, _⟩, wrap, Tensor.fromShared.eq_1 _ ⟨_, _⟩,
    AddManyOneInternal.eq_1 _ _ ⟨_, _⟩, ApplyOperation.eq_1 _ _ _ _ ⟨_, _⟩, InternalTensor.new,
    Tensor.Backward.eq_1 _ _ _ ⟨_, _⟩, Tensor.Grad.eq_1 _ ⟨_, _⟩,
    World.deref.eq_1 ⟨_, _⟩, World.store.eq_1 ⟨_, _⟩, World.alloc.eq_1 ⟨_, _⟩,
    InternalTensor.SetGrad, InternalTensor.SetGradVec, InternalTensor.Size,
    InternalTensor.Backward.eq_2 _ _ ⟨_, _⟩, BackwardOp.run.eq_1 _ ⟨_, _⟩,
    pushGrad.eq_1 _ _ ⟨_, _⟩, InternalTensor.RequiresGrad,
    InternalTensor.UpdateGradVec, forEachIndex, accumulate, List.range_succ]
  norm_num

set_option maxHeartbeats 1000000 in
/-- C5 (power chain rule).  For every non-zero value `v` of the leaf, after
`y = x.Pow(2)`, `z = y + y` and `z.Backward()` the gradient buffer of `x` is
`[4 * v]`. -/
theorem power_then_add_gradient (v : ℚ) (hv : v ≠ 0) (k : Nat) :
    test_power_then_add v (k + 3) = .ok [4 * v] := by
  simp [test_power_then_add, backwardGrad, power_graph, Tensor.Pow.eq_1 _ _ ⟨_, _⟩,
    PowInternal.eq_1 _ _ ⟨_, _⟩, powData, BackwardOp.run.eq_7 _ ⟨_, _⟩, fdiv, hv, World.init, CalculateStrides, stridePushes,
    Tensor.fromValue.eq_1 _ _ ⟨_, _⟩, Tensor.add.eq_1 _ _ ⟨_, _⟩, Tensor.Size.eq_1 _ ⟨_, _⟩,
    Tensor.NumDimensions.eq_1 _ ⟨_, _⟩, wrap, Tensor.fromShared.eq_1 _ ⟨_, _⟩,
    AddManyOneInternal.eq_1 _ _ ⟨_, _⟩, ApplyOperation.eq_1 _ _ _ _ ⟨_, _⟩, InternalTensor.new,
    Tensor.Backward.eq_1 _ _ _ ⟨_, _⟩, Tensor.Grad.eq_1 _ ⟨_, _⟩,
    World.deref.eq_1 ⟨_, _⟩, World.store.eq_1 ⟨_, _⟩, World.alloc.eq_1 ⟨_, _⟩,
    InternalTensor.SetGrad, InternalTensor.SetGradVec, InternalTensor.Size,
    InternalTensor.Backward.eq_2 _ _ ⟨_, _⟩, BackwardOp.run.eq_1 _ ⟨_, _⟩,
    pushGrad.eq_1 _ _ ⟨_, _⟩, InternalTensor.RequiresGrad,
    InternalTensor.UpdateGradVec, forEachIndex, accumulate, List.range_succ]
  ring

/-- The test instance of C5: `v = 3` gives 12. -/
theorem power_then_add_gradient_witness :
    (3 : ℚ) ≠ 0 ∧ test_power_then_add 3 (0 + 3) = .ok [4 * 3] :=
  ⟨by norm_num, power_then_add_gradient 3 (by norm_num) 0⟩

/-! ## Sum reduction and retained passes -/

set_option maxHeartbeats 1000000 in
theorem sum_operation_singleton (a : ℚ) (k : Nat) :
    test_sum_operation [a] (k + 3) = .ok [2] := by
  simp [test_sum_operation, backwardGrad, sum_graph, Tensor.fromValues.eq_1 _ _ ⟨_, _⟩,
    Tensor.Sum.eq_1 _ ⟨_, _⟩, SumInternal.eq_1 _ ⟨_, _⟩, BackwardOp.run.eq_8 _ ⟨_, _⟩, World.init, CalculateStrides, stridePushes,
    Tensor.fromValue.eq_1 _ _ ⟨_, _⟩, Tensor.add.eq_1 _ _ ⟨_, _⟩, Tensor.Size.eq_1 _ ⟨_, _⟩,
    Tensor.NumDimensions.eq_1 _ ⟨_, _⟩, wrap, Tensor.fromShared.eq_1 _ ⟨_, _⟩,
    AddManyOneInternal.eq_1 _ _ ⟨_, _⟩, ApplyOperation.eq_1 _ _ _ _ ⟨_, _⟩, InternalTensor.new,
    Tensor.Backward.eq_1 _ _ _ ⟨_, _⟩, Tensor.Grad.eq_1 _ ⟨_, _⟩,
    World.deref.eq_1 ⟨_, _⟩, World.store.eq_1 ⟨_, _⟩, World.alloc.eq_1 ⟨_, _⟩,
    InternalTensor.SetGrad, InternalTensor.SetGradVec, InternalTensor.Size,
    InternalTensor.Backward.eq_2 _ _ ⟨_, _⟩, BackwardOp.run.eq_1 _ ⟨_, _⟩,
    pushGrad.eq_1 _ _ ⟨_, _⟩, InternalTensor.RequiresGrad,
    InternalTensor.UpdateGradVec, forEachIndex, accumulate, List.range_succ]
  norm_num

set_option maxHeartbeats 1000000 in
theorem sum_operation_many (xs : List ℚ) (h : xs.length ≠ 1) (k : Nat) :
    test_sum_operation xs (k + 3) = .ok (List.replicate xs.length 2) := by
  simp [test_sum_operation, backwardGrad, sum_graph, Tensor.Sum.eq_1 _ ⟨_, _⟩,
    SumInternal.eq_1 _ ⟨_, _⟩, BackwardOp.run.eq_8 _ ⟨_, _⟩, h, World.init, CalculateStrides, stridePushes,
    Tensor.fromValues.eq_1 _ _ ⟨_, _⟩, Tensor.add.eq_1 _ _ ⟨_, _⟩, Tensor.Size.eq_1 _ ⟨_, _⟩,
    Tensor.NumDimensions.eq_1 _ ⟨_, _⟩, wrap, Tensor.fromShared.eq_1 _ ⟨_, _⟩,
    AddManyManyInternal.eq_1 _ _ ⟨_, _⟩, ApplyOperation.eq_1 _ _ _ _ ⟨_, _⟩, InternalTensor.new,
    Tensor.Backward.eq_1 _ _ _ ⟨_, _⟩, Tensor.Grad.eq_1 _ ⟨_, _⟩,
    World.deref.eq_1 ⟨_, _⟩, World.store.eq_1 ⟨_, _⟩, World.alloc.eq_1 ⟨_, _⟩,
    InternalTensor.SetGrad, InternalTensor.SetGradVec, InternalTensor.Size,
    InternalTensor.Backward.eq_2 _ _ ⟨_, _⟩, BackwardOp.run.eq_2 _ ⟨_, _⟩,
    pushGrad.eq_1 _ _ ⟨_, _⟩, InternalTensor.RequiresGrad,
    UpdateGradVec_zip, accumulate]
  rw [forEachIndex_zip (fun x y => x + y) xs xs le_rfl]
  cases xs with
  | nil => simp
  | cons x xs => simp; norm_num

/-- C6 (sum reduction broadcast).  For every 1-D leaf `x` with contents `xs`
(non-empty or not), after `y = x + x`, `z = y.Sum()` and `z.Backward()` the
gradient buffer of `x` has the length of `xs` and every entry is 2. -/
theorem sum_operation_gradient (xs : List ℚ) (k : Nat) :
    test_sum_operation xs (k + 3) = .ok (List.replicate xs.length 2) := by
  by_cases h : xs.length = 1
  · obtain ⟨a, rfl⟩ := List.length_eq_one.mp h
    exact sum_operation_singleton a k
  · exact sum_operation_many xs h k

set_option maxHeartbeats 1000000 in
theorem retain_shared_scalar (v : ℚ) (k : Nat) :
    retainTwice (shared_graph v) (k + 2) = .ok ([2], [2]) := by
  simp [retainTwice, shared_graph, Tensor.SetGrad.eq_1 _ _ ⟨_, _⟩, World.init, CalculateStrides, stridePushes,
    Tensor.fromValue.eq_1 _ _ ⟨_, _⟩, Tensor.add.eq_1 _ _ ⟨_, _⟩, Tensor.Size.eq_1 _ ⟨_, _⟩,
    Tensor.NumDimensions.eq_1 _ ⟨_, _⟩, wrap, Tensor.fromShared.eq_1 _ ⟨_, _⟩,
    AddManyOneInternal.eq_1 _ _ ⟨_, _⟩, ApplyOperation.eq_1 _ _ _ _ ⟨_, _⟩, InternalTensor.new,
    Tensor.Backward.eq_1 _ _ _ ⟨_, _⟩, Tensor.Grad.eq_1 _ ⟨_, _⟩,
    World.deref.eq_1 ⟨_, _⟩, World.store.eq_1 ⟨_, _⟩, World.alloc.eq_1 ⟨_, _⟩,
    InternalTensor.SetGrad, InternalTensor.SetGradVec, InternalTensor.Size,
    InternalTensor.Backward.eq_2 _ _ ⟨_, _⟩, BackwardOp.run.eq_1 _ ⟨_, _⟩,
    pushGrad.eq_1 _ _ ⟨_, _⟩, InternalTensor.RequiresGrad,
    InternalTensor.UpdateGradVec, forEachIndex, accumulate, List.range_succ]
  norm_num

set_option maxHeartbeats 1000000 in
theorem retain_shared_singleton (a : ℚ) (k : Nat) :
    retainTwice (shared_graph_1d [a]) (k + 2) = .ok ([2], [2]) := by
  simp [retainTwice, shared_graph_1d, Tensor.fromValues.eq_1 _ _ ⟨_, _⟩,
    Tensor.SetGrad.eq_1 _ _ ⟨_, _⟩, World.init, CalculateStrides, stridePushes,
    Tensor.fromValue.eq_1 _ _ ⟨_, _⟩, Tensor.add.eq_1 _ _ ⟨_, _⟩, Tensor.Size.eq_1 _ ⟨_, _⟩,
    Tensor.NumDimensions.eq_1 _ ⟨_, _⟩, wrap, Tensor.fromShared.eq_1 _ ⟨_, _⟩,
    AddManyOneInternal.eq_1 _ _ ⟨_, _⟩, ApplyOperation.eq_1 _ _ _ _ ⟨_, _⟩, InternalTensor.new,
    Tensor.Backward.eq_1 _ _ _ ⟨_, _⟩, Tensor.Grad.eq_1 _ ⟨_, _⟩,
    World.deref.eq_1 ⟨_, _⟩, World.store.eq_1 ⟨_, _⟩, World.alloc.eq_1 ⟨_, _⟩,
    InternalTensor.SetGrad, InternalTensor.SetGradVec, InternalTensor.Size,
    InternalTensor.Backward.eq_2 _ _ ⟨_, _⟩, BackwardOp.run.eq_1 _ ⟨_, _⟩,
    pushGrad.eq_1 _ _ ⟨_, _⟩, InternalTensor.RequiresGrad,
    InternalTensor.UpdateGradVec, forEachIndex, accumulate, List.range_succ]
  norm_num

set_option maxHeartbeats 1000000 in
theorem retain_shared_many (xs : List ℚ) (h : xs.length ≠ 1) (k : Nat) :
    retainTwice (shared_graph_1d xs) (k + 2) =
      .ok (List.replicate xs.length 2, List.replicate xs.length 2) := by
  simp [retainTwice, shared_graph_1d, Tensor.SetGrad.eq_1 _ _ ⟨_, _⟩, h,
    forEachIndex_zip (fun x y => x + y), World.init, CalculateStrides, stridePushes,
    Tensor.fromValues.eq_1 _ _ ⟨_, _⟩, Tensor.add.eq_1 _ _ ⟨_, _⟩, Tensor.Size.eq_1 _ ⟨_, _⟩,
    Tensor.NumDimensions.eq_1 _ ⟨_, _⟩, wrap, Tensor.fromShared.eq_1 _ ⟨_, _⟩,
    AddManyManyInternal.eq_1 _ _ ⟨_, _⟩, ApplyOperation.eq_1 _ _ _ _ ⟨_, _⟩, InternalTensor.new,
    Tensor.Backward.eq_1 _ _ _ ⟨_, _⟩, Tensor.Grad.eq_1 _ ⟨_, _⟩,
    World.deref.eq_1 ⟨_, _⟩, World.store.eq_1 ⟨_, _⟩, World.alloc.eq_1 ⟨_, _⟩,
    InternalTensor.SetGrad, InternalTensor.SetGradVec, InternalTensor.Size,
    InternalTensor.Backward.eq_2 _ _ ⟨_, _⟩, BackwardOp.run.eq_2 _ ⟨_, _⟩,
    pushGrad.eq_1 _ _ ⟨_, _⟩, InternalTensor.RequiresGrad,
    UpdateGradVec_zip, accumulate]
  cases xs with
  | nil => simp
  | cons x xs => simp; norm_num

/-- The program of test_retain_graph_multiple_backward for every value of the
leaf, and the same program on a 1-D leaf of any contents: on `z = x + x` the
two retained passes, with only the gradient of `x` reset to zeros in between,
give the same gradient for `x`, every entry 2 both times. -/
theorem retain_graph_idempotent_direct (v : ℚ) (xs : List ℚ) (k : Nat) :
    test_retain_graph_multiple_backward v (k + 2) = .ok ([2], [2]) ∧
    retainTwice (shared_graph_1d xs) (k + 2) =
      .ok (List.replicate xs.length 2, List.replicate xs.length 2) := by
  refine ⟨retain_shared_scalar v k, ?_⟩
  by_cases h : xs.length = 1
  · obtain ⟨a, rfl⟩ := List.length_eq_one.mp h
    exact retain_shared_singleton a k
  · exact retain_shared_many xs h k

/-! ## Claims on the node factory -/

/-- C8 (node factory, requires_grad).  For every call of ApplyOperation with
any data, shape, parent list (of valid pointers) and backward rule, the call
returns a new node whose `requires_grad_` flag is true if and only if
`use_grad_` is enabled and at least one parent has `requires_grad_` true; in
particular the flag is false whenever tracking is disabled. -/
theorem ApplyOperation_requires_grad (data : List ℚ) (shape : List Nat)
    (parents : List SharedTensor) (op : BackwardOp) (w : World)
    (hp : ∀ p ∈ parents, p < w.nodes.length) :
    ∃ res : InternalTensor,
      ApplyOperation data shape parents op w =
        .ok (w.nodes.length, { nodes := w.nodes ++ [res], use_grad_ := w.use_grad_ }) ∧
      (res.requires_grad_ = true ↔ w.use_grad_ = true ∧
        ∃ p ∈ parents, ∃ t, w.deref p = .ok t ∧ t.requires_grad_ = true) ∧
      (w.use_grad_ = false → res.requires_grad_ = false) := by
  obtain ⟨rg, leaf, hrg, -, h⟩ := ApplyOperation_spec data shape parents op w hp
  refine ⟨_, h, hrg, ?_⟩
  intro hu
  cases hq : rg with
  | false => rfl
  | true =>
    have := (hrg.mp hq).1
    rw [hu] at this
    exact absurd this (by simp)

/-- An instance of C8: the node factory on the leaf of the first test. -/
theorem ApplyOperation_requires_grad_witness :
    (∀ p ∈ [0, 0], p < (leaf_store true).nodes.length) ∧
    ∃ res : InternalTensor,
      ApplyOperation [6] [] [0, 0] (.AddManyOne 0 0)
          (leaf_store true) =
        .ok ((leaf_store true).nodes.length,
          { nodes := (leaf_store true).nodes ++ [res],
            use_grad_ := (leaf_store true).use_grad_ }) ∧
      (res.requires_grad_ = true ↔
        (leaf_store true).use_grad_ = true ∧
        ∃ p ∈ [0, 0], ∃ t,
          (leaf_store true).deref p = .ok t ∧
          t.requires_grad_ = true) ∧
      ((leaf_store true).use_grad_ = false →
        res.requires_grad_ = false) :=
  ⟨by simp [leaf_store], ApplyOperation_requires_grad [6] [] [0, 0] (.AddManyOne 0 0)
    (leaf_store true) (by simp [leaf_store])⟩

/-- C9, counterexample.  With gradient tracking disabled, ApplyOperation on a
parent that is a leaf returns a node whose `is_leaf_` flag is false: the flag
is not the disjunction of the parents' flags "whatever the state of the
tracking flag". -/
theorem ApplyOperation_is_leaf_counterexample :
    ∃ res : InternalTensor,
      ApplyOperation [6] [] [0, 0] (.AddManyOne 0 0)
          (leaf_store false) =
        .ok (1, { nodes := (leaf_store false).nodes ++ [res], use_grad_ := false }) ∧
      ¬ (res.is_leaf_ = true ↔
        ∃ p ∈ [0, 0], ∃ t,
          (leaf_store false).deref p = .ok t ∧
          t.is_leaf_ = true) := by
  refine ⟨InternalTensor.new [6] [] false false, ?_, ?_⟩
  · simp [leaf_store, ApplyOperation, World.alloc, InternalTensor.new]
  · simp [leaf_store, World.deref, InternalTensor.new]

/-- C9, amended.  For every call of ApplyOperation on valid parent pointers,
the new node's `is_leaf_` flag is true if and only if `use_grad_` is enabled
and at least one parent has `is_leaf_` true. -/
theorem ApplyOperation_is_leaf (data : List ℚ) (shape : List Nat)
    (parents : List SharedTensor) (op : BackwardOp) (w : World)
    (hp : ∀ p ∈ parents, p < w.nodes.length) :
    ∃ res : InternalTensor,
      ApplyOperation data shape parents op w =
        .ok (w.nodes.length, { nodes := w.nodes ++ [res], use_grad_ := w.use_grad_ }) ∧
      (res.is_leaf_ = true ↔ w.use_grad_ = true ∧
        ∃ p ∈ parents, ∃ t, w.deref p = .ok t ∧ t.is_leaf_ = true) := by
  obtain ⟨rg, leaf, -, hleaf, h⟩ := ApplyOperation_spec data shape parents op w hp
  exact ⟨_, h, hleaf⟩

/-- An instance of the amended C9, with tracking disabled. -/
theorem ApplyOperation_is_leaf_witness :
    (∀ p ∈ [0, 0], p < (leaf_store false).nodes.length) ∧
    ∃ res : InternalTensor,
      ApplyOperation [6] [] [0, 0] (.AddManyOne 0 0)
          (leaf_store false) =
        .ok ((leaf_store false).nodes.length,
          { nodes := (leaf_store false).nodes ++ [res],
            use_grad_ := (leaf_store false).use_grad_ }) ∧
      (res.is_leaf_ = true ↔
        (leaf_store false).use_grad_ = true ∧
        ∃ p ∈ [0, 0], ∃ t,
          (leaf_store false).deref p = .ok t ∧
          t.is_leaf_ = true) :=
  ⟨by simp [leaf_store], ApplyOperation_is_leaf [6] [] [0, 0] (.AddManyOne 0 0)
    (leaf_store false) (by simp [leaf_store])⟩

/-- C10 (node factory linkage).  The node returned by ApplyOperation (on
valid parent pointers) stores the given parent list and backward rule when its
`requires_grad_` flag is true and stores neither when it is false; and in
every store reachable through construction, the node factory (hence every
kernel), Backward in either mode and the public setters, a node without
backward rule has an empty parent list. -/
theorem ApplyOperation_linkage (data : List ℚ) (shape : List Nat)
    (parents : List SharedTensor) (op : BackwardOp) (w : World)
    (hp : ∀ p ∈ parents, p < w.nodes.length) (w0 : World) (hr : Reachable w0) :
    (∃ res : InternalTensor,
      ApplyOperation data shape parents op w =
        .ok (w.nodes.length, { nodes := w.nodes ++ [res], use_grad_ := w.use_grad_ }) ∧
      (res.requires_grad_ = true → res.parents_ = parents ∧ res.backward_op_ = some op) ∧
      (res.requires_grad_ = false → res.parents_ = [] ∧ res.backward_op_ = none)) ∧
    (∀ t ∈ w0.nodes, t.backward_op_ = none → t.parents_ = []) := by
  refine ⟨?_, Reachable_LinkInv w0 hr⟩
  obtain ⟨rg, leaf, -, -, h⟩ := ApplyOperation_spec data shape parents op w hp
  refine ⟨_, h, ?_, ?_⟩
  · intro hq
    simp only at hq
    subst hq
    exact ⟨rfl, rfl⟩
  · intro hq
    simp only at hq
    subst hq
    exact ⟨rfl, rfl⟩

/-- An instance of C10: the node factory on the leaf of the first test, and
the store at the end of that test. -/
theorem ApplyOperation_linkage_witness :
    (∀ p ∈ [0, 0], p < (leaf_store true).nodes.length) ∧ Reachable shared_final_store ∧
    ((∃ res : InternalTensor,
      ApplyOperation [6] [] [0, 0] (.AddManyOne 0 0) (leaf_store true) =
        .ok ((leaf_store true).nodes.length,
          { nodes := (leaf_store true).nodes ++ [res],
            use_grad_ := (leaf_store true).use_grad_ }) ∧
      (res.requires_grad_ = true →
        res.parents_ = [0, 0] ∧ res.backward_op_ = some (.AddManyOne 0 0)) ∧
      (res.requires_grad_ = false → res.parents_ = [] ∧ res.backward_op_ = none)) ∧
    (∀ t ∈ shared_final_store.nodes, t.backward_op_ = none → t.parents_ = [])) :=
  ⟨by simp [leaf_store], shared_final_store_reachable,
    ApplyOperation_linkage [6] [] [0, 0] (.AddManyOne 0 0) (leaf_store true)
      (by simp [leaf_store]) shared_final_store shared_final_store_reachable⟩

/-! ## Closed forms of the loops -/

theorem rd_ok (xs : List ℚ) (i : Nat) (h : i < xs.length) : rd xs i = .ok (xs.getD i 0) := by
  simp [rd, List.getElem?_eq_getElem h, List.getD_eq_getElem _ _ h]

theorem rdNat_cons_zero (x : Nat) (xs : List Nat) : rdNat (x :: xs) 0 = .ok x := by
  simp [rdNat]

theorem rdNat_cons_succ (x : Nat) (xs : List Nat) (i : Nat) :
    rdNat (x :: xs) (i + 1) = rdNat xs i := by
  simp [rdNat]

theorem mapE_ok {α β : Type} (f : α → Except Err β) (g : α → β) (xs : List α)
    (h : ∀ x ∈ xs, f x = .ok (g x)) : mapE f xs = .ok (xs.map g) := by
  induction xs with
  | nil => rfl
  | cons x xs ih =>
    have hx := h x (List.mem_cons_self _ _)
    have hxs := ih (fun y hy => h y (List.mem_cons_of_mem _ hy))
    simp [hx, hxs]

theorem mapE_ok_map {α β : Type} (g : α → β) (xs : List α) :
    mapE (fun x => Except.ok (g x)) xs = .ok (xs.map g) :=
  mapE_ok _ g xs (fun _ _ => rfl)

theorem forEachIndex_ok (n : Nat) (f : Nat → Except Err ℚ) (g : Nat → ℚ)
    (h : ∀ i, i < n → f i = .ok (g i)) :
    forEachIndex n f = .ok ((List.range n).map g) :=
  mapE_ok f g (List.range n) (fun i hi => h i (List.mem_range.mp hi))

theorem foldlM_ok {σ α : Type} (f : σ → α → Except Err σ) (g : σ → α → σ) (l : List α)
    (init : σ) (h : ∀ x ∈ l, ∀ s, f s x = .ok (g s x)) :
    l.foldlM f init = .ok (l.foldl g init) := by
  induction l generalizing init with
  | nil => rfl
  | cons x l ih =>
    simp only [List.foldlM_cons, List.foldl_cons, h x (List.mem_cons_self _ _) init, ok_bind]
    exact ih _ (fun y hy => h y (List.mem_cons_of_mem _ hy))

theorem foldl_add_range (F : Nat → ℚ) (m : Nat) :
    (List.range m).foldl (fun acc k => acc + F k) 0 = ∑ k in Finset.range m, F k := by
  induction m with
  | zero => simp
  | succ m ih => simp [List.range_succ, List.foldl_append, ih, Finset.sum_range_succ]

theorem accumulate_eq_sum (xs : List ℚ) : accumulate xs = xs.sum := by
  unfold accumulate
  have : ∀ (l : List ℚ) (s : ℚ), l.foldl (fun acc x => acc + x) s = s + l.sum := by
    intro l
    induction l with
    | nil => intro s; simp
    | cons x l ih => intro s; simp [ih, add_assoc]
  simpa using this xs 0

theorem map_range_getD (l : List ℚ) (F : ℚ → ℚ) :
    (List.range l.length).map (fun i => F (l.getD i 0)) = l.map F := by
  apply List.ext_getElem
  · simp
  · intro i h1 h2
    simp at h1
    simp [List.getElem?_eq_getElem h1]

/-- Rows of equal length laid end to end: the row-major flat list. -/
theorem flatten_rows (F : Nat → Nat → ℚ) (n p : Nat) :
    ((List.range n).map (fun i => (List.range p).map (fun j => F i j))).flatten =
      (List.range (n * p)).map (fun idx => F (idx / p) (idx % p)) := by
  induction n with
  | zero => simp
  | succ n ih =>
    rw [List.range_succ, List.map_append, List.flatten_append, ih]
    have hnp : (n + 1) * p = n * p + p := by ring
    rw [hnp, List.range_add, List.map_append]
    congr 1
    simp only [List.map_cons, List.map_nil, List.flatten_cons, List.flatten_nil,
      List.append_nil, List.map_map]
    apply List.map_congr_left
    intro j hj
    have hj2 : j < p := List.mem_range.mp hj
    have hp : 0 < p := Nat.lt_of_le_of_lt (Nat.zero_le _) hj2
    simp only [Function.comp]
    have h1 : (n * p + j) / p = n := by
      rw [Nat.add_comm, Nat.add_mul_div_right _ _ hp, Nat.div_eq_of_lt hj2, Nat.zero_add]
    have h2 : (n * p + j) % p = j := by
      rw [Nat.add_comm, Nat.add_mul_mod_self_right, Nat.mod_eq_of_lt hj2]
    rw [h1, h2]


theorem index_lt (i k n m : Nat) (hi : i < n) (hk : k < m) : i * m + k < n * m := by
  calc i * m + k < i * m + m := Nat.add_lt_add_left hk _
    _ = (i + 1) * m := by ring
    _ ≤ n * m := Nat.mul_le_mul_right m hi

/-- The closed form of MatmulVectors on buffers that are long enough. -/
theorem MatmulVectors_eq (a b : List ℚ) (n m p : Nat)
    (ha : n * m ≤ a.length) (hb : m * p ≤ b.length) :
    MatmulVectors a b n m p = .ok ((List.range (n * p)).map (fun idx =>
      ∑ k in Finset.range m, a.getD ((idx / p) * m + k) 0 * b.getD (k * p + idx % p) 0)) := by
  unfold MatmulVectors
  have hrow : ∀ i, i < n → forEachIndex p (fun j =>
      (List.range m).foldlM (fun acc k => do
        let x ← rd a (i * m + k)
        let y ← rd b (j + k * p)
        pure (acc + x * y)) (0 : ℚ)) =
      .ok ((List.range p).map (fun j =>
        ∑ k in Finset.range m, a.getD (i * m + k) 0 * b.getD (k * p + j) 0)) := by
    intro i hi
    apply forEachIndex_ok
    intro j hj
    rw [foldlM_ok _ (fun acc k => acc + a.getD (i * m + k) 0 * b.getD (k * p + j) 0)]
    · rw [foldl_add_range]
    · intro k hk s
      have hk2 : k < m := List.mem_range.mp hk
      have h1 : i * m + k < a.length := Nat.lt_of_lt_of_le (index_lt i k n m hi hk2) ha
      have h2 : j + k * p < b.length := by
        have := index_lt k j m p hk2 hj
        omega
      rw [rd_ok a _ h1, rd_ok b _ h2, Nat.add_comm j (k * p)]
      rfl
  rw [mapE_ok _ _ (List.range n) (fun i hi => hrow i (List.mem_range.mp hi))]
  simp only [ok_bind, pure_eq_ok]
  rw [flatten_rows (fun i j => ∑ k in Finset.range m, a.getD (i * m + k) 0 * b.getD (k * p + j) 0)]

/-- The closed form of Transpose on a buffer that is long enough. -/
theorem Transpose_eq (a : List ℚ) (n m : Nat) (ha : n * m ≤ a.length) :
    Transpose a n m = .ok ((List.range (m * n)).map (fun idx =>
      a.getD ((idx % n) * m + idx / n) 0)) := by
  unfold Transpose
  have hcol : ∀ j, j < m → forEachIndex n (fun i => rd a (i * m + j)) =
      .ok ((List.range n).map (fun i => a.getD (i * m + j) 0)) := by
    intro j hj
    apply forEachIndex_ok
    intro i hi
    exact rd_ok a _ (Nat.lt_of_lt_of_le (index_lt i j n m hi hj) ha)
  rw [mapE_ok _ _ (List.range m) (fun j hj => hcol j (List.mem_range.mp hj))]
  simp only [ok_bind, pure_eq_ok]
  rw [flatten_rows (fun j i => a.getD (i * m + j) 0)]

theorem getD_map_range (F : Nat → ℚ) (n i : Nat) (h : i < n) :
    ((List.range n).map F).getD i 0 = F i := by
  rw [List.getD_eq_getElem _ _ (by simpa using h)]
  simp

theorem getElem?_map_range (F : Nat → ℚ) (n i : Nat) (h : i < n) :
    ((List.range n).map F)[i]? = some (F i) := by
  rw [List.getElem?_eq_getElem (by simpa using h)]
  simp

theorem div_mod_index (i j p : Nat) (hj : j < p) :
    (i * p + j) / p = i ∧ (i * p + j) % p = j := by
  have hp : 0 < p := Nat.lt_of_le_of_lt (Nat.zero_le _) hj
  constructor
  · rw [Nat.add_comm, Nat.add_mul_div_right _ _ hp, Nat.div_eq_of_lt hj, Nat.zero_add]
  · rw [Nat.add_comm, Nat.add_mul_mod_self_right, Nat.mod_eq_of_lt hj]


theorem blocks_eq (n k : Nat) (hk : 0 < k) : (n * k + k - 1) / k = n := by
  have h : n * k + k - 1 = (k - 1) + n * k := by omega
  rw [h, Nat.add_mul_div_right _ _ hk, Nat.div_eq_of_lt (by omega), Nat.zero_add]

/-- The closed form of the AddBias forward loop when the bias length divides
the buffer length. -/
theorem biasData_eq (a b : List ℚ) (n : Nat) (hk : 0 < b.length)
    (hlen : a.length = n * b.length) :
    biasData a b = .ok ((List.range a.length).map (fun i =>
      a.getD i 0 + b.getD (i % b.length) 0)) := by
  unfold biasData
  rw [if_neg (by omega), hlen, blocks_eq n b.length hk]
  have hrow : ∀ blk, blk < n → forEachIndex b.length (fun j => do
        let x ← rd a (blk * b.length + j)
        let y ← rd b j
        pure (x + y)) =
      .ok ((List.range b.length).map (fun j =>
        a.getD (blk * b.length + j) 0 + b.getD j 0)) := by
    intro blk hblk
    apply forEachIndex_ok
    intro j hj
    have h1 : blk * b.length + j < a.length := by
      rw [hlen]; exact index_lt blk j n b.length hblk hj
    rw [rd_ok a _ h1, rd_ok b _ hj]
    rfl
  rw [mapE_ok _ _ (List.range n) (fun i hi => hrow i (List.mem_range.mp hi))]
  simp only [ok_bind, pure_eq_ok]
  rw [flatten_rows (fun blk j => a.getD (blk * b.length + j) 0 + b.getD j 0)]
  congr 1
  apply List.map_congr_left
  intro idx _
  rw [Nat.div_add_mod']

/-- The closed form of the AddBias backward loop: column sums of the output
gradient. -/
theorem biasGrad_eq (g : List ℚ) (n k : Nat) (hk : 0 < k) (hg : n * k ≤ g.length) :
    biasGrad g (n * k) k = .ok ((List.range k).map (fun j =>
      ∑ r in Finset.range n, g.getD (r * k + j) 0)) := by
  unfold biasGrad
  rw [if_neg (by omega), blocks_eq n k hk]
  induction n with
  | zero => simp
  | succ n ih =>
    have hg2 : n * k ≤ g.length := by
      have : n * k ≤ (n + 1) * k := Nat.mul_le_mul_right k (Nat.le_succ n)
      omega
    rw [List.range_succ, List.foldlM_append, ih hg2]
    simp only [ok_bind, List.foldlM_cons, List.foldlM_nil, pure_eq_ok]
    rw [forEachIndex_ok k _ (fun j => (∑ r in Finset.range n, g.getD (r * k + j) 0) +
      g.getD (n * k + j) 0)]
    · simp [Finset.sum_range_succ]
    · intro j hj
      have h1 : j < ((List.range k).map (fun j =>
          ∑ r in Finset.range n, g.getD (r * k + j) 0)).length := by simpa using hj
      have h2 : n * k + j < g.length :=
        Nat.lt_of_lt_of_le (index_lt n j (n + 1) k (Nat.lt_succ_self n) hj) hg
      rw [rd_ok _ _ h1, rd_ok g _ h2, getD_map_range _ _ _ hj]
      rfl


theorem forEachIndex_zip_ok (f : ℚ → ℚ → Except Err ℚ) (g : ℚ → ℚ → ℚ) (a b : List ℚ)
    (hlen : a.length ≤ b.length) (h : ∀ q ∈ a.zip b, f q.1 q.2 = .ok (g q.1 q.2)) :
    forEachIndex a.length (fun i => do
      let x ← rd a i
      let y ← rd b i
      f x y) = .ok (List.zipWith g a b) := by
  induction a generalizing b with
  | nil => simp [forEachIndex]
  | cons x a ih =>
    cases b with
    | nil => simp at hlen
    | cons y b =>
      have hle : a.length ≤ b.length := by simpa using hlen
      have h0 : f x y = .ok (g x y) := h (x, y) (by simp)
      have := ih b hle (fun q hq => h q (by simp [hq]))
      simp only [List.length_cons, forEachIndex_succ, rd_cons_zero, rd_cons_succ, ok_bind, h0]
      rw [this]
      simp

theorem zipWith_map_self (g : ℚ → ℚ → ℚ) (h : ℚ → ℚ) (a : List ℚ) :
    List.zipWith g (a.map h) a = a.map (fun x => g (h x) x) := by
  induction a with
  | nil => rfl
  | cons x a ih => simp [ih]

theorem mem_zip_map_self (h : ℚ → ℚ) (a : List ℚ) (q : ℚ × ℚ) (hq : q ∈ (a.map h).zip a) :
    q.2 ∈ a ∧ q.1 = h q.2 := by
  induction a with
  | nil => simp at hq
  | cons x a ih =>
    simp only [List.map_cons, List.zip_cons_cons, List.mem_cons] at hq
    rcases hq with rfl | hq
    · simp
    · obtain ⟨h1, h2⟩ := ih hq
      exact ⟨List.mem_cons_of_mem _ h1, h2⟩

/-- One pass of the multiplying loop of PowInternal. -/
theorem pow_mul_step (a : List ℚ) (h : ℚ → ℚ) :
    forEachIndex (a.map h).length (fun i => do
      let d ← rd (a.map h) i
      let x ← rd a i
      pure (d * x)) = .ok (a.map (fun x => h x * x)) := by
  rw [← zipWith_map_self (fun d x => d * x) h a]
  exact forEachIndex_zip_ok (fun d x => pure (d * x)) (fun d x => d * x) (a.map h) a
    (by simp) (fun _ _ => rfl)

/-- One pass of the dividing loop of PowInternal, on non-zero elements. -/
theorem pow_div_step (a : List ℚ) (h : ℚ → ℚ) (hnz : ∀ x ∈ a, x ≠ 0) :
    forEachIndex (a.map h).length (fun i => do
      let d ← rd (a.map h) i
      let x ← rd a i
      fdiv d x) = .ok (a.map (fun x => h x / x)) := by
  rw [← zipWith_map_self (fun d x => d / x) h a]
  refine forEachIndex_zip_ok (fun d x => fdiv d x) (fun d x => d / x) (a.map h) a
    (by simp) ?_
  intro q hq
  exact fdiv_ok _ _ (hnz _ (mem_zip_map_self h a q hq).1)

theorem pow_mul_loop (a : List ℚ) (h : ℚ → ℚ) (c : Nat) :
    (List.range c).foldlM (fun data (_ : Nat) =>
      forEachIndex data.length (fun i => do
        let d ← rd data i
        let x ← rd a i
        pure (d * x))) (a.map h) = .ok (a.map (fun x => h x * x ^ c)) := by
  induction c with
  | zero => simp
  | succ c ih =>
    rw [List.range_succ, List.foldlM_append, ih]
    simp only [ok_bind, List.foldlM_cons, List.foldlM_nil, pure_eq_ok]
    have := pow_mul_step a (fun x => h x * x ^ c)
    simp only [pure_eq_ok] at this
    rw [this]
    simp [pow_succ, mul_assoc]

theorem pow_div_loop (a : List ℚ) (h : ℚ → ℚ) (c : Nat) (hnz : 0 < c → ∀ x ∈ a, x ≠ 0) :
    (List.range c).foldlM (fun data (_ : Nat) =>
      forEachIndex data.length (fun i => do
        let d ← rd data i
        let x ← rd a i
        fdiv d x)) (a.map h) = .ok (a.map (fun x => h x / x ^ c)) := by
  induction c with
  | zero => simp
  | succ c ih =>
    have hz : ∀ x ∈ a, x ≠ 0 := hnz (Nat.succ_pos c)
    rw [List.range_succ, List.foldlM_append, ih (fun _ => hz)]
    simp only [ok_bind, List.foldlM_cons, List.foldlM_nil, pure_eq_ok]
    rw [pow_div_step a (fun x => h x / x ^ c) hz]
    simp [pow_succ, div_div]

/-- The closed form of the forward loops of PowInternal: the integer power,
provided every element is non-zero when the exponent is negative. -/
theorem powData_eq (a : List ℚ) (e : Int) (hnz : e < 0 → ∀ x ∈ a, x ≠ 0) :
    powData a e = .ok (a.map (fun x => x ^ e)) := by
  unfold powData
  have hinit : List.replicate a.length (1 : ℚ) = a.map (fun _ => (1 : ℚ)) := by
    simp
  simp only [hinit]
  rw [pow_div_loop a (fun _ => 1) (-e).toNat (fun hc => hnz (by omega))]
  simp only [ok_bind]
  rw [pow_mul_loop a _ e.toNat]
  congr 1
  apply List.map_congr_left
  intro x _
  rcases Int.lt_or_le e 0 with he | he
  · have h1 : e.toNat = 0 := by omega
    have h2 : e = -(((-e).toNat : Nat) : Int) := by omega
    rw [h1, pow_zero, mul_one, one_div]
    conv_rhs => rw [h2]
    rw [zpow_neg, zpow_natCast]
  · have h1 : (-e).toNat = 0 := by omega
    have h2 : e = ((e.toNat : Nat) : Int) := by omega
    rw [h1, pow_zero, div_one, one_mul]
    conv_rhs => rw [h2]
    rw [zpow_natCast]


/-! ## Results of the kernels -/

theorem deref_lt (w : World) (p : Nat) (t : InternalTensor) (h : w.deref p = .ok t) :
    p < w.nodes.length := by
  unfold World.deref at h
  cases hq : w.nodes[p]? with
  | none => simp [hq] at h
  | some u => exact (List.getElem?_eq_some_iff.mp hq).1

/-- A kernel that ends in ApplyOperation on valid parents produces one new
node with the data and shape it passed. -/
theorem wrap_ApplyOperation (data : List ℚ) (shape : List Nat) (parents : List SharedTensor)
    (op : BackwardOp) (w : World) (hp : ∀ p ∈ parents, p < w.nodes.length) :
    Produces (wrap (ApplyOperation data shape parents op w)) w shape data := by
  obtain ⟨rg, leaf, -, -, h⟩ := ApplyOperation_spec data shape parents op w hp
  refine ⟨{ data_ := data, grad_ := [], shape_ := shape,
             parents_ := if rg then parents else [],
             backward_op_ := if rg then some op else none,
             is_leaf_ := leaf, requires_grad_ := rg }, ?_, rfl, rfl⟩
  rw [h]
  simp [wrap, Tensor.fromShared, World.deref]

theorem pair_valid (w : World) (a b : SharedTensor) (ta tb : InternalTensor)
    (ha : w.deref a = .ok ta) (hb : w.deref b = .ok tb) :
    ∀ p ∈ [a, b], p < w.nodes.length := by
  intro p hp
  simp only [List.mem_cons, List.mem_singleton, List.not_mem_nil, or_false] at hp
  rcases hp with rfl | rfl
  · exact deref_lt w _ _ ha
  · exact deref_lt w _ _ hb

theorem single_valid (w : World) (a : SharedTensor) (ta : InternalTensor)
    (ha : w.deref a = .ok ta) : ∀ p ∈ [a], p < w.nodes.length := by
  intro p hp
  simp only [List.mem_singleton] at hp
  subst hp
  exact deref_lt w _ _ ha

theorem AddManyOneInternal_produces (a b : SharedTensor) (w : World) (ta tb : InternalTensor)
    (ha : w.deref a = .ok ta) (hb : w.deref b = .ok tb) (h1 : 0 < tb.data_.length) :
    Produces (wrap (AddManyOneInternal a b w)) w ta.shape_
      (ta.data_.map (fun v => v + tb.data_.getD 0 0)) := by
  unfold AddManyOneInternal
  simp only [ha, hb, ok_bind, rd_ok _ _ h1, pure_eq_ok, mapE_ok_map]
  exact wrap_ApplyOperation _ _ _ _ w (pair_valid w a b ta tb ha hb)


theorem AddManyManyInternal_produces (a b : SharedTensor) (w : World) (ta tb : InternalTensor)
    (ha : w.deref a = .ok ta) (hb : w.deref b = .ok tb)
    (hlen : ta.data_.length ≤ tb.data_.length) :
    Produces (wrap (AddManyManyInternal a b w)) w ta.shape_
      (List.zipWith (fun u v => u + v) ta.data_ tb.data_) := by
  unfold AddManyManyInternal
  simp only [ha, hb, ok_bind, pure_eq_ok,
    forEachIndex_zip (fun u v => u + v) ta.data_ tb.data_ hlen]
  exact wrap_ApplyOperation _ _ _ _ w (pair_valid w a b ta tb ha hb)

/-- The closed form of the AddBias forward loop when the bias length divides
the buffer length (an empty bias with an empty buffer included). -/
theorem biasData_dvd (a b : List ℚ) (h : b.length ∣ a.length) :
    biasData a b = .ok ((List.range a.length).map (fun i =>
      a.getD i 0 + b.getD (i % b.length) 0)) := by
  rcases Nat.eq_zero_or_pos b.length with h0 | hpos
  · have ha : a.length = 0 := by
      rw [h0] at h
      exact Nat.eq_zero_of_zero_dvd h
    simp [biasData, h0, ha]
  · obtain ⟨n, hn⟩ := h
    exact biasData_eq a b n hpos (by rw [hn, Nat.mul_comm])

theorem AddBiasInternal_produces (a b : SharedTensor) (w : World) (ta tb : InternalTensor)
    (ha : w.deref a = .ok ta) (hb : w.deref b = .ok tb)
    (hdvd : tb.data_.length ∣ ta.data_.length) :
    Produces (wrap (AddBiasInternal a b w)) w ta.shape_
      ((List.range ta.data_.length).map (fun i =>
        ta.data_.getD i 0 + tb.data_.getD (i % tb.data_.length) 0)) := by
  unfold AddBiasInternal
  simp only [ha, hb, ok_bind, biasData_dvd _ _ hdvd]
  exact wrap_ApplyOperation _ _ _ _ w (pair_valid w a b ta tb ha hb)

/-- C11 (addition dispatch and forward values).  For operands `a` (left) and
`b` (right) of operator+ that are nodes of the store: if `b` has one element
the result has the shape of `a` and element `i` is `a[i] + b[0]`; else if `a`
has one element the result has the shape of `b` and element `i` is
`b[i] + a[0]`; else if the dimension counts differ and the length `L` of the
lower-rank operand divides the length of the higher-rank one, the result has
the shape of the higher-rank operand and element `i` is `hi[i] + lo[i mod L]`;
otherwise, with equal dimension counts and equal lengths, the result has the
shape of `a` and element `i` is `a[i] + b[i]`. -/
theorem add_dispatch (x other : Tensor) (w : World) (ta tb : InternalTensor)
    (hx : w.deref x.tensor_ = .ok ta) (ho : w.deref other.tensor_ = .ok tb) :
    (tb.data_.length = 1 →
      Produces (x.add other w) w ta.shape_
        (ta.data_.map (fun v => v + tb.data_.getD 0 0))) ∧
    (tb.data_.length ≠ 1 → ta.data_.length = 1 →
      Produces (x.add other w) w tb.shape_
        (tb.data_.map (fun v => v + ta.data_.getD 0 0))) ∧
    (tb.data_.length ≠ 1 → ta.data_.length ≠ 1 → tb.shape_.length < ta.shape_.length →
      tb.data_.length ∣ ta.data_.length →
      Produces (x.add other w) w ta.shape_
        ((List.range ta.data_.length).map (fun i =>
          ta.data_.getD i 0 + tb.data_.getD (i % tb.data_.length) 0))) ∧
    (tb.data_.length ≠ 1 → ta.data_.length ≠ 1 → ta.shape_.length < tb.shape_.length →
      ta.data_.length ∣ tb.data_.length →
      Produces (x.add other w) w tb.shape_
        ((List.range tb.data_.length).map (fun i =>
          tb.data_.getD i 0 + ta.data_.getD (i % ta.data_.length) 0))) ∧
    (tb.data_.length ≠ 1 → ta.data_.length ≠ 1 → ta.shape_.length = tb.shape_.length →
      ta.data_.length = tb.data_.length →
      Produces (x.add other w) w ta.shape_
        (List.zipWith (fun u v => u + v) ta.data_ tb.data_)) := by
  have hadd : x.add other w =
      (if tb.data_.length = 1 then wrap (AddManyOneInternal x.tensor_ other.tensor_ w)
       else if ta.data_.length = 1 then wrap (AddManyOneInternal other.tensor_ x.tensor_ w)
       else if ta.shape_.length > tb.shape_.length then
         wrap (AddBiasInternal x.tensor_ other.tensor_ w)
       else if ta.shape_.length < tb.shape_.length then
         wrap (AddBiasInternal other.tensor_ x.tensor_ w)
       else wrap (AddManyManyInternal x.tensor_ other.tensor_ w)) := by
    simp only [Tensor.add, Tensor.Size, Tensor.NumDimensions, hx, ho, ok_bind, pure_eq_ok]
  refine ⟨?_, ?_, ?_, ?_, ?_⟩
  · intro h1
    rw [hadd, if_pos h1]
    exact AddManyOneInternal_produces _ _ w ta tb hx ho (by omega)
  · intro h1 h2
    rw [hadd, if_neg h1, if_pos h2]
    exact AddManyOneInternal_produces _ _ w tb ta ho hx (by omega)
  · intro h1 h2 h3 h4
    rw [hadd, if_neg h1, if_neg h2, if_pos h3]
    exact AddBiasInternal_produces _ _ w ta tb hx ho h4
  · intro h1 h2 h3 h4
    rw [hadd, if_neg h1, if_neg h2, if_neg (by omega), if_pos h3]
    exact AddBiasInternal_produces _ _ w tb ta ho hx h4
  · intro h1 h2 h3 h4
    rw [hadd, if_neg h1, if_neg h2, if_neg (by omega), if_neg (by omega)]
    exact AddManyManyInternal_produces _ _ w ta tb hx ho (by omega)


/-! ## Subtraction -/

theorem deref_append (w : World) (p : Nat) (t : InternalTensor) (extra : List InternalTensor)
    (h : w.deref p = .ok t) :
    World.deref { nodes := w.nodes ++ extra, use_grad_ := w.use_grad_ } p = .ok t := by
  have hlt := deref_lt w p t h
  unfold World.deref at h ⊢
  simp only [List.getElem?_append_left hlt]
  exact h

/-- What OppositeInternal returns on a valid pointer: two new nodes, the
constant -1 and the negated operand. -/
theorem OppositeInternal_eq (o : SharedTensor) (w : World) (tb : InternalTensor)
    (ho : w.deref o = .ok tb) :
    ∃ nb : InternalTensor,
      OppositeInternal o w = .ok (w.nodes.length + 1,
        { nodes := w.nodes ++ [InternalTensor.new [-1] [] false false, nb],
          use_grad_ := w.use_grad_ }) ∧
      nb.shape_ = tb.shape_ ∧ nb.data_ = tb.data_.map (fun v => v * -1) := by
  have ho2 := deref_append w o tb [InternalTensor.new [-1] [] false false] ho
  have hc : World.deref (World.mk (w.nodes ++ [InternalTensor.new [-1] [] false false])
      w.use_grad_) w.nodes.length = .ok (InternalTensor.new [-1] [] false false) := by
    simp [World.deref]
  obtain ⟨rg, leaf, -, -, h⟩ := ApplyOperation_spec
    (tb.data_.map (fun v => v * -1)) tb.shape_ [o, w.nodes.length]
    (.MultiplyManyOne o w.nodes.length)
    (World.mk (w.nodes ++ [InternalTensor.new [-1] [] false false]) w.use_grad_)
    (pair_valid _ _ _ _ _ ho2 hc)
  refine ⟨{ data_ := tb.data_.map (fun v => v * -1), grad_ := [], shape_ := tb.shape_,
             parents_ := if rg then [o, w.nodes.length] else [],
             backward_op_ := if rg then some (.MultiplyManyOne o w.nodes.length) else none,
             is_leaf_ := leaf, requires_grad_ := rg }, ?_, rfl, rfl⟩
  unfold OppositeInternal MultiplyManyOneInternal
  simp only [InternalTensor.new] at ho2 hc h ⊢
  simp only [World.alloc, ho2, hc, ok_bind, rd_cons_zero, pure_eq_ok, mapE_ok_map]
  rw [h]
  simp

/-- C12, amended.  For operands that are nodes of the store, when an operand
has one element or the dimension counts are equal, `a - b` is the same
computation as `a + Negate(b)`: the same store, hence the same shape and
data. -/
theorem sub_eq_addNegated (x other : Tensor) (w : World) (ta tb : InternalTensor)
    (hx : w.deref x.tensor_ = .ok ta) (ho : w.deref other.tensor_ = .ok tb)
    (hcase : tb.data_.length = 1 ∨ ta.data_.length = 1 ∨
      ta.shape_.length = tb.shape_.length) :
    x.sub other w = x.addNegated other w := by
  obtain ⟨nb, hopp, hshape, hdata⟩ := OppositeInternal_eq other.tensor_ w tb ho
  have hx2 := deref_append w x.tensor_ ta [InternalTensor.new [-1] [] false false, nb] hx
  have hnb : World.deref (World.mk (w.nodes ++ [InternalTensor.new [-1] [] false false, nb])
      w.use_grad_) (w.nodes.length + 1) = .ok nb := by
    have h1 : (w.nodes ++ [InternalTensor.new [-1] [] false false, nb])[w.nodes.length + 1]? =
        some nb := by
      rw [List.getElem?_append_right (by omega)]
      simp
    simp [World.deref, h1]
  have hlen : nb.data_.length = tb.data_.length := by simp [hdata]
  have hdim : nb.shape_.length = tb.shape_.length := by rw [hshape]
  simp only [Tensor.sub, Tensor.addNegated, Tensor.add, Tensor.Size, Tensor.NumDimensions,
    hx, ho, hopp, ok_bind, pure_eq_ok, wrap, Tensor.fromShared, hnb, hx2, hlen, hdim]
  by_cases h1 : tb.data_.length = 1
  · simp only [h1, if_true]
  · by_cases h2 : ta.data_.length = 1
    · simp only [h1, h2, if_true, if_false]
    · have h3 : ta.shape_.length = tb.shape_.length := by
        rcases hcase with h | h | h
        · exact absurd h h1
        · exact absurd h h2
        · exact h
      simp only [h1, h2, h3, if_false, gt_iff_lt, lt_self_iff_false]


/-- C12, counterexample.  For a rank-1 `a = [1, 2]` and `b` of shape (2,2)
with data `[10, 20, 30, 40]`, `a + Negate(b)` takes the leading-dims bias rule
(shape (2,2)), while `a - b` takes the elementwise rule on the first two
elements (shape (2)): operator- has no bias branch. -/
theorem sub_bias_counterexample :
    resultOf (Tensor.sub ⟨0, [1]⟩ ⟨1, [2, 1]⟩ rank_store) = .ok ([2], [-9, -18]) ∧
    resultOf (Tensor.addNegated ⟨0, [1]⟩ ⟨1, [2, 1]⟩ rank_store) =
      .ok ([2, 2], [-9, -18, -29, -38]) := by
  constructor
  · simp [rank_store, resultOf, CalculateStrides, stridePushes,
    Tensor.sub.eq_1 _ _ ⟨_, _⟩, Tensor.addNegated.eq_1 _ _ ⟨_, _⟩, Tensor.add.eq_1 _ _ ⟨_, _⟩,
    Tensor.Size.eq_1 _ ⟨_, _⟩, Tensor.NumDimensions.eq_1 _ ⟨_, _⟩, wrap,
    Tensor.fromShared.eq_1 _ ⟨_, _⟩, OppositeInternal.eq_1 _ ⟨_, _⟩,
    MultiplyManyOneInternal.eq_1 _ _ ⟨_, _⟩, AddManyManyInternal.eq_1 _ _ ⟨_, _⟩,
    AddManyOneInternal.eq_1 _ _ ⟨_, _⟩, AddBiasInternal.eq_1 _ _ ⟨_, _⟩, biasData,
    ApplyOperation.eq_1 _ _ _ _ ⟨_, _⟩, InternalTensor.new,
    World.deref.eq_1 ⟨_, _⟩, World.alloc.eq_1 ⟨_, _⟩, forEachIndex, List.range_succ]
    norm_num
  · simp [rank_store, resultOf, CalculateStrides, stridePushes,
    Tensor.sub.eq_1 _ _ ⟨_, _⟩, Tensor.addNegated.eq_1 _ _ ⟨_, _⟩, Tensor.add.eq_1 _ _ ⟨_, _⟩,
    Tensor.Size.eq_1 _ ⟨_, _⟩, Tensor.NumDimensions.eq_1 _ ⟨_, _⟩, wrap,
    Tensor.fromShared.eq_1 _ ⟨_, _⟩, OppositeInternal.eq_1 _ ⟨_, _⟩,
    MultiplyManyOneInternal.eq_1 _ _ ⟨_, _⟩, AddManyManyInternal.eq_1 _ _ ⟨_, _⟩,
    AddManyOneInternal.eq_1 _ _ ⟨_, _⟩, AddBiasInternal.eq_1 _ _ ⟨_, _⟩, biasData,
    ApplyOperation.eq_1 _ _ _ _ ⟨_, _⟩, InternalTensor.new,
    World.deref.eq_1 ⟨_, _⟩, World.alloc.eq_1 ⟨_, _⟩, forEachIndex, List.range_succ]
    norm_num

/-- An instance of the amended C12: equal dimension counts (a tensor minus
itself), with the value both sides compute. -/
theorem sub_eq_addNegated_witness :
    rank_store.deref 1 = .ok (InternalTensor.new [10, 20, 30, 40] [2, 2] false true) ∧
    Tensor.sub ⟨1, [2, 1]⟩ ⟨1, [2, 1]⟩ rank_store =
      Tensor.addNegated ⟨1, [2, 1]⟩ ⟨1, [2, 1]⟩ rank_store ∧
    resultOf (Tensor.sub ⟨1, [2, 1]⟩ ⟨1, [2, 1]⟩ rank_store) = .ok ([2, 2], [0, 0, 0, 0]) := by
  refine ⟨by simp [rank_store, World.deref], ?_, ?_⟩
  · exact sub_eq_addNegated ⟨1, [2, 1]⟩ ⟨1, [2, 1]⟩ rank_store
      (InternalTensor.new [10, 20, 30, 40] [2, 2] false true)
      (InternalTensor.new [10, 20, 30, 40] [2, 2] false true)
      (by simp [rank_store, World.deref]) (by simp [rank_store, World.deref])
      (Or.inr (Or.inr rfl))
  · simp [rank_store, resultOf, CalculateStrides, stridePushes,
    Tensor.sub.eq_1 _ _ ⟨_, _⟩, Tensor.addNegated.eq_1 _ _ ⟨_, _⟩, Tensor.add.eq_1 _ _ ⟨_, _⟩,
    Tensor.Size.eq_1 _ ⟨_, _⟩, Tensor.NumDimensions.eq_1 _ ⟨_, _⟩, wrap,
    Tensor.fromShared.eq_1 _ ⟨_, _⟩, OppositeInternal.eq_1 _ ⟨_, _⟩,
    MultiplyManyOneInternal.eq_1 _ _ ⟨_, _⟩, AddManyManyInternal.eq_1 _ _ ⟨_, _⟩,
    AddManyOneInternal.eq_1 _ _ ⟨_, _⟩, AddBiasInternal.eq_1 _ _ ⟨_, _⟩, biasData,
    ApplyOperation.eq_1 _ _ _ _ ⟨_, _⟩, InternalTensor.new,
    World.deref.eq_1 ⟨_, _⟩, World.alloc.eq_1 ⟨_, _⟩, forEachIndex, List.range_succ]

/-- An instance of C11: a tensor of shape (2,2) plus a rank-1 tensor of
length 2 takes the bias rule. -/
theorem add_dispatch_witness :
    rank_store.deref 1 = .ok (InternalTensor.new [10, 20, 30, 40] [2, 2] false true) ∧
    rank_store.deref 0 = .ok (InternalTensor.new [1, 2] [2] false true) ∧
    Produces (Tensor.add ⟨1, [2, 1]⟩ ⟨0, [1]⟩ rank_store) rank_store [2, 2]
      ((List.range 4).map (fun i =>
        ([10, 20, 30, 40] : List ℚ).getD i 0 + ([1, 2] : List ℚ).getD (i % 2) 0)) :=
  ⟨by simp [rank_store, World.deref], by simp [rank_store, World.deref],
   (add_dispatch ⟨1, [2, 1]⟩ ⟨0, [1]⟩ rank_store
      (InternalTensor.new [10, 20, 30, 40] [2, 2] false true)
      (InternalTensor.new [1, 2] [2] false true)
      (by simp [rank_store, World.deref]) (by simp [rank_store, World.deref])).2.2.1
      (by simp [InternalTensor.new]) (by simp [InternalTensor.new])
      (by simp [InternalTensor.new]) (by simp [InternalTensor.new]; decide)⟩

/-! ## Matrix multiplication -/

/-- What MatmulInternal returns when the buffers are long enough for the
dimensions read from the shapes: `n` and `m` from the left operand and `p`
from the right operand, whatever the row count of the right operand. -/
theorem MatmulInternal_produces (a b : SharedTensor) (w : World) (ta tb : InternalTensor)
    (n m m2 p : Nat) (ha : w.deref a = .ok ta) (hb : w.deref b = .ok tb)
    (hsa : ta.shape_ = [n, m]) (hsb : tb.shape_ = [m2, p])
    (hla : n * m ≤ ta.data_.length) (hlb : m * p ≤ tb.data_.length) :
    Produces (wrap (MatmulInternal a b w)) w [n, p]
      ((List.range (n * p)).map (fun idx =>
        ∑ k in Finset.range m,
          ta.data_.getD ((idx / p) * m + k) 0 * tb.data_.getD (k * p + idx % p) 0)) := by
  unfold MatmulInternal
  simp only [ha, hb, hsa, hsb, ok_bind, rdNat_cons_zero, rdNat_cons_succ,
    MatmulVectors_eq _ _ n m p hla hlb]
  exact wrap_ApplyOperation _ _ _ _ w (pair_valid w a b ta tb ha hb)

/-- C14 (matrix multiply forward).  For `A` of shape (n,m) and `B` of shape
(m,p) with data lengths `n*m` and `m*p`, `A.Matmul(B)` produces a node of shape
(n,p) whose data has length `n*p` and whose element at flat index `i*p + j` is
the sum over `k < m` of `A[i*m + k] * B[k*p + j]`. -/
theorem matmul_forward (x other : Tensor) (w : World) (ta tb : InternalTensor)
    (n m p : Nat) (hx : w.deref x.tensor_ = .ok ta) (ho : w.deref other.tensor_ = .ok tb)
    (hsa : ta.shape_ = [n, m]) (hsb : tb.shape_ = [m, p])
    (hla : ta.data_.length = n * m) (hlb : tb.data_.length = m * p) :
    ∃ data : List ℚ, Produces (x.Matmul other w) w [n, p] data ∧ data.length = n * p ∧
      ∀ i j, i < n → j < p → data[i * p + j]? =
        some (∑ k in Finset.range m, ta.data_.getD (i * m + k) 0 * tb.data_.getD (k * p + j) 0) := by
  refine ⟨_, MatmulInternal_produces _ _ w ta tb n m m p hx ho hsa hsb (by omega) (by omega),
    by simp, ?_⟩
  intro i j hi hj
  rw [getElem?_map_range _ _ _ (index_lt i j n p hi hj)]
  obtain ⟨h1, h2⟩ := div_mod_index i j p hj
  rw [h1, h2]

/-- C16, counterexample.  `A` of shape (1,1) times `B` of shape (2,1): the
inner dimensions differ, and the call returns a tensor of shape (1,1) with
data `[6]` instead of an error. -/
theorem matmul_mismatch_counterexample :
    resultOf (Tensor.Matmul ⟨0, [1, 1]⟩ ⟨1, [1, 1]⟩ mismatch_store) = .ok ([1, 1], [6]) := by
  simp [mismatch_store, resultOf, Tensor.Matmul.eq_1 _ _ ⟨_, _⟩, MatmulInternal.eq_1 _ _ ⟨_, _⟩,
    MatmulVectors, rdNat, wrap, Tensor.fromShared.eq_1 _ ⟨_, _⟩, CalculateStrides, stridePushes,
    ApplyOperation.eq_1 _ _ _ _ ⟨_, _⟩, InternalTensor.new,
    World.deref.eq_1 ⟨_, _⟩, World.alloc.eq_1 ⟨_, _⟩, forEachIndex, List.range_succ]
  norm_num

/-- C16, amended.  Matmul does not compare the inner dimensions: for `A` of
shape (n,m) and `B` of shape (m2,p) with at least as many rows as `A` has
columns (`m ≤ m2`, equal or not), it returns a tensor of shape (n,p) computed
from the first `m` rows of `B`. -/
theorem matmul_unchecked (x other : Tensor) (w : World) (ta tb : InternalTensor)
    (n m m2 p : Nat) (hx : w.deref x.tensor_ = .ok ta) (ho : w.deref other.tensor_ = .ok tb)
    (hsa : ta.shape_ = [n, m]) (hsb : tb.shape_ = [m2, p])
    (hla : ta.data_.length = n * m) (hlb : tb.data_.length = m2 * p) (hm : m ≤ m2) :
    ∃ data : List ℚ, Produces (x.Matmul other w) w [n, p] data ∧ data.length = n * p ∧
      ∀ i j, i < n → j < p → data[i * p + j]? =
        some (∑ k in Finset.range m, ta.data_.getD (i * m + k) 0 * tb.data_.getD (k * p + j) 0) := by
  have hlb2 : m * p ≤ tb.data_.length := by
    rw [hlb]; exact Nat.mul_le_mul_right p hm
  refine ⟨_, MatmulInternal_produces _ _ w ta tb n m m2 p hx ho hsa hsb (by omega) hlb2,
    by simp, ?_⟩
  intro i j hi hj
  rw [getElem?_map_range _ _ _ (index_lt i j n p hi hj)]
  obtain ⟨h1, h2⟩ := div_mod_index i j p hj
  rw [h1, h2]


/-! ## Backward rules as gradient updates -/

theorem UpdateGradVec_frame (t t1 : InternalTensor) (g : List ℚ)
    (h : t.UpdateGradVec g = .ok t1) : t1 = { t with grad_ := t1.grad_ } := by
  unfold InternalTensor.UpdateGradVec at h
  split at h
  · simp only [Except.ok.injEq] at h
    subst h
    rfl
  · simp only [bind_eq_ok, pure_eq_ok, Except.ok.injEq] at h
    obtain ⟨a, -, rfl⟩ := h
    rfl

theorem deref_store (w : World) (p q : SharedTensor) (t : InternalTensor) :
    (w.store p t).deref q =
      if q = p ∧ p < w.nodes.length then .ok t else w.deref q := by
  unfold World.store World.deref
  simp only [List.getElem?_set]
  by_cases h : p = q
  · subst h
    by_cases h2 : p < w.nodes.length
    · simp [h2]
    · simp [h2, List.getElem?_eq_none (Nat.le_of_not_lt h2)]
  · have h3 : ¬ q = p := fun e => h e.symm
    simp [h, h3]

/-- A gradient update leaves every node's data, shape and flags in place, and
every node other than its target untouched. -/
theorem pushGrad_deref (p : SharedTensor) (contrib : World → Except Err (List ℚ))
    (w w1 : World) (h : pushGrad p contrib w = .ok w1) (q : SharedTensor)
    (t : InternalTensor) (hq : w.deref q = .ok t) :
    ∃ t1, w1.deref q = .ok t1 ∧ t1 = { t with grad_ := t1.grad_ } ∧ (q ≠ p → t1 = t) := by
  unfold pushGrad at h
  simp only [bind_eq_ok] at h
  obtain ⟨tp, htp, h⟩ := h
  split at h
  · simp only [bind_eq_ok, pure_eq_ok, Except.ok.injEq] at h
    obtain ⟨g, -, t1, ht1, rfl⟩ := h
    rw [deref_store]
    by_cases hqp : q = p
    · subst hqp
      rw [htp] at hq
      simp only [Except.ok.injEq] at hq
      subst hq
      refine ⟨t1, ?_, UpdateGradVec_frame _ _ _ ht1, fun hne => absurd rfl hne⟩
      simp [deref_lt w q _ htp]
    · exact ⟨t, by simp [hqp, hq], rfl, fun _ => rfl⟩
  · simp only [pure_eq_ok, Except.ok.injEq] at h
    subst h
    exact ⟨t, hq, rfl, fun _ => rfl⟩

theorem pushGrad_congr (p : SharedTensor) (c1 c2 : World → Except Err (List ℚ)) (w : World)
    (h : c1 w = c2 w) : pushGrad p c1 w = pushGrad p c2 w := by
  unfold pushGrad
  rw [h]

theorem bind_congr_ok {α β : Type} (x : Except Err α) (f g : α → Except Err β)
    (h : ∀ a, x = .ok a → f a = g a) : (x >>= f) = (x >>= g) := by
  cases x with
  | error e => rfl
  | ok a => exact h a rfl

/-- Two consecutive gradient updates whose contributions are known: the
second contribution is evaluated in the store the first update leaves. -/
theorem pushGrad_pair (a b : SharedTensor) (ca cb : World → Except Err (List ℚ))
    (CA CB : List ℚ) (w : World) (h1 : ca w = .ok CA)
    (h2 : ∀ w1, pushGrad a ca w = .ok w1 → cb w1 = .ok CB) :
    (pushGrad a ca w >>= pushGrad b cb) =
      (pushGrad a (fun _ => .ok CA) w >>= pushGrad b (fun _ => .ok CB)) := by
  rw [← pushGrad_congr a ca (fun _ => .ok CA) w h1]
  apply bind_congr_ok
  intro w1 hw1
  exact pushGrad_congr b cb (fun _ => .ok CB) w1 (h2 w1 hw1)


/-- C15 (matrix multiply backward).  For `A` of shape (n,m) and `B` of shape
(m,p) with data lengths `n*m` and `m*p`, and an output gradient `g` of length
`n*p` on the result node, the backward rule is exactly `A.UpdateGrad(CA)`
followed by `B.UpdateGrad(CB)` (each when the operand requires gradients),
where `CA` has length `n*m` with entry `(i,k)` equal to the sum over `j < p`
of `g[i*p + j] * B[k*p + j]`, and `CB` has length `m*p` with entry `(k,j)`
equal to the sum over `i < n` of `A[i*m + k] * g[i*p + j]`. -/
theorem matmul_backward (a b res : SharedTensor) (w : World) (ta tb r : InternalTensor)
    (n m p : Nat) (ha : w.deref a = .ok ta) (hb : w.deref b = .ok tb)
    (hr : w.deref res = .ok r) (hne : res ≠ a)
    (hsa : ta.shape_ = [n, m]) (hsb : tb.shape_ = [m, p])
    (hla : ta.data_.length = n * m) (hlb : tb.data_.length = m * p)
    (hg : r.grad_.length = n * p) :
    ∃ CA CB : List ℚ,
      (BackwardOp.Matmul a b).run res w =
        (pushGrad a (fun _ => .ok CA) w >>= pushGrad b (fun _ => .ok CB)) ∧
      CA.length = n * m ∧
      (∀ i k, i < n → k < m → CA[i * m + k]? =
        some (∑ j in Finset.range p, r.grad_.getD (i * p + j) 0 * tb.data_.getD (k * p + j) 0)) ∧
      CB.length = m * p ∧
      (∀ k j, k < m → j < p → CB[k * p + j]? =
        some (∑ i in Finset.range n, ta.data_.getD (i * m + k) 0 * r.grad_.getD (i * p + j) 0)) := by
  have hBt := Transpose_eq tb.data_ m p (by omega)
  have hAt := Transpose_eq ta.data_ n m (by omega)
  have hCA := MatmulVectors_eq r.grad_
    ((List.range (p * m)).map (fun idx => tb.data_.getD ((idx % m) * p + idx / m) 0))
    n p m (by omega) (by simp)
  have hCB := MatmulVectors_eq
    ((List.range (m * n)).map (fun idx => ta.data_.getD ((idx % n) * m + idx / n) 0))
    r.grad_ m n p (by simp) (by omega)
  refine ⟨(List.range (n * m)).map (fun idx =>
      ∑ k in Finset.range p, r.grad_.getD ((idx / m) * p + k) 0 *
        ((List.range (p * m)).map (fun idx =>
          tb.data_.getD ((idx % m) * p + idx / m) 0)).getD (k * m + idx % m) 0),
    (List.range (m * p)).map (fun idx =>
      ∑ k in Finset.range n,
        ((List.range (m * n)).map (fun idx =>
          ta.data_.getD ((idx % n) * m + idx / n) 0)).getD ((idx / p) * n + k) 0 *
        r.grad_.getD (k * p + idx % p) 0), ?_, ?_, ?_, ?_, ?_⟩
  · simp only [BackwardOp.run, ha, hb, hsa, hsb, ok_bind, rdNat_cons_zero, rdNat_cons_succ]
    apply pushGrad_pair _ _ _ _ _ _ w
    · simp only [hr, hb, ok_bind, hBt]
      exact hCA
    · intro w1 hw1
      obtain ⟨r1, hr1, -, hr1eq⟩ := pushGrad_deref _ _ _ _ hw1 res r hr
      obtain ⟨ta1, hta1, hta1eq, -⟩ := pushGrad_deref _ _ _ _ hw1 a ta ha
      have hd : ta1.data_ = ta.data_ := by rw [hta1eq]
      rw [hr1eq hne] at hr1
      simp only [hr1, hta1, ok_bind, hd, hAt]
      exact hCB
  · simp
  · intro i k hi hk
    rw [getElem?_map_range _ _ _ (index_lt i k n m hi hk)]
    obtain ⟨h1, h2⟩ := div_mod_index i k m hk
    rw [h1, h2]
    congr 1
    apply Finset.sum_congr rfl
    intro j hj
    have hj2 : j < p := Finset.mem_range.mp hj
    rw [getD_map_range _ _ _ (index_lt j k p m hj2 hk)]
    obtain ⟨h3, h4⟩ := div_mod_index j k m hk
    rw [h3, h4]
  · simp
  · intro k j hk hj
    rw [getElem?_map_range _ _ _ (index_lt k j m p hk hj)]
    obtain ⟨h1, h2⟩ := div_mod_index k j p hj
    rw [h1, h2]
    congr 1
    apply Finset.sum_congr rfl
    intro i hi
    have hi2 : i < n := Finset.mem_range.mp hi
    rw [getD_map_range _ _ _ (index_lt k i m n hk hi2)]
    obtain ⟨h3, h4⟩ := div_mod_index k i n hi2
    rw [h3, h4]


/-! ## Bias broadcast -/

theorem colsum_ones (n k : Nat) :
    (List.range k).map (fun j =>
      ∑ r in Finset.range n, (List.replicate (n * k) (1 : ℚ)).getD (r * k + j) 0) =
      List.replicate k (n : ℚ) := by
  rw [show List.replicate k (n : ℚ) = (List.range k).map (fun _ => (n : ℚ)) by simp]
  apply List.map_congr_left
  intro j hj
  have hj2 : j < k := List.mem_range.mp hj
  have : ∀ r ∈ Finset.range n, (List.replicate (n * k) (1 : ℚ)).getD (r * k + j) 0 = 1 := by
    intro r hr
    have h := index_lt r j n k (Finset.mem_range.mp hr) hj2
    rw [List.getD_eq_getElem _ _ (by simpa using h)]
    simp
  rw [Finset.sum_congr rfl this]
  simp

set_option maxHeartbeats 1000000 in
theorem bias_many (as bs g : List ℚ) (n k fuel : Nat) (hn : 1 ≤ n) (hk : 2 ≤ k)
    (has : as.length = n * k) (hbs : bs.length = k) (hg : g.length = n * k) :
    ∃ a b z w, bias_graph as bs n k = .ok (a, b, z, w) ∧
      (∃ w1, runRule z g w = .ok w1 ∧ a.Grad w1 = .ok g ∧
        b.Grad w1 = .ok ((List.range k).map (fun j =>
          ∑ r in Finset.range n, g.getD (r * k + j) 0))) ∧
      (∃ w2, z.Backward (fuel + 2) false w = .ok w2 ∧
        b.Grad w2 = .ok (List.replicate k (n : ℚ))) := by
  have h1 : ¬ k = 1 := by omega
  have h2 : ¬ n * k = 1 := by
    have : 2 ≤ n * k := by nlinarith
    omega
  have hd := biasData_eq as bs n (by omega) (by rw [has, hbs])
  have hbg := biasGrad_eq g n k (by omega) (by omega)
  have hbo := biasGrad_eq (List.replicate (n * k) (1 : ℚ)) n k (by omega) (by simp)
  rw [colsum_ones] at hbo
  have hgraph : bias_graph as bs n k = .ok
      (⟨0, [k % 2 ^ 64, 1]⟩, ⟨1, [1]⟩, ⟨2, [k % 2 ^ 64, 1]⟩,
       ⟨[⟨as, [], [n, k], [], none, true, true⟩, ⟨bs, [], [k], [], none, true, true⟩,
         ⟨(List.range as.length).map (fun i => as.getD i 0 + bs.getD (i % bs.length) 0), [],
           [n, k], [0, 1], some (.AddBias 0 1), true, true⟩], true⟩) := by
    simp [bias_graph, AddBiasInternal.eq_1 _ _ ⟨_, _⟩, hd, has, hbs, h1, h2, World.init, CalculateStrides, stridePushes,
    Tensor.fromValuesShape.eq_1 _ _ _ ⟨_, _⟩, Tensor.fromValues.eq_1 _ _ ⟨_, _⟩,
    Tensor.add.eq_1 _ _ ⟨_, _⟩, Tensor.Size.eq_1 _ ⟨_, _⟩,
    Tensor.NumDimensions.eq_1 _ ⟨_, _⟩, wrap, Tensor.fromShared.eq_1 _ ⟨_, _⟩,
    ApplyOperation.eq_1 _ _ _ _ ⟨_, _⟩, InternalTensor.new,
    Tensor.Backward.eq_1 _ _ _ ⟨_, _⟩, Tensor.Grad.eq_1 _ ⟨_, _⟩, runRule.eq_1 _ _ ⟨_, _⟩,
    World.deref.eq_1 ⟨_, _⟩, World.store.eq_1 ⟨_, _⟩, World.alloc.eq_1 ⟨_, _⟩,
    InternalTensor.SetGrad, InternalTensor.SetGradVec, InternalTensor.Size,
    InternalTensor.Backward.eq_2 _ _ ⟨_, _⟩,
    pushGrad.eq_1 _ _ ⟨_, _⟩, InternalTensor.RequiresGrad, InternalTensor.UpdateGradVec]
  refine ⟨_, _, _, _, hgraph, ?_, ?_⟩
  · simp [BackwardOp.run.eq_3 _ ⟨_, _⟩, has, hbs, hbg, World.init, CalculateStrides, stridePushes,
    Tensor.fromValuesShape.eq_1 _ _ _ ⟨_, _⟩, Tensor.fromValues.eq_1 _ _ ⟨_, _⟩,
    Tensor.add.eq_1 _ _ ⟨_, _⟩, Tensor.Size.eq_1 _ ⟨_, _⟩,
    Tensor.NumDimensions.eq_1 _ ⟨_, _⟩, wrap, Tensor.fromShared.eq_1 _ ⟨_, _⟩,
    ApplyOperation.eq_1 _ _ _ _ ⟨_, _⟩, InternalTensor.new,
    Tensor.Backward.eq_1 _ _ _ ⟨_, _⟩, Tensor.Grad.eq_1 _ ⟨_, _⟩, runRule.eq_1 _ _ ⟨_, _⟩,
    World.deref.eq_1 ⟨_, _⟩, World.store.eq_1 ⟨_, _⟩, World.alloc.eq_1 ⟨_, _⟩,
    InternalTensor.SetGrad, InternalTensor.SetGradVec, InternalTensor.Size,
    InternalTensor.Backward.eq_2 _ _ ⟨_, _⟩,
    pushGrad.eq_1 _ _ ⟨_, _⟩, InternalTensor.RequiresGrad, InternalTensor.UpdateGradVec]
  · simp [BackwardOp.run.eq_3 _ ⟨_, _⟩, has, hbs, hbo, World.init, CalculateStrides, stridePushes,
    Tensor.fromValuesShape.eq_1 _ _ _ ⟨_, _⟩, Tensor.fromValues.eq_1 _ _ ⟨_, _⟩,
    Tensor.add.eq_1 _ _ ⟨_, _⟩, Tensor.Size.eq_1 _ ⟨_, _⟩,
    Tensor.NumDimensions.eq_1 _ ⟨_, _⟩, wrap, Tensor.fromShared.eq_1 _ ⟨_, _⟩,
    ApplyOperation.eq_1 _ _ _ _ ⟨_, _⟩, InternalTensor.new,
    Tensor.Backward.eq_1 _ _ _ ⟨_, _⟩, Tensor.Grad.eq_1 _ ⟨_, _⟩, runRule.eq_1 _ _ ⟨_, _⟩,
    World.deref.eq_1 ⟨_, _⟩, World.store.eq_1 ⟨_, _⟩, World.alloc.eq_1 ⟨_, _⟩,
    InternalTensor.SetGrad, InternalTensor.SetGradVec, InternalTensor.Size,
    InternalTensor.Backward.eq_2 _ _ ⟨_, _⟩,
    pushGrad.eq_1 _ _ ⟨_, _⟩, InternalTensor.RequiresGrad, InternalTensor.UpdateGradVec]


theorem accumulate_eq_sum_range (g : List ℚ) :
    accumulate g = ∑ r in Finset.range g.length, g.getD r 0 := by
  rw [accumulate_eq_sum]
  induction g with
  | nil => simp
  | cons x g ih =>
    rw [List.sum_cons, List.length_cons, Finset.sum_range_succ', ih]
    simp [add_comm]

theorem accumulate_ones (n : Nat) : accumulate (List.replicate n (1 : ℚ)) = n := by
  rw [accumulate_eq_sum]
  simp

set_option maxHeartbeats 1000000 in
theorem bias_single (as g : List ℚ) (b0 : ℚ) (n fuel : Nat)
    (has : as.length = n) (hg : g.length = n) :
    ∃ a b z w, bias_graph as [b0] n 1 = .ok (a, b, z, w) ∧
      (∃ w1, runRule z g w = .ok w1 ∧ a.Grad w1 = .ok g ∧
        b.Grad w1 = .ok ((List.range 1).map (fun j =>
          ∑ r in Finset.range n, g.getD (r * 1 + j) 0))) ∧
      (∃ w2, z.Backward (fuel + 2) false w = .ok w2 ∧
        b.Grad w2 = .ok (List.replicate 1 (n : ℚ))) := by
  have hgraph : bias_graph as [b0] n 1 = .ok
      (⟨0, [1, 1]⟩, ⟨1, [1]⟩, ⟨2, [1, 1]⟩,
       ⟨[⟨as, [], [n, 1], [], none, true, true⟩, ⟨[b0], [], [1], [], none, true, true⟩,
         ⟨as.map (fun d => d + b0), [],
           [n, 1], [0, 1], some (.AddManyOne 0 1), true, true⟩], true⟩) := by
    simp [bias_graph, AddManyOneInternal.eq_1 _ _ ⟨_, _⟩, mapE_ok_map, World.init, CalculateStrides, stridePushes,
    Tensor.fromValuesShape.eq_1 _ _ _ ⟨_, _⟩, Tensor.fromValues.eq_1 _ _ ⟨_, _⟩,
    Tensor.add.eq_1 _ _ ⟨_, _⟩, Tensor.Size.eq_1 _ ⟨_, _⟩,
    Tensor.NumDimensions.eq_1 _ ⟨_, _⟩, wrap, Tensor.fromShared.eq_1 _ ⟨_, _⟩,
    ApplyOperation.eq_1 _ _ _ _ ⟨_, _⟩, InternalTensor.new,
    Tensor.Backward.eq_1 _ _ _ ⟨_, _⟩, Tensor.Grad.eq_1 _ ⟨_, _⟩, runRule.eq_1 _ _ ⟨_, _⟩,
    World.deref.eq_1 ⟨_, _⟩, World.store.eq_1 ⟨_, _⟩, World.alloc.eq_1 ⟨_, _⟩,
    InternalTensor.SetGrad, InternalTensor.SetGradVec, InternalTensor.Size,
    InternalTensor.Backward.eq_2 _ _ ⟨_, _⟩,
    pushGrad.eq_1 _ _ ⟨_, _⟩, InternalTensor.RequiresGrad, InternalTensor.UpdateGradVec]
  have hacc := accumulate_eq_sum_range g
  rw [hg] at hacc
  have hone := accumulate_ones n
  refine ⟨_, _, _, _, hgraph, ?_, ?_⟩
  · simp [BackwardOp.run.eq_1 _ ⟨_, _⟩, has, hacc, World.init, CalculateStrides, stridePushes,
    Tensor.fromValuesShape.eq_1 _ _ _ ⟨_, _⟩, Tensor.fromValues.eq_1 _ _ ⟨_, _⟩,
    Tensor.add.eq_1 _ _ ⟨_, _⟩, Tensor.Size.eq_1 _ ⟨_, _⟩,
    Tensor.NumDimensions.eq_1 _ ⟨_, _⟩, wrap, Tensor.fromShared.eq_1 _ ⟨_, _⟩,
    ApplyOperation.eq_1 _ _ _ _ ⟨_, _⟩, InternalTensor.new,
    Tensor.Backward.eq_1 _ _ _ ⟨_, _⟩, Tensor.Grad.eq_1 _ ⟨_, _⟩, runRule.eq_1 _ _ ⟨_, _⟩,
    World.deref.eq_1 ⟨_, _⟩, World.store.eq_1 ⟨_, _⟩, World.alloc.eq_1 ⟨_, _⟩,
    InternalTensor.SetGrad, InternalTensor.SetGradVec, InternalTensor.Size,
    InternalTensor.Backward.eq_2 _ _ ⟨_, _⟩,
    pushGrad.eq_1 _ _ ⟨_, _⟩, InternalTensor.RequiresGrad, InternalTensor.UpdateGradVec]
    simp [List.range_succ]
  · simp [BackwardOp.run.eq_1 _ ⟨_, _⟩, has, hone, World.init, CalculateStrides, stridePushes,
    Tensor.fromValuesShape.eq_1 _ _ _ ⟨_, _⟩, Tensor.fromValues.eq_1 _ _ ⟨_, _⟩,
    Tensor.add.eq_1 _ _ ⟨_, _⟩, Tensor.Size.eq_1 _ ⟨_, _⟩,
    Tensor.NumDimensions.eq_1 _ ⟨_, _⟩, wrap, Tensor.fromShared.eq_1 _ ⟨_, _⟩,
    ApplyOperation.eq_1 _ _ _ _ ⟨_, _⟩, InternalTensor.new,
    Tensor.Backward.eq_1 _ _ _ ⟨_, _⟩, Tensor.Grad.eq_1 _ ⟨_, _⟩, runRule.eq_1 _ _ ⟨_, _⟩,
    World.deref.eq_1 ⟨_, _⟩, World.store.eq_1 ⟨_, _⟩, World.alloc.eq_1 ⟨_, _⟩,
    InternalTensor.SetGrad, InternalTensor.SetGradVec, InternalTensor.Size,
    InternalTensor.Backward.eq_2 _ _ ⟨_, _⟩,
    pushGrad.eq_1 _ _ ⟨_, _⟩, InternalTensor.RequiresGrad, InternalTensor.UpdateGradVec]

/-- C13 (bias-broadcast gradient).  For `a` of shape (n,k) and a rank-1 `b` of
length `k` (`n ≥ 1`, `k ≥ 1`), both requiring gradients, and `z = a + b`: when
the backward rule of `z` runs with an output gradient `g` of length `n*k`, the
gradient it gives to `a` is `g` itself and the gradient it gives to `b` has
length `k` with `j`-th entry the sum over rows `r < n` of `g[r*k + j]`; and
after `z.Backward()` every entry of the gradient of `b` is `n`. -/
theorem bias_gradient (as bs g : List ℚ) (n k fuel : Nat) (hn : 1 ≤ n) (hk : 1 ≤ k)
    (has : as.length = n * k) (hbs : bs.length = k) (hg : g.length = n * k) :
    ∃ a b z w, bias_graph as bs n k = .ok (a, b, z, w) ∧
      (∃ w1, runRule z g w = .ok w1 ∧ a.Grad w1 = .ok g ∧
        b.Grad w1 = .ok ((List.range k).map (fun j =>
          ∑ r in Finset.range n, g.getD (r * k + j) 0))) ∧
      (∃ w2, z.Backward (fuel + 2) false w = .ok w2 ∧
        b.Grad w2 = .ok (List.replicate k (n : ℚ))) := by
  by_cases h1 : k = 1
  · subst h1
    obtain ⟨b0, rfl⟩ := List.length_eq_one.mp hbs
    exact bias_single as g b0 n fuel (by simpa using has) (by simpa using hg)
  · exact bias_many as bs g n k fuel hn (by omega) has hbs hg

/-- An instance of C13: two rows, two columns, the output gradient
`[1, 2, 3, 4]`. -/
theorem bias_gradient_witness :
    1 ≤ 2 ∧ ([1, 2, 3, 4] : List ℚ).length = 2 * 2 ∧ ([10, 20] : List ℚ).length = 2 ∧
    ∃ a b z w, bias_graph [1, 2, 3, 4] [10, 20] 2 2 = .ok (a, b, z, w) ∧
      (∃ w1, runRule z [1, 2, 3, 4] w = .ok w1 ∧ a.Grad w1 = .ok [1, 2, 3, 4] ∧
        b.Grad w1 = .ok ((List.range 2).map (fun j =>
          ∑ r in Finset.range 2, ([1, 2, 3, 4] : List ℚ).getD (r * 2 + j) 0))) ∧
      (∃ w2, z.Backward (0 + 2) false w = .ok w2 ∧
        b.Grad w2 = .ok (List.replicate 2 ((2 : Nat) : ℚ))) :=
  ⟨by decide, rfl, rfl,
   bias_gradient [1, 2, 3, 4] [10, 20] [1, 2, 3, 4] 2 2 0 (by decide) (by decide) rfl rfl rfl⟩

/-! ## Instances of the matrix rules -/

/-- An instance of C14: the product of two 2x2 matrices. -/
theorem matmul_forward_witness :
    matmul_store.deref 0 = .ok (InternalTensor.new [1, 2, 3, 4] [2, 2] true true) ∧
    matmul_store.deref 1 = .ok (InternalTensor.new [5, 6, 7, 8] [2, 2] true true) ∧
    ∃ data : List ℚ,
      Produces (Tensor.Matmul ⟨0, [2, 1]⟩ ⟨1, [2, 1]⟩ matmul_store) matmul_store [2, 2] data ∧
      data.length = 2 * 2 ∧
      ∀ i j, i < 2 → j < 2 → data[i * 2 + j]? =
        some (∑ k in Finset.range 2,
          (InternalTensor.new [1, 2, 3, 4] [2, 2] true true).data_.getD (i * 2 + k) 0 *
          (InternalTensor.new [5, 6, 7, 8] [2, 2] true true).data_.getD (k * 2 + j) 0) :=
  ⟨by simp [matmul_store, World.deref], by simp [matmul_store, World.deref],
   matmul_forward ⟨0, [2, 1]⟩ ⟨1, [2, 1]⟩ matmul_store
     (InternalTensor.new [1, 2, 3, 4] [2, 2] true true)
     (InternalTensor.new [5, 6, 7, 8] [2, 2] true true) 2 2 2
     (by simp [matmul_store, World.deref]) (by simp [matmul_store, World.deref])
     rfl rfl rfl rfl⟩

/-- An instance of C16 (amended): `A` of shape (1,1) and `B` of shape (2,1). -/
theorem matmul_unchecked_witness :
    mismatch_store.deref 0 = .ok (InternalTensor.new [2] [1, 1] false true) ∧
    mismatch_store.deref 1 = .ok (InternalTensor.new [3, 5] [2, 1] false true) ∧
    1 ≤ 2 ∧
    ∃ data : List ℚ,
      Produces (Tensor.Matmul ⟨0, [1, 1]⟩ ⟨1, [1, 1]⟩ mismatch_store) mismatch_store [1, 1] data ∧
      data.length = 1 * 1 ∧
      ∀ i j, i < 1 → j < 1 → data[i * 1 + j]? =
        some (∑ k in Finset.range 1,
          (InternalTensor.new [2] [1, 1] false true).data_.getD (i * 1 + k) 0 *
          (InternalTensor.new [3, 5] [2, 1] false true).data_.getD (k * 1 + j) 0) :=
  ⟨by simp [mismatch_store, World.deref], by simp [mismatch_store, World.deref], by decide,
   matmul_unchecked ⟨0, [1, 1]⟩ ⟨1, [1, 1]⟩ mismatch_store
     (InternalTensor.new [2] [1, 1] false true)
     (InternalTensor.new [3, 5] [2, 1] false true) 1 1 2 1
     (by simp [mismatch_store, World.deref]) (by simp [mismatch_store, World.deref])
     rfl rfl rfl rfl (by decide)⟩

/-- An instance of C15: the 2x2 product with the output gradient
`[1, 0, 0, 1]`. -/
theorem matmul_backward_witness :
    matmul_store.deref 0 = .ok (InternalTensor.new [1, 2, 3, 4] [2, 2] true true) ∧
    matmul_store.deref 1 = .ok (InternalTensor.new [5, 6, 7, 8] [2, 2] true true) ∧
    (2 : SharedTensor) ≠ 0 ∧
    ∃ CA CB : List ℚ,
      (BackwardOp.Matmul 0 1).run 2 matmul_store =
        (pushGrad 0 (fun _ => .ok CA) matmul_store >>= pushGrad 1 (fun _ => .ok CB)) ∧
      CA.length = 2 * 2 ∧
      (∀ i k, i < 2 → k < 2 → CA[i * 2 + k]? =
        some (∑ j in Finset.range 2, ([1, 0, 0, 1] : List ℚ).getD (i * 2 + j) 0 *
          (InternalTensor.new [5, 6, 7, 8] [2, 2] true true).data_.getD (k * 2 + j) 0)) ∧
      CB.length = 2 * 2 ∧
      (∀ k j, k < 2 → j < 2 → CB[k * 2 + j]? =
        some (∑ i in Finset.range 2,
          (InternalTensor.new [1, 2, 3, 4] [2, 2] true true).data_.getD (i * 2 + k) 0 *
          ([1, 0, 0, 1] : List ℚ).getD (i * 2 + j) 0)) :=
  ⟨by simp [matmul_store, World.deref], by simp [matmul_store, World.deref], by decide,
   matmul_backward 0 1 2 matmul_store
     (InternalTensor.new [1, 2, 3, 4] [2, 2] true true)
     (InternalTensor.new [5, 6, 7, 8] [2, 2] true true)
     { data_ := [19, 22, 43, 50], grad_ := [1, 0, 0, 1], shape_ := [2, 2],
       parents_ := [0, 1], backward_op_ := some (.Matmul 0 1),
       is_leaf_ := true, requires_grad_ := true } 2 2 2
     (by simp [matmul_store, World.deref]) (by simp [matmul_store, World.deref])
     (by simp [matmul_store, World.deref]) (by decide) rfl rfl rfl rfl rfl⟩


/-! ## Integer power -/

theorem getD_map (l : List ℚ) (F : ℚ → ℚ) (i : Nat) (h : i < l.length) :
    (l.map F).getD i 0 = F (l.getD i 0) := by
  rw [List.getD_eq_getElem _ _ (by simpa using h), List.getD_eq_getElem _ _ h]
  simp

theorem getElem?_map_getD (l : List ℚ) (F : ℚ → ℚ) (i : Nat) (h : i < l.length) :
    (l.map F)[i]? = some (F (l.getD i 0)) := by
  rw [List.getElem?_eq_getElem (by simpa using h), List.getD_eq_getElem _ _ h]
  simp

theorem getD_mem (l : List ℚ) (i : Nat) (h : i < l.length) : l.getD i 0 ∈ l := by
  rw [List.getD_eq_getElem _ _ h]
  exact List.getElem_mem h

theorem PowInternal_produces (a : SharedTensor) (e : Int) (w : World) (ta : InternalTensor)
    (ha : w.deref a = .ok ta) (hnz : e < 0 → ∀ v ∈ ta.data_, v ≠ 0) :
    Produces (wrap (PowInternal a e w)) w ta.shape_ (ta.data_.map (fun v => v ^ e)) := by
  unfold PowInternal
  simp only [ha, ok_bind, powData_eq _ _ hnz]
  exact wrap_ApplyOperation _ _ _ _ w (single_valid w a ta ha)

/-- C17 (integer power forward).  For every integer exponent `e` and every
tensor `a` (with every element non-zero when `e < 0`), `a.Pow(e)` produces a
node with the shape of `a` whose element `i` is `a[i]` raised to `|e|` when
`e ≥ 0` and the reciprocal of that power when `e < 0`; for `e = 0` every
element is 1, zero elements of `a` included. -/
theorem pow_forward (x : Tensor) (e : Int) (w : World) (ta : InternalTensor)
    (hx : w.deref x.tensor_ = .ok ta) (hnz : e < 0 → ∀ v ∈ ta.data_, v ≠ 0) :
    ∃ data : List ℚ, Produces (x.Pow e w) w ta.shape_ data ∧
      data.length = ta.data_.length ∧
      (∀ i, i < ta.data_.length → data[i]? =
        some (if e < 0 then (ta.data_.getD i 0 ^ e.natAbs)⁻¹ else ta.data_.getD i 0 ^ e.natAbs)) ∧
      (e = 0 → data = List.replicate ta.data_.length 1) := by
  refine ⟨_, PowInternal_produces _ e w ta hx hnz, by simp, ?_, ?_⟩
  · intro i hi
    rw [getElem?_map_getD _ _ _ hi]
    congr 1
    cases e with
    | ofNat n =>
      have h0 : ¬ ((n : Int) < 0) := by omega
      simp [h0]
    | negSucc n => simp [Int.negSucc_lt_zero, zpow_negSucc]
  · intro he
    subst he
    simp

/-- An instance of C17: the reciprocal of a tensor without zeros. -/
theorem pow_forward_witness :
    rank_store.deref 0 = .ok (InternalTensor.new [1, 2] [2] false true) ∧
    ∃ data : List ℚ, Produces (Tensor.Pow ⟨0, [1]⟩ (-1) rank_store) rank_store
        (InternalTensor.new [1, 2] [2] false true).shape_ data ∧
      data.length = (InternalTensor.new [1, 2] [2] false true).data_.length ∧
      (∀ i, i < (InternalTensor.new [1, 2] [2] false true).data_.length → data[i]? =
        some (if (-1 : Int) < 0
          then ((InternalTensor.new [1, 2] [2] false true).data_.getD i 0 ^ (-1 : Int).natAbs)⁻¹
          else (InternalTensor.new [1, 2] [2] false true).data_.getD i 0 ^ (-1 : Int).natAbs)) ∧
      ((-1 : Int) = 0 →
        data = List.replicate (InternalTensor.new [1, 2] [2] false true).data_.length 1) :=
  ⟨by simp [rank_store, World.deref],
   pow_forward ⟨0, [1]⟩ (-1) rank_store (InternalTensor.new [1, 2] [2] false true)
     (by simp [rank_store, World.deref])
     (fun _ v hv => by
       simp only [InternalTensor.new, List.mem_cons, List.mem_singleton, List.not_mem_nil,
         or_false] at hv
       rcases hv with rfl | rfl <;> norm_num)⟩

/-- C18 (integer power backward on non-zero inputs).  For every integer
exponent `e`, every `a` whose elements are all non-zero and every output
gradient `g` on the result node: PowInternal stores the rule with the result
data `a[i]^e`, the rule is exactly `a.UpdateGrad(C)` (when `a` requires
gradients) where `C[i] = g[i] * e * a[i]^(e-1)`, and dividing the stored
result by `a[i]` gives `a[i]^(e-1)`. -/
theorem pow_backward (a res : SharedTensor) (e : Int) (w : World) (ta r : InternalTensor)
    (ha : w.deref a = .ok ta) (hr : w.deref res = .ok r)
    (hg : r.grad_.length = ta.data_.length) (hnz : ∀ v ∈ ta.data_, v ≠ 0) :
    ∃ data C : List ℚ,
      PowInternal a e w = ApplyOperation data ta.shape_ [a] (.Pow a e data) w ∧
      (BackwardOp.Pow a e data).run res w = pushGrad a (fun _ => .ok C) w ∧
      C.length = ta.data_.length ∧
      (∀ i, i < ta.data_.length →
        C[i]? = some (r.grad_.getD i 0 * e * ta.data_.getD i 0 ^ (e - 1))) ∧
      (∀ i, i < ta.data_.length →
        data.getD i 0 / ta.data_.getD i 0 = ta.data_.getD i 0 ^ (e - 1)) := by
  have hdiv : ∀ i, i < ta.data_.length →
      (ta.data_.map (fun v => v ^ e)).getD i 0 / ta.data_.getD i 0 =
        ta.data_.getD i 0 ^ (e - 1) := by
    intro i hi
    rw [getD_map _ _ _ hi, zpow_sub_one₀ (hnz _ (getD_mem _ _ hi))]
    rfl
  refine ⟨ta.data_.map (fun v => v ^ e),
    (List.range ta.data_.length).map (fun i =>
      r.grad_.getD i 0 * e * ta.data_.getD i 0 ^ (e - 1)), ?_, ?_, by simp, ?_, hdiv⟩
  · unfold PowInternal
    simp only [ha, ok_bind, powData_eq _ _ (fun _ => hnz)]
  · simp only [BackwardOp.run]
    apply pushGrad_congr
    simp only [hr, ha, ok_bind]
    apply forEachIndex_ok
    intro i hi
    rw [rd_ok _ _ (by omega), rd_ok _ _ (by simpa using hi), rd_ok _ _ hi]
    simp only [ok_bind, fdiv_ok _ _ (hnz _ (getD_mem _ _ hi)), pure_eq_ok, hdiv i hi]
    congr 1
    ring
  · intro i hi
    exact getElem?_map_range _ _ _ hi


/-- An instance of C18: the square of `[2, 3]` with the output gradient
`[1, 1]`. -/
theorem pow_backward_witness :
    pow_store.deref 0 = .ok (InternalTensor.new [2, 3] [2] true true) ∧
    (∀ v ∈ (InternalTensor.new [2, 3] [2] true true).data_, v ≠ 0) ∧
    ∃ data C : List ℚ,
      PowInternal 0 2 pow_store = ApplyOperation data
        (InternalTensor.new [2, 3] [2] true true).shape_ [0] (.Pow 0 2 data) pow_store ∧
      (BackwardOp.Pow 0 2 data).run 1 pow_store = pushGrad 0 (fun _ => .ok C) pow_store ∧
      C.length = (InternalTensor.new [2, 3] [2] true true).data_.length ∧
      (∀ i, i < (InternalTensor.new [2, 3] [2] true true).data_.length →
        C[i]? = some (([1, 1] : List ℚ).getD i 0 * (2 : Int) *
          (InternalTensor.new [2, 3] [2] true true).data_.getD i 0 ^ ((2 : Int) - 1))) ∧
      (∀ i, i < (InternalTensor.new [2, 3] [2] true true).data_.length →
        data.getD i 0 / (InternalTensor.new [2, 3] [2] true true).data_.getD i 0 =
          (InternalTensor.new [2, 3] [2] true true).data_.getD i 0 ^ ((2 : Int) - 1)) :=
  have hnz : ∀ v ∈ (InternalTensor.new [2, 3] [2] true true).data_, v ≠ 0 := by
    intro v hv
    simp only [InternalTensor.new, List.mem_cons, List.mem_singleton, List.not_mem_nil,
      or_false] at hv
    rcases hv with rfl | rfl <;> norm_num
  ⟨by simp [pow_store, World.deref], hnz,
   pow_backward 0 1 2 pow_store (InternalTensor.new [2, 3] [2] true true)
     { data_ := [4, 9], grad_ := [1, 1], shape_ := [2],
       parents_ := [0], backward_op_ := some (.Pow 0 2 [4, 9]),
       is_leaf_ := true, requires_grad_ := true }
     (by simp [pow_store, World.deref]) (by simp [pow_store, World.deref]) rfl hnz⟩

/-- C19.  With a zero element the backward rule of Pow does not give
`g[i] * e * a[i]^(e-1)`: for `x = Tensor(0.0, true)` and `y = x.Pow(e)` with
any `e ≥ 1` the forward pass succeeds with the value 0, and `y.Backward()`
divides the stored result 0 by the input 0, which leaves the numbers (the
gradient of `x` is not a number; for `e = 1` the claim says 1). -/
theorem pow_backward_zero (k fuel : Nat) :
    (∃ x y w, pow_graph 0 ((k : Int) + 1) = .ok (x, y, w) ∧
      resultOf (.ok (y, w)) = .ok ([], [0])) ∧
    backwardGrad (pow_graph 0 ((k : Int) + 1)) (fuel + 2) false = .error .nonFinite := by
  have hp : powData [0] ((k : Int) + 1) = .ok [0] := by
    have hneg : ¬ ((k : Int) + 1 < 0) := by omega
    rw [powData_eq _ _ (fun h => absurd h hneg)]
    have h0 : ((k : Int) + 1) ≠ 0 := by omega
    simp [zero_zpow _ h0]
  have hgraph : pow_graph 0 ((k : Int) + 1) = .ok
      (⟨0, [1]⟩, ⟨1, [1]⟩,
       ⟨[⟨[0], [], [], [], none, true, true⟩,
         ⟨[0], [], [], [0], some (.Pow 0 ((k : Int) + 1) [0]), true, true⟩], true⟩) := by
    simp [pow_graph, Tensor.Pow.eq_1 _ _ ⟨_, _⟩, PowInternal.eq_1 _ _ ⟨_, _⟩, hp,
      World.init, CalculateStrides, stridePushes, Tensor.fromValue.eq_1 _ _ ⟨_, _⟩, wrap,
      Tensor.fromShared.eq_1 _ ⟨_, _⟩, ApplyOperation.eq_1 _ _ _ _ ⟨_, _⟩, InternalTensor.new,
      World.deref.eq_1 ⟨_, _⟩, World.alloc.eq_1 ⟨_, _⟩]
  refine ⟨⟨_, _, _, hgraph, ?_⟩, ?_⟩
  · simp [resultOf, World.deref.eq_1 ⟨_, _⟩]
  · rw [hgraph]
    simp [backwardGrad, BackwardOp.run.eq_7 _ ⟨_, _⟩, fdiv,
      Tensor.Backward.eq_1 _ _ _ ⟨_, _⟩, Tensor.Grad.eq_1 _ ⟨_, _⟩,
      World.deref.eq_1 ⟨_, _⟩, World.store.eq_1 ⟨_, _⟩,
      InternalTensor.SetGrad, InternalTensor.SetGradVec, InternalTensor.Size,
      InternalTensor.Backward.eq_2 _ _ ⟨_, _⟩,
      pushGrad.eq_1 _ _ ⟨_, _⟩, InternalTensor.RequiresGrad,
      InternalTensor.UpdateGradVec, forEachIndex, List.range_succ]

/-! ## Rectifier -/

/-- C20 (leaky rectifier).  For every tensor `a`, slope `leaky` and output
gradient `g` on the result node: `a.Relu(leaky)` produces a node with the
shape of `a` whose element `i` is `a[i]` when `a[i] ≥ 0` and `leaky * a[i]`
when `a[i] < 0`; the backward rule is exactly `a.UpdateGrad(C)` (when `a`
requires gradients) where `C[i]` is `g[i]` when `a[i] ≥ 0` and `g[i] * leaky`
when `a[i] < 0`; at `a[i] = 0` both take the identity branch. -/
theorem relu_rule (x : Tensor) (res : SharedTensor) (leaky : ℚ) (w : World)
    (ta r : InternalTensor) (hx : w.deref x.tensor_ = .ok ta) (hr : w.deref res = .ok r)
    (hg : r.grad_.length = ta.data_.length) :
    ∃ data C : List ℚ,
      Produces (x.Relu leaky w) w ta.shape_ data ∧
      data.length = ta.data_.length ∧
      (BackwardOp.Relu x.tensor_ leaky).run res w = pushGrad x.tensor_ (fun _ => .ok C) w ∧
      C.length = ta.data_.length ∧
      (∀ i, i < ta.data_.length →
        (0 ≤ ta.data_.getD i 0 →
          data[i]? = some (ta.data_.getD i 0) ∧ C[i]? = some (r.grad_.getD i 0)) ∧
        (ta.data_.getD i 0 < 0 →
          data[i]? = some (leaky * ta.data_.getD i 0) ∧
          C[i]? = some (r.grad_.getD i 0 * leaky)) ∧
        (ta.data_.getD i 0 = 0 →
          data[i]? = some (ta.data_.getD i 0) ∧ C[i]? = some (r.grad_.getD i 0 * 1))) := by
  refine ⟨ta.data_.map (fun d => if d < 0 then d * leaky else d),
    (List.range ta.data_.length).map (fun i =>
      r.grad_.getD i 0 * (if ta.data_.getD i 0 < 0 then leaky else 1)), ?_, by simp, ?_,
    by simp, ?_⟩
  · unfold Tensor.Relu ReluInternal
    simp only [hx, ok_bind]
    exact wrap_ApplyOperation _ _ _ _ w (single_valid w _ ta hx)
  · simp only [BackwardOp.run]
    apply pushGrad_congr
    simp only [hr, hx, ok_bind]
    apply forEachIndex_ok
    intro i hi
    rw [rd_ok _ _ (by omega), rd_ok _ _ hi]
    rfl
  · intro i hi
    rw [getElem?_map_getD _ _ _ hi, getElem?_map_range _ _ _ hi]
    refine ⟨?_, ?_, ?_⟩
    · intro h
      have h0 : ¬ (ta.data_.getD i 0 < 0) := not_lt.mpr h
      simp only [if_neg h0, mul_one, and_self]
    · intro h
      simp only [if_pos h, mul_comm leaky, and_self]
    · intro h
      have h0 : ¬ (ta.data_.getD i 0 < 0) := by rw [h]; exact lt_irrefl 0
      simp only [if_neg h0, and_self]

/-- An instance of C20: `[-2, 0, 3]` with slope 1/10 and the output gradient
`[1, 1, 1]`. -/
theorem relu_rule_witness :
    relu_store.deref 0 = .ok (InternalTensor.new [-2, 0, 3] [3] true true) ∧
    ∃ data C : List ℚ,
      Produces (Tensor.Relu ⟨0, [1]⟩ (1/10) relu_store) relu_store
        (InternalTensor.new [-2, 0, 3] [3] true true).shape_ data ∧
      data.length = (InternalTensor.new [-2, 0, 3] [3] true true).data_.length ∧
      (BackwardOp.Relu 0 (1/10)).run 1 relu_store =
        pushGrad 0 (fun _ => .ok C) relu_store ∧
      C.length = (InternalTensor.new [-2, 0, 3] [3] true true).data_.length ∧
      (∀ i, i < (InternalTensor.new [-2, 0, 3] [3] true true).data_.length →
        (0 ≤ (InternalTensor.new [-2, 0, 3] [3] true true).data_.getD i 0 →
          data[i]? = some ((InternalTensor.new [-2, 0, 3] [3] true true).data_.getD i 0) ∧
          C[i]? = some (([1, 1, 1] : List ℚ).getD i 0)) ∧
        ((InternalTensor.new [-2, 0, 3] [3] true true).data_.getD i 0 < 0 →
          data[i]? =
            some (1/10 * (InternalTensor.new [-2, 0, 3] [3] true true).data_.getD i 0) ∧
          C[i]? = some (([1, 1, 1] : List ℚ).getD i 0 * (1/10))) ∧
        ((InternalTensor.new [-2, 0, 3] [3] true true).data_.getD i 0 = 0 →
          data[i]? = some ((InternalTensor.new [-2, 0, 3] [3] true true).data_.getD i 0) ∧
          C[i]? = some (([1, 1, 1] : List ℚ).getD i 0 * 1))) :=
  ⟨by simp [relu_store, World.deref],
   relu_rule ⟨0, [1]⟩ 1 (1/10) relu_store (InternalTensor.new [-2, 0, 3] [3] true true)
     { data_ := [-1/5, 0, 3], grad_ := [1, 1, 1], shape_ := [3],
       parents_ := [0], backward_op_ := some (.Relu 0 (1/10)),
       is_leaf_ := true, requires_grad_ := true }
     (by simp [relu_store, World.deref]) (by simp [relu_store, World.deref]) rfl⟩

/-! ## The stride table -/

theorem stridePushes_append (A : List Nat) (s c : Nat) (hc : c < 2 ^ 64) :
    stridePushes (A ++ [s]) c = stridePushes A c ++ [(c * A.prod) % 2 ^ 64] := by
  induction A generalizing c with
  | nil =>
    simp only [List.nil_append, stridePushes, List.prod_nil, Nat.mul_one, Nat.mod_eq_of_lt hc]
  | cons a A ih =>
    rw [List.cons_append]
    simp only [stridePushes, List.prod_cons]
    rw [ih _ (Nat.mod_lt _ (by norm_num))]
    simp only [List.cons_append, List.cons.injEq, true_and, List.append_cancel_left_eq]
    rw [Nat.mod_mul_mod, Nat.mul_assoc]
    exact ⟨rfl, trivial⟩

/-- The pushes of CalculateStrides, reversed, are the cumulative products of
the shape modulo 2^64. -/
theorem stridePushes_reverse (S : List Nat) :
    (stridePushes S.reverse 1).reverse = (cumulativeProducts S).map (fun v => v % 2 ^ 64) := by
  induction S with
  | nil => rfl
  | cons s S ih =>
    rw [List.reverse_cons, stridePushes_append _ _ _ (by norm_num), List.reverse_append, ih]
    simp [cumulativeProducts, List.prod_reverse]

/-- What CalculateStrides leaves in the handle: the cumulative products of the
new shape followed by the old table reversed; `{1}` only when both are empty. -/
theorem CalculateStrides_eq (old S : List Nat) :
    CalculateStrides old S =
      if old = [] ∧ S = [] then [1]
      else (cumulativeProducts S).map (fun v => v % 2 ^ 64) ++ old.reverse := by
  unfold CalculateStrides
  simp only [List.reverse_append, stridePushes_reverse]
  cases S with
  | nil =>
    cases old with
    | nil => simp [cumulativeProducts]
    | cons o old => simp [cumulativeProducts]
  | cons s S => simp [cumulativeProducts]

/-- C22.  Reshape does not leave the stride table at the cumulative products
of the new shape: CalculateStrides pushes onto the table the handle already
has and reverses the whole vector, so the old entries stay behind the new
ones (in reverse order).  For `t = Tensor(d, {2, 3}); t.Reshape({3, 2})` the
table is `{2, 1, 1, 3}` instead of `{2, 1}`, and for `t.Reshape({})` it is
`{1, 3}` instead of `{1}`; `t.Flatten()` leaves `{1, 1, 3}` instead of `{1}`. -/
theorem reshape_keeps_old_strides :
    (∀ old S : List Nat, CalculateStrides old S =
      if old = [] ∧ S = [] then [1]
      else (cumulativeProducts S).map (fun v => v % 2 ^ 64) ++ old.reverse) ∧
    (∀ d : List ℚ, reshape_program d [2, 3] [3, 2] =
      .ok ({ tensor_ := 0, strides_ := [2, 1, 1, 3] },
           ⟨[⟨d, [], [3, 2], [], none, true, false⟩], true⟩)) ∧
    (∀ d : List ℚ, reshape_program d [2, 3] [] =
      .ok ({ tensor_ := 0, strides_ := [1, 3] },
           ⟨[⟨d, [], [], [], none, true, false⟩], true⟩)) ∧
    (∀ d : List ℚ, flatten_program d [2, 3] =
      .ok ({ tensor_ := 0, strides_ := [1, 1, 3] },
           ⟨[⟨d, [], [d.length], [], none, true, false⟩], true⟩)) := by
  refine ⟨CalculateStrides_eq, ?_, ?_, ?_⟩
  · intro d
    simp [reshape_program, Tensor.Reshape, Tensor.fromValuesShape, World.alloc, World.init,
      World.deref, World.store, InternalTensor.new, CalculateStrides_eq, cumulativeProducts]
  · intro d
    simp [reshape_program, Tensor.Reshape, Tensor.fromValuesShape, World.alloc, World.init,
      World.deref, World.store, InternalTensor.new, CalculateStrides_eq, cumulativeProducts]
  · intro d
    simp [flatten_program, Tensor.Flatten, Tensor.fromValuesShape, World.alloc, World.init,
      World.deref, World.store, InternalTensor.new, CalculateStrides_eq, cumulativeProducts]

theorem toSizeT_natCast (n : Nat) : toSizeT (n : Int) = n % 2 ^ 64 := by
  unfold toSizeT
  omega

theorem toInt_small (n : Nat) (h : n < 2 ^ 31) : toInt n = (n : Int) := by
  unfold toInt
  have h1 : n % 2 ^ 32 = n := Nat.mod_eq_of_lt (by omega)
  rw [h1, if_pos h]

/-- One round of the index loop without wrap-around: the accumulator and the
product fit into an `int`. -/
theorem flat_step (a v s : Nat) (h : a + v * s < 2 ^ 31) :
    toInt ((toSizeT (a : Int) + toSizeT (v : Int) * (s % 2 ^ 64) % 2 ^ 64) % 2 ^ 64) =
      ((a + v * s : Nat) : Int) := by
  have hvs : v * s < 2 ^ 31 := by omega
  have h1 : v % 2 ^ 64 * (s % 2 ^ 64) % 2 ^ 64 = v * s := by
    rw [← Nat.mul_mod]
    exact Nat.mod_eq_of_lt (by omega)
  rw [toSizeT_natCast, toSizeT_natCast, h1, Nat.mod_eq_of_lt (show a < 2 ^ 64 by omega),
    Nat.mod_eq_of_lt (show a + v * s < 2 ^ 64 by omega), toInt_small _ h]

/-- The index loop on in-range indices: the accumulator ends at the sum of
the products with the strides, as long as that sum fits into an `int`. -/
theorem flatIndex_eq (X : List Nat) (idx T : List Nat) (i acc : Nat)
    (hlen : idx.length ≤ T.length)
    (hX : ∀ j, j < idx.length → X[i + j]? = some (T.getD j 0 % 2 ^ 64))
    (hb : acc + (List.zipWith (fun a b => a * b) idx T).sum < 2 ^ 31) :
    flatIndex X (idx.map Int.ofNat) i (acc : Int) =
      .ok (((acc + (List.zipWith (fun a b => a * b) idx T).sum : Nat)) : Int) := by
  induction idx generalizing T i acc with
  | nil => simp [flatIndex]
  | cons v idx ih =>
    cases T with
    | nil => simp at hlen
    | cons s T =>
      simp only [List.zipWith_cons_cons, List.sum_cons] at hb ⊢
      have h0 := hX 0 (by simp)
      simp only [Nat.add_zero, List.getD_cons_zero] at h0
      simp only [List.map_cons, flatIndex, rdNat, h0, ok_bind]
      have hstep := flat_step acc v s (by omega)
      simp only [Int.ofNat_eq_coe]
      rw [hstep, ih T (i + 1) (acc + v * s) (by simpa using hlen) ?_ (by omega)]
      · congr 2
        omega
      · intro j hj
        have := hX (j + 1) (by simpa using hj)
        simp only [List.getD_cons_succ] at this
        rw [← this]
        congr 1
        omega


/-! ## Row-major offsets -/

theorem cumulativeProducts_length (S : List Nat) : (cumulativeProducts S).length = S.length := by
  induction S with
  | nil => rfl
  | cons s S ih => simp [cumulativeProducts, ih]

theorem cumulativeProducts_getD (S : List Nat) (j : Nat) (hj : j < S.length) :
    (cumulativeProducts S).getD j 0 = (S.drop (j + 1)).prod := by
  induction S generalizing j with
  | nil => simp at hj
  | cons s S ih =>
    cases j with
    | zero => simp [cumulativeProducts]
    | succ j =>
      simp only [cumulativeProducts, List.getD_cons_succ, List.drop_succ_cons]
      exact ih j (by simpa using hj)

theorem rowMajorOffset_nil (S : List Nat) : rowMajorOffset S [] = 0 := by
  simp [rowMajorOffset]

theorem rowMajorOffset_cons (s i : Nat) (S idx : List Nat) :
    rowMajorOffset (s :: S) (i :: idx) = i * S.prod + rowMajorOffset S idx := by
  simp [rowMajorOffset, Finset.sum_range_succ', add_comm]

theorem rowMajorOffset_eq_zipWith (S idx : List Nat) (h : idx.length ≤ S.length) :
    rowMajorOffset S idx = (List.zipWith (fun a b => a * b) idx (cumulativeProducts S)).sum := by
  induction S generalizing idx with
  | nil =>
    cases idx with
    | nil => simp [rowMajorOffset]
    | cons i idx => simp at h
  | cons s S ih =>
    cases idx with
    | nil => simp [rowMajorOffset]
    | cons i idx =>
      rw [rowMajorOffset_cons, ih idx (by simpa using h)]
      simp [cumulativeProducts]

theorem ValidIndex_nil (S : List Nat) : ValidIndex S [] :=
  ⟨Nat.zero_le _, fun j hj => absurd hj (by simp)⟩

theorem ValidIndex_cons (s i : Nat) (S idx : List Nat) :
    ValidIndex (s :: S) (i :: idx) ↔ i < s ∧ ValidIndex S idx := by
  constructor
  · rintro ⟨h1, h2⟩
    refine ⟨by simpa using h2 0 (by simp), by simpa using h1, ?_⟩
    intro j hj
    simpa using h2 (j + 1) (by simpa using hj)
  · rintro ⟨h0, h1, h2⟩
    refine ⟨by simpa using h1, ?_⟩
    intro j hj
    cases j with
    | zero => simpa using h0
    | succ j => simpa using h2 j (by simpa using hj)

theorem ValidIndex_nil_left (idx : List Nat) (h : ValidIndex [] idx) : idx = [] := by
  have := h.1
  simpa using this

/-- A non-empty valid index list addresses a whole block: the offset plus the
size of the unindexed tail stays inside the tensor. -/
theorem offset_block_le (S idx : List Nat) (h : ValidIndex S idx) (hne : idx ≠ []) :
    rowMajorOffset S idx + (S.drop idx.length).prod ≤ S.prod := by
  induction S generalizing idx with
  | nil => exact absurd (ValidIndex_nil_left idx h) hne
  | cons s S ih =>
    cases idx with
    | nil => exact absurd rfl hne
    | cons i idx =>
      obtain ⟨hi, hv⟩ := (ValidIndex_cons s i S idx).mp h
      rw [rowMajorOffset_cons, List.length_cons, List.drop_succ_cons, List.prod_cons]
      have hstep : i * S.prod + S.prod ≤ s * S.prod := by
        have : (i + 1) * S.prod ≤ s * S.prod := Nat.mul_le_mul_right _ hi
        rw [Nat.add_mul, Nat.one_mul] at this
        exact this
      by_cases hidx : idx = []
      · subst hidx
        simpa [rowMajorOffset_nil] using hstep
      · have := ih idx hv hidx
        omega

theorem offset_le (S idx : List Nat) (h : ValidIndex S idx) : rowMajorOffset S idx ≤ S.prod := by
  by_cases hidx : idx = []
  · subst hidx
    simp [rowMajorOffset_nil]
  · have := offset_block_le S idx h hidx
    omega

theorem drop_prod_pos (S : List Nat) (k : Nat) (h : 0 < S.prod) : 0 < (S.drop k).prod := by
  have h1 : S.prod = (S.take k).prod * (S.drop k).prod := by
    rw [← List.prod_append, List.take_append_drop]
  rw [h1] at h
  exact Nat.pos_of_mul_pos_left h

theorem offset_lt (S idx : List Nat) (h : ValidIndex S idx) (hp : 0 < S.prod) :
    rowMajorOffset S idx < S.prod := by
  by_cases hidx : idx = []
  · subst hidx
    simpa [rowMajorOffset_nil] using hp
  · have h1 := offset_block_le S idx h hidx
    have h2 := drop_prod_pos S idx.length hp
    omega

/-- The table CalculateStrides leaves starts with the strides of the shape it
was computed for, whatever the handle held before. -/
theorem CalculateStrides_getElem (old S : List Nat) (j : Nat) (hj : j < S.length) :
    (CalculateStrides old S)[j]? = some ((cumulativeProducts S).getD j 0 % 2 ^ 64) := by
  have hne : ¬ (old = [] ∧ S = []) := by
    rintro ⟨-, rfl⟩
    simp at hj
  rw [CalculateStrides_eq, if_neg hne, List.getElem?_append_left (by simpa [cumulativeProducts_length] using hj)]
  rw [List.getElem?_map, List.getD_eq_getElem?_getD]
  have : j < (cumulativeProducts S).length := by simpa [cumulativeProducts_length] using hj
  rw [List.getElem?_eq_getElem this]
  rfl

/-- Value on a handle whose first strides are those of the shape `S`: the
element at the row-major offset. -/
theorem Value_eq (x : Tensor) (w : World) (t : InternalTensor) (S idx : List Nat)
    (ht : w.deref x.tensor_ = .ok t)
    (hs : ∀ j, j < idx.length → x.strides_[j]? = some ((cumulativeProducts S).getD j 0 % 2 ^ 64))
    (hv : ValidIndex S idx) (hsize : S.prod < 2 ^ 31) :
    x.Value (idx.map Int.ofNat) w = rd t.data_ (rowMajorOffset S idx) := by
  have hle := offset_le S idx hv
  have hz := rowMajorOffset_eq_zipWith S idx hv.1
  have hflat := flatIndex_eq x.strides_ idx (cumulativeProducts S) 0 0
    (by rw [cumulativeProducts_length]; exact hv.1)
    (fun j hj => by rw [Nat.zero_add]; exact hs j hj)
    (by rw [← hz]; omega)
  simp only [Nat.zero_add, ← hz] at hflat
  unfold Tensor.Value
  rw [show ((0 : Nat) : Int) = 0 from rfl] at hflat
  rw [hflat]
  simp only [ok_bind, ht, toSizeT_natCast]
  rw [Nat.mod_eq_of_lt (by omega)]


/-- The index loop on a valid index list: the row-major offset. -/
theorem flatIndex_valid (X : List Nat) (S idx : List Nat)
    (hs : ∀ j, j < idx.length → X[j]? = some ((cumulativeProducts S).getD j 0 % 2 ^ 64))
    (hv : ValidIndex S idx) (hsize : S.prod < 2 ^ 31) :
    flatIndex X (idx.map Int.ofNat) 0 0 = .ok ((rowMajorOffset S idx : Nat) : Int) := by
  have hle := offset_le S idx hv
  have hz := rowMajorOffset_eq_zipWith S idx hv.1
  have hflat := flatIndex_eq X idx (cumulativeProducts S) 0 0
    (by rw [cumulativeProducts_length]; exact hv.1)
    (fun j hj => by rw [Nat.zero_add]; exact hs j hj)
    (by rw [← hz]; omega)
  simp only [Nat.zero_add, ← hz] at hflat
  rw [show ((0 : Nat) : Int) = 0 from rfl] at hflat
  exact hflat

/-- ValueTensor on a handle whose first strides are those of the shape `S` of
its node, for a non-empty valid index list: a new leaf holding the block of
data that starts at the row-major offset and has the size of the unindexed
tail. -/
theorem ValueTensor_eq (x : Tensor) (w : World) (t : InternalTensor) (idx : List Nat)
    (ht : w.deref x.tensor_ = .ok t)
    (hs : ∀ j, j < idx.length →
      x.strides_[j]? = some ((cumulativeProducts t.shape_).getD j 0 % 2 ^ 64))
    (hv : ValidIndex t.shape_ idx) (hne : idx ≠ [])
    (hlen : t.data_.length = t.shape_.prod) (hsize : t.shape_.prod < 2 ^ 31) :
    x.ValueTensor (idx.map Int.ofNat) w = .ok (Tensor.fromValuesShape
      ((t.data_.drop (rowMajorOffset t.shape_ idx)).take (t.shape_.drop idx.length).prod)
      (if idx.length = t.shape_.length then [1] else t.shape_.drop idx.length) false w) := by
  have hblock := offset_block_le t.shape_ idx hv hne
  have hflat := flatIndex_valid x.strides_ t.shape_ idx hs hv hsize
  obtain ⟨k, hk⟩ : ∃ k, idx.length = k + 1 := by
    cases idx with
    | nil => exact absurd rfl hne
    | cons i idx => exact ⟨idx.length, rfl⟩
  have hlast := hs k (by omega)
  rw [cumulativeProducts_getD _ _ (by have := hv.1; omega), ← hk,
    Nat.mod_eq_of_lt (by omega)] at hlast
  have hnext : toInt ((toSizeT ((rowMajorOffset t.shape_ idx : Nat) : Int) +
      (t.shape_.drop idx.length).prod) % 2 ^ 64) =
      ((rowMajorOffset t.shape_ idx + (t.shape_.drop idx.length).prod : Nat) : Int) := by
    rw [toSizeT_natCast, Nat.mod_eq_of_lt (show rowMajorOffset t.shape_ idx < 2 ^ 64 by omega),
      Nat.mod_eq_of_lt (by omega), toInt_small _ (by omega)]
  have hcond : (0 : Int) ≤ ((rowMajorOffset t.shape_ idx : Nat) : Int) ∧
      ((rowMajorOffset t.shape_ idx : Nat) : Int) ≤
        ((rowMajorOffset t.shape_ idx + (t.shape_.drop idx.length).prod : Nat) : Int) ∧
      ((rowMajorOffset t.shape_ idx + (t.shape_.drop idx.length).prod : Nat) : Int) ≤
        (t.data_.length : Int) := by
    refine ⟨by omega, by omega, ?_⟩
    rw [hlen]
    exact_mod_cast hblock
  have e1 : (((rowMajorOffset t.shape_ idx + (t.shape_.drop idx.length).prod : Nat) : Int) -
      ((rowMajorOffset t.shape_ idx : Nat) : Int)).toNat = (t.shape_.drop idx.length).prod := by
    omega
  have e2 : (((rowMajorOffset t.shape_ idx : Nat) : Int)).toNat = rowMajorOffset t.shape_ idx := by
    omega
  unfold Tensor.ValueTensor
  simp only [hflat, ok_bind, ht, List.length_map]
  rw [hk]
  simp only [lastStride, rdNat, hlast, ok_bind]
  rw [← hk, hnext]
  simp only [if_pos hcond, e1, e2]
  by_cases h1 : idx.length = t.shape_.length
  · simp only [if_pos h1, ok_bind]
  · have h2 : idx.length < t.shape_.length := by have := hv.1; omega
    simp only [if_neg h1, if_pos h2, ok_bind]

/-! ## Value addressing on constructed tensors -/

theorem deref_alloc (w : World) (t : InternalTensor) :
    (w.alloc t).2.deref (w.alloc t).1 = .ok t := by
  simp [World.alloc, World.deref]

theorem deref_alloc_old (w : World) (t u : InternalTensor) (p : SharedTensor)
    (h : w.deref p = .ok u) : (w.alloc t).2.deref p = .ok u := by
  have hp := deref_lt w p u h
  unfold World.deref at h ⊢
  simp only [World.alloc]
  rw [List.getElem?_append_left hp]
  exact h

theorem fromValuesShape_deref (d : List ℚ) (S : List Nat) (rg : Bool) (w : World) :
    (Tensor.fromValuesShape d S rg w).2.deref (Tensor.fromValuesShape d S rg w).1.tensor_ =
      .ok (InternalTensor.new d S rg true) := by
  simp only [Tensor.fromValuesShape]
  exact deref_alloc w _

theorem fromValuesShape_strides (d : List ℚ) (S : List Nat) (rg : Bool) (w : World) :
    (Tensor.fromValuesShape d S rg w).1.strides_ = CalculateStrides [] S := by
  simp only [Tensor.fromValuesShape, World.alloc]

/-- C21 (value addressing on a constructed tensor).  For a tensor constructed
with data `d` and shape `S`, `length(d)` equal to the product of `S` (which
fits into an `int`), and every valid index list (at most one index per
dimension, each below its dimension): Value reads `d` at the row-major offset,
the sum over `j < k` of `i_j` times the product of the dimensions after `j`,
which lies inside `d` when `d` is not empty; Value of the empty index list
reads `d[0]`; and a 0-dimensional tensor has the stride table `{1}` and the
value it was built from. -/
theorem value_addressing (d : List ℚ) (S idx : List Nat) (rg : Bool) (w : World)
    (hlen : d.length = S.prod) (hsize : S.prod < 2 ^ 31) (hv : ValidIndex S idx) :
    (Tensor.fromValuesShape d S rg w).1.Value (idx.map Int.ofNat)
        (Tensor.fromValuesShape d S rg w).2 = rd d (rowMajorOffset S idx) ∧
    (0 < d.length → rowMajorOffset S idx < d.length ∧
      (Tensor.fromValuesShape d S rg w).1.Value (idx.map Int.ofNat)
        (Tensor.fromValuesShape d S rg w).2 = .ok (d.getD (rowMajorOffset S idx) 0)) ∧
    (Tensor.fromValuesShape d S rg w).1.Value [] (Tensor.fromValuesShape d S rg w).2 = rd d 0 ∧
    (∀ v : ℚ, (Tensor.fromValue v rg w).1.strides_ = [1] ∧
      (Tensor.fromValue v rg w).1.Value [] (Tensor.fromValue v rg w).2 = .ok v) := by
  have hval := Value_eq (Tensor.fromValuesShape d S rg w).1 (Tensor.fromValuesShape d S rg w).2
    (InternalTensor.new d S rg true) S idx (fromValuesShape_deref d S rg w)
    (fun j hj => by
      rw [fromValuesShape_strides]
      exact CalculateStrides_getElem [] S j (by have := hv.1; omega))
    hv hsize
  have hnil := Value_eq (Tensor.fromValuesShape d S rg w).1 (Tensor.fromValuesShape d S rg w).2
    (InternalTensor.new d S rg true) S [] (fromValuesShape_deref d S rg w)
    (fun j hj => absurd hj (by simp)) (ValidIndex_nil S) hsize
  refine ⟨hval, ?_, ?_, ?_⟩
  · intro hpos
    have hlt : rowMajorOffset S idx < d.length := by
      rw [hlen]
      exact offset_lt S idx hv (by omega)
    exact ⟨hlt, by rw [hval]; exact rd_ok d _ hlt⟩
  · simpa [rowMajorOffset_nil] using hnil
  · intro v
    constructor
    · simp [Tensor.fromValue, World.alloc, CalculateStrides, stridePushes]
    · simp [Tensor.fromValue, Tensor.Value, flatIndex, World.alloc, World.deref,
        InternalTensor.new, toSizeT]

/-- An instance of C21: the element (1, 2) of a 2x3 tensor is `d[5]`. -/
theorem value_addressing_witness :
    ([1, 2, 3, 4, 5, 6] : List ℚ).length = ([2, 3] : List Nat).prod ∧
    ([2, 3] : List Nat).prod < 2 ^ 31 ∧ ValidIndex [2, 3] [1, 2] ∧
    (Tensor.fromValuesShape [1, 2, 3, 4, 5, 6] [2, 3] false World.init).1.Value
        (([1, 2] : List Nat).map Int.ofNat)
        (Tensor.fromValuesShape [1, 2, 3, 4, 5, 6] [2, 3] false World.init).2 =
      rd [1, 2, 3, 4, 5, 6] (rowMajorOffset [2, 3] [1, 2]) ∧
    rowMajorOffset [2, 3] [1, 2] = 5 :=
  have hv : ValidIndex [2, 3] [1, 2] :=
    (ValidIndex_cons 2 1 [3] [2]).mpr ⟨by decide,
      (ValidIndex_cons 3 2 [] []).mpr ⟨by decide, ValidIndex_nil []⟩⟩
  ⟨rfl, by decide, hv,
   (value_addressing [1, 2, 3, 4, 5, 6] [2, 3] [1, 2] false World.init rfl (by decide) hv).1,
   by decide⟩


/-! ## Reshaping -/

/-- The index loop reads only the strides at the positions of the indices. -/
theorem flatIndex_congr (X Y : List Nat) (idx : List Int) (i : Nat) (acc : Int)
    (h : ∀ j, j < idx.length → X[i + j]? = Y[i + j]?) :
    flatIndex X idx i acc = flatIndex Y idx i acc := by
  induction idx generalizing i acc with
  | nil => rfl
  | cons v idx ih =>
    have h0 := h 0 (by simp)
    simp only [Nat.add_zero] at h0
    simp only [flatIndex, rdNat, h0]
    cases Y[i]? with
    | none => rfl
    | some s =>
      simp only [ok_bind]
      apply ih
      intro j hj
      have := h (j + 1) (by simpa using hj)
      rw [show i + 1 + j = i + (j + 1) by omega]
      exact this

theorem store_self (w : World) (p : SharedTensor) (t : InternalTensor)
    (h : w.deref p = .ok t) : w.store p t = w := by
  have hp := deref_lt w p t h
  unfold World.deref at h
  rw [List.getElem?_eq_getElem hp] at h
  simp only [Except.ok.injEq] at h
  unfold World.store
  cases w with
  | mk nodes flag =>
    simp only [World.mk.injEq, and_true]
    rw [← h]
    apply List.ext_getElem?
    intro j
    rw [List.getElem?_set]
    split
    · next hj =>
      subst hj
      simp [hp]
    · rfl

theorem store_store (w : World) (p : SharedTensor) (t u : InternalTensor) :
    (w.store p t).store p u = w.store p u := by
  simp [World.store]

/-- Value and ValueTensor depend on the handle only through the strides at the
positions of the indices. -/
theorem Value_congr (x y : Tensor) (idx : List Int) (w : World) (hp : x.tensor_ = y.tensor_)
    (h : ∀ j, j < idx.length → x.strides_[j]? = y.strides_[j]?) :
    x.Value idx w = y.Value idx w ∧ x.ValueTensor idx w = y.ValueTensor idx w := by
  have hflat := flatIndex_congr x.strides_ y.strides_ idx 0 0
    (fun j hj => by rw [Nat.zero_add]; exact h j hj)
  constructor
  · unfold Tensor.Value
    rw [hflat, hp]
  · unfold Tensor.ValueTensor
    rw [hflat, hp]
    cases hk : idx.length with
    | zero => rfl
    | succ k =>
      simp only [lastStride, rdNat]
      rw [h k (by omega)]

/-- C23 (reshape round trip).  For a handle whose stride table was computed
for the shape `S0` of its node (at construction or by an earlier reshape of
the same handle) and every shape `S1`: `Reshape(S1)` followed by `Reshape(S0)`
on the same handle leaves the store as it was, the data included, and
`Value(idx)` and `ValueTensor(idx)` return for every index list with at most
one index per dimension of `S0` what they returned before. -/
theorem reshape_round_trip (x : Tensor) (w : World) (t : InternalTensor) (old S1 : List Nat)
    (ht : w.deref x.tensor_ = .ok t) (hx : x.strides_ = CalculateStrides old t.shape_) :
    ∃ x1 w1 x2 w2, x.Reshape S1 w = .ok (x1, w1) ∧ x1.Reshape t.shape_ w1 = .ok (x2, w2) ∧
      w2 = w ∧ w2.deref x2.tensor_ = .ok t ∧
      ∀ idx : List Int, idx.length ≤ t.shape_.length →
        x2.Value idx w2 = x.Value idx w ∧ x2.ValueTensor idx w2 = x.ValueTensor idx w := by
  have hp := deref_lt w _ _ ht
  have h1 : x.Reshape S1 w = .ok
      ({ x with strides_ := CalculateStrides x.strides_ S1 },
       w.store x.tensor_ { t with shape_ := S1 }) := by
    simp only [Tensor.Reshape, ht, ok_bind, pure_eq_ok]
  have hw2 : (w.store x.tensor_ { t with shape_ := S1 }).store x.tensor_
      { ({ t with shape_ := S1 } : InternalTensor) with shape_ := t.shape_ } = w := by
    rw [store_store]
    exact store_self w _ t ht
  have h2 : Tensor.Reshape { x with strides_ := CalculateStrides x.strides_ S1 } t.shape_
      (w.store x.tensor_ { t with shape_ := S1 }) = .ok
      ({ x with strides_ := CalculateStrides (CalculateStrides x.strides_ S1) t.shape_ }, w) := by
    simp only [Tensor.Reshape, deref_store, hp, and_self, if_true, ok_bind, pure_eq_ok, hw2]
  refine ⟨_, _, _, _, h1, h2, rfl, ht, ?_⟩
  intro idx hidx
  refine Value_congr _ x idx w rfl ?_
  intro j hj
  simp only
  rw [hx, CalculateStrides_getElem _ _ j (by omega), CalculateStrides_getElem _ _ j (by omega)]

/-- An instance of C23: the 2x2 tensor of the example store, reshaped to (4)
and back. -/
theorem reshape_round_trip_witness :
    rank_store.deref 1 = .ok (InternalTensor.new [10, 20, 30, 40] [2, 2] false true) ∧
    ([2, 1] : List Nat) =
      CalculateStrides [] (InternalTensor.new [10, 20, 30, 40] [2, 2] false true).shape_ ∧
    ∃ x1 w1 x2 w2, Tensor.Reshape ⟨1, [2, 1]⟩ [4] rank_store = .ok (x1, w1) ∧
      x1.Reshape (InternalTensor.new [10, 20, 30, 40] [2, 2] false true).shape_ w1 =
        .ok (x2, w2) ∧
      w2 = rank_store ∧
      w2.deref x2.tensor_ = .ok (InternalTensor.new [10, 20, 30, 40] [2, 2] false true) ∧
      ∀ idx : List Int,
        idx.length ≤ (InternalTensor.new [10, 20, 30, 40] [2, 2] false true).shape_.length →
        x2.Value idx w2 = Tensor.Value ⟨1, [2, 1]⟩ idx rank_store ∧
        x2.ValueTensor idx w2 = Tensor.ValueTensor ⟨1, [2, 1]⟩ idx rank_store :=
  ⟨by simp [rank_store, World.deref],
   by simp [InternalTensor.new, CalculateStrides, stridePushes],
   reshape_round_trip ⟨1, [2, 1]⟩ rank_store
     (InternalTensor.new [10, 20, 30, 40] [2, 2] false true) [] [4]
     (by simp [rank_store, World.deref])
     (by simp [InternalTensor.new, CalculateStrides, stridePushes])⟩

/-! ## ValueTensor without indices -/

/-- C25.  ValueTensor with an empty index list does not return the whole
tensor: the subscript `indices.size() - 1` of the stride table wraps to
2^64 - 1, an access out of bounds, for every constructed tensor (whatever its
data, shape and flag). -/
theorem value_tensor_no_indices (d : List ℚ) (S : List Nat) (rg : Bool) (w : World) :
    (Tensor.fromValuesShape d S rg w).1.ValueTensor [] (Tensor.fromValuesShape d S rg w).2 =
      .error .outOfBounds := by
  unfold Tensor.ValueTensor
  simp only [flatIndex, ok_bind, fromValuesShape_deref, List.length_nil, lastStride]
  by_cases h1 : 0 = (InternalTensor.new d S rg true).shape_.length
  · simp only [if_pos h1, ok_bind, error_bind]
  · have h2 : 0 < (InternalTensor.new d S rg true).shape_.length := by omega
    simp only [if_neg h1, if_pos h2, ok_bind, error_bind]


/-! ## Aliased handles -/

/-- C26, counterexample.  After `h2 = h1.Clone(false)` on a 2x3 tensor and
`h1.Reshape({3, 2})`, the handle `h2` reports the shape (3,2) but still
addresses with the strides of (2,3): `h1.Value({1, 0})` is `d[2] = 3` and
`h2.Value({1, 0})` is `d[3] = 4`. -/
theorem aliased_reshape_counterexample :
    (alias_program >>= fun r => r.2.1.Shape r.2.2) = .ok [3, 2] ∧
    (alias_program >>= fun r => r.1.Value [1, 0] r.2.2) = .ok 3 ∧
    (alias_program >>= fun r => r.2.1.Value [1, 0] r.2.2) = .ok 4 := by
  have h : alias_program = .ok (⟨0, [2, 1, 1, 3]⟩, ⟨0, [3, 1]⟩,
      ⟨[⟨[1, 2, 3, 4, 5, 6], [], [3, 2], [], none, true, false⟩], true⟩) := by
    simp [alias_program, Tensor.Reshape, Tensor.Clone, Tensor.fromShared,
      Tensor.fromValuesShape, World.alloc, World.init, World.deref, World.store,
      InternalTensor.new, CalculateStrides_eq, cumulativeProducts]
  rw [h]
  refine ⟨?_, ?_, ?_⟩
  · simp [Tensor.Shape, World.deref]
  · simp [Tensor.Value, flatIndex, rdNat, toSizeT, toInt, World.deref, rd]
  · simp [Tensor.Value, flatIndex, rdNat, toSizeT, toInt, World.deref, rd]

/-- C26, amended.  For two handles on the same node, after `h1.Reshape(S)` the
other handle reports the shape `S` and the data is unchanged, but it keeps its
own stride table: `h2.Value(idx)` returns the element it returned before the
reshape.  The reshaped handle addresses by the strides of `S`, and the two
agree on an index list when their tables agree at the positions of the
indices. -/
theorem aliased_reshape (h1 h2 : Tensor) (w : World) (t : InternalTensor) (S : List Nat)
    (ht : w.deref h1.tensor_ = .ok t) (halias : h2.tensor_ = h1.tensor_) :
    ∃ h1r w1, h1.Reshape S w = .ok (h1r, w1) ∧
      h2.Shape w1 = .ok S ∧
      (∃ t1, w1.deref h2.tensor_ = .ok t1 ∧ t1.data_ = t.data_) ∧
      (∀ idx : List Int, h2.Value idx w1 = h2.Value idx w) ∧
      (∀ idx : List Nat, ValidIndex S idx → S.prod < 2 ^ 31 →
        h1r.Value (idx.map Int.ofNat) w1 = rd t.data_ (rowMajorOffset S idx)) ∧
      (∀ idx : List Int, (∀ j, j < idx.length → h2.strides_[j]? = h1r.strides_[j]?) →
        h2.Value idx w1 = h1r.Value idx w1) := by
  have hp := deref_lt w _ _ ht
  have hd : (w.store h1.tensor_ { t with shape_ := S }).deref h1.tensor_ =
      .ok { t with shape_ := S } := by
    simp only [deref_store, hp, and_self, if_true]
  refine ⟨{ h1 with strides_ := CalculateStrides h1.strides_ S },
    w.store h1.tensor_ { t with shape_ := S }, ?_, ?_, ?_, ?_, ?_, ?_⟩
  · simp only [Tensor.Reshape, ht, ok_bind, pure_eq_ok]
  · simp only [Tensor.Shape, halias, hd, ok_bind, pure_eq_ok]
  · exact ⟨{ t with shape_ := S }, by rw [halias]; exact hd, rfl⟩
  · intro idx
    simp only [Tensor.Value, halias, hd, ht, ok_bind]
  · intro idx hv hsize
    exact Value_eq _ _ { t with shape_ := S } S idx hd
      (fun j hj => CalculateStrides_getElem _ S j (by have := hv.1; omega)) hv hsize
  · intro idx h
    exact (Value_congr h2 { h1 with strides_ := CalculateStrides h1.strides_ S } idx _
      halias h).1

/-- An instance of C26 (amended): the two handles of the example program
before the reshape. -/
theorem aliased_reshape_witness :
    rank_store.deref 1 = .ok (InternalTensor.new [10, 20, 30, 40] [2, 2] false true) ∧
    ∃ h1r w1, Tensor.Reshape ⟨1, [2, 1]⟩ [4] rank_store = .ok (h1r, w1) ∧
      Tensor.Shape ⟨1, [2, 1]⟩ w1 = .ok [4] ∧
      (∃ t1, w1.deref 1 = .ok t1 ∧
        t1.data_ = (InternalTensor.new [10, 20, 30, 40] [2, 2] false true).data_) ∧
      (∀ idx : List Int,
        Tensor.Value ⟨1, [2, 1]⟩ idx w1 = Tensor.Value ⟨1, [2, 1]⟩ idx rank_store) ∧
      (∀ idx : List Nat, ValidIndex [4] idx → ([4] : List Nat).prod < 2 ^ 31 →
        h1r.Value (idx.map Int.ofNat) w1 =
          rd (InternalTensor.new [10, 20, 30, 40] [2, 2] false true).data_
            (rowMajorOffset [4] idx)) ∧
      (∀ idx : List Int,
        (∀ j, j < idx.length → ([2, 1] : List Nat)[j]? = h1r.strides_[j]?) →
        Tensor.Value ⟨1, [2, 1]⟩ idx w1 = h1r.Value idx w1) :=
  ⟨by simp [rank_store, World.deref],
   aliased_reshape ⟨1, [2, 1]⟩ ⟨1, [2, 1]⟩ rank_store
     (InternalTensor.new [10, 20, 30, 40] [2, 2] false true) [4]
     (by simp [rank_store, World.deref]) rfl⟩


/-! ## Sub-tensors -/

theorem rowMajorOffset_append (S idx rest : List Nat) (h : idx.length ≤ S.length) :
    rowMajorOffset S (idx ++ rest) =
      rowMajorOffset S idx + rowMajorOffset (S.drop idx.length) rest := by
  induction S generalizing idx with
  | nil =>
    cases idx with
    | nil => simp [rowMajorOffset_nil]
    | cons i idx => simp at h
  | cons s S ih =>
    cases idx with
    | nil => simp [rowMajorOffset_nil]
    | cons i idx =>
      rw [List.cons_append, rowMajorOffset_cons, rowMajorOffset_cons,
        ih idx (by simpa using h), List.length_cons, List.drop_succ_cons]
      omega

theorem ValidIndex_append (S idx rest : List Nat) (h : ValidIndex S idx)
    (hr : ValidIndex (S.drop idx.length) rest) : ValidIndex S (idx ++ rest) := by
  induction S generalizing idx with
  | nil =>
    have := ValidIndex_nil_left idx h
    subst this
    simpa using hr
  | cons s S ih =>
    cases idx with
    | nil => simpa using hr
    | cons i idx =>
      obtain ⟨hi, hv⟩ := (ValidIndex_cons s i S idx).mp h
      rw [List.cons_append]
      exact (ValidIndex_cons s i S (idx ++ rest)).mpr
        ⟨hi, ih idx hv (by simpa using hr)⟩

theorem rd_block (d : List ℚ) (off P i : Nat) (hi : i < P) :
    rd ((d.drop off).take P) i = rd d (off + i) := by
  unfold rd
  rw [List.getElem?_take_of_lt hi, List.getElem?_drop]

theorem rd_none (d : List ℚ) (i : Nat) (h : d.length ≤ i) : rd d i = .error .outOfBounds := by
  unfold rd
  rw [List.getElem?_eq_none h]

/-- C24 (sub-tensor extraction by an index list).  For a tensor constructed
with data `d` and shape `S`, `length(d)` the product of `S` (which fits into
an `int`), and a valid index list of length `k` with `1 ≤ k ≤ r`:
`ValueTensor(idx)` returns a new tensor of shape `S[k..]` (`{1}` when
`k = r`) whose data length is the product of that shape, and for every valid
index list `rest` into the remaining dimensions `ValueTensor(idx).Value(rest)`
equals `Value(idx ++ rest)` of the original. -/
theorem value_tensor_block (d : List ℚ) (S idx rest : List Nat) (rg : Bool) (w : World)
    (hlen : d.length = S.prod) (hsize : S.prod < 2 ^ 31) (hv : ValidIndex S idx)
    (hk : 1 ≤ idx.length) (hrest : ValidIndex (S.drop idx.length) rest) :
    ∃ sub w1 node,
      (Tensor.fromValuesShape d S rg w).1.ValueTensor (idx.map Int.ofNat)
        (Tensor.fromValuesShape d S rg w).2 = .ok (sub, w1) ∧
      w1.deref sub.tensor_ = .ok node ∧
      node.shape_ = (if idx.length = S.length then [1] else S.drop idx.length) ∧
      node.data_.length = node.shape_.prod ∧
      sub.Value (rest.map Int.ofNat) w1 =
        (Tensor.fromValuesShape d S rg w).1.Value ((idx ++ rest).map Int.ofNat) w1 := by
  have hne : idx ≠ [] := by
    intro h
    subst h
    simp at hk
  have hblock := offset_block_le S idx hv hne
  have hstr : ∀ j, j < S.length → (Tensor.fromValuesShape d S rg w).1.strides_[j]? =
      some ((cumulativeProducts S).getD j 0 % 2 ^ 64) := by
    intro j hj
    rw [fromValuesShape_strides]
    exact CalculateStrides_getElem [] S j hj
  have hvt := ValueTensor_eq (Tensor.fromValuesShape d S rg w).1
    (Tensor.fromValuesShape d S rg w).2 (InternalTensor.new d S rg true) idx
    (fromValuesShape_deref d S rg w)
    (fun j hj => hstr j (by have := hv.1; omega)) hv hne hlen hsize
  simp only [InternalTensor.new] at hvt
  have hblen : ((d.drop (rowMajorOffset S idx)).take (S.drop idx.length).prod).length =
      (S.drop idx.length).prod := by
    rw [List.length_take, List.length_drop]
    omega
  have hsub := Value_eq
    (Tensor.fromValuesShape ((d.drop (rowMajorOffset S idx)).take (S.drop idx.length).prod)
      (if idx.length = S.length then [1] else S.drop idx.length) false
      (Tensor.fromValuesShape d S rg w).2).1
    (Tensor.fromValuesShape ((d.drop (rowMajorOffset S idx)).take (S.drop idx.length).prod)
      (if idx.length = S.length then [1] else S.drop idx.length) false
      (Tensor.fromValuesShape d S rg w).2).2 _ (S.drop idx.length) rest
    (fromValuesShape_deref _ _ _ _)
    (fun j hj => by
      have hj2 : j < (S.drop idx.length).length := by have := hrest.1; omega
      have hlt : idx.length ≠ S.length := by
        intro he
        rw [he] at hj2
        simp at hj2
      rw [fromValuesShape_strides, if_neg hlt]
      exact CalculateStrides_getElem [] _ j hj2)
    hrest (by omega)
  have horig := Value_eq (Tensor.fromValuesShape d S rg w).1
    (Tensor.fromValuesShape ((d.drop (rowMajorOffset S idx)).take (S.drop idx.length).prod)
      (if idx.length = S.length then [1] else S.drop idx.length) false
      (Tensor.fromValuesShape d S rg w).2).2 (InternalTensor.new d S rg true) S (idx ++ rest)
    (by
      simp only [Tensor.fromValuesShape]
      exact deref_alloc_old _ _ _ _ (deref_alloc w _))
    (fun j hj => hstr j (by have := (ValidIndex_append S idx rest hv hrest).1; omega))
    (ValidIndex_append S idx rest hv hrest) hsize
  refine ⟨_, _, _, hvt, fromValuesShape_deref _ _ _ _, rfl, ?_, ?_⟩
  · simp only [InternalTensor.new, hblen]
    by_cases h1 : idx.length = S.length
    · simp [h1]
    · simp [h1]
  · have key : rd ((d.drop (rowMajorOffset S idx)).take (S.drop idx.length).prod)
        (rowMajorOffset (S.drop idx.length) rest) = rd d (rowMajorOffset S (idx ++ rest)) := by
      rw [rowMajorOffset_append S idx rest hv.1]
      by_cases hP : 0 < (S.drop idx.length).prod
      · exact rd_block d _ _ _ (offset_lt _ rest hrest hP)
      · have hP0 : (S.drop idx.length).prod = 0 := by omega
        have hS0 : S.prod = 0 := by
          have h1 : S.prod = (S.take idx.length).prod * (S.drop idx.length).prod := by
            rw [← List.prod_append, List.take_append_drop]
          rw [h1, hP0, Nat.mul_zero]
        rw [rd_none _ _ (by simp [hP0]), rd_none _ _ (by omega)]
    exact hsub.trans (key.trans horig.symm)

/-- An instance of C24: row 1 of a 2x3 tensor and its element 2. -/
theorem value_tensor_block_witness :
    ([1, 2, 3, 4, 5, 6] : List ℚ).length = ([2, 3] : List Nat).prod ∧
    ([2, 3] : List Nat).prod < 2 ^ 31 ∧ ValidIndex [2, 3] [1] ∧
    ValidIndex (([2, 3] : List Nat).drop ([1] : List Nat).length) [2] ∧
    ∃ sub w1 node,
      (Tensor.fromValuesShape [1, 2, 3, 4, 5, 6] [2, 3] false World.init).1.ValueTensor
        (([1] : List Nat).map Int.ofNat)
        (Tensor.fromValuesShape [1, 2, 3, 4, 5, 6] [2, 3] false World.init).2 = .ok (sub, w1) ∧
      w1.deref sub.tensor_ = .ok node ∧
      node.shape_ = (if ([1] : List Nat).length = ([2, 3] : List Nat).length then [1]
        else ([2, 3] : List Nat).drop ([1] : List Nat).length) ∧
      node.data_.length = node.shape_.prod ∧
      sub.Value (([2] : List Nat).map Int.ofNat) w1 =
        (Tensor.fromValuesShape [1, 2, 3, 4, 5, 6] [2, 3] false World.init).1.Value
          ((([1] : List Nat) ++ [2]).map Int.ofNat) w1 :=
  have hv : ValidIndex [2, 3] [1] :=
    (ValidIndex_cons 2 1 [3] []).mpr ⟨by decide, ValidIndex_nil [3]⟩
  have hr : ValidIndex (([2, 3] : List Nat).drop ([1] : List Nat).length) [2] :=
    (ValidIndex_cons 3 2 [] []).mpr ⟨by decide, ValidIndex_nil []⟩
  ⟨rfl, by decide, hv, hr,
   value_tensor_block [1, 2, 3, 4, 5, 6] [2, 3] [1] [2] false World.init rfl (by decide) hv
     (by decide) hr⟩


/-! ## Concatenation -/

theorem flatten_length_const (L : List (List ℚ)) (P : Nat) (h : ∀ l ∈ L, l.length = P) :
    L.flatten.length = L.length * P := by
  induction L with
  | nil => simp
  | cons l L ih =>
    rw [List.flatten_cons, List.length_append, h l (List.mem_cons_self _ _),
      ih (fun l2 hl => h l2 (List.mem_cons_of_mem _ hl)), List.length_cons]
    rw [Nat.add_mul, Nat.one_mul, Nat.add_comm]

/-- Block `i` of a concatenation of lists of equal length. -/
theorem flatten_block (L : List (List ℚ)) (P i : Nat) (h : ∀ l ∈ L, l.length = P)
    (hi : i < L.length) : (L.flatten.drop (i * P)).take P = L.get ⟨i, hi⟩ := by
  induction L generalizing i with
  | nil => simp at hi
  | cons l L ih =>
    have hl := h l (List.mem_cons_self _ _)
    cases i with
    | zero =>
      simp only [Nat.zero_mul, List.drop_zero, List.flatten_cons, List.get_eq_getElem,
        List.getElem_cons_zero]
      rw [← hl]
      exact List.take_left' rfl
    | succ i =>
      have hdrop : (l ++ L.flatten).drop ((i + 1) * P) = L.flatten.drop (i * P) := by
        rw [show (i + 1) * P = l.length + i * P by rw [hl, Nat.add_mul, Nat.one_mul, Nat.add_comm]]
        exact List.drop_append _
      rw [List.flatten_cons, hdrop]
      exact ih i (fun l2 hl2 => h l2 (List.mem_cons_of_mem _ hl2)) (by simpa using hi)

theorem mapE_forall2 (w : World) (ts : List Tensor) (ns : List InternalTensor)
    (hd : List.Forall₂ (fun (kT : Tensor) (n : InternalTensor) => w.deref kT.tensor_ = .ok n) ts ns) :
    mapE (fun (kT : Tensor) => do
      let t ← w.deref kT.tensor_
      pure t.data_) ts = .ok (ns.map (fun n => n.data_)) := by
  induction hd with
  | nil => rfl
  | cons h _ ih =>
    simp only [pure_eq_ok] at ih
    simp [h, ih]

/-- C27 (Concat stacks along a new leading dimension).  For a non-empty list
of handles on nodes with a common shape `S`, each with data length the
product of `S`: Concat returns a new tensor of shape `(n) ++ S` whose data is
the concatenation of the inputs' data in order, of length `n` times the
product of `S`; and when `S` has at least one dimension (and the element count
fits into an `int`), `ValueTensor({i})` of the result has the shape and the
data of input `i`, for every `i < n`. -/
theorem concat_stack (ts : List Tensor) (ns : List InternalTensor) (w : World) (S : List Nat)
    (hne : ts ≠ [])
    (hd : List.Forall₂ (fun (kT : Tensor) (n : InternalTensor) => w.deref kT.tensor_ = .ok n) ts ns)
    (hS : ∀ n ∈ ns, n.shape_ = S ∧ n.data_.length = S.prod) :
    ∃ c w1 node, Tensor.Concat ts w = .ok (c, w1) ∧ w1.deref c.tensor_ = .ok node ∧
      node.shape_ = ts.length :: S ∧
      node.data_ = (ns.map (fun n => n.data_)).flatten ∧
      node.data_.length = ts.length * S.prod ∧
      (S ≠ [] → ts.length * S.prod < 2 ^ 31 → ∀ (i : Nat) (hi : i < ns.length),
        ∃ sub w2 n2, c.ValueTensor (([i] : List Nat).map Int.ofNat) w1 = .ok (sub, w2) ∧
          w2.deref sub.tensor_ = .ok n2 ∧ n2.shape_ = S ∧
          n2.data_ = (ns.get ⟨i, hi⟩).data_) := by
  have hlenEq := hd.length_eq
  have hblocks : ∀ l ∈ ns.map (fun n => n.data_), l.length = S.prod := by
    intro l hl
    obtain ⟨n, hn, rfl⟩ := List.mem_map.mp hl
    exact (hS n hn).2
  have hflen := flatten_length_const _ _ hblocks
  rw [List.length_map, ← hlenEq] at hflen
  obtain ⟨kT, ts2, rfl⟩ := List.exists_cons_of_ne_nil hne
  obtain ⟨n0, ns2, hn0, -, rfl⟩ := List.forall₂_cons_left_iff.mp hd
  have hshape0 : n0.shape_ = S := (hS n0 (List.mem_cons_self _ _)).1
  have hconcat : Tensor.Concat (kT :: ts2) w = .ok (Tensor.fromValuesShape
      (((n0 :: ns2).map (fun n => n.data_)).flatten) ((kT :: ts2).length :: S) false w) := by
    unfold Tensor.Concat
    rw [mapE_forall2 w _ _ hd]
    simp only [ok_bind, hn0, pure_eq_ok, hshape0]
  refine ⟨_, _, _, hconcat, fromValuesShape_deref _ _ _ _, rfl, rfl, hflen, ?_⟩
  intro hSne hsize i hi
  have hi2 : i < (kT :: ts2).length := by rw [hlenEq]; exact hi
  have hv : ValidIndex ((kT :: ts2).length :: S) [i] :=
    (ValidIndex_cons _ i S []).mpr ⟨hi2, ValidIndex_nil S⟩
  have hvt := ValueTensor_eq
    (Tensor.fromValuesShape (((n0 :: ns2).map (fun n => n.data_)).flatten)
      ((kT :: ts2).length :: S) false w).1
    (Tensor.fromValuesShape (((n0 :: ns2).map (fun n => n.data_)).flatten)
      ((kT :: ts2).length :: S) false w).2 _ [i]
    (fromValuesShape_deref _ _ _ _)
    (fun j hj => by
      rw [fromValuesShape_strides]
      exact CalculateStrides_getElem [] _ j (by simp at hj; simp; omega))
    hv (by simp)
    (by simpa [InternalTensor.new] using hflen)
    (by simpa [InternalTensor.new] using hsize)
  have hnot : ¬ (1 = ((kT :: ts2).length :: S).length) := by
    cases S with
    | nil => exact absurd rfl hSne
    | cons s S => simp
  simp only [InternalTensor.new, List.length_singleton, if_neg hnot, List.drop_succ_cons,
    List.drop_zero, rowMajorOffset_cons, rowMajorOffset_nil, Nat.add_zero] at hvt
  rw [flatten_block _ S.prod i hblocks (by simpa using hi)] at hvt
  refine ⟨_, _, _, hvt, fromValuesShape_deref _ _ _ _, rfl, ?_⟩
  simp only [InternalTensor.new, List.get_eq_getElem, List.getElem_map]


/-- An instance of C27: two rank-1 tensors of length 2 stacked to shape (2,2). -/
theorem concat_stack_witness :
    ([⟨0, [1]⟩, ⟨1, [1]⟩] : List Tensor) ≠ [] ∧
    List.Forall₂ (fun (kT : Tensor) (n : InternalTensor) => concat_store.deref kT.tensor_ = .ok n)
      [⟨0, [1]⟩, ⟨1, [1]⟩] concat_store.nodes ∧
    (∀ n ∈ concat_store.nodes, n.shape_ = [2] ∧ n.data_.length = ([2] : List Nat).prod) ∧
    ∃ c w1 node, Tensor.Concat [⟨0, [1]⟩, ⟨1, [1]⟩] concat_store = .ok (c, w1) ∧
      w1.deref c.tensor_ = .ok node ∧
      node.shape_ = ([⟨0, [1]⟩, ⟨1, [1]⟩] : List Tensor).length :: [2] ∧
      node.data_ = (concat_store.nodes.map (fun n => n.data_)).flatten ∧
      node.data_.length = ([⟨0, [1]⟩, ⟨1, [1]⟩] : List Tensor).length * ([2] : List Nat).prod ∧
      (([2] : List Nat) ≠ [] →
        ([⟨0, [1]⟩, ⟨1, [1]⟩] : List Tensor).length * ([2] : List Nat).prod < 2 ^ 31 →
        ∀ (i : Nat) (hi : i < concat_store.nodes.length),
        ∃ sub w2 n2, c.ValueTensor (([i] : List Nat).map Int.ofNat) w1 = .ok (sub, w2) ∧
          w2.deref sub.tensor_ = .ok n2 ∧ n2.shape_ = [2] ∧
          n2.data_ = (concat_store.nodes.get ⟨i, hi⟩).data_) :=
  have hne : ([⟨0, [1]⟩, ⟨1, [1]⟩] : List Tensor) ≠ [] := by simp
  have hd : List.Forall₂
      (fun (kT : Tensor) (n : InternalTensor) => concat_store.deref kT.tensor_ = .ok n)
      [⟨0, [1]⟩, ⟨1, [1]⟩] concat_store.nodes :=
    List.Forall₂.cons (by simp [concat_store, World.deref])
      (List.Forall₂.cons (by simp [concat_store, World.deref]) List.Forall₂.nil)
  have hS : ∀ n ∈ concat_store.nodes,
      n.shape_ = [2] ∧ n.data_.length = ([2] : List Nat).prod := by
    intro n hn
    simp only [concat_store, List.mem_cons, List.mem_singleton, List.not_mem_nil, or_false] at hn
    rcases hn with rfl | rfl <;> simp [InternalTensor.new]
  ⟨hne, hd, hS, concat_stack [⟨0, [1]⟩, ⟨1, [1]⟩] concat_store.nodes concat_store [2] hne hd hS⟩

/-! ## The data-length invariant -/

theorem ApplyOperation_gives (data : List ℚ) (shape : List Nat) (parents : List SharedTensor)
    (op : BackwardOp) (w : World) (hp : ∀ p ∈ parents, p < w.nodes.length) :
    Gives (ApplyOperation data shape parents op w) w shape data := by
  obtain ⟨rg, leaf, -, -, h⟩ := ApplyOperation_spec data shape parents op w hp
  refine ⟨_, _, (⟨data, [], shape, if rg then parents else [],
    if rg then some op else none, leaf, rg⟩ : InternalTensor), h, ?_, rfl, rfl, ?_⟩
  · simp [World.deref]
  · intro q t hq
    exact deref_append w q t _ hq

theorem Gives_trans (r : Except Err (SharedTensor × World)) (w w0 : World) (shape : List Nat)
    (data : List ℚ) (h : Gives r w shape data) (hw : ∀ q t, w0.deref q = .ok t → w.deref q = .ok t) :
    Gives r w0 shape data := by
  obtain ⟨p, w1, res, h1, h2, h3, h4, h5⟩ := h
  exact ⟨p, w1, res, h1, h2, h3, h4, fun q t hq => h5 q t (hw q t hq)⟩

theorem wrap_gives (r : Except Err (SharedTensor × World)) (w : World) (shape : List Nat)
    (data : List ℚ) (h : Gives r w shape data) :
    ∃ z w1 t, wrap r = .ok (z, w1) ∧ w1.deref z.tensor_ = .ok t ∧ t.shape_ = shape ∧
      t.data_ = data := by
  obtain ⟨p, w1, res, h1, h2, h3, h4, -⟩ := h
  refine ⟨⟨p, CalculateStrides [] res.shape_⟩, w1, res, ?_, h2, h3, h4⟩
  simp only [wrap, h1, ok_bind, Tensor.fromShared, h2, pure_eq_ok]

theorem wrap_valid (r : Except Err (SharedTensor × World)) (w : World) (shape : List Nat)
    (data : List ℚ) (h : Gives r w shape data) (hlen : data.length = shape.prod) :
    ResultValid (wrap r) := by
  obtain ⟨z, w1, t, h1, h2, h3, h4⟩ := wrap_gives r w shape data h
  exact ⟨z, w1, t, h1, h2, by rw [h3, h4]; exact hlen⟩

theorem AddManyOneInternal_gives (a b : SharedTensor) (w : World) (ta tb : InternalTensor)
    (ha : w.deref a = .ok ta) (hb : w.deref b = .ok tb) (h1 : 0 < tb.data_.length) :
    Gives (AddManyOneInternal a b w) w ta.shape_
      (ta.data_.map (fun v => v + tb.data_.getD 0 0)) := by
  unfold AddManyOneInternal
  simp only [ha, hb, ok_bind, rd_ok _ _ h1, pure_eq_ok, mapE_ok_map]
  exact ApplyOperation_gives _ _ _ _ w (pair_valid w a b ta tb ha hb)

theorem AddManyManyInternal_gives (a b : SharedTensor) (w : World) (ta tb : InternalTensor)
    (ha : w.deref a = .ok ta) (hb : w.deref b = .ok tb)
    (hlen : ta.data_.length ≤ tb.data_.length) :
    Gives (AddManyManyInternal a b w) w ta.shape_
      (List.zipWith (fun u v => u + v) ta.data_ tb.data_) := by
  unfold AddManyManyInternal
  simp only [ha, hb, ok_bind, pure_eq_ok,
    forEachIndex_zip (fun u v => u + v) ta.data_ tb.data_ hlen]
  exact ApplyOperation_gives _ _ _ _ w (pair_valid w a b ta tb ha hb)

theorem AddBiasInternal_gives (a b : SharedTensor) (w : World) (ta tb : InternalTensor)
    (ha : w.deref a = .ok ta) (hb : w.deref b = .ok tb)
    (hdvd : tb.data_.length ∣ ta.data_.length) :
    Gives (AddBiasInternal a b w) w ta.shape_
      ((List.range ta.data_.length).map (fun i =>
        ta.data_.getD i 0 + tb.data_.getD (i % tb.data_.length) 0)) := by
  unfold AddBiasInternal
  simp only [ha, hb, ok_bind, biasData_dvd _ _ hdvd]
  exact ApplyOperation_gives _ _ _ _ w (pair_valid w a b ta tb ha hb)

theorem MultiplyManyOneInternal_gives (a b : SharedTensor) (w : World) (ta tb : InternalTensor)
    (ha : w.deref a = .ok ta) (hb : w.deref b = .ok tb) (h1 : 0 < tb.data_.length) :
    Gives (MultiplyManyOneInternal a b w) w ta.shape_
      (ta.data_.map (fun v => v * tb.data_.getD 0 0)) := by
  unfold MultiplyManyOneInternal
  simp only [ha, hb, ok_bind, rd_ok _ _ h1, pure_eq_ok, mapE_ok_map]
  exact ApplyOperation_gives _ _ _ _ w (pair_valid w a b ta tb ha hb)

theorem MultiplyManyManyInternal_gives (a b : SharedTensor) (w : World) (ta tb : InternalTensor)
    (ha : w.deref a = .ok ta) (hb : w.deref b = .ok tb)
    (hlen : ta.data_.length ≤ tb.data_.length) :
    Gives (MultiplyManyManyInternal a b w) w ta.shape_
      (List.zipWith (fun u v => u * v) ta.data_ tb.data_) := by
  unfold MultiplyManyManyInternal
  simp only [ha, hb, ok_bind, pure_eq_ok,
    forEachIndex_zip (fun u v => u * v) ta.data_ tb.data_ hlen]
  exact ApplyOperation_gives _ _ _ _ w (pair_valid w a b ta tb ha hb)

theorem PowInternal_gives (a : SharedTensor) (e : Int) (w : World) (ta : InternalTensor)
    (ha : w.deref a = .ok ta) (hnz : e < 0 → ∀ v ∈ ta.data_, v ≠ 0) :
    Gives (PowInternal a e w) w ta.shape_ (ta.data_.map (fun v => v ^ e)) := by
  unfold PowInternal
  simp only [ha, ok_bind, powData_eq _ _ hnz]
  exact ApplyOperation_gives _ _ _ _ w (single_valid w a ta ha)

theorem SumInternal_gives (a : SharedTensor) (w : World) (ta : InternalTensor)
    (ha : w.deref a = .ok ta) :
    Gives (SumInternal a w) w [] [accumulate ta.data_] := by
  unfold SumInternal
  simp only [ha, ok_bind]
  exact ApplyOperation_gives _ _ _ _ w (single_valid w a ta ha)

theorem ReluInternal_gives (a : SharedTensor) (leaky : ℚ) (w : World) (ta : InternalTensor)
    (ha : w.deref a = .ok ta) :
    Gives (ReluInternal a leaky w) w ta.shape_
      (ta.data_.map (fun d => if d < 0 then d * leaky else d)) := by
  unfold ReluInternal
  simp only [ha, ok_bind]
  exact ApplyOperation_gives _ _ _ _ w (single_valid w a ta ha)

theorem MatmulInternal_gives (a b : SharedTensor) (w : World) (ta tb : InternalTensor)
    (n m m2 p : Nat) (ha : w.deref a = .ok ta) (hb : w.deref b = .ok tb)
    (hsa : ta.shape_ = [n, m]) (hsb : tb.shape_ = [m2, p])
    (hla : n * m ≤ ta.data_.length) (hlb : m * p ≤ tb.data_.length) :
    Gives (MatmulInternal a b w) w [n, p]
      ((List.range (n * p)).map (fun idx =>
        ∑ k in Finset.range m,
          ta.data_.getD ((idx / p) * m + k) 0 * tb.data_.getD (k * p + idx % p) 0)) := by
  unfold MatmulInternal
  simp only [ha, hb, hsa, hsb, ok_bind, rdNat_cons_zero, rdNat_cons_succ,
    MatmulVectors_eq _ _ n m p hla hlb]
  exact ApplyOperation_gives _ _ _ _ w (pair_valid w a b ta tb ha hb)

/-- A kernel applied to a fresh constant of empty shape: the constant is
allocated first, then the kernel runs on the extended store. -/
theorem alloc_frame (w : World) (c : InternalTensor) :
    ∀ q t, w.deref q = .ok t → (w.alloc c).2.deref q = .ok t :=
  fun q t hq => deref_alloc_old w c t q hq

theorem OppositeInternal_gives (o : SharedTensor) (w : World) (tb : InternalTensor)
    (ho : w.deref o = .ok tb) :
    Gives (OppositeInternal o w) w tb.shape_ (tb.data_.map (fun v => v * (-1 : ℚ))) := by
  unfold OppositeInternal
  have h := MultiplyManyOneInternal_gives o (w.alloc (InternalTensor.new [-1] [] false false)).1
    (w.alloc (InternalTensor.new [-1] [] false false)).2 tb
    (InternalTensor.new [-1] [] false false)
    (alloc_frame w _ o tb ho) (deref_alloc w _) (by simp [InternalTensor.new])
  exact Gives_trans _ _ w _ _ h (alloc_frame w _)

theorem InverseInternal_gives (o : SharedTensor) (w : World) (tb : InternalTensor)
    (ho : w.deref o = .ok tb) (hnz : ∀ v ∈ tb.data_, v ≠ 0) :
    Gives (InverseInternal o w) w tb.shape_ (tb.data_.map (fun v => v ^ (-1 : Int))) :=
  PowInternal_gives o (-1) w tb ho (fun _ => hnz)


theorem add_valid (x other : Tensor) (w : World) (ta tb : InternalTensor)
    (hx : w.deref x.tensor_ = .ok ta) (ho : w.deref other.tensor_ = .ok tb)
    (hva : ta.data_.length = ta.shape_.prod) (hvb : tb.data_.length = tb.shape_.prod)
    (hc : tb.data_.length = 1 ∨ ta.data_.length = 1 ∨
      (tb.shape_.length < ta.shape_.length ∧ tb.data_.length ∣ ta.data_.length) ∨
      (ta.shape_.length < tb.shape_.length ∧ ta.data_.length ∣ tb.data_.length) ∨
      (ta.shape_.length = tb.shape_.length ∧ ta.data_.length = tb.data_.length)) :
    ResultValid (x.add other w) := by
  simp only [Tensor.add, Tensor.Size, Tensor.NumDimensions, hx, ho, ok_bind, pure_eq_ok]
  by_cases h1 : tb.data_.length = 1
  · rw [if_pos h1]
    exact wrap_valid _ w _ _ (AddManyOneInternal_gives _ _ w ta tb hx ho (by omega))
      (by simpa using hva)
  · rw [if_neg h1]
    by_cases h2 : ta.data_.length = 1
    · rw [if_pos h2]
      exact wrap_valid _ w _ _ (AddManyOneInternal_gives _ _ w tb ta ho hx (by omega))
        (by simpa using hvb)
    · rw [if_neg h2]
      rcases hc with h | h | ⟨h3, h4⟩ | ⟨h3, h4⟩ | ⟨h3, h4⟩
      · exact absurd h h1
      · exact absurd h h2
      · rw [if_pos h3]
        exact wrap_valid _ w _ _ (AddBiasInternal_gives _ _ w ta tb hx ho h4)
          (by simpa using hva)
      · rw [if_neg (by omega), if_pos h3]
        exact wrap_valid _ w _ _ (AddBiasInternal_gives _ _ w tb ta ho hx h4)
          (by simpa using hvb)
      · rw [if_neg (by omega), if_neg (by omega)]
        exact wrap_valid _ w _ _ (AddManyManyInternal_gives _ _ w ta tb hx ho (by omega))
          (by rw [List.length_zipWith]; omega)

theorem sub_valid (x other : Tensor) (w : World) (ta tb : InternalTensor)
    (hx : w.deref x.tensor_ = .ok ta) (ho : w.deref other.tensor_ = .ok tb)
    (hva : ta.data_.length = ta.shape_.prod) (hvb : tb.data_.length = tb.shape_.prod)
    (hc : tb.data_.length = 1 ∨ ta.data_.length = 1 ∨ ta.data_.length = tb.data_.length) :
    ResultValid (x.sub other w) := by
  obtain ⟨p, w1, nb, hopp, hnb, hs, hd, hfr⟩ := OppositeInternal_gives other.tensor_ w tb ho
  have hnlen : nb.data_.length = tb.data_.length := by simp [hd]
  simp only [Tensor.sub, Tensor.Size, hx, ho, ok_bind, pure_eq_ok, hopp]
  by_cases h1 : tb.data_.length = 1
  · simp only [if_pos h1]
    exact wrap_valid _ w1 _ _ (AddManyOneInternal_gives _ _ w1 ta nb (hfr _ _ hx) hnb (by omega))
      (by simpa using hva)
  · simp only [if_neg h1]
    by_cases h2 : ta.data_.length = 1
    · simp only [if_pos h2]
      exact wrap_valid _ w1 _ _
        (AddManyOneInternal_gives _ _ w1 nb ta hnb (hfr _ _ hx) (by omega))
        (by rw [hs]; simpa [hnlen] using hvb)
    · simp only [if_neg h2]
      have h3 : ta.data_.length = tb.data_.length := by
        rcases hc with h | h | h
        · exact absurd h h1
        · exact absurd h h2
        · exact h
      exact wrap_valid _ w1 _ _
        (AddManyManyInternal_gives _ _ w1 ta nb (hfr _ _ hx) hnb (by omega))
        (by rw [List.length_zipWith]; omega)

theorem mul_valid (x other : Tensor) (w : World) (ta tb : InternalTensor)
    (hx : w.deref x.tensor_ = .ok ta) (ho : w.deref other.tensor_ = .ok tb)
    (hva : ta.data_.length = ta.shape_.prod) (hvb : tb.data_.length = tb.shape_.prod)
    (hc : tb.data_.length = 1 ∨ ta.data_.length = 1 ∨ ta.data_.length = tb.data_.length) :
    ResultValid (x.mul other w) := by
  simp only [Tensor.mul, Tensor.Size, hx, ho, ok_bind, pure_eq_ok]
  by_cases h1 : tb.data_.length = 1
  · rw [if_pos h1]
    exact wrap_valid _ w _ _ (MultiplyManyOneInternal_gives _ _ w ta tb hx ho (by omega))
      (by simpa using hva)
  · rw [if_neg h1]
    by_cases h2 : ta.data_.length = 1
    · rw [if_pos h2]
      exact wrap_valid _ w _ _ (MultiplyManyOneInternal_gives _ _ w tb ta ho hx (by omega))
        (by simpa using hvb)
    · rw [if_neg h2]
      have h3 : ta.data_.length = tb.data_.length := by
        rcases hc with h | h | h
        · exact absurd h h1
        · exact absurd h h2
        · exact h
      exact wrap_valid _ w _ _
        (MultiplyManyManyInternal_gives _ _ w ta tb hx ho (by omega))
        (by rw [List.length_zipWith]; omega)

theorem div_valid (x other : Tensor) (w : World) (ta tb : InternalTensor)
    (hx : w.deref x.tensor_ = .ok ta) (ho : w.deref other.tensor_ = .ok tb)
    (hva : ta.data_.length = ta.shape_.prod) (hvb : tb.data_.length = tb.shape_.prod)
    (hc : tb.data_.length = 1 ∨ ta.data_.length = 1 ∨ ta.data_.length = tb.data_.length)
    (hnz : ∀ v ∈ tb.data_, v ≠ 0) :
    ResultValid (x.div other w) := by
  obtain ⟨p, w1, nb, hopp, hnb, hs, hd, hfr⟩ := InverseInternal_gives other.tensor_ w tb ho hnz
  have hnlen : nb.data_.length = tb.data_.length := by simp [hd]
  simp only [Tensor.div, Tensor.Size, hx, ho, ok_bind, pure_eq_ok, hopp]
  by_cases h1 : tb.data_.length = 1
  · simp only [if_pos h1]
    exact wrap_valid _ w1 _ _
      (MultiplyManyOneInternal_gives _ _ w1 ta nb (hfr _ _ hx) hnb (by omega))
      (by simpa using hva)
  · simp only [if_neg h1]
    by_cases h2 : ta.data_.length = 1
    · simp only [if_pos h2]
      exact wrap_valid _ w1 _ _
        (MultiplyManyOneInternal_gives _ _ w1 nb ta hnb (hfr _ _ hx) (by omega))
        (by rw [hs]; simpa [hnlen] using hvb)
    · simp only [if_neg h2]
      have h3 : ta.data_.length = tb.data_.length := by
        rcases hc with h | h | h
        · exact absurd h h1
        · exact absurd h h2
        · exact h
      exact wrap_valid _ w1 _ _
        (MultiplyManyManyInternal_gives _ _ w1 ta nb (hfr _ _ hx) hnb (by omega))
        (by rw [List.length_zipWith]; omega)

theorem wrap_scalar (r : Except Err (SharedTensor × World)) (w : World) (data : List ℚ)
    (h : Gives r w [] data) (hlen : data.length = 1) : ResultScalar (wrap r) := by
  obtain ⟨z, w1, t, h1, h2, h3, h4⟩ := wrap_gives r w [] data h
  exact ⟨z, w1, t, h1, h2, h3, by rw [h4]; exact hlen⟩

theorem mean_scalar (x : Tensor) (w : World) (ta : InternalTensor)
    (hx : w.deref x.tensor_ = .ok ta) (hpos : 0 < ta.data_.length) :
    ResultScalar (x.Mean w) := by
  obtain ⟨p, w1, s, hsum, hsd, hs, hd, hfr⟩ := SumInternal_gives x.tensor_ w ta hx
  have hne : ((ta.data_.length : Nat) : ℚ) ≠ 0 := by
    exact_mod_cast (Nat.pos_iff_ne_zero.mp hpos)
  simp only [Tensor.Mean, hsum, ok_bind, Tensor.Size, hfr _ _ hx, pure_eq_ok, fdiv_ok _ _ hne]
  have h := MultiplyManyOneInternal_gives p
    (w1.alloc (InternalTensor.new [1 / (ta.data_.length : ℚ)] [] false false)).1
    (w1.alloc (InternalTensor.new [1 / (ta.data_.length : ℚ)] [] false false)).2 s
    (InternalTensor.new [1 / (ta.data_.length : ℚ)] [] false false)
    (alloc_frame w1 _ p s hsd) (deref_alloc w1 _) (by simp [InternalTensor.new])
  rw [hs] at h
  exact wrap_scalar _ _ _ h (by simp [hd])

/-- C28 (data-length invariant).  For operands that are nodes of the store
with data length equal to the product of the shape, every operation of the
arithmetic surface returns, under its shape-compatibility precondition, a
tensor whose data length is again the product of its shape; Sum and Mean
return the empty shape with one element.  Division is stated for a divisor
without zero elements and Mean for a non-empty tensor (the quotients are
taken in the rationals). -/
theorem data_length_invariant (x other : Tensor) (w : World) (ta tb : InternalTensor)
    (hx : w.deref x.tensor_ = .ok ta) (ho : w.deref other.tensor_ = .ok tb)
    (hva : ta.data_.length = ta.shape_.prod) (hvb : tb.data_.length = tb.shape_.prod) :
    ((tb.data_.length = 1 ∨ ta.data_.length = 1 ∨
        (tb.shape_.length < ta.shape_.length ∧ tb.data_.length ∣ ta.data_.length) ∨
        (ta.shape_.length < tb.shape_.length ∧ ta.data_.length ∣ tb.data_.length) ∨
        (ta.shape_.length = tb.shape_.length ∧ ta.data_.length = tb.data_.length)) →
      ResultValid (x.add other w)) ∧
    ((tb.data_.length = 1 ∨ ta.data_.length = 1 ∨ ta.data_.length = tb.data_.length) →
      ResultValid (x.sub other w) ∧ ResultValid (x.mul other w) ∧
      ((∀ v ∈ tb.data_, v ≠ 0) → ResultValid (x.div other w))) ∧
    (∀ n m p : Nat, ta.shape_ = [n, m] → tb.shape_ = [m, p] →
      ResultValid (x.Matmul other w)) ∧
    (∀ e : Int, (e < 0 → ∀ v ∈ ta.data_, v ≠ 0) → ResultValid (x.Pow e w)) ∧
    ResultScalar (x.Sum w) ∧
    (0 < ta.data_.length → ResultScalar (x.Mean w)) ∧
    (∀ leaky : ℚ, ResultValid (x.Relu leaky w)) := by
  refine ⟨add_valid x other w ta tb hx ho hva hvb, ?_, ?_, ?_, ?_, mean_scalar x w ta hx, ?_⟩
  · intro hc
    exact ⟨sub_valid x other w ta tb hx ho hva hvb hc, mul_valid x other w ta tb hx ho hva hvb hc,
      div_valid x other w ta tb hx ho hva hvb hc⟩
  · intro n m p hsa hsb
    have hla : ta.data_.length = n * m := by rw [hva, hsa]; simp
    have hlb : tb.data_.length = m * p := by rw [hvb, hsb]; simp
    exact wrap_valid _ w _ _
      (MatmulInternal_gives _ _ w ta tb n m m p hx ho hsa hsb (by omega) (by omega))
      (by simp)
  · intro e hnz
    exact wrap_valid _ w _ _ (PowInternal_gives _ e w ta hx hnz) (by simpa using hva)
  · exact wrap_scalar _ w _ (SumInternal_gives _ w ta hx) (by simp)
  · intro leaky
    exact wrap_valid _ w _ _ (ReluInternal_gives _ leaky w ta hx) (by simpa using hva)


/-- An instance of C28: the 2x2 tensor of the example store plus the rank-1
tensor of length 2 (the bias rule), and its sum. -/
theorem data_length_invariant_witness :
    rank_store.deref 1 = .ok (InternalTensor.new [10, 20, 30, 40] [2, 2] false true) ∧
    rank_store.deref 0 = .ok (InternalTensor.new [1, 2] [2] false true) ∧
    (InternalTensor.new [10, 20, 30, 40] [2, 2] false true).data_.length =
      (InternalTensor.new [10, 20, 30, 40] [2, 2] false true).shape_.prod ∧
    (InternalTensor.new [1, 2] [2] false true).data_.length =
      (InternalTensor.new [1, 2] [2] false true).shape_.prod ∧
    ResultValid (Tensor.add ⟨1, [2, 1]⟩ ⟨0, [1]⟩ rank_store) ∧
    ResultScalar (Tensor.Sum ⟨1, [2, 1]⟩ rank_store) ∧
    ResultScalar (Tensor.Mean ⟨1, [2, 1]⟩ rank_store) :=
  have h := data_length_invariant ⟨1, [2, 1]⟩ ⟨0, [1]⟩ rank_store
    (InternalTensor.new [10, 20, 30, 40] [2, 2] false true)
    (InternalTensor.new [1, 2] [2] false true)
    (by simp [rank_store, World.deref]) (by simp [rank_store, World.deref]) rfl rfl
  ⟨by simp [rank_store, World.deref], by simp [rank_store, World.deref], rfl, rfl,
   h.1 (Or.inr (Or.inr (Or.inl ⟨by decide, by decide⟩))),
   h.2.2.2.2.1, h.2.2.2.2.2.1 (by decide)⟩

/-! ## Frame of the backward traversal -/

/-- Every backward rule is a sequence of gradient updates. -/
theorem run_rel (R : World → World → Prop)
    (htrans : ∀ a b c, R a b → R b c → R a c)
    (hpush : ∀ p c w w1, pushGrad p c w = .ok w1 → R w w1)
    (op : BackwardOp) (res : SharedTensor) (w w1 : World)
    (h : op.run res w = .ok w1) : R w w1 := by
  cases op with
  | AddManyOne a b =>
    simp only [BackwardOp.run, bind_eq_ok] at h
    obtain ⟨w2, h2, h3⟩ := h
    exact htrans _ _ _ (hpush _ _ _ _ h2) (hpush _ _ _ _ h3)
  | AddManyMany a b =>
    simp only [BackwardOp.run, bind_eq_ok] at h
    obtain ⟨w2, h2, h3⟩ := h
    exact htrans _ _ _ (hpush _ _ _ _ h2) (hpush _ _ _ _ h3)
  | AddBias a b =>
    simp only [BackwardOp.run, bind_eq_ok] at h
    obtain ⟨w2, h2, h3⟩ := h
    exact htrans _ _ _ (hpush _ _ _ _ h2) (hpush _ _ _ _ h3)
  | MultiplyManyOne a b =>
    simp only [BackwardOp.run, bind_eq_ok] at h
    obtain ⟨w2, h2, h3⟩ := h
    exact htrans _ _ _ (hpush _ _ _ _ h2) (hpush _ _ _ _ h3)
  | MultiplyManyMany a b =>
    simp only [BackwardOp.run, bind_eq_ok] at h
    obtain ⟨w2, h2, h3⟩ := h
    exact htrans _ _ _ (hpush _ _ _ _ h2) (hpush _ _ _ _ h3)
  | Matmul a b =>
    simp only [BackwardOp.run, bind_eq_ok] at h
    obtain ⟨ta, -, tb, -, kN, -, kM, -, kP, -, w2, h2, h3⟩ := h
    exact htrans _ _ _ (hpush _ _ _ _ h2) (hpush _ _ _ _ h3)
  | Pow a e d =>
    simp only [BackwardOp.run] at h
    exact hpush _ _ _ _ h
  | Sum a d =>
    simp only [BackwardOp.run] at h
    exact hpush _ _ _ _ h
  | Relu a l =>
    simp only [BackwardOp.run] at h
    exact hpush _ _ _ _ h

theorem foldlM_rel {α : Type} (R : World → World → Prop) (hrefl : ∀ w, R w w)
    (htrans : ∀ a b c, R a b → R b c → R a c) (f : World → α → Except Err World)
    (hf : ∀ s a s1, f s a = .ok s1 → R s s1) (l : List α) (s s1 : World)
    (h : l.foldlM f s = .ok s1) : R s s1 := by
  induction l generalizing s with
  | nil =>
    simp only [List.foldlM_nil, pure_eq_ok, Except.ok.injEq] at h
    subst h
    exact hrefl s
  | cons a l ih =>
    simp only [List.foldlM_cons, bind_eq_ok] at h
    obtain ⟨s2, h2, h3⟩ := h
    exact htrans _ _ _ (hf s a s2 h2) (ih s2 h3)

/-- The traversal stays inside every reflexive and transitive relation on
stores that contains the gradient updates and, when the graph is not
retained, the clearing of a gradient buffer and the severing of a node that
requires gradients. -/
theorem Backward_rel (R : World → World → Prop) (retain_graph : Bool)
    (hrefl : ∀ w, R w w) (htrans : ∀ a b c, R a b → R b c → R a c)
    (hflag : ∀ w w1, R w w1 → ∀ q t, w.deref q = .ok t →
      ∃ t1, w1.deref q = .ok t1 ∧ t1.requires_grad_ = t.requires_grad_)
    (hpush : ∀ p c w w1, pushGrad p c w = .ok w1 → R w w1)
    (hclear : retain_graph = false → ∀ (w : World) (q : SharedTensor) (t : InternalTensor),
      w.deref q = .ok t → t.requires_grad_ = true → R w (w.store q { t with grad_ := [] }))
    (hsever : retain_graph = false → ∀ (w : World) (q : SharedTensor) (t : InternalTensor),
      w.deref q = .ok t → t.requires_grad_ = true →
      R w (w.store q { t with backward_op_ := none, parents_ := [] }))
    (fuel : Nat) (self : SharedTensor) (w w1 : World)
    (h : InternalTensor.Backward fuel retain_graph self w = .ok w1) : R w w1 := by
  induction fuel generalizing self w w1 with
  | zero => simp [InternalTensor.Backward] at h
  | succ fuel ih =>
    have tail : ∀ w2 : World, R w w2 → ∀ t2 : InternalTensor, w2.deref self = .ok t2 →
        t2.requires_grad_ = true → ∀ w3 : World,
        t2.parents_.foldlM (fun acc p => InternalTensor.Backward fuel retain_graph p acc)
          (if (!t2.is_leaf_ && !retain_graph) = true
            then w2.store self { t2 with grad_ := [] } else w2) = .ok w3 →
        ∀ t3 : InternalTensor, w3.deref self = .ok t3 → R w (if (!retain_graph) = true
          then w3.store self { t3 with backward_op_ := none, parents_ := [] } else w3) := by
      intro w2 hw2 t2 ht2 hrg2 w3 h3 t3 ht3
      have hc : R w2 (if (!t2.is_leaf_ && !retain_graph) = true
          then w2.store self { t2 with grad_ := [] } else w2) := by
        split
        · next hcond =>
          have hr : retain_graph = false := by
            simp only [Bool.and_eq_true, Bool.not_eq_true'] at hcond
            exact hcond.2
          exact hclear hr w2 self t2 ht2 hrg2
        · exact hrefl w2
      have hfold : R _ w3 := foldlM_rel R hrefl htrans _ (fun s a s1 hs => ih a s s1 hs) _ _ _ h3
      have hw3 : R w w3 := htrans _ _ _ hw2 (htrans _ _ _ hc hfold)
      split
      · next hcond =>
        have hr : retain_graph = false := by
          simpa using hcond
        obtain ⟨t3b, ht3b, hrg3⟩ := hflag _ _ (htrans _ _ _ hc hfold) self t2 ht2
        rw [ht3] at ht3b
        simp only [Except.ok.injEq] at ht3b
        subst ht3b
        exact htrans _ _ _ hw3 (hsever hr w3 self t3 ht3 (by rw [hrg3, hrg2]))
      · exact hw3
    rw [InternalTensor.Backward] at h
    simp only [bind_eq_ok] at h
    obtain ⟨t, ht, h⟩ := h
    split at h
    · simp only [pure_eq_ok, Except.ok.injEq] at h
      subst h
      exact hrefl w
    · next hrg =>
      have hrg1 : t.requires_grad_ = true := by simpa using hrg
      cases hop : t.backward_op_ with
      | none =>
        simp only [hop, ok_bind, bind_eq_ok, pure_eq_ok, Except.ok.injEq] at h
        obtain ⟨t2, ht2, w3, h3, t3, ht3, rfl⟩ := h
        rw [ht] at ht2
        simp only [Except.ok.injEq] at ht2
        subst ht2
        exact tail w (hrefl w) t ht hrg1 w3 h3 t3 ht3
      | some op =>
        simp only [hop, bind_eq_ok, pure_eq_ok, Except.ok.injEq] at h
        obtain ⟨w2, h2, t2, ht2, w3, h3, t3, ht3, rfl⟩ := h
        have hw2 := run_rel R htrans hpush op self w w2 h2
        obtain ⟨t2b, ht2b, hrg2⟩ := hflag _ _ hw2 self t ht
        rw [ht2] at ht2b
        simp only [Except.ok.injEq] at ht2b
        subst ht2b
        exact tail w2 hw2 t2 ht2 (by rw [hrg2, hrg1]) w3 h3 t3 ht3


theorem Untouched_refl (w : World) : Untouched w w :=
  fun _ t hq => ⟨t, hq, rfl, fun _ => rfl⟩

theorem Untouched_trans (a b c : World) (h1 : Untouched a b) (h2 : Untouched b c) :
    Untouched a c := by
  intro q t hq
  obtain ⟨t1, ht1, hr1, hs1⟩ := h1 q t hq
  obtain ⟨t2, ht2, hr2, hs2⟩ := h2 q t1 ht1
  refine ⟨t2, ht2, by rw [hr2, hr1], ?_⟩
  intro hf
  rw [hs2 (by rw [hr1, hf]), hs1 hf]

/-- Overwriting a node that requires gradients, keeping the flag, touches no
node that does not require them. -/
theorem Untouched_store (w : World) (p : SharedTensor) (t u : InternalTensor)
    (hp : w.deref p = .ok t) (hrg : t.requires_grad_ = true)
    (hu : u.requires_grad_ = t.requires_grad_) : Untouched w (w.store p u) := by
  intro q tq hq
  rw [deref_store]
  by_cases hqp : q = p
  · subst hqp
    rw [hp] at hq
    simp only [Except.ok.injEq] at hq
    subst hq
    refine ⟨u, by simp [deref_lt w q _ hp], hu, ?_⟩
    intro hf
    rw [hrg] at hf
    exact absurd hf (by decide)
  · exact ⟨tq, by simp [hqp, hq], rfl, fun _ => rfl⟩

theorem pushGrad_Untouched (p : SharedTensor) (contrib : World → Except Err (List ℚ))
    (w w1 : World) (h : pushGrad p contrib w = .ok w1) : Untouched w w1 := by
  unfold pushGrad at h
  simp only [bind_eq_ok] at h
  obtain ⟨tp, htp, h⟩ := h
  split at h
  · next hreq =>
    simp only [bind_eq_ok, pure_eq_ok, Except.ok.injEq] at h
    obtain ⟨g, -, t1, ht1, rfl⟩ := h
    have hrg : tp.requires_grad_ = true := by
      simp only [InternalTensor.RequiresGrad, Bool.and_eq_true] at hreq
      exact hreq.1
    have hfr := UpdateGradVec_frame tp t1 g ht1
    exact Untouched_store w p tp t1 htp hrg (by rw [hfr])
  · simp only [pure_eq_ok, Except.ok.injEq] at h
    subst h
    exact Untouched_refl w

/-- The traversal of InternalTensor::Backward leaves every node that does not
require gradients as it was. -/
theorem Backward_Untouched (fuel : Nat) (retain_graph : Bool) (self : SharedTensor)
    (w w1 : World) (h : InternalTensor.Backward fuel retain_graph self w = .ok w1) :
    Untouched w w1 :=
  Backward_rel Untouched retain_graph Untouched_refl Untouched_trans
    (fun w w1 hR q t hq => by
      obtain ⟨t1, ht1, hr1, -⟩ := hR q t hq
      exact ⟨t1, ht1, hr1⟩)
    pushGrad_Untouched
    (fun _ w q t hq hrg => Untouched_store w q t _ hq hrg rfl)
    (fun _ w q t hq hrg => Untouched_store w q t _ hq hrg rfl)
    fuel self w w1 h

/-- C29, counterexample.  `Tensor::Backward` seeds the gradient of the node it
is called on before the requires_grad test: for a constant `c = Tensor(5.0)`
(requires_grad false) the gradient buffer is empty before `c.Backward()` and
`[1]` after it, in either retain mode, and the same holds for the output
`z = c1 + c2` of a graph of constants. -/
theorem backward_seeds_constant :
    constant_backward 1 false = (.ok [], .ok [1]) ∧
    constant_backward 1 true = (.ok [], .ok [1]) ∧
    constant_sum_backward 1 false = .ok ([], [1]) ∧
    constant_sum_backward 1 true = .ok ([], [1]) := by
  refine ⟨?_, ?_, ?_, ?_⟩
  · simp [constant_backward, Tensor.fromValue, Tensor.Backward, Tensor.Grad, World.init,
      World.alloc, World.deref, World.store, InternalTensor.new, InternalTensor.SetGrad,
      InternalTensor.SetGradVec, InternalTensor.Size, InternalTensor.Backward]
  · simp [constant_backward, Tensor.fromValue, Tensor.Backward, Tensor.Grad, World.init,
      World.alloc, World.deref, World.store, InternalTensor.new, InternalTensor.SetGrad,
      InternalTensor.SetGradVec, InternalTensor.Size, InternalTensor.Backward]
  · simp [constant_sum_backward, World.init, CalculateStrides, stridePushes,
      Tensor.fromValue.eq_1 _ _ ⟨_, _⟩, Tensor.add.eq_1 _ _ ⟨_, _⟩, Tensor.Size.eq_1 _ ⟨_, _⟩,
      Tensor.NumDimensions.eq_1 _ ⟨_, _⟩, wrap, Tensor.fromShared.eq_1 _ ⟨_, _⟩,
      AddManyOneInternal.eq_1 _ _ ⟨_, _⟩, ApplyOperation.eq_1 _ _ _ _ ⟨_, _⟩, InternalTensor.new,
      Tensor.Backward.eq_1 _ _ _ ⟨_, _⟩, Tensor.Grad.eq_1 _ ⟨_, _⟩,
      World.deref.eq_1 ⟨_, _⟩, World.store.eq_1 ⟨_, _⟩, World.alloc.eq_1 ⟨_, _⟩,
      InternalTensor.SetGrad, InternalTensor.SetGradVec, InternalTensor.Size,
      InternalTensor.Backward.eq_2 _ _ ⟨_, _⟩]
  · simp [constant_sum_backward, World.init, CalculateStrides, stridePushes,
      Tensor.fromValue.eq_1 _ _ ⟨_, _⟩, Tensor.add.eq_1 _ _ ⟨_, _⟩, Tensor.Size.eq_1 _ ⟨_, _⟩,
      Tensor.NumDimensions.eq_1 _ ⟨_, _⟩, wrap, Tensor.fromShared.eq_1 _ ⟨_, _⟩,
      AddManyOneInternal.eq_1 _ _ ⟨_, _⟩, ApplyOperation.eq_1 _ _ _ _ ⟨_, _⟩, InternalTensor.new,
      Tensor.Backward.eq_1 _ _ _ ⟨_, _⟩, Tensor.Grad.eq_1 _ ⟨_, _⟩,
      World.deref.eq_1 ⟨_, _⟩, World.store.eq_1 ⟨_, _⟩, World.alloc.eq_1 ⟨_, _⟩,
      InternalTensor.SetGrad, InternalTensor.SetGradVec, InternalTensor.Size,
      InternalTensor.Backward.eq_2 _ _ ⟨_, _⟩]

/-- C29, amended.  A call `z.Backward(retain_graph)` that returns leaves every
node without requires_grad other than `z` itself exactly as it was (gradient
buffer included); when `z` itself does not require gradients, the only change
is the seed: its gradient buffer is set to ones.  The traversal
InternalTensor::Backward leaves every node without requires_grad as it was,
and invoked on such a node it returns at once with the store unchanged. -/
theorem backward_frame (z : Tensor) (fuel : Nat) (retain_graph : Bool) (w w1 : World)
    (h : z.Backward fuel retain_graph w = .ok w1) :
    (∀ p t, p ≠ z.tensor_ → w.deref p = .ok t → t.requires_grad_ = false →
      w1.deref p = .ok t) ∧
    (∀ t, w.deref z.tensor_ = .ok t → t.requires_grad_ = false →
      w1 = w.store z.tensor_ (t.SetGrad 1)) ∧
    (∀ self w2 w3, InternalTensor.Backward fuel retain_graph self w2 = .ok w3 →
      ∀ p t, w2.deref p = .ok t → t.requires_grad_ = false → w3.deref p = .ok t) ∧
    (∀ self w2 t, w2.deref self = .ok t → t.requires_grad_ = false →
      InternalTensor.Backward (fuel + 1) retain_graph self w2 = .ok w2) := by
  unfold Tensor.Backward at h
  simp only [bind_eq_ok] at h
  obtain ⟨tz, htz, h⟩ := h
  have hlt := deref_lt w _ _ htz
  refine ⟨?_, ?_, ?_, ?_⟩
  · intro p t hp ht hrg
    have h0 : (w.store z.tensor_ (tz.SetGrad 1)).deref p = .ok t := by
      rw [deref_store]
      simp [hp, ht]
    obtain ⟨t1, ht1, -, hs⟩ := Backward_Untouched _ _ _ _ _ h p t h0
    rw [ht1, hs hrg]
  · intro t ht hrg
    rw [htz] at ht
    simp only [Except.ok.injEq] at ht
    subst ht
    cases fuel with
    | zero => simp [InternalTensor.Backward] at h
    | succ fuel =>
      rw [InternalTensor.Backward] at h
      have hd : (w.store z.tensor_ (tz.SetGrad 1)).deref z.tensor_ = .ok (tz.SetGrad 1) := by
        rw [deref_store]
        simp [hlt]
      have hrg2 : (tz.SetGrad 1).requires_grad_ = false := by
        simpa [InternalTensor.SetGrad, InternalTensor.SetGradVec] using hrg
      simp only [hd, ok_bind, hrg2, Bool.not_false, if_true, pure_eq_ok, Except.ok.injEq] at h
      exact h.symm
  · intro self w2 w3 hb p t hp hrg
    obtain ⟨t1, ht1, -, hs⟩ := Backward_Untouched _ _ _ _ _ hb p t hp
    rw [ht1, hs hrg]
  · intro self w2 t ht hrg
    rw [InternalTensor.Backward]
    simp only [ht, ok_bind, hrg, Bool.not_false, if_true, pure_eq_ok]

set_option maxHeartbeats 1000000 in
/-- The backward pass on the diamond graph with `x = 3`, `c1 = 1`, `c2 = 2`. -/
theorem diamond_backward :
    diamond_graph 3 1 2 = .ok (⟨0, [1]⟩, ⟨5, [1]⟩, diamond_store) ∧
    Tensor.Backward ⟨5, [1]⟩ 3 false diamond_store = .ok diamond_final_store := by
  constructor
  · simp [diamond_store, diamond_graph, World.init, CalculateStrides, stridePushes,
      Tensor.fromValue.eq_1 _ _ ⟨_, _⟩, Tensor.add.eq_1 _ _ ⟨_, _⟩, Tensor.Size.eq_1 _ ⟨_, _⟩,
      Tensor.NumDimensions.eq_1 _ ⟨_, _⟩, wrap, Tensor.fromShared.eq_1 _ ⟨_, _⟩,
      AddManyOneInternal.eq_1 _ _ ⟨_, _⟩, ApplyOperation.eq_1 _ _ _ _ ⟨_, _⟩, InternalTensor.new,
      World.deref.eq_1 ⟨_, _⟩, World.store.eq_1 ⟨_, _⟩, World.alloc.eq_1 ⟨_, _⟩]
    norm_num
  · simp [diamond_store, diamond_final_store,
      Tensor.Backward.eq_1 _ _ _ ⟨_, _⟩,
      World.deref.eq_1 ⟨_, _⟩, World.store.eq_1 ⟨_, _⟩,
      InternalTensor.SetGrad, InternalTensor.SetGradVec, InternalTensor.Size,
      InternalTensor.Backward.eq_2 _ _ ⟨_, _⟩, BackwardOp.run.eq_1 _ ⟨_, _⟩,
      pushGrad.eq_1 _ _ ⟨_, _⟩, InternalTensor.RequiresGrad,
      InternalTensor.UpdateGradVec, forEachIndex, accumulate, List.range_succ]
    norm_num

/-- An instance of C29 (amended): the constants of the diamond graph still
have an empty gradient buffer after `z.Backward()`. -/
theorem backward_frame_witness :
    Tensor.Backward ⟨5, [1]⟩ 3 false diamond_store = .ok diamond_final_store ∧
    diamond_store.deref 1 = .ok ⟨[1], [], [], [], none, true, false⟩ ∧
    diamond_store.deref 2 = .ok ⟨[2], [], [], [], none, true, false⟩ ∧
    diamond_final_store.deref 1 = .ok ⟨[1], [], [], [], none, true, false⟩ ∧
    diamond_final_store.deref 2 = .ok ⟨[2], [], [], [], none, true, false⟩ :=
  have h1 : diamond_store.deref 1 = .ok ⟨[1], [], [], [], none, true, false⟩ := by
    simp [diamond_store, World.deref]
  have h2 : diamond_store.deref 2 = .ok ⟨[2], [], [], [], none, true, false⟩ := by
    simp [diamond_store, World.deref]
  ⟨diamond_backward.2, h1, h2,
   (backward_frame ⟨5, [1]⟩ 3 false diamond_store diamond_final_store diamond_backward.2).1
     1 _ (by decide) h1 rfl,
   (backward_frame ⟨5, [1]⟩ 3 false diamond_store diamond_final_store diamond_backward.2).1
     2 _ (by decide) h2 rfl⟩


/-! ## Severing -/

theorem SameButGrad_refl (w : World) : SameButGrad w w :=
  fun _ t hq => ⟨t, hq, rfl⟩

theorem SameButGrad_trans (a b c : World) (h1 : SameButGrad a b) (h2 : SameButGrad b c) :
    SameButGrad a c := by
  intro q t hq
  obtain ⟨t1, ht1, e1⟩ := h1 q t hq
  obtain ⟨t2, ht2, e2⟩ := h2 q t1 ht1
  refine ⟨t2, ht2, ?_⟩
  rw [e2, e1]

theorem SameButGrad_store (w : World) (p : SharedTensor) (t : InternalTensor) (g : List ℚ)
    (hp : w.deref p = .ok t) : SameButGrad w (w.store p { t with grad_ := g }) := by
  intro q tq hq
  rw [deref_store]
  by_cases hqp : q = p
  · subst hqp
    rw [hp] at hq
    simp only [Except.ok.injEq] at hq
    subst hq
    exact ⟨{ t with grad_ := g }, by simp [deref_lt w q _ hp], rfl⟩
  · exact ⟨tq, by simp [hqp, hq], rfl⟩

theorem pushGrad_SameButGrad (p : SharedTensor) (contrib : World → Except Err (List ℚ))
    (w w1 : World) (h : pushGrad p contrib w = .ok w1) : SameButGrad w w1 := by
  intro q t hq
  obtain ⟨t1, ht1, e1, -⟩ := pushGrad_deref p contrib w w1 h q t hq
  exact ⟨t1, ht1, e1⟩

theorem run_SameButGrad (op : BackwardOp) (res : SharedTensor) (w w1 : World)
    (h : op.run res w = .ok w1) : SameButGrad w w1 :=
  run_rel SameButGrad SameButGrad_trans pushGrad_SameButGrad op res w w1 h

/-- A retained traversal changes gradient buffers only. -/
theorem Backward_retain_SameButGrad (fuel : Nat) (self : SharedTensor) (w w1 : World)
    (h : InternalTensor.Backward fuel true self w = .ok w1) : SameButGrad w w1 :=
  Backward_rel SameButGrad true SameButGrad_refl SameButGrad_trans
    (fun w w1 hR q t hq => by
      obtain ⟨t1, ht1, e1⟩ := hR q t hq
      exact ⟨t1, ht1, by rw [e1]⟩)
    pushGrad_SameButGrad
    (fun hf => absurd hf (by decide))
    (fun hf => absurd hf (by decide))
    fuel self w w1 h

theorem Shrinks_refl (w : World) : Shrinks w w :=
  fun _ t hq => ⟨t, hq, rfl, Or.inl ⟨rfl, rfl⟩⟩

theorem Shrinks_trans (a b c : World) (h1 : Shrinks a b) (h2 : Shrinks b c) : Shrinks a c := by
  intro q t hq
  obtain ⟨t1, ht1, hr1, hl1⟩ := h1 q t hq
  obtain ⟨t2, ht2, hr2, hl2⟩ := h2 q t1 ht1
  refine ⟨t2, ht2, by rw [hr2, hr1], ?_⟩
  rcases hl2 with ⟨hp2, ho2⟩ | hsev
  · rcases hl1 with ⟨hp1, ho1⟩ | ⟨hp1, ho1⟩
    · exact Or.inl ⟨by rw [hp2, hp1], by rw [ho2, ho1]⟩
    · exact Or.inr ⟨by rw [hp2, hp1], by rw [ho2, ho1]⟩
  · exact Or.inr hsev

theorem SameButGrad_Shrinks (w w1 : World) (h : SameButGrad w w1) : Shrinks w w1 := by
  intro q t hq
  obtain ⟨t1, ht1, e1⟩ := h q t hq
  exact ⟨t1, ht1, by rw [e1], Or.inl ⟨by rw [e1], by rw [e1]⟩⟩

theorem Shrinks_store (w : World) (p : SharedTensor) (t : InternalTensor)
    (hp : w.deref p = .ok t) :
    Shrinks w (w.store p { t with backward_op_ := none, parents_ := [] }) := by
  intro q tq hq
  rw [deref_store]
  by_cases hqp : q = p
  · subst hqp
    rw [hp] at hq
    simp only [Except.ok.injEq] at hq
    subst hq
    exact ⟨{ t with backward_op_ := none, parents_ := [] }, by simp [deref_lt w q _ hp], rfl,
      Or.inr ⟨rfl, rfl⟩⟩
  · exact ⟨tq, by simp [hqp, hq], rfl, Or.inl ⟨rfl, rfl⟩⟩

/-- A traversal only ever severs: every node keeps its links or loses them. -/
theorem Backward_Shrinks (fuel : Nat) (retain_graph : Bool) (self : SharedTensor)
    (w w1 : World) (h : InternalTensor.Backward fuel retain_graph self w = .ok w1) :
    Shrinks w w1 :=
  Backward_rel Shrinks retain_graph Shrinks_refl Shrinks_trans
    (fun w w1 hR q t hq => by
      obtain ⟨t1, ht1, hr1, -⟩ := hR q t hq
      exact ⟨t1, ht1, hr1⟩)
    (fun p c w w1 hp => SameButGrad_Shrinks w w1 (pushGrad_SameButGrad p c w w1 hp))
    (fun _ w q t hq _ => SameButGrad_Shrinks _ _ (SameButGrad_store w q t [] hq))
    (fun _ w q t hq _ => Shrinks_store w q t hq)
    fuel self w w1 h

theorem Severed_mono (w w1 : World) (h : Shrinks w w1) (q : SharedTensor)
    (hs : Severed w q) : Severed w1 q := by
  obtain ⟨t, ht, hp, ho⟩ := hs
  obtain ⟨t1, ht1, -, hl⟩ := h q t ht
  rcases hl with ⟨hp1, ho1⟩ | ⟨hp1, ho1⟩
  · exact ⟨t1, ht1, by rw [hp1, hp], by rw [ho1, ho]⟩
  · exact ⟨t1, ht1, hp1, ho1⟩

/-- A path of the old store survives in the new one unless it runs into a
node that was severed in between, and then its end is severed too. -/
theorem Visits_transfer (w a : World) (hs : Shrinks w a) (hc : Closed w a)
    (m q : SharedTensor) (hv : Visits w m q) : Visits a m q ∨ Severed a q := by
  induction hv with
  | self n t ht hrg =>
    obtain ⟨t1, ht1, hr1, -⟩ := hs n t ht
    exact Or.inl (Visits.self n t1 ht1 (by rw [hr1, hrg]))
  | parent n p q t ht hrg hp hpq ih =>
    obtain ⟨t1, ht1, hr1, -⟩ := hs n t ht
    by_cases hsame : t1.parents_ = t.parents_
    · rcases ih with hv2 | hsev
      · exact Or.inl (Visits.parent n p q t1 ht1 (by rw [hr1, hrg]) (by rw [hsame]; exact hp) hv2)
      · exact Or.inr hsev
    · exact Or.inr (hc n t t1 ht ht1 hsame q (Visits.parent n p q t ht hrg hp hpq))

theorem Closed_refl (w : World) : Closed w w := by
  intro m t t1 ht ht1 hne
  rw [ht] at ht1
  simp only [Except.ok.injEq] at ht1
  subst ht1
  exact absurd rfl hne

theorem Closed_trans (w a b : World) (hs1 : Shrinks w a) (hc1 : Closed w a)
    (hs2 : Shrinks a b) (hc2 : Closed a b) : Closed w b := by
  intro m t t2 ht ht2 hne q hv
  obtain ⟨t1, ht1, -, -⟩ := hs1 m t ht
  by_cases hsame : t1.parents_ = t.parents_
  · have hne2 : t2.parents_ ≠ t1.parents_ := by rw [hsame]; exact hne
    rcases Visits_transfer w a hs1 hc1 m q hv with hv2 | hsev
    · exact hc2 m t1 t2 ht1 ht2 hne2 q hv2
    · exact Severed_mono a b hs2 q hsev
  · exact Severed_mono a b hs2 q (hc1 m t t1 ht ht1 hsame q hv)

theorem SameButGrad_Closed (w w1 : World) (h : SameButGrad w w1) : Closed w w1 := by
  intro m t t1 ht ht1 hne
  obtain ⟨t2, ht2, e2⟩ := h m t ht
  rw [ht1] at ht2
  simp only [Except.ok.injEq] at ht2
  subst ht2
  exact absurd (by rw [e2]) hne

theorem Visits_cases (w : World) (n q : SharedTensor) (t : InternalTensor)
    (ht : w.deref n = .ok t) (hv : Visits w n q) :
    q = n ∨ ∃ p ∈ t.parents_, Visits w p q := by
  cases hv with
  | self _ t1 ht1 hrg => exact Or.inl rfl
  | parent _ p _ t1 ht1 hrg hp hpq =>
    rw [ht] at ht1
    simp only [Except.ok.injEq] at ht1
    subst ht1
    exact Or.inr ⟨p, hp, hpq⟩

theorem Visits_requires (w : World) (n q : SharedTensor) (t : InternalTensor)
    (ht : w.deref n = .ok t) (hv : Visits w n q) : t.requires_grad_ = true := by
  cases hv with
  | self _ t1 ht1 hrg =>
    rw [ht] at ht1
    simp only [Except.ok.injEq] at ht1
    subst ht1
    exact hrg
  | parent _ p _ t1 ht1 hrg hp hpq =>
    rw [ht] at ht1
    simp only [Except.ok.injEq] at ht1
    subst ht1
    exact hrg


theorem fold_sever (fuel : Nat)
    (ih : ∀ self w w1, InternalTensor.Backward fuel false self w = .ok w1 →
      Closed w w1 ∧ ∀ q, Visits w self q → Severed w1 q)
    (l : List SharedTensor) (w w1 : World)
    (h : l.foldlM (fun acc p => InternalTensor.Backward fuel false p acc) w = .ok w1) :
    Shrinks w w1 ∧ Closed w w1 ∧ ∀ p ∈ l, ∀ q, Visits w p q → Severed w1 q := by
  induction l generalizing w with
  | nil =>
    simp only [List.foldlM_nil, pure_eq_ok, Except.ok.injEq] at h
    subst h
    exact ⟨Shrinks_refl w, Closed_refl w, fun p hp => absurd hp (by simp)⟩
  | cons p l ihl =>
    simp only [List.foldlM_cons, bind_eq_ok] at h
    obtain ⟨wa, h2, h3⟩ := h
    obtain ⟨hc1, hv1⟩ := ih p w wa h2
    have hs1 := Backward_Shrinks fuel false p w wa h2
    obtain ⟨hs2, hc2, hv2⟩ := ihl wa h3
    refine ⟨Shrinks_trans _ _ _ hs1 hs2, Closed_trans w wa w1 hs1 hc1 hs2 hc2, ?_⟩
    intro p2 hp2 q hv
    rcases List.mem_cons.mp hp2 with rfl | hmem
    · exact Severed_mono wa w1 hs2 q (hv1 q hv)
    · rcases Visits_transfer w wa hs1 hc1 p2 q hv with hv3 | hsev
      · exact hv2 p2 hmem q hv3
      · exact Severed_mono wa w1 hs2 q hsev

theorem Severed_store (w : World) (n q : SharedTensor) (t : InternalTensor)
    (hn : w.deref n = .ok t) (hs : Severed w q) :
    Severed (w.store n { t with backward_op_ := none, parents_ := [] }) q :=
  Severed_mono _ _ (Shrinks_store w n t hn) q hs

/-- A traversal that does not retain the graph severs every node it visits. -/
theorem Backward_sever (fuel : Nat) (self : SharedTensor) (w w1 : World)
    (h : InternalTensor.Backward fuel false self w = .ok w1) :
    Closed w w1 ∧ ∀ q, Visits w self q → Severed w1 q := by
  induction fuel generalizing self w w1 with
  | zero => simp [InternalTensor.Backward] at h
  | succ fuel ih =>
    have tail : ∀ t : InternalTensor, w.deref self = .ok t → t.requires_grad_ = true →
        ∀ w2 : World, SameButGrad w w2 → ∀ t2 : InternalTensor, w2.deref self = .ok t2 →
        ∀ w3 : World,
        t2.parents_.foldlM (fun acc p => InternalTensor.Backward fuel false p acc)
          (if (!t2.is_leaf_ && !false) = true
            then w2.store self { t2 with grad_ := [] } else w2) = .ok w3 →
        ∀ t3 : InternalTensor, w3.deref self = .ok t3 →
        Closed w (w3.store self { t3 with backward_op_ := none, parents_ := [] }) ∧
        ∀ q, Visits w self q →
          Severed (w3.store self { t3 with backward_op_ := none, parents_ := [] }) q := by
      intro t ht hrg w2 hw2 t2 ht2 w3 h3 t3 ht3
      have hsame2 : SameButGrad w2 (if (!t2.is_leaf_ && !false) = true
          then w2.store self { t2 with grad_ := [] } else w2) := by
        split
        · exact SameButGrad_store w2 self t2 [] ht2
        · exact SameButGrad_refl w2
      have hsame := SameButGrad_trans _ _ _ hw2 hsame2
      obtain ⟨hsf, hcf, hvf⟩ := fold_sever fuel (fun s a b hab => ih s a b hab) _ _ _ h3
      have hs03 : Shrinks w w3 := Shrinks_trans _ _ _ (SameButGrad_Shrinks _ _ hsame) hsf
      have hc03 : Closed w w3 :=
        Closed_trans _ _ _ (SameButGrad_Shrinks _ _ hsame) (SameButGrad_Closed _ _ hsame) hsf hcf
      have hpar : t2.parents_ = t.parents_ := by
        obtain ⟨t2b, ht2b, e2⟩ := hw2 self t ht
        rw [ht2] at ht2b
        simp only [Except.ok.injEq] at ht2b
        subst ht2b
        rw [e2]
      have hlt := deref_lt w3 self t3 ht3
      have hself : Severed (w3.store self { t3 with backward_op_ := none, parents_ := [] }) self :=
        ⟨{ t3 with backward_op_ := none, parents_ := [] }, by rw [deref_store]; simp [hlt],
          rfl, rfl⟩
      have hvis : ∀ q, Visits w self q →
          Severed (w3.store self { t3 with backward_op_ := none, parents_ := [] }) q := by
        intro q hv
        rcases Visits_cases w self q t ht hv with rfl | ⟨p, hp, hpq⟩
        · exact hself
        · apply Severed_store w3 self q t3 ht3
          rcases Visits_transfer w _ (SameButGrad_Shrinks _ _ hsame)
              (SameButGrad_Closed _ _ hsame) p q hpq with hv3 | hsev
          · exact hvf p (by rw [hpar]; exact hp) q hv3
          · exact Severed_mono _ _ hsf q hsev
      refine ⟨?_, hvis⟩
      intro m tm tm1 htm htm1 hne q hv
      by_cases hm : m = self
      · subst hm
        exact hvis q hv
      · rw [deref_store] at htm1
        simp only [hm, false_and, if_false] at htm1
        exact Severed_store w3 self q t3 ht3 (hc03 m tm tm1 htm htm1 hne q hv)
    rw [InternalTensor.Backward] at h
    simp only [bind_eq_ok] at h
    obtain ⟨t, ht, h⟩ := h
    split at h
    · next hrg =>
      simp only [pure_eq_ok, Except.ok.injEq] at h
      subst h
      refine ⟨Closed_refl w, ?_⟩
      intro q hv
      have := Visits_requires w self q t ht hv
      rw [this] at hrg
      exact absurd hrg (by decide)
    · next hrg =>
      have hrg1 : t.requires_grad_ = true := by simpa using hrg
      cases hop : t.backward_op_ with
      | none =>
        simp only [hop, ok_bind, bind_eq_ok, pure_eq_ok, Except.ok.injEq] at h
        obtain ⟨t2, ht2, w3, h3, t3, ht3, rfl⟩ := h
        exact tail t ht hrg1 w (SameButGrad_refl w) t2 ht2 w3 h3 t3 ht3
      | some op =>
        simp only [hop, bind_eq_ok, pure_eq_ok, Except.ok.injEq] at h
        obtain ⟨w2, h2, t2, ht2, w3, h3, t3, ht3, rfl⟩ := h
        exact tail t ht hrg1 w2 (run_SameButGrad op self w w2 h2) t2 ht2 w3 h3 t3 ht3


/-- In a store where only nodes that require gradients have parents (the
node factory links no other node), the traversal visits every node that
requires gradients and is reachable through parent links. -/
theorem ParentPath_Visits (w : World)
    (hinv : ∀ n t, w.deref n = .ok t → t.requires_grad_ = false → t.parents_ = [])
    (n q : SharedTensor) (tq : InternalTensor) (hp : ParentPath w n q)
    (hq : w.deref q = .ok tq) (hrg : tq.requires_grad_ = true) : Visits w n q := by
  induction hp with
  | refl n t ht =>
    exact Visits.self n tq hq hrg
  | step n p q t ht hmem _ ih =>
    have hn : t.requires_grad_ = true := by
      cases hb : t.requires_grad_ with
      | true => rfl
      | false =>
        have := hinv n t ht hb
        rw [this] at hmem
        simp at hmem
    exact Visits.parent n p q t ht hn hmem (ih hq)

set_option maxHeartbeats 1000000 in
/-- The retained backward pass on the diamond graph. -/
theorem diamond_backward_retained :
    Tensor.Backward ⟨5, [1]⟩ 3 true diamond_store = .ok diamond_retained_store := by
  simp [diamond_store, diamond_retained_store,
    Tensor.Backward.eq_1 _ _ _ ⟨_, _⟩,
    World.deref.eq_1 ⟨_, _⟩, World.store.eq_1 ⟨_, _⟩,
    InternalTensor.SetGrad, InternalTensor.SetGradVec, InternalTensor.Size,
    InternalTensor.Backward.eq_2 _ _ ⟨_, _⟩, BackwardOp.run.eq_1 _ ⟨_, _⟩,
    pushGrad.eq_1 _ _ ⟨_, _⟩, InternalTensor.RequiresGrad,
    InternalTensor.UpdateGradVec, forEachIndex, accumulate, List.range_succ]
  norm_num

/-! ## Leaf flags never clear -/

theorem FlagsKept_refl (w : World) : FlagsKept w w :=
  ⟨rfl, rfl, fun _ t hq => ⟨t, hq, rfl, rfl, Or.inl ⟨rfl, rfl⟩⟩⟩

theorem FlagsKept_trans (a b c : World) (h1 : FlagsKept a b) (h2 : FlagsKept b c) :
    FlagsKept a c := by
  obtain ⟨l1, u1, n1⟩ := h1
  obtain ⟨l2, u2, n2⟩ := h2
  refine ⟨by rw [l2, l1], by rw [u2, u1], ?_⟩
  intro q t hq
  obtain ⟨t1, ht1, a1, b1, d1⟩ := n1 q t hq
  obtain ⟨t2, ht2, a2, b2, d2⟩ := n2 q t1 ht1
  refine ⟨t2, ht2, by rw [a2, a1], by rw [b2, b1], ?_⟩
  rcases d2 with ⟨hp2, ho2⟩ | hsev
  · rcases d1 with ⟨hp1, ho1⟩ | ⟨hp1, ho1⟩
    · exact Or.inl ⟨by rw [hp2, hp1], by rw [ho2, ho1]⟩
    · exact Or.inr ⟨by rw [hp2, hp1], by rw [ho2, ho1]⟩
  · exact Or.inr hsev

/-- Overwriting a node by one with the same flags, and the same or no links. -/
theorem FlagsKept_store (w : World) (p : SharedTensor) (t u : InternalTensor)
    (hp : w.deref p = .ok t) (h1 : u.is_leaf_ = t.is_leaf_)
    (h2 : u.requires_grad_ = t.requires_grad_)
    (h4 : (u.parents_ = t.parents_ ∧ u.backward_op_ = t.backward_op_) ∨
      (u.parents_ = [] ∧ u.backward_op_ = none)) :
    FlagsKept w (w.store p u) := by
  refine ⟨by simp [World.store], rfl, ?_⟩
  intro q tq hq
  rw [deref_store]
  by_cases hqp : q = p
  · subst hqp
    rw [hp] at hq
    simp only [Except.ok.injEq] at hq
    subst hq
    exact ⟨u, by simp [deref_lt w q _ hp], h1, h2, h4⟩
  · exact ⟨tq, by simp [hqp, hq], rfl, rfl, Or.inl ⟨rfl, rfl⟩⟩

theorem pushGrad_length (p : SharedTensor) (contrib : World → Except Err (List ℚ))
    (w w1 : World) (h : pushGrad p contrib w = .ok w1) :
    w1.nodes.length = w.nodes.length ∧ w1.use_grad_ = w.use_grad_ := by
  unfold pushGrad at h
  simp only [bind_eq_ok] at h
  obtain ⟨tp, -, h⟩ := h
  split at h
  · simp only [bind_eq_ok, pure_eq_ok, Except.ok.injEq] at h
    obtain ⟨g, -, t1, -, rfl⟩ := h
    simp [World.store]
  · simp only [pure_eq_ok, Except.ok.injEq] at h
    subst h
    exact ⟨rfl, rfl⟩

theorem pushGrad_FlagsKept (p : SharedTensor) (contrib : World → Except Err (List ℚ))
    (w w1 : World) (h : pushGrad p contrib w = .ok w1) : FlagsKept w w1 := by
  obtain ⟨hl, hu⟩ := pushGrad_length p contrib w w1 h
  refine ⟨hl, hu, ?_⟩
  intro q t hq
  obtain ⟨t1, ht1, e1, -⟩ := pushGrad_deref p contrib w w1 h q t hq
  refine ⟨t1, ht1, ?_, ?_, Or.inl ⟨?_, ?_⟩⟩ <;> rw [e1]

/-- A traversal keeps the flags of every node. -/
theorem Backward_FlagsKept (fuel : Nat) (retain_graph : Bool) (self : SharedTensor)
    (w w1 : World) (h : InternalTensor.Backward fuel retain_graph self w = .ok w1) :
    FlagsKept w w1 :=
  Backward_rel FlagsKept retain_graph FlagsKept_refl FlagsKept_trans
    (fun w w1 hR q t hq => by
      obtain ⟨t1, ht1, -, hr1, -⟩ := hR.2.2 q t hq
      exact ⟨t1, ht1, hr1⟩)
    pushGrad_FlagsKept
    (fun _ w q t hq _ => FlagsKept_store w q t _ hq rfl rfl (Or.inl ⟨rfl, rfl⟩))
    (fun _ w q t hq _ => FlagsKept_store w q t _ hq rfl rfl (Or.inr ⟨rfl, rfl⟩))
    fuel self w w1 h

theorem FlagsKept_back (w w1 : World) (h : FlagsKept w w1) (q : SharedTensor)
    (t1 : InternalTensor) (hq : w1.deref q = .ok t1) :
    ∃ t, w.deref q = .ok t ∧ t1.is_leaf_ = t.is_leaf_ ∧
      t1.requires_grad_ = t.requires_grad_ ∧
      ((t1.parents_ = t.parents_ ∧ t1.backward_op_ = t.backward_op_) ∨
        (t1.parents_ = [] ∧ t1.backward_op_ = none)) := by
  have hlt : q < w.nodes.length := by
    rw [← h.1]
    exact deref_lt w1 q t1 hq
  obtain ⟨t2, ht2, r⟩ := h.2.2 q _ (deref_of_lt w q hlt)
  rw [hq] at ht2
  simp only [Except.ok.injEq] at ht2
  subst ht2
  exact ⟨_, deref_of_lt w q hlt, r⟩

theorem FlagsKept_LeafInv (w w1 : World) (h : FlagsKept w w1) (hl : LeafInv w) :
    LeafInv w1 := by
  intro q t1 hq hrg
  obtain ⟨t, ht, e1, e2, -⟩ := FlagsKept_back w w1 h q t1 hq
  rw [e1]
  exact hl q t ht (by rw [← e2, hrg])

theorem FlagsKept_BelowInv (w w1 : World) (h : FlagsKept w w1) (hb : BelowInv w) :
    BelowInv w1 := by
  intro q t1 hq
  obtain ⟨t, ht, -, -, hl⟩ := FlagsKept_back w w1 h q t1 hq
  obtain ⟨hp, ho⟩ := hb q t ht
  rcases hl with ⟨e1, e2⟩ | ⟨e1, e2⟩
  · rw [e1, e2]
    exact ⟨hp, ho⟩
  · rw [e1, e2]
    exact ⟨fun p hp => absurd hp (by simp), fun op hop => by simp at hop⟩

theorem deref_alloc_cases (w : World) (c : InternalTensor) (q : SharedTensor)
    (t : InternalTensor) (h : (w.alloc c).2.deref q = .ok t) :
    w.deref q = .ok t ∨ (q = w.nodes.length ∧ t = c) := by
  have hlt := deref_lt _ q t h
  simp [World.alloc] at hlt
  by_cases hq : q < w.nodes.length
  · left
    have h2 := deref_alloc_old w c _ q (deref_of_lt w q hq)
    rw [h2] at h
    rw [deref_of_lt w q hq]
    exact h
  · right
    have e : q = w.nodes.length :=
      Nat.le_antisymm (Nat.lt_succ_iff.mp hlt) (Nat.le_of_not_lt hq)
    subst e
    have h2 := deref_alloc w c
    simp only [World.alloc] at h2 h
    rw [h2] at h
    simp only [Except.ok.injEq] at h
    exact ⟨rfl, h.symm⟩

/-- The node the factory appends, when it returns on valid parents. -/
theorem ApplyOperation_node (data : List ℚ) (shape : List Nat) (parents : List SharedTensor)
    (op : BackwardOp) (w : World) (p : SharedTensor) (w1 : World)
    (hp : ∀ q ∈ parents, q < w.nodes.length)
    (h : ApplyOperation data shape parents op w = .ok (p, w1)) :
    ∃ rg leaf : Bool,
      (rg = true ↔ w.use_grad_ = true ∧
        ∃ q ∈ parents, ∃ t, w.deref q = .ok t ∧ t.requires_grad_ = true) ∧
      (leaf = true ↔ w.use_grad_ = true ∧
        ∃ q ∈ parents, ∃ t, w.deref q = .ok t ∧ t.is_leaf_ = true) ∧
      p = w.nodes.length ∧
      w1 = (w.alloc (⟨data, [], shape, if rg then parents else [],
        if rg then some op else none, leaf, rg⟩ : InternalTensor)).2 := by
  obtain ⟨rg, leaf, h1, h2, heq⟩ := ApplyOperation_spec data shape parents op w hp
  rw [heq] at h
  simp only [Except.ok.injEq, Prod.mk.injEq] at h
  exact ⟨rg, leaf, h1, h2, h.1.symm, h.2.symm⟩

theorem LeafInv_alloc (w : World) (c : InternalTensor) (hl : LeafInv w)
    (hc : c.requires_grad_ = true → c.is_leaf_ = true) : LeafInv (w.alloc c).2 := by
  intro q t hq hrg
  rcases deref_alloc_cases w c q t hq with h | ⟨-, rfl⟩
  · exact hl q t h hrg
  · exact hc hrg

theorem BelowInv_alloc (w : World) (c : InternalTensor) (hb : BelowInv w)
    (hp : ∀ p ∈ c.parents_, p < w.nodes.length)
    (ho : ∀ op, c.backward_op_ = some op → ∀ a ∈ op.operands, a < w.nodes.length) :
    BelowInv (w.alloc c).2 := by
  intro q t hq
  rcases deref_alloc_cases w c q t hq with h | ⟨rfl, rfl⟩
  · exact hb q t h
  · exact ⟨hp, ho⟩

/-- The invariants of built stores: a node that requires gradients is
leaf-flagged, and links point to older nodes. -/
theorem Built_inv (w : World) (h : Built w) : LeafInv w ∧ BelowInv w := by
  induction h with
  | init =>
    constructor
    · intro q t hq
      simp [World.init, World.deref] at hq
    · intro q t hq
      simp [World.init, World.deref] at hq
  | constructed w data shape rg _ ih =>
    exact ⟨LeafInv_alloc w _ ih.1 (fun _ => rfl),
      BelowInv_alloc w _ ih.2 (fun p hp => absurd hp (by simp [InternalTensor.new]))
        (fun op hop => by simp [InternalTensor.new] at hop)⟩
  | constant w data shape _ ih =>
    exact ⟨LeafInv_alloc w _ ih.1 (fun hf => by simp [InternalTensor.new] at hf),
      BelowInv_alloc w _ ih.2 (fun p hp => absurd hp (by simp [InternalTensor.new]))
        (fun op hop => by simp [InternalTensor.new] at hop)⟩
  | apply w data shape parents op res w1 _ hp hops happ ih =>
    obtain ⟨rg, leaf, h1, h2, -, rfl⟩ := ApplyOperation_node data shape parents op w res w1 hp happ
    constructor
    · apply LeafInv_alloc w _ ih.1
      intro hrg
      simp only at hrg
      obtain ⟨hu, q, hq, t, ht, htr⟩ := h1.mp hrg
      exact h2.mpr ⟨hu, q, hq, t, ht, ih.1 q t ht htr⟩
    · apply BelowInv_alloc w _ ih.2
      · intro p hpm
        cases rg with
        | true => exact hp p (by simpa using hpm)
        | false => simp at hpm
      · intro op2 hop a ha
        cases rg with
        | true =>
          simp only [if_true, Option.some.injEq] at hop
          subst hop
          exact hp a (hops a ha)
        | false => simp at hop
  | set_use_grad w ug _ ih =>
    exact ⟨fun q t hq => ih.1 q t hq, fun q t hq => ih.2 q t hq⟩
  | set_grad w p t grad _ hp ih =>
    have hk := FlagsKept_store w p t (t.SetGradVec grad) hp rfl rfl (Or.inl ⟨rfl, rfl⟩)
    exact ⟨FlagsKept_LeafInv _ _ hk ih.1, FlagsKept_BelowInv _ _ hk ih.2⟩
  | set_data w p t data _ hp ih =>
    have hk := FlagsKept_store w p t { t with data_ := data } hp rfl rfl (Or.inl ⟨rfl, rfl⟩)
    exact ⟨FlagsKept_LeafInv _ _ hk ih.1, FlagsKept_BelowInv _ _ hk ih.2⟩
  | set_shape w p t shape _ hp ih =>
    have hk := FlagsKept_store w p t { t with shape_ := shape } hp rfl rfl (Or.inl ⟨rfl, rfl⟩)
    exact ⟨FlagsKept_LeafInv _ _ hk ih.1, FlagsKept_BelowInv _ _ hk ih.2⟩
  | backward w fuel rg p w1 _ hb ih =>
    have hk := Backward_FlagsKept fuel rg p w w1 hb
    exact ⟨FlagsKept_LeafInv _ _ hk ih.1, FlagsKept_BelowInv _ _ hk ih.2⟩

theorem run_FlagsKept (op : BackwardOp) (res : SharedTensor) (w w1 : World)
    (h : op.run res w = .ok w1) : FlagsKept w w1 :=
  run_rel FlagsKept FlagsKept_trans pushGrad_FlagsKept op res w w1 h

/-- On a store in which every node that requires gradients is leaf-flagged,
the statement that clears a gradient buffer is never executed. -/
theorem Backward_no_clear (retain_graph : Bool) (fuel : Nat) :
    ∀ (self : SharedTensor) (w : World), LeafInv w →
      InternalTensor.Backward fuel retain_graph self w =
        InternalTensor.BackwardWithoutClear fuel retain_graph self w := by
  induction fuel with
  | zero =>
    intro self w _
    rfl
  | succ fuel ih =>
    intro self w hl
    have hfold : ∀ (l : List SharedTensor) (w : World), LeafInv w →
        l.foldlM (fun acc p => InternalTensor.Backward fuel retain_graph p acc) w =
        l.foldlM (fun acc p => InternalTensor.BackwardWithoutClear fuel retain_graph p acc) w := by
      intro l
      induction l with
      | nil =>
        intro w _
        rfl
      | cons p l ihl =>
        intro w hw
        simp only [List.foldlM_cons]
        rw [← ih p w hw]
        cases hb : InternalTensor.Backward fuel retain_graph p w with
        | error e => rfl
        | ok w2 =>
          simp only [ok_bind]
          exact ihl w2 (FlagsKept_LeafInv _ _ (Backward_FlagsKept fuel retain_graph p w w2 hb) hw)
    have tail : ∀ (t : InternalTensor), w.deref self = .ok t → t.requires_grad_ = true →
        ∀ w2 : World, FlagsKept w w2 →
        (do
          let t ← w2.deref self
          let w := if !t.is_leaf_ && !retain_graph then w2.store self { t with grad_ := [] } else w2
          let w ← t.parents_.foldlM
            (fun acc p => InternalTensor.Backward fuel retain_graph p acc) w
          let t ← w.deref self
          pure (if !retain_graph then
            w.store self { t with backward_op_ := none, parents_ := [] } else w)) =
        (do
          let t ← w2.deref self
          let w ← t.parents_.foldlM
            (fun acc p => InternalTensor.BackwardWithoutClear fuel retain_graph p acc) w2
          let t ← w.deref self
          pure (if !retain_graph then
            w.store self { t with backward_op_ := none, parents_ := [] } else w) :
              Except Err World) := by
      intro t ht hrg w2 hk
      obtain ⟨t2, ht2, hleaf, hrg2, -⟩ := hk.2.2 self t ht
      have hl2 := FlagsKept_LeafInv _ _ hk hl
      have hleaf2 : t2.is_leaf_ = true := hl2 self t2 ht2 (by rw [hrg2, hrg])
      simp only [ht2, ok_bind, hleaf2, Bool.not_true, Bool.false_and, Bool.false_eq_true, if_false]
      rw [hfold _ w2 hl2]
    rw [InternalTensor.Backward, InternalTensor.BackwardWithoutClear]
    cases ht : w.deref self with
    | error e => rfl
    | ok t =>
      simp only [ok_bind]
      cases hrg : t.requires_grad_ with
      | false => rfl
      | true =>
        simp only [Bool.not_true, Bool.false_eq_true, if_false]
        cases hop : t.backward_op_ with
        | none =>
          simp only [pure_eq_ok, ok_bind]
          exact tail t ht hrg w (FlagsKept_refl w)
        | some op =>
          simp only []
          cases hrun : op.run self w with
          | error e => rfl
          | ok w2 =>
            simp only [ok_bind]
            exact tail t ht hrg w2 (run_FlagsKept op self w w2 hrun)

/-- A backward rule writes to its operands only. -/
theorem run_frame (op : BackwardOp) (res : SharedTensor) (w w1 : World)
    (h : op.run res w = .ok w1) (q : SharedTensor) (hq : q ∉ op.operands)
    (t : InternalTensor) (ht : w.deref q = .ok t) : w1.deref q = .ok t := by
  have two : ∀ (a b : SharedTensor) (ca cb : World → Except Err (List ℚ)) (w w2 w1 : World),
      q ≠ a → q ≠ b → pushGrad a ca w = .ok w2 → pushGrad b cb w2 = .ok w1 →
      w.deref q = .ok t → w1.deref q = .ok t := by
    intro a b ca cb w w2 w1 ha hb h2 h3 ht
    obtain ⟨t2, ht2, -, e2⟩ := pushGrad_deref a ca w w2 h2 q t ht
    rw [e2 ha] at ht2
    obtain ⟨t3, ht3, -, e3⟩ := pushGrad_deref b cb w2 w1 h3 q t ht2
    rw [e3 hb] at ht3
    exact ht3
  have one : ∀ (a : SharedTensor) (ca : World → Except Err (List ℚ)) (w w1 : World),
      q ≠ a → pushGrad a ca w = .ok w1 → w.deref q = .ok t → w1.deref q = .ok t := by
    intro a ca w w1 ha h2 ht
    obtain ⟨t2, ht2, -, e2⟩ := pushGrad_deref a ca w w1 h2 q t ht
    rw [e2 ha] at ht2
    exact ht2
  cases op with
  | AddManyOne a b =>
    simp only [BackwardOp.operands, List.mem_cons, List.mem_singleton, List.not_mem_nil,
      or_false, not_or] at hq
    simp only [BackwardOp.run, bind_eq_ok] at h
    obtain ⟨w2, h2, h3⟩ := h
    exact two _ _ _ _ _ _ _ hq.1 hq.2 h2 h3 ht
  | AddManyMany a b =>
    simp only [BackwardOp.operands, List.mem_cons, List.mem_singleton, List.not_mem_nil,
      or_false, not_or] at hq
    simp only [BackwardOp.run, bind_eq_ok] at h
    obtain ⟨w2, h2, h3⟩ := h
    exact two _ _ _ _ _ _ _ hq.1 hq.2 h2 h3 ht
  | AddBias a b =>
    simp only [BackwardOp.operands, List.mem_cons, List.mem_singleton, List.not_mem_nil,
      or_false, not_or] at hq
    simp only [BackwardOp.run, bind_eq_ok] at h
    obtain ⟨w2, h2, h3⟩ := h
    exact two _ _ _ _ _ _ _ hq.1 hq.2 h2 h3 ht
  | MultiplyManyOne a b =>
    simp only [BackwardOp.operands, List.mem_cons, List.mem_singleton, List.not_mem_nil,
      or_false, not_or] at hq
    simp only [BackwardOp.run, bind_eq_ok] at h
    obtain ⟨w2, h2, h3⟩ := h
    exact two _ _ _ _ _ _ _ hq.1 hq.2 h2 h3 ht
  | MultiplyManyMany a b =>
    simp only [BackwardOp.operands, List.mem_cons, List.mem_singleton, List.not_mem_nil,
      or_false, not_or] at hq
    simp only [BackwardOp.run, bind_eq_ok] at h
    obtain ⟨w2, h2, h3⟩ := h
    exact two _ _ _ _ _ _ _ hq.1 hq.2 h2 h3 ht
  | Matmul a b =>
    simp only [BackwardOp.operands, List.mem_cons, List.mem_singleton, List.not_mem_nil,
      or_false, not_or] at hq
    simp only [BackwardOp.run, bind_eq_ok] at h
    obtain ⟨ta, -, tb, -, kN, -, kM, -, kP, -, w2, h2, h3⟩ := h
    exact two _ _ _ _ _ _ _ hq.1 hq.2 h2 h3 ht
  | Pow a e d =>
    simp only [BackwardOp.operands, List.mem_singleton] at hq
    simp only [BackwardOp.run] at h
    exact one _ _ _ _ hq h ht
  | Sum a d =>
    simp only [BackwardOp.operands, List.mem_singleton] at hq
    simp only [BackwardOp.run] at h
    exact one _ _ _ _ hq h ht
  | Relu a l =>
    simp only [BackwardOp.operands, List.mem_singleton] at hq
    simp only [BackwardOp.run] at h
    exact one _ _ _ _ hq h ht

/-- On a store whose links point to older nodes, a traversal from a node
leaves every younger node untouched, and it leaves the gradient buffer of the
node itself as it was unless it clears it (the node requires gradients, is not
leaf-flagged, and the graph is not retained). -/
theorem Backward_above (retain_graph : Bool) (fuel : Nat) :
    ∀ (self : SharedTensor) (w w1 : World), BelowInv w →
      InternalTensor.Backward fuel retain_graph self w = .ok w1 →
      (∀ q t, self < q → w.deref q = .ok t → w1.deref q = .ok t) ∧
      ∀ t, w.deref self = .ok t → ∃ t1, w1.deref self = .ok t1 ∧
        (t.is_leaf_ = true ∨ retain_graph = true ∨ t.requires_grad_ = false →
          t1.grad_ = t.grad_) := by
  induction fuel with
  | zero =>
    intro self w w1 _ h
    simp [InternalTensor.Backward] at h
  | succ fuel ih =>
    intro self w w1 hb h
    have hfold : ∀ (l : List SharedTensor) (w3 w4 : World), (∀ p ∈ l, p < self) →
        BelowInv w3 →
        l.foldlM (fun acc p => InternalTensor.Backward fuel retain_graph p acc) w3 = .ok w4 →
        ∀ q t, self ≤ q → w3.deref q = .ok t → w4.deref q = .ok t := by
      intro l
      induction l with
      | nil =>
        intro w3 w4 _ _ h q t _ hq
        simp only [List.foldlM_nil, pure_eq_ok, Except.ok.injEq] at h
        subst h
        exact hq
      | cons p l ihl =>
        intro w3 w4 hlt hb3 h q t hsq hq
        simp only [List.foldlM_cons, bind_eq_ok] at h
        obtain ⟨wa, h2, h3⟩ := h
        have hp : p < self := hlt p (List.mem_cons_self _ _)
        have hqa := (ih p w3 wa hb3 h2).1 q t (Nat.lt_of_lt_of_le hp hsq) hq
        exact ihl wa w4 (fun p2 hp2 => hlt p2 (List.mem_cons_of_mem _ hp2))
          (FlagsKept_BelowInv _ _ (Backward_FlagsKept fuel retain_graph p w3 wa h2) hb3)
          h3 q t hsq hqa
    have tail : ∀ t : InternalTensor, w.deref self = .ok t → t.requires_grad_ = true →
        ∀ w2 : World, FlagsKept w w2 → (∀ q u, self ≤ q → w.deref q = .ok u → w2.deref q = .ok u) →
        ∀ w4 : World,
        t.parents_.foldlM (fun acc p => InternalTensor.Backward fuel retain_graph p acc)
          (if (!t.is_leaf_ && !retain_graph) = true
            then w2.store self { t with grad_ := [] } else w2) = .ok w4 →
        ∀ t4 : InternalTensor, w4.deref self = .ok t4 →
        (∀ q u, self < q → w.deref q = .ok u →
          (if (!retain_graph) = true
            then w4.store self { t4 with backward_op_ := none, parents_ := [] }
            else w4).deref q = .ok u) ∧
        ∃ t1, (if (!retain_graph) = true
            then w4.store self { t4 with backward_op_ := none, parents_ := [] }
            else w4).deref self = .ok t1 ∧
          (t.is_leaf_ = true ∨ retain_graph = true ∨ t.requires_grad_ = false →
            t1.grad_ = t.grad_) := by
      intro t ht hrg w2 hk hfr w4 h4 t4 ht4
      have ht2 : w2.deref self = .ok t := hfr self t (Nat.le_refl _) ht
      have hlt2 := deref_lt w2 self t ht2
      have hb2 : BelowInv w2 := FlagsKept_BelowInv _ _ hk hb
      have hk3 : FlagsKept w2 (if (!t.is_leaf_ && !retain_graph) = true
            then w2.store self { t with grad_ := [] } else w2) := by
        split
        · exact FlagsKept_store w2 self t _ ht2 rfl rfl (Or.inl ⟨rfl, rfl⟩)
        · exact FlagsKept_refl w2
      have hb3 := FlagsKept_BelowInv _ _ hk3 hb2
      have hpar : ∀ p ∈ t.parents_, p < self := (hb self t ht).1
      have hfr4 := hfold t.parents_ _ w4 hpar hb3 h4
      have hlt4 := deref_lt w4 self t4 ht4
      constructor
      · intro q u hq hu
        have hne : q ≠ self := Nat.ne_of_gt hq
        have h3 : (if (!t.is_leaf_ && !retain_graph) = true
            then w2.store self { t with grad_ := [] } else w2).deref q = .ok u := by
          split
          · rw [deref_store]
            simp only [hne, false_and, if_false]
            exact hfr q u (Nat.le_of_lt hq) hu
          · exact hfr q u (Nat.le_of_lt hq) hu
        have h5 := hfr4 q u (Nat.le_of_lt hq) h3
        split
        · rw [deref_store]
          simp only [hne, false_and, if_false]
          exact h5
        · exact h5
      · by_cases hc : (!t.is_leaf_ && !retain_graph) = true
        · have h3 : (if (!t.is_leaf_ && !retain_graph) = true
              then w2.store self { t with grad_ := [] } else w2).deref self =
              .ok { t with grad_ := [] } := by
            rw [if_pos hc, deref_store]
            simp [hlt2]
          have h5 := hfr4 self _ (Nat.le_refl _) h3
          rw [ht4] at h5
          simp only [Except.ok.injEq] at h5
          simp only [Bool.and_eq_true, Bool.not_eq_true'] at hc
          have hrf : retain_graph = false := hc.2
          subst hrf
          simp only [Bool.not_false, if_true]
          refine ⟨{ t4 with backward_op_ := none, parents_ := [] },
            by rw [deref_store]; simp [hlt4], ?_⟩
          intro hor
          rcases hor with h1 | h1 | h1
          · rw [hc.1] at h1
            exact absurd h1 (by decide)
          · exact absurd h1 (by decide)
          · rw [hrg] at h1
            exact absurd h1 (by decide)
        · have h3 : (if (!t.is_leaf_ && !retain_graph) = true
              then w2.store self { t with grad_ := [] } else w2).deref self = .ok t := by
            rw [if_neg hc]
            exact ht2
          have h5 := hfr4 self _ (Nat.le_refl _) h3
          rw [ht4] at h5
          simp only [Except.ok.injEq] at h5
          split
          · exact ⟨{ t4 with backward_op_ := none, parents_ := [] },
              by rw [deref_store]; simp [hlt4], fun _ => by rw [← h5]⟩
          · exact ⟨t4, ht4, fun _ => by rw [← h5]⟩
    rw [InternalTensor.Backward] at h
    simp only [bind_eq_ok] at h
    obtain ⟨t, ht, h⟩ := h
    split at h
    · next hrg =>
      simp only [pure_eq_ok, Except.ok.injEq] at h
      subst h
      refine ⟨fun q u _ hu => hu, ?_⟩
      intro t2 ht2
      exact ⟨t2, ht2, fun _ => rfl⟩
    · next hrg =>
      have hrg1 : t.requires_grad_ = true := by simpa using hrg
      have key : ∀ w2 : World, FlagsKept w w2 →
          (∀ q u, self ≤ q → w.deref q = .ok u → w2.deref q = .ok u) →
          (do
            let t ← w2.deref self
            let w := if !t.is_leaf_ && !retain_graph
              then w2.store self { t with grad_ := [] } else w2
            let w ← t.parents_.foldlM
              (fun acc p => InternalTensor.Backward fuel retain_graph p acc) w
            let t ← w.deref self
            pure (if !retain_graph then
              w.store self { t with backward_op_ := none, parents_ := [] } else w)) = .ok w1 →
          (∀ q u, self < q → w.deref q = .ok u → w1.deref q = .ok u) ∧
          ∀ u, w.deref self = .ok u → ∃ t1, w1.deref self = .ok t1 ∧
            (u.is_leaf_ = true ∨ retain_graph = true ∨ u.requires_grad_ = false →
              t1.grad_ = u.grad_) := by
        intro w2 hk hfr h
        have ht2 : w2.deref self = .ok t := hfr self t (Nat.le_refl _) ht
        simp only [ht2, ok_bind, bind_eq_ok, pure_eq_ok, Except.ok.injEq] at h
        obtain ⟨w4, h4, t4, ht4, rfl⟩ := h
        obtain ⟨r1, r2⟩ := tail t ht hrg1 w2 hk hfr w4 h4 t4 ht4
        refine ⟨r1, ?_⟩
        intro u hu
        rw [ht] at hu
        simp only [Except.ok.injEq] at hu
        subst hu
        exact r2
      cases hop : t.backward_op_ with
      | none =>
        simp only [hop, ok_bind, pure_eq_ok] at h
        exact key w (FlagsKept_refl w) (fun q u _ hu => hu) h
      | some op =>
        simp only [hop] at h
        rw [bind_eq_ok] at h
        obtain ⟨w2, h2, h⟩ := h
        refine key w2 (run_FlagsKept op self w w2 h2) ?_ h
        intro q u hq hu
        refine run_frame op self w w2 h2 q ?_ u hu
        intro hmem
        have hlt := (hb self t ht).2 op hop q hmem
        exact absurd hq (Nat.not_le_of_lt hlt)

theorem FactoryCall_step (w : World) (parents : List SharedTensor)
    (r : Except Err (SharedTensor × World)) (hf : FactoryCall w parents r) :
    KernelStep w parents r := by
  intro p w1 h
  obtain ⟨data, shape, op, happ, hp, hops⟩ := hf p w1 h
  obtain ⟨rg, leaf, -, h2, hpl, hw1⟩ := ApplyOperation_node data shape parents op w p w1 hp happ
  refine ⟨fun hb => Built.apply w data shape parents op p w1 hb hp hops happ, ?_, ?_, ?_⟩
  · rw [hw1]
    rfl
  · intro q t hq
    rw [hw1]
    exact deref_alloc_old w _ t q hq
  · intro hu hl
    obtain ⟨q, hq, t, ht, hleaf⟩ := hl
    have hlf : leaf = true := h2.mpr ⟨hu, q, hq, t, ht, hleaf⟩
    refine ⟨(⟨data, [], shape, if rg then parents else [],
      if rg then some op else none, leaf, rg⟩ : InternalTensor), ?_, hlf⟩
    rw [hw1, hpl]
    exact deref_alloc w _

theorem valid_pair (w : World) (a b : SharedTensor) (ta tb : InternalTensor)
    (ha : w.deref a = .ok ta) (hb : w.deref b = .ok tb) :
    ∀ q ∈ [a, b], q < w.nodes.length := by
  intro q hq
  simp only [List.mem_cons, List.mem_singleton, List.not_mem_nil, or_false] at hq
  rcases hq with rfl | rfl
  · exact deref_lt w _ ta ha
  · exact deref_lt w _ tb hb

theorem valid_one (w : World) (a : SharedTensor) (ta : InternalTensor)
    (ha : w.deref a = .ok ta) : ∀ q ∈ [a], q < w.nodes.length := by
  intro q hq
  simp only [List.mem_singleton] at hq
  subst hq
  exact deref_lt w _ ta ha

theorem AddManyOneInternal_factory (a b : SharedTensor) (w : World) :
    FactoryCall w [a, b] (AddManyOneInternal a b w) := by
  intro p w1 h
  unfold AddManyOneInternal at h
  simp only [bind_eq_ok] at h
  obtain ⟨ta, hta, tb, htb, data, -, h⟩ := h
  exact ⟨_, _, _, h, valid_pair w a b ta tb hta htb, fun _ hx => hx⟩

theorem AddManyManyInternal_factory (a b : SharedTensor) (w : World) :
    FactoryCall w [a, b] (AddManyManyInternal a b w) := by
  intro p w1 h
  unfold AddManyManyInternal at h
  simp only [bind_eq_ok] at h
  obtain ⟨ta, hta, tb, htb, data, -, h⟩ := h
  exact ⟨_, _, _, h, valid_pair w a b ta tb hta htb, fun _ hx => hx⟩

theorem AddBiasInternal_factory (a b : SharedTensor) (w : World) :
    FactoryCall w [a, b] (AddBiasInternal a b w) := by
  intro p w1 h
  unfold AddBiasInternal at h
  simp only [bind_eq_ok] at h
  obtain ⟨ta, hta, tb, htb, data, -, h⟩ := h
  exact ⟨_, _, _, h, valid_pair w a b ta tb hta htb, fun _ hx => hx⟩

theorem MultiplyManyOneInternal_factory (a b : SharedTensor) (w : World) :
    FactoryCall w [a, b] (MultiplyManyOneInternal a b w) := by
  intro p w1 h
  unfold MultiplyManyOneInternal at h
  simp only [bind_eq_ok] at h
  obtain ⟨ta, hta, tb, htb, data, -, h⟩ := h
  exact ⟨_, _, _, h, valid_pair w a b ta tb hta htb, fun _ hx => hx⟩

theorem MultiplyManyManyInternal_factory (a b : SharedTensor) (w : World) :
    FactoryCall w [a, b] (MultiplyManyManyInternal a b w) := by
  intro p w1 h
  unfold MultiplyManyManyInternal at h
  simp only [bind_eq_ok] at h
  obtain ⟨ta, hta, tb, htb, data, -, h⟩ := h
  exact ⟨_, _, _, h, valid_pair w a b ta tb hta htb, fun _ hx => hx⟩

theorem MatmulInternal_factory (a b : SharedTensor) (w : World) :
    FactoryCall w [a, b] (MatmulInternal a b w) := by
  intro p w1 h
  unfold MatmulInternal at h
  simp only [bind_eq_ok] at h
  obtain ⟨ta, hta, tb, htb, n, -, m, -, k, -, data, -, h⟩ := h
  exact ⟨_, _, _, h, valid_pair w a b ta tb hta htb, fun _ hx => hx⟩

theorem PowInternal_factory (a : SharedTensor) (e : Int) (w : World) :
    FactoryCall w [a] (PowInternal a e w) := by
  intro p w1 h
  unfold PowInternal at h
  simp only [bind_eq_ok] at h
  obtain ⟨ta, hta, data, -, h⟩ := h
  exact ⟨_, _, _, h, valid_one w a ta hta, fun _ hx => hx⟩

theorem SumInternal_factory (a : SharedTensor) (w : World) :
    FactoryCall w [a] (SumInternal a w) := by
  intro p w1 h
  unfold SumInternal at h
  simp only [bind_eq_ok] at h
  obtain ⟨ta, hta, h⟩ := h
  exact ⟨_, _, _, h, valid_one w a ta hta, fun _ hx => hx⟩

theorem ReluInternal_factory (a : SharedTensor) (l : ℚ) (w : World) :
    FactoryCall w [a] (ReluInternal a l w) := by
  intro p w1 h
  unfold ReluInternal at h
  simp only [bind_eq_ok] at h
  obtain ⟨ta, hta, h⟩ := h
  exact ⟨_, _, _, h, valid_one w a ta hta, fun _ hx => hx⟩

/-- A kernel applied to a fresh constant of the constructor defaults. -/
theorem constant_step (w : World) (a : SharedTensor) (c : List ℚ)
    (r : Except Err (SharedTensor × World))
    (hs : KernelStep (w.alloc (InternalTensor.new c [] false false)).2
      [a, (w.alloc (InternalTensor.new c [] false false)).1] r) :
    KernelStep w [a] r := by
  intro p w1 h
  obtain ⟨h1, h2, h3, h4⟩ := hs p w1 h
  refine ⟨fun hb => h1 (Built.constant w c [] hb), ?_, ?_, ?_⟩
  · rw [h2]
    rfl
  · intro q t hq
    exact h3 q t (deref_alloc_old w _ t q hq)
  · intro hu hl
    apply h4 hu
    obtain ⟨q, hq, t, ht, hleaf⟩ := hl
    simp only [List.mem_singleton] at hq
    subst hq
    exact ⟨q, List.mem_cons_self _ _, t, deref_alloc_old w _ t q ht, hleaf⟩

theorem OppositeInternal_step (a : SharedTensor) (w : World) :
    KernelStep w [a] (OppositeInternal a w) := by
  unfold OppositeInternal
  exact constant_step w a [-1] _ (FactoryCall_step _ _ _ (MultiplyManyOneInternal_factory _ _ _))

theorem InverseInternal_step (a : SharedTensor) (w : World) :
    KernelStep w [a] (InverseInternal a w) := by
  unfold InverseInternal
  exact FactoryCall_step _ _ _ (PowInternal_factory _ _ _)

theorem wrap_ok (r : Except Err (SharedTensor × World)) (z : Tensor) (w1 : World)
    (h : wrap r = .ok (z, w1)) : r = .ok (z.tensor_, w1) := by
  unfold wrap at h
  simp only [bind_eq_ok] at h
  obtain ⟨⟨p, w2⟩, hr, x, hx, h⟩ := h
  unfold Tensor.fromShared at hx
  simp only [bind_eq_ok, pure_eq_ok, Except.ok.injEq] at hx
  obtain ⟨t, -, rfl⟩ := hx
  simp only [pure_eq_ok, Except.ok.injEq, Prod.mk.injEq] at h
  obtain ⟨rfl, rfl⟩ := h
  exact hr

theorem wrap_step (w : World) (parents operands : List SharedTensor)
    (r : Except Err (SharedTensor × World)) (hs : KernelStep w parents r)
    (hsub : ∀ q ∈ operands, q ∈ parents) : HandleStep w operands (wrap r) := by
  intro z w1 h
  obtain ⟨h1, -, -, h4⟩ := hs z.tensor_ w1 (wrap_ok r z w1 h)
  refine ⟨h1, fun hu hl => h4 hu ?_⟩
  obtain ⟨q, hq, hlf⟩ := hl
  exact ⟨q, hsub q hq, hlf⟩

/-- A kernel on the result of an earlier kernel and an old operand. -/
theorem chain_step (w : World) (o x : SharedTensor) (first : Except Err (SharedTensor × World))
    (hfirst : KernelStep w [o] first)
    (second : SharedTensor → World → Except Err (Tensor × World))
    (hsecond : ∀ nb w2, HandleStep w2 [x, nb] (second nb w2)) :
    HandleStep w [x, o] (do
      let (nb, w2) ← first
      second nb w2) := by
  intro z w1 h
  simp only [bind_eq_ok] at h
  obtain ⟨⟨nb, w2⟩, hf, h⟩ := h
  obtain ⟨f1, f2, f3, f4⟩ := hfirst nb w2 hf
  obtain ⟨s1, s2⟩ := hsecond nb w2 z w1 h
  refine ⟨fun hb => s1 (f1 hb), ?_⟩
  intro hu hl
  apply s2 (by rw [f2]; exact hu)
  obtain ⟨q, hq, t, ht, hleaf⟩ := hl
  simp only [List.mem_cons, List.mem_singleton, List.not_mem_nil, or_false] at hq
  rcases hq with rfl | rfl
  · exact ⟨q, List.mem_cons_self _ _, t, f3 q t ht, hleaf⟩
  · exact ⟨nb, by simp, f4 hu ⟨q, List.mem_singleton_self _, t, ht, hleaf⟩⟩

theorem swap_mem (a b : SharedTensor) : ∀ q ∈ [a, b], q ∈ [b, a] := by
  intro q hq
  simp only [List.mem_cons, List.mem_singleton, List.not_mem_nil, or_false] at hq ⊢
  exact hq.symm

theorem add_step (x other : Tensor) (w : World) :
    HandleStep w [x.tensor_, other.tensor_] (x.add other w) := by
  intro z w1 h
  unfold Tensor.add at h
  simp only [bind_eq_ok] at h
  obtain ⟨sx, -, so, -, dx, -, d_o, -, h⟩ := h
  split_ifs at h
  · exact wrap_step w _ _ _ (FactoryCall_step _ _ _ (AddManyOneInternal_factory _ _ _))
      (fun _ hq => hq) z w1 h
  · exact wrap_step w _ _ _ (FactoryCall_step _ _ _ (AddManyOneInternal_factory _ _ _))
      (swap_mem _ _) z w1 h
  · exact wrap_step w _ _ _ (FactoryCall_step _ _ _ (AddBiasInternal_factory _ _ _))
      (fun _ hq => hq) z w1 h
  · exact wrap_step w _ _ _ (FactoryCall_step _ _ _ (AddBiasInternal_factory _ _ _))
      (swap_mem _ _) z w1 h
  · exact wrap_step w _ _ _ (FactoryCall_step _ _ _ (AddManyManyInternal_factory _ _ _))
      (fun _ hq => hq) z w1 h

theorem mul_step (x other : Tensor) (w : World) :
    HandleStep w [x.tensor_, other.tensor_] (x.mul other w) := by
  intro z w1 h
  unfold Tensor.mul at h
  simp only [bind_eq_ok] at h
  obtain ⟨sx, -, so, -, h⟩ := h
  split_ifs at h
  · exact wrap_step w _ _ _ (FactoryCall_step _ _ _ (MultiplyManyOneInternal_factory _ _ _))
      (fun _ hq => hq) z w1 h
  · exact wrap_step w _ _ _ (FactoryCall_step _ _ _ (MultiplyManyOneInternal_factory _ _ _))
      (swap_mem _ _) z w1 h
  · exact wrap_step w _ _ _ (FactoryCall_step _ _ _ (MultiplyManyManyInternal_factory _ _ _))
      (fun _ hq => hq) z w1 h

theorem sub_step (x other : Tensor) (w : World) :
    HandleStep w [x.tensor_, other.tensor_] (x.sub other w) := by
  intro z w1 h
  unfold Tensor.sub at h
  simp only [bind_eq_ok] at h
  obtain ⟨sx, -, so, -, h⟩ := h
  split_ifs at h
  · exact chain_step w other.tensor_ x.tensor_ _ (OppositeInternal_step _ _)
      (fun nb w2 => wrap (AddManyOneInternal x.tensor_ nb w2))
      (fun nb w2 => wrap_step w2 _ _ _
        (FactoryCall_step _ _ _ (AddManyOneInternal_factory _ _ _)) (fun _ hq => hq)) z w1 h
  · exact chain_step w other.tensor_ x.tensor_ _ (OppositeInternal_step _ _)
      (fun nb w2 => wrap (AddManyOneInternal nb x.tensor_ w2))
      (fun nb w2 => wrap_step w2 _ _ _
        (FactoryCall_step _ _ _ (AddManyOneInternal_factory _ _ _)) (swap_mem _ _)) z w1 h
  · exact chain_step w other.tensor_ x.tensor_ _ (OppositeInternal_step _ _)
      (fun nb w2 => wrap (AddManyManyInternal x.tensor_ nb w2))
      (fun nb w2 => wrap_step w2 _ _ _
        (FactoryCall_step _ _ _ (AddManyManyInternal_factory _ _ _)) (fun _ hq => hq)) z w1 h

theorem div_step (x other : Tensor) (w : World) :
    HandleStep w [x.tensor_, other.tensor_] (x.div other w) := by
  intro z w1 h
  unfold Tensor.div at h
  simp only [bind_eq_ok] at h
  obtain ⟨sx, -, so, -, h⟩ := h
  split_ifs at h
  · exact chain_step w other.tensor_ x.tensor_ _ (InverseInternal_step _ _)
      (fun nb w2 => wrap (MultiplyManyOneInternal x.tensor_ nb w2))
      (fun nb w2 => wrap_step w2 _ _ _
        (FactoryCall_step _ _ _ (MultiplyManyOneInternal_factory _ _ _)) (fun _ hq => hq)) z w1 h
  · exact chain_step w other.tensor_ x.tensor_ _ (InverseInternal_step _ _)
      (fun nb w2 => wrap (MultiplyManyOneInternal nb x.tensor_ w2))
      (fun nb w2 => wrap_step w2 _ _ _
        (FactoryCall_step _ _ _ (MultiplyManyOneInternal_factory _ _ _)) (swap_mem _ _)) z w1 h
  · exact chain_step w other.tensor_ x.tensor_ _ (InverseInternal_step _ _)
      (fun nb w2 => wrap (MultiplyManyManyInternal x.tensor_ nb w2))
      (fun nb w2 => wrap_step w2 _ _ _
        (FactoryCall_step _ _ _ (MultiplyManyManyInternal_factory _ _ _)) (fun _ hq => hq)) z w1 h

theorem Matmul_step (x other : Tensor) (w : World) :
    HandleStep w [x.tensor_, other.tensor_] (x.Matmul other w) :=
  wrap_step w _ _ _ (FactoryCall_step _ _ _ (MatmulInternal_factory _ _ _)) (fun _ hq => hq)

theorem Pow_step (x : Tensor) (e : Int) (w : World) :
    HandleStep w [x.tensor_] (x.Pow e w) :=
  wrap_step w _ _ _ (FactoryCall_step _ _ _ (PowInternal_factory _ _ _)) (fun _ hq => hq)

theorem Sum_step (x : Tensor) (w : World) :
    HandleStep w [x.tensor_] (x.Sum w) :=
  wrap_step w _ _ _ (FactoryCall_step _ _ _ (SumInternal_factory _ _)) (fun _ hq => hq)

theorem Relu_step (x : Tensor) (l : ℚ) (w : World) :
    HandleStep w [x.tensor_] (x.Relu l w) :=
  wrap_step w _ _ _ (FactoryCall_step _ _ _ (ReluInternal_factory _ _ _)) (fun _ hq => hq)

theorem Mean_step (x : Tensor) (w : World) :
    HandleStep w [x.tensor_] (x.Mean w) := by
  intro z w1 h
  unfold Tensor.Mean at h
  simp only [bind_eq_ok] at h
  obtain ⟨⟨s, w2⟩, hs, n, -, c, -, h⟩ := h
  obtain ⟨f1, f2, f3, f4⟩ := FactoryCall_step _ _ _ (SumInternal_factory x.tensor_ w) s w2 hs
  have hk := constant_step w2 s [c] _
    (FactoryCall_step _ _ _ (MultiplyManyOneInternal_factory s
      (w2.alloc (InternalTensor.new [c] [] false false)).1
      (w2.alloc (InternalTensor.new [c] [] false false)).2))
  obtain ⟨s1, s2⟩ := wrap_step w2 _ [s] _ hk (fun _ hq => hq) z w1 h
  exact ⟨fun hb => s1 (f1 hb), fun hu hl => s2 (by rw [f2]; exact hu)
    ⟨s, List.mem_singleton_self _, f4 hu hl⟩⟩

theorem diamond_built : Built diamond_store := by
  have h3 : Built (⟨[⟨[3], [], [], [], none, true, true⟩,
      ⟨[1], [], [], [], none, true, false⟩, ⟨[2], [], [], [], none, true, false⟩], true⟩ : World) :=
    Built.constructed _ [2] [] false (Built.constructed _ [1] [] false
      (Built.constructed _ [3] [] true Built.init))
  have h4 := Built.apply _ [4] [] [0, 1] (.AddManyOne 0 1) 3
    (⟨[⟨[3], [], [], [], none, true, true⟩,
      ⟨[1], [], [], [], none, true, false⟩, ⟨[2], [], [], [], none, true, false⟩,
      ⟨[4], [], [], [0, 1], some (.AddManyOne 0 1), true, true⟩], true⟩ : World) h3
    (by decide) (by decide)
    (by simp [ApplyOperation, InternalTensor.new, World.deref, World.alloc])
  have h5 := Built.apply _ [5] [] [0, 2] (.AddManyOne 0 2) 4
    (⟨[⟨[3], [], [], [], none, true, true⟩,
      ⟨[1], [], [], [], none, true, false⟩, ⟨[2], [], [], [], none, true, false⟩,
      ⟨[4], [], [], [0, 1], some (.AddManyOne 0 1), true, true⟩,
      ⟨[5], [], [], [0, 2], some (.AddManyOne 0 2), true, true⟩], true⟩ : World) h4
    (by decide) (by decide)
    (by simp [ApplyOperation, InternalTensor.new, World.deref, World.alloc])
  exact Built.apply _ [9] [] [3, 4] (.AddManyOne 3 4) 5 diamond_store h5
    (by decide) (by decide)
    (by simp [ApplyOperation, InternalTensor.new, World.deref, World.alloc, diamond_store])

/-- C31 (leaf-flagged nodes never auto-clear).  Under gradient tracking the
result of every handle operation (`+`, `-`, `*`, `/`, Matmul, Pow, Sum, Mean,
Relu) that has a leaf-flagged operand is leaf-flagged.  The stores programs
build from the public value constructors stay built under the constructors and
the handle operations.  On a built store a visit of a leaf-flagged node that
does not retain the graph returns with the gradient buffer of that node as it
was; the whole traversal equals the traversal without the clearing statement,
so every node holds what it accumulated; and after `z.Backward()` the output
`z` holds a gradient of ones of the length of its data. -/
theorem leaf_flag_never_clears (w : World) (x other z : Tensor) (fuel : Nat) :
    (w.use_grad_ = true → LeafFlagged w x.tensor_ ∨ LeafFlagged w other.tensor_ →
      LeafResult (x.add other w) ∧ LeafResult (x.sub other w) ∧ LeafResult (x.mul other w) ∧
      LeafResult (x.div other w) ∧ LeafResult (x.Matmul other w)) ∧
    (w.use_grad_ = true → LeafFlagged w x.tensor_ →
      (∀ e, LeafResult (x.Pow e w)) ∧ LeafResult (x.Sum w) ∧ LeafResult (x.Mean w) ∧
      ∀ l, LeafResult (x.Relu l w)) ∧
    (Built w →
      (∀ v rg, Built (Tensor.fromValue v rg w).2) ∧
      (∀ vs rg, Built (Tensor.fromValues vs rg w).2) ∧
      (∀ vs S rg, Built (Tensor.fromValuesShape vs S rg w).2) ∧
      BuiltResult (x.add other w) ∧ BuiltResult (x.sub other w) ∧ BuiltResult (x.mul other w) ∧
      BuiltResult (x.div other w) ∧ BuiltResult (x.Matmul other w) ∧
      (∀ e, BuiltResult (x.Pow e w)) ∧ BuiltResult (x.Sum w) ∧ BuiltResult (x.Mean w) ∧
      ∀ l, BuiltResult (x.Relu l w)) ∧
    (Built w → ∀ (self : SharedTensor) (t : InternalTensor) (w1 : World),
      w.deref self = .ok t → t.is_leaf_ = true →
      InternalTensor.Backward fuel false self w = .ok w1 →
      ∃ t1, w1.deref self = .ok t1 ∧ t1.grad_ = t.grad_) ∧
    (Built w → ∀ self : SharedTensor, InternalTensor.Backward fuel false self w =
      InternalTensor.BackwardWithoutClear fuel false self w) ∧
    (Built w → ∀ (tz : InternalTensor) (w1 : World), w.deref z.tensor_ = .ok tz →
      z.Backward fuel false w = .ok w1 →
      ∃ t1, w1.deref z.tensor_ = .ok t1 ∧ t1.grad_ = List.replicate tz.data_.length 1) := by
  refine ⟨?_, ?_, ?_, ?_, ?_, ?_⟩
  · intro hu hl
    have hex : ∃ q ∈ [x.tensor_, other.tensor_], LeafFlagged w q := by
      rcases hl with h | h
      · exact ⟨_, List.mem_cons_self _ _, h⟩
      · exact ⟨_, by simp, h⟩
    exact ⟨fun r w1 h => (add_step x other w r w1 h).2 hu hex,
      fun r w1 h => (sub_step x other w r w1 h).2 hu hex,
      fun r w1 h => (mul_step x other w r w1 h).2 hu hex,
      fun r w1 h => (div_step x other w r w1 h).2 hu hex,
      fun r w1 h => (Matmul_step x other w r w1 h).2 hu hex⟩
  · intro hu hl
    have hex : ∃ q ∈ [x.tensor_], LeafFlagged w q := ⟨_, List.mem_singleton_self _, hl⟩
    exact ⟨fun e r w1 h => (Pow_step x e w r w1 h).2 hu hex,
      fun r w1 h => (Sum_step x w r w1 h).2 hu hex,
      fun r w1 h => (Mean_step x w r w1 h).2 hu hex,
      fun l r w1 h => (Relu_step x l w r w1 h).2 hu hex⟩
  · intro hb
    exact ⟨fun v rg => Built.constructed w [v] [] rg hb,
      fun vs rg => Built.constructed w vs [vs.length] rg hb,
      fun vs S rg => Built.constructed w vs S rg hb,
      fun r w1 h => (add_step x other w r w1 h).1 hb,
      fun r w1 h => (sub_step x other w r w1 h).1 hb,
      fun r w1 h => (mul_step x other w r w1 h).1 hb,
      fun r w1 h => (div_step x other w r w1 h).1 hb,
      fun r w1 h => (Matmul_step x other w r w1 h).1 hb,
      fun e r w1 h => (Pow_step x e w r w1 h).1 hb,
      fun r w1 h => (Sum_step x w r w1 h).1 hb,
      fun r w1 h => (Mean_step x w r w1 h).1 hb,
      fun l r w1 h => (Relu_step x l w r w1 h).1 hb⟩
  · intro hb self t w1 ht hleaf h
    obtain ⟨t1, ht1, hg⟩ := (Backward_above false fuel self w w1 (Built_inv w hb).2 h).2 t ht
    exact ⟨t1, ht1, hg (Or.inl hleaf)⟩
  · intro hb self
    exact Backward_no_clear false fuel self w (Built_inv w hb).1
  · intro hb tz w1 htz h
    obtain ⟨hl, hbel⟩ := Built_inv w hb
    unfold Tensor.Backward at h
    simp only [htz, ok_bind] at h
    have hk := FlagsKept_store w z.tensor_ tz (tz.SetGrad 1) htz rfl rfl (Or.inl ⟨rfl, rfl⟩)
    have hlt := deref_lt w _ tz htz
    have hd : (w.store z.tensor_ (tz.SetGrad 1)).deref z.tensor_ = .ok (tz.SetGrad 1) := by
      rw [deref_store]
      simp [hlt]
    obtain ⟨t1, ht1, hg⟩ := (Backward_above false fuel z.tensor_ _ w1
      (FlagsKept_BelowInv _ _ hk hbel) h).2 _ hd
    refine ⟨t1, ht1, ?_⟩
    rw [hg]
    · rfl
    · cases hrg : tz.requires_grad_ with
      | true => exact Or.inl (hl _ tz htz hrg)
      | false => exact Or.inr (Or.inr hrg)

/-- An instance of C31 on the diamond graph (`x = 3`, `y1 = x + 1`,
`y2 = x + 2`, `z = y1 + y2`): the store is built, and after `z.Backward()`
the output `z` holds the gradient `[1]`. -/
theorem leaf_flag_never_clears_witness :
    Built diamond_store ∧
    Tensor.Backward ⟨5, [1]⟩ 3 false diamond_store = .ok diamond_final_store ∧
    ∃ t1, diamond_final_store.deref 5 = .ok t1 ∧ t1.grad_ = List.replicate 1 1 :=
  ⟨diamond_built, diamond_backward.2,
    (leaf_flag_never_clears diamond_store ⟨0, [1]⟩ ⟨1, [1]⟩ ⟨5, [1]⟩ 3).2.2.2.2.2
      diamond_built ⟨[9], [], [], [3, 4], some (.AddManyOne 3 4), true, true⟩
      diamond_final_store (by simp [diamond_store, World.deref]) diamond_backward.2⟩

/-! ## A backward rule runs at most once -/

/-- A visit of a node that has no backward rule and no parents runs no rule
and visits no node: it returns the store, with the gradient buffer of the node
cleared when the node requires gradients and is not leaf-flagged. -/
theorem Backward_severed (k : Nat) (n : SharedTensor) (w : World) (t : InternalTensor)
    (ht : w.deref n = .ok t) (hp : t.parents_ = []) (ho : t.backward_op_ = none) :
    InternalTensor.Backward (k + 1) false n w =
      .ok (if t.requires_grad_ = true ∧ t.is_leaf_ = false
        then w.store n { t with grad_ := [] } else w) := by
  have hlt := deref_lt w n t ht
  obtain ⟨d, g, s, ps, op, leaf, rg⟩ := t
  simp only at hp ho
  subst hp ho
  rw [InternalTensor.Backward]
  simp only [ht, ok_bind]
  cases rg <;> cases leaf <;>
    simp [deref_store, hlt, store_store, ht, store_self w n _ ht]

/-- C32 (each backward rule runs at most once when the graph is not retained).
Let a visit of a node `n` that requires gradients return the store `w1`.  Then
`n` is severed in `w1` (no backward rule, no parents).  Every later step of a
traversal (a backward rule, a visit of any node) leads from a store in which
each node has kept or lost its links to another such store, `Shrinks w1 w2`.
In every such store `w2` the node `n` is still severed, and a later visit of
`n`, with any recursion budget, returns `w2` itself when `n` is leaf-flagged
and `w2` with the gradient buffer of `n` emptied otherwise: no rule is
executed and no parent is visited.  In particular the gradient that a later
consumer adds to `n` is not forwarded: after it the visit of `n` leaves every
other node of the store as it was. -/
theorem rule_runs_once (fuel : Nat) (n : SharedTensor) (w w1 : World) (t : InternalTensor)
    (ht : w.deref n = .ok t) (hrg : t.requires_grad_ = true)
    (h : InternalTensor.Backward fuel false n w = .ok w1) :
    Severed w1 n ∧
    (∀ (op : BackwardOp) (res : SharedTensor) (w2 w3 : World), Shrinks w1 w2 →
      op.run res w2 = .ok w3 → Shrinks w1 w3) ∧
    (∀ (fuel2 : Nat) (m : SharedTensor) (w2 w3 : World), Shrinks w1 w2 →
      InternalTensor.Backward fuel2 false m w2 = .ok w3 → Shrinks w1 w3) ∧
    (∀ w2, Shrinks w1 w2 → ∃ t2, w2.deref n = .ok t2 ∧ t2.requires_grad_ = true ∧
      t2.parents_ = [] ∧ t2.backward_op_ = none ∧
      ∀ k, InternalTensor.Backward (k + 1) false n w2 =
        .ok (if t2.is_leaf_ = false then w2.store n { t2 with grad_ := [] } else w2)) ∧
    (∀ (w2 w3 : World) (c : World → Except Err (List ℚ)), Shrinks w1 w2 →
      pushGrad n c w2 = .ok w3 →
      ∀ k, ∃ w4, InternalTensor.Backward (k + 1) false n w3 = .ok w4 ∧
        ∀ q, q ≠ n → w4.deref q = w3.deref q) := by
  have hsev : Severed w1 n := (Backward_sever fuel n w w1 h).2 n (Visits.self n t ht hrg)
  have hreq : ∃ t1, w1.deref n = .ok t1 ∧ t1.requires_grad_ = true := by
    obtain ⟨t1, ht1, hr1, -⟩ := Backward_Shrinks fuel false n w w1 h n t ht
    exact ⟨t1, ht1, by rw [hr1, hrg]⟩
  have later : ∀ w2, Shrinks w1 w2 → ∃ t2, w2.deref n = .ok t2 ∧ t2.requires_grad_ = true ∧
      t2.parents_ = [] ∧ t2.backward_op_ = none ∧
      ∀ k, InternalTensor.Backward (k + 1) false n w2 =
        .ok (if t2.is_leaf_ = false then w2.store n { t2 with grad_ := [] } else w2) := by
    intro w2 hs
    obtain ⟨t2, ht2, hp2, ho2⟩ := Severed_mono w1 w2 hs n hsev
    obtain ⟨t1, ht1, hr1⟩ := hreq
    obtain ⟨t2b, ht2b, hr2, -⟩ := hs n t1 ht1
    rw [ht2] at ht2b
    simp only [Except.ok.injEq] at ht2b
    subst ht2b
    refine ⟨t2, ht2, by rw [hr2, hr1], hp2, ho2, ?_⟩
    intro k
    rw [Backward_severed k n w2 t2 ht2 hp2 ho2]
    simp [hr2, hr1]
  refine ⟨hsev, ?_, ?_, later, ?_⟩
  · intro op res w2 w3 hs hrun
    exact Shrinks_trans _ _ _ hs (SameButGrad_Shrinks _ _ (run_SameButGrad op res w2 w3 hrun))
  · intro fuel2 m w2 w3 hs hb
    exact Shrinks_trans _ _ _ hs (Backward_Shrinks fuel2 false m w2 w3 hb)
  · intro w2 w3 c hs hpush k
    have hs3 : Shrinks w1 w3 :=
      Shrinks_trans _ _ _ hs (SameButGrad_Shrinks _ _ (pushGrad_SameButGrad n c w2 w3 hpush))
    obtain ⟨t3, ht3, -, -, -, hb⟩ := later w3 hs3
    refine ⟨_, hb k, ?_⟩
    intro q hq
    split
    · rw [deref_store]
      simp [hq]
    · rfl

set_option maxHeartbeats 1000000 in
/-- An instance of C32: the first visit of the shared node `y = x + x` leaves
`[2]` on `x` and severs `y`; after the second consumer has added `[1]` to `y`
the next visit of `y` returns the store unchanged, so `x` keeps `[2]`. -/
theorem rule_runs_once_witness :
    InternalTensor.Backward 2 false 1 revisit_store = .ok revisit_first_store ∧
    Severed revisit_first_store 1 ∧
    pushGrad 1 (fun _ => .ok [1]) revisit_first_store = .ok revisit_later_store ∧
    InternalTensor.Backward 1 false 1 revisit_later_store = .ok revisit_later_store := by
  have h1 : InternalTensor.Backward 2 false 1 revisit_store = .ok revisit_first_store := by
    simp [revisit_store, revisit_first_store,
      World.deref.eq_1 ⟨_, _⟩, World.store.eq_1 ⟨_, _⟩,
      InternalTensor.Backward.eq_2 _ _ ⟨_, _⟩, BackwardOp.run.eq_1 _ ⟨_, _⟩,
      pushGrad.eq_1 _ _ ⟨_, _⟩, InternalTensor.RequiresGrad, InternalTensor.Size,
      InternalTensor.UpdateGradVec, forEachIndex, accumulate, List.range_succ]
    norm_num
  have h2 : pushGrad 1 (fun _ => .ok [1]) revisit_first_store = .ok revisit_later_store := by
    simp [revisit_first_store, revisit_later_store,
      World.deref.eq_1 ⟨_, _⟩, World.store.eq_1 ⟨_, _⟩,
      pushGrad.eq_1 _ _ ⟨_, _⟩, InternalTensor.RequiresGrad,
      InternalTensor.UpdateGradVec, forEachIndex, List.range_succ]
    norm_num
  have hs := rule_runs_once 2 1 revisit_store revisit_first_store
    ⟨[6], [1], [], [0, 0], some (.AddManyOne 0 0), true, true⟩ (by simp [revisit_store, World.deref])
    rfl h1
  refine ⟨h1, hs.1, h2, ?_⟩
  obtain ⟨t2, ht2, -, -, -, hb⟩ := hs.2.2.2.1 revisit_later_store
    (SameButGrad_Shrinks _ _ (pushGrad_SameButGrad _ _ _ _ h2))
  have e : t2 = ⟨[6], [2], [], [], none, true, true⟩ := by
    simp [revisit_later_store, World.deref] at ht2
    exact ht2.symm
  subst e
  simpa using hb 0

/-! ## Retained and released traversals -/

@[simp] theorem released_data (t : InternalTensor) : t.released.data_ = t.data_ := rfl
@[simp] theorem released_grad (t : InternalTensor) : t.released.grad_ = t.grad_ := rfl
@[simp] theorem released_shape (t : InternalTensor) : t.released.shape_ = t.shape_ := rfl
@[simp] theorem released_leaf (t : InternalTensor) : t.released.is_leaf_ = t.is_leaf_ := rfl
@[simp] theorem released_requires (t : InternalTensor) :
    t.released.requires_grad_ = t.requires_grad_ := rfl

theorem ite_released_data (c : Bool) (t : InternalTensor) :
    (if c then t.released else t).data_ = t.data_ := by cases c <;> rfl

theorem ite_released_grad (c : Bool) (t : InternalTensor) :
    (if c then t.released else t).grad_ = t.grad_ := by cases c <;> rfl

theorem ite_released_shape (c : Bool) (t : InternalTensor) :
    (if c then t.released else t).shape_ = t.shape_ := by cases c <;> rfl

theorem ite_released_leaf (c : Bool) (t : InternalTensor) :
    (if c then t.released else t).is_leaf_ = t.is_leaf_ := by cases c <;> rfl

theorem ite_released_requires (c : Bool) (t : InternalTensor) :
    (if c then t.released else t).requires_grad_ = t.requires_grad_ := by cases c <;> rfl

theorem ite_released_Size (c : Bool) (t : InternalTensor) :
    (if c then t.released else t).Size = t.Size := by cases c <;> rfl

theorem deref_releaseSet (F : SharedTensor → Bool) (w : World) (q : SharedTensor) :
    (w.releaseSet F).deref q =
      (w.deref q >>= fun t => pure (if F q then t.released else t)) := by
  unfold World.releaseSet World.deref
  simp only [List.getElem?_mapIdx]
  cases w.nodes[q]? <;> rfl

theorem store_releaseSet (F : SharedTensor → Bool) (w : World) (p : SharedTensor)
    (t : InternalTensor) :
    (w.releaseSet F).store p (if F p then t.released else t) = (w.store p t).releaseSet F := by
  unfold World.releaseSet World.store
  simp only [List.mapIdx_set]

theorem UpdateGradVec_released (c : Bool) (t : InternalTensor) (g : List ℚ) :
    (if c then t.released else t).UpdateGradVec g =
      (t.UpdateGradVec g >>= fun t1 => pure (if c then t1.released else t1)) := by
  cases c
  · simp only [Bool.false_eq_true, if_false]
    cases t.UpdateGradVec g <;> rfl
  · simp only [if_true]
    unfold InternalTensor.UpdateGradVec
    simp only [released_grad]
    split
    · rfl
    · cases forEachIndex t.grad_.length (fun i => do
        let old ← rd t.grad_ i
        let inc ← rd g i
        pure (old + inc)) <;> rfl

/-- A gradient update commutes with releasing nodes when its contribution
does not read links. -/
theorem pushGrad_releaseSet (F : SharedTensor → Bool) (p : SharedTensor)
    (c : World → Except Err (List ℚ)) (hc : ∀ w, c (w.releaseSet F) = c w) (w : World) :
    pushGrad p c (w.releaseSet F) = (pushGrad p c w >>= fun w1 => pure (w1.releaseSet F)) := by
  unfold pushGrad
  rw [deref_releaseSet]
  cases ht : w.deref p with
  | error e => rfl
  | ok t =>
    simp only [ok_bind, pure_eq_ok, InternalTensor.RequiresGrad, ite_released_requires]
    have hu : (w.releaseSet F).use_grad_ = w.use_grad_ := rfl
    rw [hu, hc]
    split
    · cases hg : c w with
      | error e => rfl
      | ok g =>
        simp only [ok_bind]
        rw [UpdateGradVec_released]
        cases hup : t.UpdateGradVec g with
        | error e => rfl
        | ok t1 =>
          simp only [ok_bind, pure_eq_ok]
          rw [store_releaseSet]
    · rfl

theorem pair_releaseSet (F : SharedTensor → Bool) (a b : SharedTensor)
    (ca cb : World → Except Err (List ℚ)) (ha : ∀ w, ca (w.releaseSet F) = ca w)
    (hb : ∀ w, cb (w.releaseSet F) = cb w) (w : World) :
    (pushGrad a ca (w.releaseSet F) >>= fun w1 => pushGrad b cb w1) =
      ((pushGrad a ca w >>= fun w1 => pushGrad b cb w1) >>= fun w2 =>
        pure (w2.releaseSet F)) := by
  rw [pushGrad_releaseSet F a ca ha]
  cases pushGrad a ca w with
  | error e => rfl
  | ok w1 =>
    simp only [ok_bind, pure_eq_ok]
    exact pushGrad_releaseSet F b cb hb w1

/-- A backward rule commutes with releasing nodes: it reads data, shapes and
gradient buffers only. -/
theorem run_releaseSet (F : SharedTensor → Bool) (op : BackwardOp) (res : SharedTensor)
    (w : World) :
    op.run res (w.releaseSet F) = (op.run res w >>= fun w1 => pure (w1.releaseSet F)) := by
  cases op with
  | AddManyOne a b =>
    simp only [BackwardOp.run]
    apply pair_releaseSet <;>
    · intro w
      simp only [deref_releaseSet, bind_assoc, pure_bind, ite_released_grad, ite_released_data,
        ite_released_Size, ite_released_shape]
  | AddManyMany a b =>
    simp only [BackwardOp.run]
    apply pair_releaseSet <;>
    · intro w
      simp only [deref_releaseSet, bind_assoc, pure_bind, ite_released_grad, ite_released_data,
        ite_released_Size, ite_released_shape]
  | AddBias a b =>
    simp only [BackwardOp.run]
    apply pair_releaseSet <;>
    · intro w
      simp only [deref_releaseSet, bind_assoc, pure_bind, ite_released_grad, ite_released_data,
        ite_released_Size, ite_released_shape]
  | MultiplyManyOne a b =>
    simp only [BackwardOp.run]
    apply pair_releaseSet <;>
    · intro w
      simp only [deref_releaseSet, bind_assoc, pure_bind, ite_released_grad, ite_released_data,
        ite_released_Size, ite_released_shape]
  | MultiplyManyMany a b =>
    simp only [BackwardOp.run]
    apply pair_releaseSet <;>
    · intro w
      simp only [deref_releaseSet, bind_assoc, pure_bind, ite_released_grad, ite_released_data,
        ite_released_Size, ite_released_shape]
  | Matmul a b =>
    simp only [BackwardOp.run, deref_releaseSet]
    cases w.deref a with
    | error e => rfl
    | ok ta =>
      simp only [ok_bind, pure_eq_ok, ite_released_shape]
      cases w.deref b with
      | error e => rfl
      | ok tb =>
        simp only [ok_bind, ite_released_shape]
        cases rdNat ta.shape_ 0 with
        | error e => rfl
        | ok kN =>
          simp only [ok_bind]
          cases rdNat ta.shape_ 1 with
          | error e => rfl
          | ok kM =>
            simp only [ok_bind]
            cases rdNat tb.shape_ 1 with
            | error e => rfl
            | ok kP =>
              simp only [ok_bind]
              apply pair_releaseSet <;>
              · intro w
                simp only [deref_releaseSet, bind_assoc, pure_bind, ite_released_grad,
                  ite_released_data, ite_released_Size, ite_released_shape]
  | Pow a e d =>
    simp only [BackwardOp.run]
    apply pushGrad_releaseSet
    intro w
    simp only [deref_releaseSet, bind_assoc, pure_bind, ite_released_grad, ite_released_data,
      ite_released_Size, ite_released_shape]
  | Sum a d =>
    simp only [BackwardOp.run]
    apply pushGrad_releaseSet
    intro w
    simp only [deref_releaseSet, bind_assoc, pure_bind, ite_released_grad, ite_released_data,
      ite_released_Size, ite_released_shape]
  | Relu a l =>
    simp only [BackwardOp.run]
    apply pushGrad_releaseSet
    intro w
    simp only [deref_releaseSet, bind_assoc, pure_bind, ite_released_grad, ite_released_data,
      ite_released_Size, ite_released_shape]

theorem deref_error_of_length (w w1 : World) (hlen : w1.nodes.length = w.nodes.length)
    (q : SharedTensor) (e : Err) (h : w.deref q = .error e) :
    w1.deref q = .error .nullPointer := by
  have hge : w.nodes.length ≤ q := by
    by_contra hlt
    rw [deref_of_lt w q (Nat.lt_of_not_le hlt)] at h
    exact Except.noConfusion h
  unfold World.deref
  rw [List.getElem?_eq_none (by rw [hlen]; exact hge)]

/-- The visit order only depends on the links and the requires_grad flags. -/
theorem visitSequence_congr (w w1 : World) (hlen : w1.nodes.length = w.nodes.length)
    (hs : SameButGrad w w1) (fuel : Nat) :
    ∀ p, visitSequence fuel p w1 = visitSequence fuel p w := by
  induction fuel with
  | zero =>
    intro p
    rfl
  | succ fuel ih =>
    intro p
    unfold visitSequence
    cases h : w.deref p with
    | error e =>
      rw [deref_error_of_length w w1 hlen p e h]
    | ok t =>
      obtain ⟨t1, ht1, e1⟩ := hs p t h
      rw [ht1]
      simp only
      rw [e1]
      simp only [ih]

theorem linked_congr (w w1 : World) (hlen : w1.nodes.length = w.nodes.length)
    (hs : SameButGrad w w1) (q : SharedTensor) : linked w1 q = linked w q := by
  unfold linked
  cases h : w.deref q with
  | error e =>
    rw [deref_error_of_length w w1 hlen q e h]
  | ok t =>
    obtain ⟨t1, ht1, e1⟩ := hs q t h
    rw [ht1]
    simp only
    rw [e1]

theorem store_released (F : SharedTensor → Bool) (w : World) (p : SharedTensor)
    (t : InternalTensor) (ht : w.deref p = .ok t) :
    (w.releaseSet F).store p t.released =
      w.releaseSet (fun q => F q || decide (q = p)) := by
  have hlt := deref_lt w p t ht
  have hget : w.nodes[p]? = some t := by
    unfold World.deref at ht
    cases hq : w.nodes[p]? with
    | none => simp [hq] at ht
    | some u =>
      simp only [hq, Except.ok.injEq] at ht
      rw [ht]
  unfold World.releaseSet World.store
  simp only [World.mk.injEq, and_true]
  apply List.ext_getElem?
  intro i
  rw [List.getElem?_set]
  simp only [List.getElem?_mapIdx, List.length_mapIdx]
  by_cases hip : p = i
  · subst hip
    simp [hlt, hget]
  · have hne : ¬ i = p := fun e => hip e.symm
    simp [hip, hne]

theorem released_of_unlinked (t : InternalTensor) (h1 : t.backward_op_ = none)
    (h2 : t.parents_ = []) : t.released = t := by
  cases t
  simp only at h1 h2
  subst h1 h2
  rfl

theorem fold_sim (fuel : Nat)
    (ih : ∀ (self : SharedTensor) (a : World) (F : SharedTensor → Bool), LeafInv a →
      (∀ q ∈ visitSequence fuel self a, linked a q = true → F q = false) →
      ((visitSequence fuel self a).filter (linked a)).Nodup →
      InternalTensor.Backward fuel false self (a.releaseSet F) =
        (InternalTensor.Backward fuel true self a >>= fun a1 =>
          pure (a1.releaseSet (fun q => F q || decide (q ∈ visitSequence fuel self a)))))
    (l : List SharedTensor) :
    ∀ (a : World) (F : SharedTensor → Bool), LeafInv a →
      (∀ q ∈ l.flatMap (fun p => visitSequence fuel p a), linked a q = true → F q = false) →
      ((l.flatMap (fun p => visitSequence fuel p a)).filter (linked a)).Nodup →
      l.foldlM (fun acc p => InternalTensor.Backward fuel false p acc) (a.releaseSet F) =
        (l.foldlM (fun acc p => InternalTensor.Backward fuel true p acc) a >>= fun a1 =>
          pure (a1.releaseSet
            (fun q => F q || decide (q ∈ l.flatMap (fun p => visitSequence fuel p a))))) := by
  induction l with
  | nil =>
    intro a F _ _ _
    simp only [List.foldlM_nil, pure_eq_ok, ok_bind, List.flatMap_nil, List.not_mem_nil,
      decide_False, Bool.or_false]
  | cons p l ihl =>
    intro a F hl hF hnd
    simp only [List.flatMap_cons, List.filter_append] at hF hnd
    rw [List.nodup_append] at hnd
    obtain ⟨hnd1, hnd2, hdis⟩ := hnd
    simp only [List.foldlM_cons, List.flatMap_cons]
    rw [ih p a F hl (fun q hq => hF q (List.mem_append_left _ hq)) hnd1]
    cases hb : InternalTensor.Backward fuel true p a with
    | error e => rfl
    | ok a1 =>
      simp only [ok_bind, pure_eq_ok]
      have hk := Backward_FlagsKept fuel true p a a1 hb
      have hs := Backward_retain_SameButGrad fuel p a a1 hb
      have hvs : (fun p => visitSequence fuel p a1) = (fun p => visitSequence fuel p a) :=
        funext (visitSequence_congr a a1 hk.1 hs fuel)
      have hlk : linked a1 = linked a := funext (linked_congr a a1 hk.1 hs)
      have hrec := ihl a1 (fun q => F q || decide (q ∈ visitSequence fuel p a))
        (FlagsKept_LeafInv _ _ hk hl)
        (by
          rw [hvs, hlk]
          intro q hq hlq
          have h1 := hF q (List.mem_append_right _ hq) hlq
          have h2 : q ∉ visitSequence fuel p a := by
            intro hmem
            exact hdis (List.mem_filter.mpr ⟨hmem, hlq⟩) (List.mem_filter.mpr ⟨hq, hlq⟩)
          simp [h1, h2])
        (by
          rw [hvs, hlk]
          exact hnd2)
      rw [hrec, hvs]
      have hfun : (fun q => (F q || decide (q ∈ visitSequence fuel p a)) ||
            decide (q ∈ l.flatMap (fun p => visitSequence fuel p a))) =
          (fun q => F q || decide (q ∈ visitSequence fuel p a ++
            l.flatMap (fun p => visitSequence fuel p a))) := by
        funext q
        simp [Bool.or_assoc]
      rw [hfun]
      rfl

/-- A retained traversal and a traversal that does not retain the graph run
in lockstep as long as no linked node is visited twice: the second one works
on the store of the first with the visited nodes released. -/
theorem Backward_sim (fuel : Nat) :
    ∀ (self : SharedTensor) (a : World) (F : SharedTensor → Bool), LeafInv a →
      (∀ q ∈ visitSequence fuel self a, linked a q = true → F q = false) →
      ((visitSequence fuel self a).filter (linked a)).Nodup →
      InternalTensor.Backward fuel false self (a.releaseSet F) =
        (InternalTensor.Backward fuel true self a >>= fun a1 =>
          pure (a1.releaseSet (fun q => F q || decide (q ∈ visitSequence fuel self a)))) := by
  induction fuel with
  | zero =>
    intro self a F _ _ _
    rfl
  | succ fuel ih =>
    intro self a F hl hF hnd
    rw [InternalTensor.Backward, InternalTensor.Backward, deref_releaseSet]
    cases ht : a.deref self with
    | error e => rfl
    | ok t =>
      simp only [ok_bind, pure_eq_ok]
      have hvs : visitSequence (fuel + 1) self a = if t.requires_grad_ = true
          then self :: t.parents_.flatMap (fun p => visitSequence fuel p a) else [] := by
        rw [visitSequence]
        simp only [ht]
      cases hrg : t.requires_grad_ with
      | false =>
        rw [hvs]
        simp [hrg, ite_released_requires]
      | true =>
        rw [hvs] at hF hnd ⊢
        simp only [hrg, if_true] at hF hnd ⊢
        have hsame : ∀ u : InternalTensor, u.parents_ = t.parents_ →
            u.backward_op_ = t.backward_op_ →
            (if F self = true then u.released else u) = u := by
          intro u hu1 hu2
          by_cases hlink : linked a self = true
          · rw [hF self (List.mem_cons_self _ _) hlink]
            simp
          · have hun : u.released = u := by
              unfold linked at hlink
              rw [ht] at hlink
              simp only [Bool.or_eq_true, Option.isSome_iff_ne_none, ne_eq, Bool.not_eq_true',
                List.isEmpty_eq_false, not_or, not_not] at hlink
              exact released_of_unlinked u (by rw [hu2]; exact hlink.1)
                (by rw [hu1]; simpa using hlink.2)
            rw [hun]
            simp
        have tail : ∀ a2 : World, FlagsKept a a2 → SameButGrad a a2 →
            (do
              let t ← (World.releaseSet F a2).deref self
              let w ←
                List.foldlM (fun acc p => InternalTensor.Backward fuel false p acc)
                  (if (!t.is_leaf_ && !false) = true then
                    (World.releaseSet F a2).store self { t with grad_ := [] }
                  else World.releaseSet F a2)
                  t.parents_
              let t ← w.deref self
              Except.ok
                (if (!false) = true then
                  w.store self { t with backward_op_ := none, parents_ := [] }
                else w)) =
            (do
              let a1 ←
                (do
                  let t ← a2.deref self
                  let w ←
                    List.foldlM (fun acc p => InternalTensor.Backward fuel true p acc)
                      (if (!t.is_leaf_ && false) = true then
                        a2.store self { t with grad_ := [] }
                      else a2)
                      t.parents_
                  let _ ← w.deref self
                  Except.ok w)
              Except.ok
                (World.releaseSet
                  (fun q => F q || decide (q ∈ self :: t.parents_.flatMap
                    fun p => visitSequence fuel p a)) a1) : Except Err World) := by
          intro a2 hk2 hs2
          obtain ⟨t2, ht2, e2⟩ := hs2 self t ht
          have hpar : t2.parents_ = t.parents_ := by rw [e2]
          have hop2 : t2.backward_op_ = t.backward_op_ := by rw [e2]
          have hl2 : LeafInv a2 := FlagsKept_LeafInv _ _ hk2 hl
          have hleaf : t2.is_leaf_ = true := hl2 self t2 ht2 (by rw [e2]; exact hrg)
          have hvs2 : (fun p => visitSequence fuel p a2) = (fun p => visitSequence fuel p a) :=
            funext (visitSequence_congr a a2 hk2.1 hs2 fuel)
          have hlk2 : linked a2 = linked a := funext (linked_congr a a2 hk2.1 hs2)
          rw [List.filter_cons] at hnd
          have hnd3 : ((t.parents_.flatMap fun p => visitSequence fuel p a).filter
              (linked a)).Nodup := by
            split at hnd
            · exact (List.nodup_cons.mp hnd).2
            · exact hnd
          have hfold := fold_sim fuel ih t.parents_ a2 F hl2
            (by
              rw [hvs2, hlk2]
              intro q hq hlq
              exact hF q (List.mem_cons_of_mem _ hq) hlq)
            (by
              rw [hvs2, hlk2]
              exact hnd3)
          rw [hvs2] at hfold
          rw [deref_releaseSet, ht2]
          simp only [ok_bind, pure_eq_ok, hsame t2 hpar hop2, hleaf, Bool.not_true, Bool.false_and,
            Bool.false_eq_true, if_false, Bool.not_false, if_true, hpar]
          rw [hfold]
          cases hf : List.foldlM (fun acc p => InternalTensor.Backward fuel true p acc) a2
              t.parents_ with
          | error e => rfl
          | ok a4 =>
            simp only [ok_bind, pure_eq_ok]
            rw [deref_releaseSet]
            cases ht4 : a4.deref self with
            | error e => rfl
            | ok t4 =>
              simp only [ok_bind, pure_eq_ok, Except.ok.injEq]
              have hrel : ∀ c : Bool, ({ (if c = true then t4.released else t4) with
                  backward_op_ := none, parents_ := [] } : InternalTensor) = t4.released := by
                intro c
                cases c <;> rfl
              rw [hrel, store_released _ a4 self t4 ht4]
              congr 1
              funext q
              simp only [List.mem_cons, Bool.decide_or, Bool.or_assoc]
              cases F q <;> cases decide (q = self) <;> simp
        rw [hsame t rfl rfl]
        simp only [hrg, Bool.not_true, Bool.false_eq_true, if_false]
        cases hop : t.backward_op_ with
        | none =>
          simp only [pure_eq_ok, ok_bind]
          exact tail a (FlagsKept_refl a) (SameButGrad_refl a)
        | some op =>
          simp only []
          rw [run_releaseSet]
          cases hrun : op.run self a with
          | error e => rfl
          | ok a2 =>
            simp only [ok_bind, pure_eq_ok]
            exact tail a2 (run_FlagsKept op self a a2 hrun) (run_SameButGrad op self a a2 hrun)

theorem releaseSet_none (w : World) : w.releaseSet (fun _ => false) = w := by
  unfold World.releaseSet
  cases w with
  | mk nodes flag =>
    simp only [World.mk.injEq, and_true]
    apply List.ext_getElem?
    intro i
    rw [List.getElem?_mapIdx]
    cases nodes[i]? <;> simp

theorem Grad_releaseSet (F : SharedTensor → Bool) (x : Tensor) (w : World) :
    x.Grad (w.releaseSet F) = x.Grad w := by
  unfold Tensor.Grad
  rw [deref_releaseSet]
  cases w.deref x.tensor_ with
  | error e => rfl
  | ok t =>
    simp only [ok_bind, pure_eq_ok, ite_released_grad]

set_option maxHeartbeats 1000000 in
/-- The backward pass on `a = x + x`, `b = a + a` in both modes, for every
value of the leaf. -/
theorem reference_gradients (v : ℚ) (k : Nat) :
    backwardGrad (reference_graph v) (k + 3) false = .ok [4] ∧
    backwardGrad (reference_graph v) (k + 3) true = .ok [8] := by
  constructor <;>
  · simp [backwardGrad, reference_graph, World.init, CalculateStrides, stridePushes,
      Tensor.fromValue.eq_1 _ _ ⟨_, _⟩, Tensor.add.eq_1 _ _ ⟨_, _⟩, Tensor.Size.eq_1 _ ⟨_, _⟩,
      Tensor.NumDimensions.eq_1 _ ⟨_, _⟩, wrap, Tensor.fromShared.eq_1 _ ⟨_, _⟩,
      AddManyOneInternal.eq_1 _ _ ⟨_, _⟩, ApplyOperation.eq_1 _ _ _ _ ⟨_, _⟩, InternalTensor.new,
      Tensor.Backward.eq_1 _ _ _ ⟨_, _⟩, Tensor.Grad.eq_1 _ ⟨_, _⟩,
      World.deref.eq_1 ⟨_, _⟩, World.store.eq_1 ⟨_, _⟩, World.alloc.eq_1 ⟨_, _⟩,
      InternalTensor.SetGrad, InternalTensor.SetGradVec, InternalTensor.Size,
      InternalTensor.Backward.eq_2 _ _ ⟨_, _⟩, BackwardOp.run.eq_1 _ ⟨_, _⟩,
      pushGrad.eq_1 _ _ ⟨_, _⟩, InternalTensor.RequiresGrad,
      InternalTensor.UpdateGradVec, forEachIndex, accumulate, List.range_succ]
    norm_num

set_option maxHeartbeats 1000000 in
/-- C33 (retaining the graph does not change the computed gradients), as the
code runs it: the property fails.  On the graph of
test_reference_counting_behavior (`x = Tensor(2.0, true)`, `a = x + x`,
`b = a + a`) a single `b.Backward()` leaves `[4]` on `x`, the value the test
expects, and a single `b.Backward(true)` on the same graph leaves `[8]`: the
node `a` is visited once per parent entry of `b`, and the retained pass runs
its rule both times on the whole gradient `[2]` of `a`.  The visit order from
`b` lists the linked node `a` twice.  The same holds for every value of the
leaf and every recursion budget of at least three. -/
theorem retain_changes_gradients :
    reference_graph 2 = .ok (⟨0, [1]⟩, ⟨2, [1]⟩, reference_store) ∧
    backwardGrad (reference_graph 2) 3 false = .ok [4] ∧
    backwardGrad (reference_graph 2) 3 true = .ok [8] ∧
    visitSequence 3 2 reference_store = [2, 1, 0, 0, 1, 0, 0] ∧
    (visitSequence 3 2 reference_store).filter (linked reference_store) = [2, 1, 1] ∧
    ∀ (v : ℚ) (k : Nat), backwardGrad (reference_graph v) (k + 3) false = .ok [4] ∧
      backwardGrad (reference_graph v) (k + 3) true = .ok [8] := by
  refine ⟨?_, (reference_gradients 2 0).1, (reference_gradients 2 0).2, ?_, ?_,
    reference_gradients⟩
  · simp [reference_store, reference_graph, World.init, CalculateStrides, stridePushes,
      Tensor.fromValue.eq_1 _ _ ⟨_, _⟩, Tensor.add.eq_1 _ _ ⟨_, _⟩, Tensor.Size.eq_1 _ ⟨_, _⟩,
      Tensor.NumDimensions.eq_1 _ ⟨_, _⟩, wrap, Tensor.fromShared.eq_1 _ ⟨_, _⟩,
      AddManyOneInternal.eq_1 _ _ ⟨_, _⟩, ApplyOperation.eq_1 _ _ _ _ ⟨_, _⟩, InternalTensor.new,
      World.deref.eq_1 ⟨_, _⟩, World.store.eq_1 ⟨_, _⟩, World.alloc.eq_1 ⟨_, _⟩]
    norm_num
  · simp [visitSequence, reference_store, World.deref]
  · simp [visitSequence, linked, reference_store, World.deref]

/-- Where the two modes agree.  On a built store, let no node that has a
backward rule or parents occur twice in the visit order from `z`.  Then
`z.Backward(false)` returns exactly when `z.Backward(true)` does, with the
store of the retained pass in which the visited nodes are released; in
particular every handle reads the same gradient after either call. -/
theorem retained_gradients_agree (w : World) (z : Tensor) (fuel : Nat) (hb : Built w)
    (hnd : ((visitSequence fuel z.tensor_ w).filter (linked w)).Nodup) :
    z.Backward fuel false w = (z.Backward fuel true w >>= fun w1 =>
      pure (w1.releaseSet (fun q => decide (q ∈ visitSequence fuel z.tensor_ w)))) ∧
    ∀ w1, z.Backward fuel true w = .ok w1 →
      ∃ w2, z.Backward fuel false w = .ok w2 ∧ ∀ x : Tensor, x.Grad w2 = x.Grad w1 := by
  have main : z.Backward fuel false w = (z.Backward fuel true w >>= fun w1 =>
      pure (w1.releaseSet (fun q => decide (q ∈ visitSequence fuel z.tensor_ w)))) := by
    unfold Tensor.Backward
    cases ht : w.deref z.tensor_ with
    | error e => rfl
    | ok t =>
      simp only [ok_bind]
      have hk := FlagsKept_store w z.tensor_ t (t.SetGrad 1) ht rfl rfl (Or.inl ⟨rfl, rfl⟩)
      have hs : SameButGrad w (w.store z.tensor_ (t.SetGrad 1)) :=
        SameButGrad_store w z.tensor_ t _ ht
      have hvs := visitSequence_congr w _ hk.1 hs fuel z.tensor_
      have hlk : linked (w.store z.tensor_ (t.SetGrad 1)) = linked w :=
        funext (linked_congr w _ hk.1 hs)
      have hsim := Backward_sim fuel z.tensor_ (w.store z.tensor_ (t.SetGrad 1))
        (fun _ => false) (FlagsKept_LeafInv _ _ hk (Built_inv w hb).1)
        (fun _ _ _ => rfl) (by rw [hvs, hlk]; exact hnd)
      rw [releaseSet_none, hvs] at hsim
      rw [hsim]
      simp only [Bool.false_or]
  refine ⟨main, ?_⟩
  intro w1 h1
  rw [h1] at main
  exact ⟨_, main, fun x => Grad_releaseSet _ x w1⟩

/-- The two modes agree on the diamond graph, whose leaf `x` is reached twice
but has no links: both leave the same gradients. -/
theorem retained_gradients_agree_witness :
    Built diamond_store ∧
    ((visitSequence 3 5 diamond_store).filter (linked diamond_store)).Nodup ∧
    Tensor.Backward ⟨5, [1]⟩ 3 true diamond_store = .ok diamond_retained_store ∧
    ∃ w2, Tensor.Backward ⟨5, [1]⟩ 3 false diamond_store = .ok w2 ∧
      ∀ x : Tensor, x.Grad w2 = x.Grad diamond_retained_store := by
  have hnd : ((visitSequence 3 5 diamond_store).filter (linked diamond_store)).Nodup := by
    simp [visitSequence, linked, diamond_store, World.deref]
  exact ⟨diamond_built, hnd, diamond_backward_retained,
    (retained_gradients_agree diamond_store ⟨5, [1]⟩ 3 diamond_built hnd).2
      diamond_retained_store diamond_backward_retained⟩

/-! ## A backward pass returns on a well-formed store -/

theorem zipWith_add_length (a b : List ℚ) (h : a.length ≤ b.length) :
    (List.zipWith (fun x y => x + y) a b).length = a.length := by
  rw [List.length_zipWith]
  exact Nat.min_eq_left h

/-- A gradient update returns when its contribution does and has the length
of the target's data; afterwards the buffers are still sized and the target,
if it was updated, is full. -/
theorem pushGrad_total (p : SharedTensor) (c : World → Except Err (List ℚ)) (w : World)
    (tp : InternalTensor) (hp : w.deref p = .ok tp) (hs : GradSized w)
    (hc : tp.RequiresGrad w = true → ∃ C, c w = .ok C ∧ C.length = tp.data_.length) :
    ∃ w1, pushGrad p c w = .ok w1 ∧ GradSized w1 ∧
      (tp.RequiresGrad w = true → FullGrad w1 p) ∧
      (∀ q, FullGrad w q → FullGrad w1 q) := by
  have hlt := deref_lt w p tp hp
  by_cases hr : tp.RequiresGrad w = true
  · obtain ⟨C, hC, hlen⟩ := hc hr
    have hle : tp.grad_.length ≤ C.length := by
      rcases hs p tp hp with h | h
      · rw [h]
        exact Nat.zero_le _
      · rw [h, hlen]
    obtain ⟨G, hG⟩ : ∃ G : List ℚ, G = (if tp.grad_.isEmpty = true then C
        else List.zipWith (fun x y => x + y) tp.grad_ C) := ⟨_, rfl⟩
    have hfull : G.length = tp.data_.length := by
      rw [hG]
      split
      · exact hlen
      · next hne =>
        rw [zipWith_add_length _ _ hle]
        rcases hs p tp hp with h | h
        · rw [h] at hne
          simp at hne
        · exact h
    have hd : (w.store p { tp with grad_ := G }).deref p = .ok { tp with grad_ := G } := by
      rw [deref_store]
      simp [hlt]
    have e : pushGrad p c w = .ok (w.store p { tp with grad_ := G }) := by
      unfold pushGrad
      simp only [hp, ok_bind, hr, if_true, hC, UpdateGradVec_zip tp C hle, pure_eq_ok, hG]
    refine ⟨_, e, ?_, ?_, ?_⟩
    · intro q t hq
      by_cases hqp : q = p
      · subst hqp
        rw [hd] at hq
        simp only [Except.ok.injEq] at hq
        subst hq
        exact Or.inr hfull
      · rw [deref_store] at hq
        simp only [hqp, false_and, if_false] at hq
        exact hs q t hq
    · intro _
      exact ⟨_, hd, hfull⟩
    · intro q hq
      by_cases hqp : q = p
      · subst hqp
        exact ⟨_, hd, hfull⟩
      · obtain ⟨t, ht, hf⟩ := hq
        exact ⟨t, by rw [deref_store]; simp [hqp, ht], hf⟩
  · have e : pushGrad p c w = .ok w := by
      unfold pushGrad
      simp only [hp, ok_bind, hr, if_false, pure_eq_ok, Bool.false_eq_true]
    exact ⟨w, e, hs, fun h => absurd h hr, fun q hq => hq⟩

theorem DataOf_refl (w : World) : DataOf w w := fun _ tq hq => ⟨tq, hq, rfl, rfl⟩

theorem pushGrad_DataOf (p : SharedTensor) (c : World → Except Err (List ℚ)) (w w1 : World)
    (h : pushGrad p c w = .ok w1) : DataOf w w1 := by
  intro q tq hq
  obtain ⟨t1, ht1, e1, -⟩ := pushGrad_deref p c w w1 h q tq hq
  exact ⟨t1, ht1, by rw [e1], by rw [e1]⟩

/-- Two gradient updates in a row return when each contribution returns, with
the length of its target's data, in every store that holds the result node and
the data of the store the rule started on. -/
theorem pair_total (a b res : SharedTensor) (ca cb : World → Except Err (List ℚ)) (w : World)
    (t ta tb : InternalTensor) (hres : w.deref res = .ok t) (ha : w.deref a = .ok ta)
    (hb : w.deref b = .ok tb) (hs : GradSized w) (hnea : a ≠ res)
    (hca : w.use_grad_ = true → ∀ w1, w1.deref res = .ok t → DataOf w w1 →
      ∃ C, ca w1 = .ok C ∧ C.length = ta.data_.length)
    (hcb : w.use_grad_ = true → ∀ w1, w1.deref res = .ok t → DataOf w w1 →
      ∃ C, cb w1 = .ok C ∧ C.length = tb.data_.length) :
    ∃ w2, (pushGrad a ca w >>= fun w1 => pushGrad b cb w1) = .ok w2 ∧ GradSized w2 ∧
      (ta.RequiresGrad w = true → FullGrad w2 a) ∧
      (tb.RequiresGrad w = true → FullGrad w2 b) ∧
      ∀ q, FullGrad w q → FullGrad w2 q := by
  have hug : ∀ u : InternalTensor, u.RequiresGrad w = true → w.use_grad_ = true := by
    intro u hu
    simp only [InternalTensor.RequiresGrad, Bool.and_eq_true] at hu
    exact hu.2
  obtain ⟨w1, h1, hs1, hfa, hk1⟩ := pushGrad_total a ca w ta ha hs
    (fun hr => hca (hug ta hr) w hres (DataOf_refl w))
  obtain ⟨hl1, hu1⟩ := pushGrad_length a ca w w1 h1
  obtain ⟨r1, hr1, -, er1⟩ := pushGrad_deref a ca w w1 h1 res t hres
  rw [er1 (fun e => hnea e.symm)] at hr1
  obtain ⟨tb1, htb1, eb1, -⟩ := pushGrad_deref a ca w w1 h1 b tb hb
  have hrq : tb1.RequiresGrad w1 = tb.RequiresGrad w := by
    simp only [InternalTensor.RequiresGrad, hu1]
    rw [eb1]
  have hdb : tb1.data_ = tb.data_ := by rw [eb1]
  obtain ⟨w2, h2, hs2, hfb, hk2⟩ := pushGrad_total b cb w1 tb1 htb1 hs1
    (fun hr => by
      rw [hrq] at hr
      obtain ⟨C, hC, hlen⟩ := hcb (hug tb hr) w1 hr1 (pushGrad_DataOf a ca w w1 h1)
      exact ⟨C, hC, by rw [hlen, hdb]⟩)
  refine ⟨w2, ?_, hs2, fun hr => hk2 a (hfa hr), fun hr => hfb (by rw [hrq]; exact hr),
    fun q hq => hk2 q (hk1 q hq)⟩
  rw [h1]
  exact h2

theorem single_total (a res : SharedTensor) (ca : World → Except Err (List ℚ)) (w : World)
    (t ta : InternalTensor) (hres : w.deref res = .ok t) (ha : w.deref a = .ok ta)
    (hs : GradSized w)
    (hca : w.use_grad_ = true → ∀ w1, w1.deref res = .ok t → DataOf w w1 →
      ∃ C, ca w1 = .ok C ∧ C.length = ta.data_.length) :
    ∃ w2, pushGrad a ca w = .ok w2 ∧ GradSized w2 ∧
      (ta.RequiresGrad w = true → FullGrad w2 a) ∧
      ∀ q, FullGrad w q → FullGrad w2 q := by
  have hug : ta.RequiresGrad w = true → w.use_grad_ = true := by
    intro hu
    simp only [InternalTensor.RequiresGrad, Bool.and_eq_true] at hu
    exact hu.2
  exact pushGrad_total a ca w ta ha hs (fun hr => hca (hug hr) w hres (DataOf_refl w))

theorem operands_two (a b : SharedTensor) (w w2 : World) (ta tb : InternalTensor)
    (ha : w.deref a = .ok ta) (hb : w.deref b = .ok tb)
    (hfa : ta.RequiresGrad w = true → FullGrad w2 a)
    (hfb : tb.RequiresGrad w = true → FullGrad w2 b) :
    ∀ q ∈ [a, b], ∀ tq, w.deref q = .ok tq → tq.RequiresGrad w = true → FullGrad w2 q := by
  intro q hq tq htq hr
  simp only [List.mem_cons, List.mem_singleton, List.not_mem_nil, or_false] at hq
  rcases hq with rfl | rfl
  · rw [ha] at htq
    simp only [Except.ok.injEq] at htq
    subst htq
    exact hfa hr
  · rw [hb] at htq
    simp only [Except.ok.injEq] at htq
    subst htq
    exact hfb hr

theorem operands_one (a : SharedTensor) (w w2 : World) (ta : InternalTensor)
    (ha : w.deref a = .ok ta) (hfa : ta.RequiresGrad w = true → FullGrad w2 a) :
    ∀ q ∈ [a], ∀ tq, w.deref q = .ok tq → tq.RequiresGrad w = true → FullGrad w2 q := by
  intro q hq tq htq hr
  simp only [List.mem_singleton] at hq
  subst hq
  rw [ha] at htq
  simp only [Except.ok.injEq] at htq
  subst htq
  exact hfa hr

theorem pair_total_operands (a b res : SharedTensor) (ca cb : World → Except Err (List ℚ))
    (w : World) (t ta tb : InternalTensor) (hres : w.deref res = .ok t)
    (ha : w.deref a = .ok ta) (hb : w.deref b = .ok tb) (hs : GradSized w) (hnea : a ≠ res)
    (hca : w.use_grad_ = true → ∀ w1, w1.deref res = .ok t → DataOf w w1 →
      ∃ C, ca w1 = .ok C ∧ C.length = ta.data_.length)
    (hcb : w.use_grad_ = true → ∀ w1, w1.deref res = .ok t → DataOf w w1 →
      ∃ C, cb w1 = .ok C ∧ C.length = tb.data_.length) :
    ∃ w2, (pushGrad a ca w >>= fun w1 => pushGrad b cb w1) = .ok w2 ∧ GradSized w2 ∧
      (∀ q ∈ [a, b], ∀ tq, w.deref q = .ok tq → tq.RequiresGrad w = true → FullGrad w2 q) ∧
      ∀ q, FullGrad w q → FullGrad w2 q := by
  obtain ⟨w2, h2, hs2, hfa, hfb, hk⟩ := pair_total a b res ca cb w t ta tb hres ha hb hs hnea
    hca hcb
  exact ⟨w2, h2, hs2, operands_two a b w w2 ta tb ha hb hfa hfb, hk⟩

theorem single_total_operands (a res : SharedTensor) (ca : World → Except Err (List ℚ))
    (w : World) (t ta : InternalTensor) (hres : w.deref res = .ok t)
    (ha : w.deref a = .ok ta) (hs : GradSized w)
    (hca : w.use_grad_ = true → ∀ w1, w1.deref res = .ok t → DataOf w w1 →
      ∃ C, ca w1 = .ok C ∧ C.length = ta.data_.length) :
    ∃ w2, pushGrad a ca w = .ok w2 ∧ GradSized w2 ∧
      (∀ q ∈ [a], ∀ tq, w.deref q = .ok tq → tq.RequiresGrad w = true → FullGrad w2 q) ∧
      ∀ q, FullGrad w q → FullGrad w2 q := by
  obtain ⟨w2, h2, hs2, hfa, hk⟩ := single_total a res ca w t ta hres ha hs hca
  exact ⟨w2, h2, hs2, operands_one a w w2 ta ha hfa, hk⟩

/-- A backward rule returns on a node whose gradient buffer is full when the
operands have the sizes the rule relies on; afterwards the buffers are still
sized and every operand that received a gradient is full. -/
theorem run_total (op : BackwardOp) (res : SharedTensor) (w : World) (t : InternalTensor)
    (hres : w.deref res = .ok t) (hs : GradSized w) (hshape : ShapeOk w t op)
    (hne : ∀ a ∈ op.operands, a ≠ res)
    (hfull : w.use_grad_ = true → t.grad_.length = t.data_.length) :
    ∃ w1, op.run res w = .ok w1 ∧ GradSized w1 ∧
      (∀ a ∈ op.operands, ∀ ta, w.deref a = .ok ta → ta.RequiresGrad w = true →
        FullGrad w1 a) ∧
      ∀ q, FullGrad w q → FullGrad w1 q := by
  cases op with
  | AddManyOne a b =>
    obtain ⟨ta, tb, ha, hb, hla⟩ := hshape
    have hna : a ≠ res := hne a (by simp [BackwardOp.operands])
    simp only [BackwardOp.run, BackwardOp.operands]
    refine pair_total_operands a b res _ _ w t ta tb hres ha hb hs hna ?_ ?_
    · intro hu w1 hr _
      exact ⟨t.grad_, by simp only [hr, ok_bind, pure_eq_ok], by rw [hfull hu, hla]⟩
    · intro _ w1 hr hd
      obtain ⟨tb1, htb1, hdb, -⟩ := hd b tb hb
      exact ⟨List.replicate tb1.Size (accumulate t.grad_),
        by simp only [hr, htb1, ok_bind, pure_eq_ok], by simp [InternalTensor.Size, hdb]⟩
  | AddManyMany a b =>
    obtain ⟨ta, tb, ha, hb, hla, hlb⟩ := hshape
    have hna : a ≠ res := hne a (by simp [BackwardOp.operands])
    simp only [BackwardOp.run, BackwardOp.operands]
    refine pair_total_operands a b res _ _ w t ta tb hres ha hb hs hna ?_ ?_
    · intro hu w1 hr _
      exact ⟨t.grad_, by simp only [hr, ok_bind, pure_eq_ok], by rw [hfull hu, hla]⟩
    · intro hu w1 hr _
      exact ⟨t.grad_, by simp only [hr, ok_bind, pure_eq_ok], by rw [hfull hu, hlb]⟩
  | AddBias a b =>
    obtain ⟨ta, tb, ha, hb, hla, hpos, n, hn⟩ := hshape
    have hna : a ≠ res := hne a (by simp [BackwardOp.operands])
    simp only [BackwardOp.run, BackwardOp.operands]
    refine pair_total_operands a b res _ _ w t ta tb hres ha hb hs hna ?_ ?_
    · intro hu w1 hr _
      exact ⟨t.grad_, by simp only [hr, ok_bind, pure_eq_ok], by rw [hfull hu, hla]⟩
    · intro hu w1 hr hd
      obtain ⟨tb1, htb1, hdb, -⟩ := hd b tb hb
      have hsz : t.Size = n * tb1.Size := by
        simp only [InternalTensor.Size, hdb, hn, Nat.mul_comm]
      have hpos1 : 0 < tb1.Size := by
        simp only [InternalTensor.Size, hdb]
        exact hpos
      have hle : n * tb1.Size ≤ t.grad_.length := by
        rw [hfull hu, ← hsz]
        exact Nat.le_refl _
      refine ⟨(List.range tb1.Size).map (fun j =>
        ∑ r in Finset.range n, t.grad_.getD (r * tb1.Size + j) 0), ?_, ?_⟩
      · simp only [hr, htb1, ok_bind]
        rw [hsz]
        exact biasGrad_eq t.grad_ n tb1.Size hpos1 hle
      · simp [InternalTensor.Size, hdb]
  | MultiplyManyOne a b =>
    obtain ⟨ta, tb, ha, hb, hla, hpos⟩ := hshape
    have hna : a ≠ res := hne a (by simp [BackwardOp.operands])
    simp only [BackwardOp.run, BackwardOp.operands]
    refine pair_total_operands a b res _ _ w t ta tb hres ha hb hs hna ?_ ?_
    · intro hu w1 hr hd
      obtain ⟨ta1, hta1, hda, -⟩ := hd a ta ha
      obtain ⟨tb1, htb1, hdb, -⟩ := hd b tb hb
      simp only [hr, hta1, htb1, ok_bind]
      exact ⟨_, forEachIndex_ok _ _ (fun i => t.grad_.getD i 0 * tb1.data_.getD 0 0) (by
          intro i hi
          rw [rd_ok t.grad_ i (by rw [hfull hu, ← hla, ← hda]; exact hi),
            rd_ok tb1.data_ 0 (by rw [hdb]; exact hpos)]
          rfl), by simp [hda]⟩
    · intro hu w1 hr hd
      obtain ⟨ta1, hta1, hda, -⟩ := hd a ta ha
      obtain ⟨tb1, htb1, hdb, -⟩ := hd b tb hb
      simp only [hr, hta1, htb1, ok_bind]
      rw [foldlM_ok _ (fun acc i => acc + t.grad_.getD i 0 * ta1.data_.getD i 0) _ _ (by
        intro i hi s
        have hi2 : i < t.grad_.length := List.mem_range.mp hi
        rw [rd_ok t.grad_ i hi2,
          rd_ok ta1.data_ i (by rw [hda, hla, ← hfull hu]; exact hi2)]
        rfl)]
      exact ⟨_, rfl, by simp [InternalTensor.Size, hdb]⟩
  | MultiplyManyMany a b =>
    obtain ⟨ta, tb, ha, hb, hla, hlb⟩ := hshape
    have hna : a ≠ res := hne a (by simp [BackwardOp.operands])
    simp only [BackwardOp.run, BackwardOp.operands]
    refine pair_total_operands a b res _ _ w t ta tb hres ha hb hs hna ?_ ?_
    · intro hu w1 hr hd
      obtain ⟨ta1, hta1, hda, -⟩ := hd a ta ha
      obtain ⟨tb1, htb1, hdb, -⟩ := hd b tb hb
      simp only [hr, hta1, htb1, ok_bind]
      exact ⟨_, forEachIndex_ok _ _ (fun i => t.grad_.getD i 0 * tb1.data_.getD i 0) (by
          intro i hi
          rw [rd_ok t.grad_ i (by rw [hfull hu, ← hla, ← hda]; exact hi),
            rd_ok tb1.data_ i (by rw [hdb, hlb, ← hla, ← hda]; exact hi)]
          rfl), by simp [hda]⟩
    · intro hu w1 hr hd
      obtain ⟨ta1, hta1, hda, -⟩ := hd a ta ha
      simp only [hr, hta1, ok_bind]
      exact ⟨_, forEachIndex_ok _ _ (fun i => t.grad_.getD i 0 * ta1.data_.getD i 0) (by
          intro i hi
          rw [rd_ok t.grad_ i (by rw [hfull hu, ← hla, ← hda]; exact hi),
            rd_ok ta1.data_ i hi]
          rfl), by simp [hda, hla, hlb]⟩
  | Matmul a b =>
    obtain ⟨ta, tb, n, m, p, ha, hb, hn, hm, hp, hla, hlb, hlt⟩ := hshape
    have hna : a ≠ res := hne a (by simp [BackwardOp.operands])
    simp only [BackwardOp.run, BackwardOp.operands, ha, hb, hn, hm, hp, ok_bind]
    refine pair_total_operands a b res _ _ w t ta tb hres ha hb hs hna ?_ ?_
    · intro hu w1 hr hd
      obtain ⟨tb1, htb1, hdb, -⟩ := hd b tb hb
      simp only [hr, htb1, ok_bind]
      rw [Transpose_eq tb1.data_ m p (by rw [hdb, hlb]), ok_bind]
      exact ⟨_, MatmulVectors_eq _ _ n p m (by rw [hfull hu, hlt]) (by simp), by simp [hla]⟩
    · intro hu w1 hr hd
      obtain ⟨ta1, hta1, hda, -⟩ := hd a ta ha
      simp only [hr, hta1, ok_bind]
      rw [Transpose_eq ta1.data_ n m (by rw [hda, hla]), ok_bind]
      exact ⟨_, MatmulVectors_eq _ _ m n p (by simp) (by rw [hfull hu, hlt]), by simp [hlb]⟩
  | Pow a e d =>
    obtain ⟨ta, ha, hla, hld, hnz⟩ := hshape
    simp only [BackwardOp.run, BackwardOp.operands]
    refine single_total_operands a res _ w t ta hres ha hs ?_
    intro hu w1 hr hd
    obtain ⟨ta1, hta1, hda, -⟩ := hd a ta ha
    simp only [hr, hta1, ok_bind]
    exact ⟨_, forEachIndex_ok _ _ (fun i => t.grad_.getD i 0 *
        ((e : ℚ) * (d.getD i 0 / ta1.data_.getD i 0))) (by
        intro i hi
        rw [rd_ok t.grad_ i (by rw [hfull hu, ← hla, ← hda]; exact hi),
          rd_ok d i (by rw [hld, ← hla, ← hda]; exact hi), rd_ok ta1.data_ i hi]
        simp only [ok_bind]
        rw [fdiv_ok _ _ (hnz _ (by rw [← hda]; exact getD_mem ta1.data_ i hi))]
        rfl), by simp [hda]⟩
  | Sum a d =>
    obtain ⟨ta, ha, hl1⟩ := hshape
    simp only [BackwardOp.run, BackwardOp.operands]
    refine single_total_operands a res _ w t ta hres ha hs ?_
    intro hu w1 hr hd
    obtain ⟨ta1, hta1, hda, -⟩ := hd a ta ha
    simp only [hr, hta1, ok_bind]
    rw [rd_ok t.grad_ 0 (by rw [hfull hu, hl1]; exact Nat.one_pos)]
    exact ⟨_, rfl, by simp [hda]⟩
  | Relu a l =>
    obtain ⟨ta, ha, hla⟩ := hshape
    simp only [BackwardOp.run, BackwardOp.operands]
    refine single_total_operands a res _ w t ta hres ha hs ?_
    intro hu w1 hr hd
    obtain ⟨ta1, hta1, hda, -⟩ := hd a ta ha
    simp only [hr, hta1, ok_bind]
    exact ⟨_, forEachIndex_ok _ _ (fun i => t.grad_.getD i 0 *
        (if ta1.data_.getD i 0 < 0 then l else 1)) (by
        intro i hi
        rw [rd_ok t.grad_ i (by rw [hfull hu, ← hla, ← hda]; exact hi),
          rd_ok ta1.data_ i hi]
        rfl), by simp [hda]⟩

theorem DataOf_trans (a b c : World) (h1 : DataOf a b) (h2 : DataOf b c) : DataOf a c := by
  intro q tq hq
  obtain ⟨t1, ht1, d1, s1⟩ := h1 q tq hq
  obtain ⟨t2, ht2, d2, s2⟩ := h2 q t1 ht1
  exact ⟨t2, ht2, by rw [d2, d1], by rw [s2, s1]⟩

theorem DataOf_store (w : World) (p : SharedTensor) (t u : InternalTensor)
    (hp : w.deref p = .ok t) (h1 : u.data_ = t.data_) (h2 : u.shape_ = t.shape_) :
    DataOf w (w.store p u) := by
  intro q tq hq
  rw [deref_store]
  by_cases hqp : q = p
  · subst hqp
    rw [hp] at hq
    simp only [Except.ok.injEq] at hq
    subst hq
    exact ⟨u, by simp [deref_lt w q _ hp], h1, h2⟩
  · exact ⟨tq, by simp [hqp, hq], rfl, rfl⟩

theorem CoreKept_refl (w : World) : CoreKept w w := ⟨FlagsKept_refl w, DataOf_refl w⟩

theorem CoreKept_trans (a b c : World) (h1 : CoreKept a b) (h2 : CoreKept b c) :
    CoreKept a c :=
  ⟨FlagsKept_trans a b c h1.1 h2.1, DataOf_trans a b c h1.2 h2.2⟩

theorem pushGrad_CoreKept (p : SharedTensor) (c : World → Except Err (List ℚ)) (w w1 : World)
    (h : pushGrad p c w = .ok w1) : CoreKept w w1 :=
  ⟨pushGrad_FlagsKept p c w w1 h, pushGrad_DataOf p c w w1 h⟩

theorem run_CoreKept (op : BackwardOp) (res : SharedTensor) (w w1 : World)
    (h : op.run res w = .ok w1) : CoreKept w w1 :=
  run_rel CoreKept CoreKept_trans pushGrad_CoreKept op res w w1 h

/-- A traversal keeps flags, data and shapes. -/
theorem Backward_CoreKept (fuel : Nat) (retain_graph : Bool) (self : SharedTensor)
    (w w1 : World) (h : InternalTensor.Backward fuel retain_graph self w = .ok w1) :
    CoreKept w w1 :=
  Backward_rel CoreKept retain_graph CoreKept_refl CoreKept_trans
    (fun w w1 hR q t hq => by
      obtain ⟨t1, ht1, -, hr1, -⟩ := hR.1.2.2 q t hq
      exact ⟨t1, ht1, hr1⟩)
    pushGrad_CoreKept
    (fun _ w q t hq _ => ⟨FlagsKept_store w q t _ hq rfl rfl (Or.inl ⟨rfl, rfl⟩),
      DataOf_store w q t _ hq rfl rfl⟩)
    (fun _ w q t hq _ => ⟨FlagsKept_store w q t _ hq rfl rfl (Or.inr ⟨rfl, rfl⟩),
      DataOf_store w q t _ hq rfl rfl⟩)
    fuel self w w1 h

theorem ShapeOk_transfer (w w1 : World) (t t1 : InternalTensor) (op : BackwardOp)
    (hd : DataOf w w1) (ht : t1.data_ = t.data_) (h : ShapeOk w t op) : ShapeOk w1 t1 op := by
  cases op with
  | AddManyOne a b =>
    obtain ⟨ta, tb, ha, hb, hla⟩ := h
    obtain ⟨ta1, hta1, hda, -⟩ := hd a ta ha
    obtain ⟨tb1, htb1, hdb, -⟩ := hd b tb hb
    exact ⟨ta1, tb1, hta1, htb1, by rw [hda, ht, hla]⟩
  | AddManyMany a b =>
    obtain ⟨ta, tb, ha, hb, hla, hlb⟩ := h
    obtain ⟨ta1, hta1, hda, -⟩ := hd a ta ha
    obtain ⟨tb1, htb1, hdb, -⟩ := hd b tb hb
    exact ⟨ta1, tb1, hta1, htb1, by rw [hda, ht, hla], by rw [hdb, ht, hlb]⟩
  | AddBias a b =>
    obtain ⟨ta, tb, ha, hb, hla, hpos, hdvd⟩ := h
    obtain ⟨ta1, hta1, hda, -⟩ := hd a ta ha
    obtain ⟨tb1, htb1, hdb, -⟩ := hd b tb hb
    exact ⟨ta1, tb1, hta1, htb1, by rw [hda, ht, hla], by rw [hdb]; exact hpos,
      by rw [hdb, ht]; exact hdvd⟩
  | MultiplyManyOne a b =>
    obtain ⟨ta, tb, ha, hb, hla, hpos⟩ := h
    obtain ⟨ta1, hta1, hda, -⟩ := hd a ta ha
    obtain ⟨tb1, htb1, hdb, -⟩ := hd b tb hb
    exact ⟨ta1, tb1, hta1, htb1, by rw [hda, ht, hla], by rw [hdb]; exact hpos⟩
  | MultiplyManyMany a b =>
    obtain ⟨ta, tb, ha, hb, hla, hlb⟩ := h
    obtain ⟨ta1, hta1, hda, -⟩ := hd a ta ha
    obtain ⟨tb1, htb1, hdb, -⟩ := hd b tb hb
    exact ⟨ta1, tb1, hta1, htb1, by rw [hda, ht, hla], by rw [hdb, ht, hlb]⟩
  | Matmul a b =>
    obtain ⟨ta, tb, n, m, p, ha, hb, hn, hm, hp, hla, hlb, hlt⟩ := h
    obtain ⟨ta1, hta1, hda, hsa⟩ := hd a ta ha
    obtain ⟨tb1, htb1, hdb, hsb⟩ := hd b tb hb
    exact ⟨ta1, tb1, n, m, p, hta1, htb1, by rw [hsa]; exact hn, by rw [hsa]; exact hm,
      by rw [hsb]; exact hp, by rw [hda]; exact hla, by rw [hdb]; exact hlb,
      by rw [ht]; exact hlt⟩
  | Pow a e d =>
    obtain ⟨ta, ha, hla, hld, hnz⟩ := h
    obtain ⟨ta1, hta1, hda, -⟩ := hd a ta ha
    exact ⟨ta1, hta1, by rw [hda, ht, hla], by rw [ht, hld], by rw [hda]; exact hnz⟩
  | Sum a d =>
    obtain ⟨ta, ha, hl1⟩ := h
    obtain ⟨ta1, hta1, -, -⟩ := hd a ta ha
    exact ⟨ta1, hta1, by rw [ht, hl1]⟩
  | Relu a l =>
    obtain ⟨ta, ha, hla⟩ := h
    obtain ⟨ta1, hta1, hda, -⟩ := hd a ta ha
    exact ⟨ta1, hta1, by rw [hda, ht, hla]⟩

theorem WellFormed_kept (w w1 : World) (hk : CoreKept w w1) (hs1 : GradSized w1)
    (hwf : WellFormed w) : WellFormed w1 := by
  obtain ⟨hb, -, hn⟩ := hwf
  refine ⟨FlagsKept_BelowInv _ _ hk.1 hb, hs1, ?_⟩
  intro n t1 hq
  obtain ⟨t, ht, -, -, hl⟩ := FlagsKept_back w w1 hk.1 n t1 hq
  obtain ⟨t1b, ht1b, hdata, -⟩ := hk.2 n t ht
  rw [hq] at ht1b
  simp only [Except.ok.injEq] at ht1b
  subst ht1b
  obtain ⟨hnone, hsome⟩ := hn n t ht
  rcases hl with ⟨e1, e2⟩ | ⟨e1, e2⟩
  · rw [e1, e2]
    refine ⟨hnone, ?_⟩
    intro op hop
    obtain ⟨hpo, hsh⟩ := hsome op hop
    exact ⟨hpo, ShapeOk_transfer w w1 t t1 op hk.2 hdata hsh⟩
  · rw [e1, e2]
    exact ⟨fun _ => rfl, fun op hop => by simp at hop⟩

/-- A node that is ready stays ready when flags are kept, links are kept or
lost, and full buffers stay full. -/
theorem Ready_kept (w w1 : World) (hk : FlagsKept w w1)
    (hfull : ∀ q, FullGrad w q → FullGrad w1 q) (q : SharedTensor) (h : Ready w q) :
    Ready w1 q := by
  intro t1 h1 hu hr hop
  obtain ⟨t, ht, -, e2, hl⟩ := FlagsKept_back w w1 hk q t1 h1
  have hop0 : t.backward_op_ ≠ none := by
    rcases hl with ⟨-, e⟩ | ⟨-, e⟩
    · rw [← e]
      exact hop
    · exact absurd e hop
  have hf := h t ht (by rw [← hk.2.1]; exact hu) (by rw [← e2]; exact hr) hop0
  obtain ⟨t1b, ht1b, hf1⟩ := hfull q ⟨t, ht, hf⟩
  rw [h1] at ht1b
  simp only [Except.ok.injEq] at ht1b
  subst ht1b
  exact hf1

theorem Ready_store_other (w : World) (p q : SharedTensor) (u : InternalTensor) (hne : q ≠ p)
    (h : Ready w q) : Ready (w.store p u) q := by
  intro t1 h1 hu hr hop
  rw [deref_store] at h1
  simp only [hne, false_and, if_false] at h1
  exact h t1 h1 hu hr hop

/-- On a well-formed store a traversal returns when its budget exceeds the
index of the node it starts on and that node is ready; the store it returns is
well-formed, and every ready node is still ready. -/
theorem Backward_total (retain_graph : Bool) (fuel : Nat) :
    ∀ (self : SharedTensor) (w : World), WellFormed w → self < w.nodes.length →
      self < fuel → Ready w self →
      ∃ w1, InternalTensor.Backward fuel retain_graph self w = .ok w1 ∧ WellFormed w1 ∧
        ∀ q, Ready w q → Ready w1 q := by
  induction fuel with
  | zero =>
    intro self w _ _ hf _
    exact absurd hf (Nat.not_lt_zero _)
  | succ fuel ih =>
    intro self w hwf hlt hfuel hready
    have hfold : ∀ (l : List SharedTensor) (w3 : World), WellFormed w3 →
        (∀ p ∈ l, p < self ∧ p < w3.nodes.length ∧ Ready w3 p) →
        ∃ w4, l.foldlM (fun acc p => InternalTensor.Backward fuel retain_graph p acc) w3 =
            .ok w4 ∧ WellFormed w4 ∧ CoreKept w3 w4 ∧ ∀ q, Ready w3 q → Ready w4 q := by
      intro l
      induction l with
      | nil =>
        intro w3 hwf3 _
        exact ⟨w3, rfl, hwf3, CoreKept_refl w3, fun q hq => hq⟩
      | cons p l ihl =>
        intro w3 hwf3 hl
        obtain ⟨hp1, hp2, hp3⟩ := hl p (List.mem_cons_self _ _)
        obtain ⟨wa, ha, hwfa, hra⟩ := ih p w3 hwf3 hp2
          (Nat.lt_of_lt_of_le hp1 (Nat.le_of_lt_succ hfuel)) hp3
        have hka := Backward_CoreKept fuel retain_graph p w3 wa ha
        obtain ⟨w4, h4, hwf4, hk4, hr4⟩ := ihl wa hwfa (by
          intro p2 hp2m
          obtain ⟨q1, q2, q3⟩ := hl p2 (List.mem_cons_of_mem _ hp2m)
          exact ⟨q1, by rw [hka.1.1]; exact q2, hra p2 q3⟩)
        refine ⟨w4, ?_, hwf4, CoreKept_trans _ _ _ hka hk4, fun q hq => hr4 q (hra q hq)⟩
        simp only [List.foldlM_cons, ha, ok_bind]
        exact h4
    have ht := deref_of_lt w self hlt
    obtain ⟨t, htd⟩ : ∃ t, w.deref self = .ok t := ⟨_, ht⟩
    rw [InternalTensor.Backward]
    simp only [htd, ok_bind]
    by_cases hrg : t.requires_grad_ = true
    · obtain ⟨hbel, hsz, hnodes⟩ := hwf
      obtain ⟨hnone, hsome⟩ := hnodes self t htd
      obtain ⟨hparlt, hopslt⟩ := hbel self t htd
      have tail : ∀ w2 : World, GradSized w2 → CoreKept w w2 →
          (∀ q, FullGrad w q → FullGrad w2 q) →
          (∀ p ∈ t.parents_, ∀ tp, w.deref p = .ok tp → tp.RequiresGrad w = true →
            FullGrad w2 p) →
          ∃ w1, (do
            let t ← w2.deref self
            let w := if !t.is_leaf_ && !retain_graph
              then w2.store self { t with grad_ := [] } else w2
            let w ← t.parents_.foldlM
              (fun acc p => InternalTensor.Backward fuel retain_graph p acc) w
            let t ← w.deref self
            pure (if !retain_graph then
              w.store self { t with backward_op_ := none, parents_ := [] } else w)) = .ok w1 ∧
            WellFormed w1 ∧ ∀ q, Ready w q → Ready w1 q := by
        intro w2 hs2 hk2 hfull2 hpar2
        have hwf2 : WellFormed w2 := WellFormed_kept w w2 hk2 hs2 ⟨hbel, hsz, hnodes⟩
        obtain ⟨t2, ht2, hleaf2, hrg2, hlinks2⟩ := hk2.1.2.2 self t htd
        have hlen2 : w2.nodes.length = w.nodes.length := hk2.1.1
        have hpar : ∀ p ∈ t2.parents_, p ∈ t.parents_ := by
          intro p hp
          rcases hlinks2 with ⟨e, -⟩ | ⟨e, -⟩
          · rw [← e]
            exact hp
          · rw [e] at hp
            exact absurd hp (List.not_mem_nil _)
        have hready2 : ∀ p ∈ t2.parents_, Ready w2 p := by
          intro p hp tp2 htp2 hu hr _
          have hpl : p < w.nodes.length := by
            rw [← hlen2]
            exact deref_lt w2 p tp2 htp2
          obtain ⟨tpb, htpb, -, hrb, -⟩ := hk2.1.2.2 p _ (deref_of_lt w p hpl)
          rw [htp2] at htpb
          simp only [Except.ok.injEq] at htpb
          subst htpb
          obtain ⟨tq, htq, hfq⟩ := hpar2 p (hpar p hp) _ (deref_of_lt w p hpl) (by
            simp only [InternalTensor.RequiresGrad, Bool.and_eq_true]
            exact ⟨by rw [← hrb]; exact hr, by rw [← hk2.1.2.1]; exact hu⟩)
          rw [htp2] at htq
          simp only [Except.ok.injEq] at htq
          subst htq
          exact hfq
        simp only [ht2, ok_bind]
        cases retain_graph with
        | true =>
          simp only [Bool.not_true, Bool.and_false, Bool.false_eq_true, if_false]
          obtain ⟨w4, h4, hwf4, hk4, hr4⟩ := hfold t2.parents_ w2 hwf2 (by
            intro p hp
            exact ⟨hparlt p (hpar p hp),
              by rw [hlen2]; exact Nat.lt_trans (hparlt p (hpar p hp)) hlt, hready2 p hp⟩)
          obtain ⟨t4, ht4, -⟩ := hk4.2 self t2 ht2
          simp only [h4, ok_bind, ht4, pure_eq_ok]
          exact ⟨w4, rfl, hwf4, fun q hq => hr4 q (Ready_kept w w2 hk2.1 hfull2 q hq)⟩
        | false =>
          simp only [Bool.not_false, Bool.and_true, if_true]
          obtain ⟨w3, hw3, hk3, hs3, hd3, hother3⟩ : ∃ w3 : World,
              w3 = (if (!t2.is_leaf_) = true then w2.store self { t2 with grad_ := [] } else w2) ∧
              CoreKept w2 w3 ∧ GradSized w3 ∧ (∃ t3, w3.deref self = .ok t3) ∧
              ∀ q, q ≠ self → Ready w2 q → Ready w3 q := by
            refine ⟨_, rfl, ?_, ?_, ?_, ?_⟩
            · split
              · exact ⟨FlagsKept_store w2 self t2 _ ht2 rfl rfl (Or.inl ⟨rfl, rfl⟩),
                  DataOf_store w2 self t2 _ ht2 rfl rfl⟩
              · exact CoreKept_refl w2
            · split
              · intro q tq hq
                rw [deref_store] at hq
                by_cases hqs : q = self
                · simp only [hqs, deref_lt w2 self t2 ht2, and_self, if_true,
                    Except.ok.injEq] at hq
                  subst hq
                  exact Or.inl rfl
                · simp only [hqs, false_and, if_false] at hq
                  exact hs2 q tq hq
              · exact hs2
            · split
              · exact ⟨{ t2 with grad_ := [] }, by rw [deref_store]; simp [deref_lt w2 self t2 ht2]⟩
              · exact ⟨t2, ht2⟩
            · intro q hq hr
              split
              · exact Ready_store_other w2 self q _ hq hr
              · exact hr
          rw [← hw3]
          have hwf3 : WellFormed w3 := WellFormed_kept w2 w3 hk3 hs3 hwf2
          obtain ⟨w4, h4, hwf4, hk4, hr4⟩ := hfold t2.parents_ w3 hwf3 (by
            intro p hp
            have hps := hparlt p (hpar p hp)
            exact ⟨hps, by rw [hk3.1.1, hlen2]; exact Nat.lt_trans hps hlt,
              hother3 p (Nat.ne_of_lt hps) (hready2 p hp)⟩)
          obtain ⟨t3, ht3⟩ := hd3
          obtain ⟨t4, ht4, -⟩ := hk4.2 self t3 ht3
          have hlt4 := deref_lt w4 self t4 ht4
          have hk5 : CoreKept w4 (w4.store self { t4 with backward_op_ := none, parents_ := [] }) :=
            ⟨FlagsKept_store w4 self t4 _ ht4 rfl rfl (Or.inr ⟨rfl, rfl⟩),
              DataOf_store w4 self t4 _ ht4 rfl rfl⟩
          simp only [h4, ok_bind, ht4, pure_eq_ok]
          refine ⟨_, rfl, ?_, ?_⟩
          · apply WellFormed_kept w4 _ hk5 _ hwf4
            intro q tq hq
            rw [deref_store] at hq
            by_cases hqs : q = self
            · simp only [hqs, hlt4, and_self, if_true, Except.ok.injEq] at hq
              subst hq
              exact hwf4.2.1 self t4 ht4
            · simp only [hqs, false_and, if_false] at hq
              exact hwf4.2.1 q tq hq
          · intro q hq
            by_cases hqs : q = self
            · subst hqs
              intro t1 h1 _ _ hop
              rw [deref_store] at h1
              simp only [hlt4, and_self, if_true, Except.ok.injEq] at h1
              subst h1
              exact absurd rfl hop
            · exact Ready_store_other w4 self q _ hqs
                (hr4 q (hother3 q hqs (Ready_kept w w2 hk2.1 hfull2 q hq)))
      simp only [hrg, Bool.not_true, Bool.false_eq_true, if_false]
      cases hop : t.backward_op_ with
      | none =>
        simp only [pure_eq_ok, ok_bind]
        refine tail w hsz (CoreKept_refl w) (fun q hq => hq) ?_
        intro p hp
        rw [hnone hop] at hp
        exact absurd hp (List.not_mem_nil _)
      | some op =>
        obtain ⟨hpo, hsh⟩ := hsome op hop
        obtain ⟨w2, h2, hs2, hfo, hk2⟩ := run_total op self w t htd hsz hsh
          (fun a ha => Nat.ne_of_lt (hopslt op hop a ha))
          (fun hu => hready t htd hu hrg (by rw [hop]; exact Option.some_ne_none op))
        simp only [h2, ok_bind]
        exact tail w2 hs2 (run_CoreKept op self w w2 h2) hk2
          (fun p hp tp htp hr => hfo p (hpo p hp) tp htp hr)
    · refine ⟨w, ?_, hwf, fun q hq => hq⟩
      simp [hrg]

/-- On a well-formed store `z.Backward` returns, in either mode, for every
valid handle and every budget above the index of its node. -/
theorem Tensor_Backward_total (z : Tensor) (fuel : Nat) (retain_graph : Bool) (w : World)
    (hwf : WellFormed w) (hz : z.tensor_ < w.nodes.length) (hf : z.tensor_ < fuel) :
    ∃ w1, z.Backward fuel retain_graph w = .ok w1 := by
  obtain ⟨tz, htz⟩ : ∃ tz, w.deref z.tensor_ = .ok tz := ⟨_, deref_of_lt w _ hz⟩
  have hk : CoreKept w (w.store z.tensor_ (tz.SetGrad 1)) :=
    ⟨FlagsKept_store w z.tensor_ tz _ htz rfl rfl (Or.inl ⟨rfl, rfl⟩),
      DataOf_store w z.tensor_ tz _ htz rfl rfl⟩
  have hd : (w.store z.tensor_ (tz.SetGrad 1)).deref z.tensor_ = .ok (tz.SetGrad 1) := by
    rw [deref_store]
    simp [hz]
  have hfullz : (tz.SetGrad 1).grad_.length = (tz.SetGrad 1).data_.length := by
    simp [InternalTensor.SetGrad, InternalTensor.SetGradVec, InternalTensor.Size]
  have hs : GradSized (w.store z.tensor_ (tz.SetGrad 1)) := by
    intro q tq hq
    by_cases hqz : q = z.tensor_
    · subst hqz
      rw [hd] at hq
      simp only [Except.ok.injEq] at hq
      subst hq
      exact Or.inr hfullz
    · rw [deref_store] at hq
      simp only [hqz, false_and, if_false] at hq
      exact hwf.2.1 q tq hq
  obtain ⟨w1, h1, -, -⟩ := Backward_total retain_graph fuel z.tensor_ _
    (WellFormed_kept w _ hk hs hwf) (by rw [hk.1.1]; exact hz) hf (by
      intro t ht _ _ _
      rw [hd] at ht
      simp only [Except.ok.injEq] at ht
      subst ht
      exact hfullz)
  refine ⟨w1, ?_⟩
  unfold Tensor.Backward
  simp only [htz, ok_bind]
  exact h1

theorem diamond_well_formed : WellFormed diamond_store := by
  refine ⟨(Built_inv _ diamond_built).2, ?_, ?_⟩
  · intro q t hq
    have hlt := deref_lt _ q t hq
    simp only [diamond_store, List.length_cons, List.length_nil] at hlt
    have hq6 : (q : Nat) < 6 := hlt
    interval_cases q <;>
    · simp [diamond_store, World.deref] at hq
      subst hq
      exact Or.inl rfl
  · intro q t hq
    have hlt := deref_lt _ q t hq
    simp only [diamond_store, List.length_cons, List.length_nil] at hlt
    have hq6 : (q : Nat) < 6 := hlt
    interval_cases q <;>
    · simp [diamond_store, World.deref] at hq
      subst hq
      simp [ShapeOk, BackwardOp.operands, diamond_store, World.deref]

/-- C30 (graph severing depends only on retain_graph).  After a call
`z.Backward(retain_graph = false)` that returns, every node the traversal
visits (`z` when it requires gradients, and from every visited node the
parents that require gradients) has an empty parent list and no backward
rule; in a store where only nodes that require gradients have parents, these
are all the nodes that require gradients and are reachable from `z` through
parent links.  After `z.Backward(retain_graph = true)` every node has the
parent list, backward rule, data, shape and flags it had before: only
gradient buffers changed.  On a well-formed store both calls do return, for
every valid handle and every recursion budget above the index of its node,
with these results. -/
theorem backward_severing (z : Tensor) (fuel : Nat) (w w1 : World) :
    (z.Backward fuel false w = .ok w1 →
      (∀ q, Visits w z.tensor_ q → Severed w1 q) ∧
      ((∀ n t, w.deref n = .ok t → t.requires_grad_ = false → t.parents_ = []) →
        ∀ q t, ParentPath w z.tensor_ q → w.deref q = .ok t → t.requires_grad_ = true →
          Severed w1 q)) ∧
    (z.Backward fuel true w = .ok w1 → ∀ q t, w.deref q = .ok t →
      ∃ t1, w1.deref q = .ok t1 ∧ t1.parents_ = t.parents_ ∧
        t1.backward_op_ = t.backward_op_ ∧ t1.data_ = t.data_ ∧ t1.shape_ = t.shape_ ∧
        t1.is_leaf_ = t.is_leaf_ ∧ t1.requires_grad_ = t.requires_grad_) ∧
    (WellFormed w → z.tensor_ < w.nodes.length → z.tensor_ < fuel →
      (∃ w2, z.Backward fuel false w = .ok w2 ∧ ∀ q, Visits w z.tensor_ q → Severed w2 q) ∧
      ∃ w3, z.Backward fuel true w = .ok w3 ∧ ∀ q t, w.deref q = .ok t →
        ∃ t1, w3.deref q = .ok t1 ∧ t1.parents_ = t.parents_ ∧
          t1.backward_op_ = t.backward_op_ ∧ t1.data_ = t.data_ ∧ t1.shape_ = t.shape_ ∧
          t1.is_leaf_ = t.is_leaf_ ∧ t1.requires_grad_ = t.requires_grad_) := by
  have key : ∀ w1 : World, z.Backward fuel false w = .ok w1 →
      ∀ q, Visits w z.tensor_ q → Severed w1 q := by
    intro w1 h q hv
    unfold Tensor.Backward at h
    simp only [bind_eq_ok] at h
    obtain ⟨tz, htz, h⟩ := h
    have hseed : SameButGrad w (w.store z.tensor_ (tz.SetGrad 1)) :=
      SameButGrad_store w z.tensor_ tz _ htz
    obtain ⟨-, hvis⟩ := Backward_sever fuel z.tensor_ _ w1 h
    rcases Visits_transfer w _ (SameButGrad_Shrinks _ _ hseed) (SameButGrad_Closed _ _ hseed)
        z.tensor_ q hv with hv2 | hsev
    · exact hvis q hv2
    · exact Severed_mono _ _ (Backward_Shrinks fuel false z.tensor_ _ w1 h) q hsev
  have kept : ∀ w1 : World, z.Backward fuel true w = .ok w1 → ∀ q t, w.deref q = .ok t →
      ∃ t1, w1.deref q = .ok t1 ∧ t1.parents_ = t.parents_ ∧
        t1.backward_op_ = t.backward_op_ ∧ t1.data_ = t.data_ ∧ t1.shape_ = t.shape_ ∧
        t1.is_leaf_ = t.is_leaf_ ∧ t1.requires_grad_ = t.requires_grad_ := by
    intro w1 h q t hq
    unfold Tensor.Backward at h
    simp only [bind_eq_ok] at h
    obtain ⟨tz, htz, h⟩ := h
    have hseed : SameButGrad w (w.store z.tensor_ (tz.SetGrad 1)) :=
      SameButGrad_store w z.tensor_ tz _ htz
    obtain ⟨t1, ht1, e1⟩ := SameButGrad_trans _ _ _ hseed
      (Backward_retain_SameButGrad fuel z.tensor_ _ w1 h) q t hq
    refine ⟨t1, ht1, ?_, ?_, ?_, ?_, ?_, ?_⟩ <;> rw [e1]
  refine ⟨?_, kept w1, ?_⟩
  · intro h
    exact ⟨key w1 h, fun hinv q t hp hq hrg =>
      key w1 h q (ParentPath_Visits w hinv _ q t hp hq hrg)⟩
  · intro hwf hz hf
    obtain ⟨w2, h2⟩ := Tensor_Backward_total z fuel false w hwf hz hf
    obtain ⟨w3, h3⟩ := Tensor_Backward_total z fuel true w hwf hz hf
    exact ⟨⟨w2, h2, key w2 h2⟩, ⟨w3, h3, kept w3 h3⟩⟩

/-- An instance of C30 on the diamond graph: without retaining, the leaf `x`
(visited through `y1`) ends severed; with retaining, `z` keeps its parents and
its rule; the store is well-formed, so both calls return for every budget of
at least six. -/
theorem backward_severing_witness :
    Tensor.Backward ⟨5, [1]⟩ 3 false diamond_store = .ok diamond_final_store ∧
    Visits diamond_store 5 0 ∧ Severed diamond_final_store 0 ∧
    Tensor.Backward ⟨5, [1]⟩ 3 true diamond_store = .ok diamond_retained_store ∧
    (∃ t1, diamond_retained_store.deref 5 = .ok t1 ∧ t1.parents_ = [3, 4] ∧
      t1.backward_op_ = some (.AddManyOne 3 4) ∧ t1.data_ = [9] ∧ t1.shape_ = [] ∧
      t1.is_leaf_ = true ∧ t1.requires_grad_ = true) ∧
    WellFormed diamond_store ∧
    ∀ k, ∃ w2, Tensor.Backward ⟨5, [1]⟩ (k + 6) false diamond_store = .ok w2 ∧
      Severed w2 0 :=
  have hv : Visits diamond_store 5 0 :=
    Visits.parent 5 3 0 ⟨[9], [], [], [3, 4], some (.AddManyOne 3 4), true, true⟩
      (by simp [diamond_store, World.deref]) rfl (by simp)
      (Visits.parent 3 0 0 ⟨[4], [], [], [0, 1], some (.AddManyOne 0 1), true, true⟩
        (by simp [diamond_store, World.deref]) rfl (by simp)
        (Visits.self 0 ⟨[3], [], [], [], none, true, true⟩
          (by simp [diamond_store, World.deref]) rfl))
  ⟨diamond_backward.2, hv,
   ((backward_severing ⟨5, [1]⟩ 3 diamond_store diamond_final_store).1 diamond_backward.2).1
     0 hv,
   diamond_backward_retained,
   (backward_severing ⟨5, [1]⟩ 3 diamond_store diamond_retained_store).2.1
     diamond_backward_retained 5 ⟨[9], [], [], [3, 4], some (.AddManyOne 3 4), true, true⟩
     (by simp [diamond_store, World.deref]),
   diamond_well_formed,
   fun k => by
     obtain ⟨⟨w2, h2, hs2⟩, -⟩ :=
       (backward_severing ⟨5, [1]⟩ (k + 6) diamond_store diamond_store).2.2
         diamond_well_formed (by simp [diamond_store]) (by
           show (5 : Nat) < k + 6
           omega)
     exact ⟨w2, h2, hs2 0 hv⟩⟩

/-! ## Two retained passes -/

theorem mapE_length {α β : Type} (f : α → Except Err β) (xs : List α) (ys : List β)
    (h : mapE f xs = .ok ys) : ys.length = xs.length := by
  induction xs generalizing ys with
  | nil =>
    simp only [mapE_nil, Except.ok.injEq] at h
    subst h
    rfl
  | cons x xs ih =>
    simp only [mapE_cons, bind_eq_ok, pure_eq_ok, Except.ok.injEq] at h
    obtain ⟨y, -, zs, hzs, rfl⟩ := h
    simp only [List.length_cons, ih zs hzs]

theorem forEachIndex_length (n : Nat) (f : Nat → Except Err ℚ) (ys : List ℚ)
    (h : forEachIndex n f = .ok ys) : ys.length = n := by
  unfold forEachIndex at h
  rw [mapE_length f _ ys h, List.length_range]

/-- Appending a node with an empty gradient buffer keeps a store well-formed
when the node has no links, or has as parents the operands of its rule, all
in the store, with the sizes the rule relies on. -/
theorem WellFormed_alloc (w : World) (c : InternalTensor) (hwf : WellFormed w)
    (hl : OperandsLinked w) (hg : c.grad_ = [])
    (hnone : c.backward_op_ = none → c.parents_ = [])
    (hsome : ∀ op, c.backward_op_ = some op →
      (∀ p ∈ op.operands, p < w.nodes.length) ∧ (∀ p, p ∈ c.parents_ ↔ p ∈ op.operands) ∧
        ShapeOk w c op) :
    WellFormed (w.alloc c).2 ∧ OperandsLinked (w.alloc c).2 := by
  obtain ⟨hb, hs, hn⟩ := hwf
  have hd : DataOf w (w.alloc c).2 := fun q t hq => ⟨t, alloc_frame w c q t hq, rfl, rfl⟩
  refine ⟨⟨?_, ?_, ?_⟩, ?_⟩
  · apply BelowInv_alloc w c hb
    · intro p hp
      cases hop : c.backward_op_ with
      | none =>
        rw [hnone hop] at hp
        exact absurd hp (List.not_mem_nil _)
      | some op =>
        obtain ⟨h1, h2, -⟩ := hsome op hop
        exact h1 p ((h2 p).mp hp)
    · intro op hop
      exact (hsome op hop).1
  · intro q t hq
    rcases deref_alloc_cases w c q t hq with h | ⟨-, rfl⟩
    · exact hs q t h
    · exact Or.inl hg
  · intro q t hq
    rcases deref_alloc_cases w c q t hq with h | ⟨-, rfl⟩
    · obtain ⟨h1, h2⟩ := hn q t h
      exact ⟨h1, fun op hop => ⟨(h2 op hop).1,
        ShapeOk_transfer w _ t t op hd rfl (h2 op hop).2⟩⟩
    · refine ⟨hnone, fun op hop => ?_⟩
      obtain ⟨-, h2, h3⟩ := hsome op hop
      exact ⟨fun p hp => (h2 p).mp hp, ShapeOk_transfer w _ t t op hd rfl h3⟩
  · intro q t op hq hop a ha
    rcases deref_alloc_cases w c q t hq with h | ⟨-, rfl⟩
    · exact hl q t op h hop a ha
    · exact ((hsome op hop).2.1 a).mpr ha

/-- The value constructors keep a store well-formed. -/
theorem constructed_well_formed (w : World) (data : List ℚ) (shape : List Nat)
    (requires_grad is_leaf : Bool) (hwf : WellFormed w) (hl : OperandsLinked w) :
    WellFormed (w.alloc (InternalTensor.new data shape requires_grad is_leaf)).2 ∧
      OperandsLinked (w.alloc (InternalTensor.new data shape requires_grad is_leaf)).2 :=
  WellFormed_alloc w _ hwf hl rfl (fun _ => rfl) (fun op hop => by
    simp [InternalTensor.new] at hop)

/-- The node factory keeps a store well-formed when it is called with the
operands of the rule as parents and with data of the size the rule relies
on. -/
theorem ApplyOperation_well_formed (data : List ℚ) (shape : List Nat)
    (parents : List SharedTensor) (op : BackwardOp) (w : World) (res : SharedTensor)
    (w1 : World) (hwf : WellFormed w) (hl : OperandsLinked w)
    (hp : ∀ p ∈ parents, p < w.nodes.length) (hops : ∀ p, p ∈ parents ↔ p ∈ op.operands)
    (hsh : ∀ t : InternalTensor, t.data_ = data → ShapeOk w t op)
    (h : ApplyOperation data shape parents op w = .ok (res, w1)) :
    WellFormed w1 ∧ OperandsLinked w1 := by
  obtain ⟨rg, leaf, -, -, -, rfl⟩ := ApplyOperation_node data shape parents op w res w1 hp h
  apply WellFormed_alloc w _ hwf hl rfl
  · intro hop
    cases rg with
    | false => rfl
    | true => simp at hop
  · intro op2 hop
    cases rg with
    | false => simp at hop
    | true =>
      simp only [if_true, Option.some.injEq] at hop
      subst hop
      exact ⟨fun p hp2 => hp p ((hops p).mpr hp2), hops, hsh _ rfl⟩

/-- AddManyOneInternal keeps a store well-formed. -/
theorem AddManyOneInternal_well_formed (a b : SharedTensor) (w : World) (p : SharedTensor)
    (w1 : World) (hwf : WellFormed w) (hl : OperandsLinked w)
    (h : AddManyOneInternal a b w = .ok (p, w1)) : WellFormed w1 ∧ OperandsLinked w1 := by
  unfold AddManyOneInternal at h
  simp only [bind_eq_ok] at h
  obtain ⟨ta, hta, tb, htb, data, hdata, h⟩ := h
  exact ApplyOperation_well_formed data ta.shape_ [a, b] (.AddManyOne a b) w p w1 hwf hl
    (valid_pair w a b ta tb hta htb) (fun _ => Iff.rfl)
    (fun t ht => ⟨ta, tb, hta, htb, by rw [ht, mapE_length _ _ data hdata]⟩) h

/-- AddManyManyInternal keeps a store well-formed on operands of one size. -/
theorem AddManyManyInternal_well_formed (a b : SharedTensor) (w : World) (p : SharedTensor)
    (w1 : World) (hwf : WellFormed w) (hl : OperandsLinked w)
    (hsize : ∀ ta tb, w.deref a = .ok ta → w.deref b = .ok tb →
      tb.data_.length = ta.data_.length)
    (h : AddManyManyInternal a b w = .ok (p, w1)) : WellFormed w1 ∧ OperandsLinked w1 := by
  unfold AddManyManyInternal at h
  simp only [bind_eq_ok] at h
  obtain ⟨ta, hta, tb, htb, data, hdata, h⟩ := h
  have hlen := forEachIndex_length _ _ data hdata
  exact ApplyOperation_well_formed data ta.shape_ [a, b] (.AddManyMany a b) w p w1 hwf hl
    (valid_pair w a b ta tb hta htb) (fun _ => Iff.rfl)
    (fun t ht => ⟨ta, tb, hta, htb, by rw [ht, hlen], by rw [ht, hlen, hsize ta tb hta htb]⟩) h

/-- AddBiasInternal keeps a store well-formed when the bias is not empty and
its size divides the size of the other operand. -/
theorem AddBiasInternal_well_formed (a b : SharedTensor) (w : World) (p : SharedTensor)
    (w1 : World) (hwf : WellFormed w) (hl : OperandsLinked w)
    (hsize : ∀ ta tb, w.deref a = .ok ta → w.deref b = .ok tb →
      0 < tb.data_.length ∧ tb.data_.length ∣ ta.data_.length)
    (h : AddBiasInternal a b w = .ok (p, w1)) : WellFormed w1 ∧ OperandsLinked w1 := by
  unfold AddBiasInternal at h
  simp only [bind_eq_ok] at h
  obtain ⟨ta, hta, tb, htb, data, hdata, h⟩ := h
  obtain ⟨hpos, hdvd⟩ := hsize ta tb hta htb
  rw [biasData_dvd _ _ hdvd] at hdata
  simp only [Except.ok.injEq] at hdata
  have hlen : data.length = ta.data_.length := by
    rw [← hdata]
    simp
  exact ApplyOperation_well_formed data ta.shape_ [a, b] (.AddBias a b) w p w1 hwf hl
    (valid_pair w a b ta tb hta htb) (fun _ => Iff.rfl)
    (fun t ht => ⟨ta, tb, hta, htb, by rw [ht, hlen], hpos, by rw [ht, hlen]; exact hdvd⟩) h

/-- MultiplyManyOneInternal keeps a store well-formed on a second operand
that is not empty. -/
theorem MultiplyManyOneInternal_well_formed (a b : SharedTensor) (w : World)
    (p : SharedTensor) (w1 : World) (hwf : WellFormed w) (hl : OperandsLinked w)
    (hsize : ∀ tb, w.deref b = .ok tb → 0 < tb.data_.length)
    (h : MultiplyManyOneInternal a b w = .ok (p, w1)) : WellFormed w1 ∧ OperandsLinked w1 := by
  unfold MultiplyManyOneInternal at h
  simp only [bind_eq_ok] at h
  obtain ⟨ta, hta, tb, htb, data, hdata, h⟩ := h
  exact ApplyOperation_well_formed data ta.shape_ [a, b] (.MultiplyManyOne a b) w p w1 hwf hl
    (valid_pair w a b ta tb hta htb) (fun _ => Iff.rfl)
    (fun t ht => ⟨ta, tb, hta, htb, by rw [ht, mapE_length _ _ data hdata], hsize tb htb⟩) h

/-- MultiplyManyManyInternal keeps a store well-formed on operands of one
size. -/
theorem MultiplyManyManyInternal_well_formed (a b : SharedTensor) (w : World)
    (p : SharedTensor) (w1 : World) (hwf : WellFormed w) (hl : OperandsLinked w)
    (hsize : ∀ ta tb, w.deref a = .ok ta → w.deref b = .ok tb →
      tb.data_.length = ta.data_.length)
    (h : MultiplyManyManyInternal a b w = .ok (p, w1)) :
    WellFormed w1 ∧ OperandsLinked w1 := by
  unfold MultiplyManyManyInternal at h
  simp only [bind_eq_ok] at h
  obtain ⟨ta, hta, tb, htb, data, hdata, h⟩ := h
  have hlen := forEachIndex_length _ _ data hdata
  exact ApplyOperation_well_formed data ta.shape_ [a, b] (.MultiplyManyMany a b) w p w1 hwf hl
    (valid_pair w a b ta tb hta htb) (fun _ => Iff.rfl)
    (fun t ht => ⟨ta, tb, hta, htb, by rw [ht, hlen], by rw [ht, hlen, hsize ta tb hta htb]⟩) h

/-- MatmulInternal keeps a store well-formed on operands whose data fill the
shapes (n,m) and (m,p) the kernel reads. -/
theorem MatmulInternal_well_formed (a b : SharedTensor) (w : World) (q : SharedTensor)
    (w1 : World) (hwf : WellFormed w) (hl : OperandsLinked w)
    (hsize : ∀ ta tb n m p, w.deref a = .ok ta → w.deref b = .ok tb →
      rdNat ta.shape_ 0 = .ok n → rdNat ta.shape_ 1 = .ok m → rdNat tb.shape_ 1 = .ok p →
      ta.data_.length = n * m ∧ tb.data_.length = m * p)
    (h : MatmulInternal a b w = .ok (q, w1)) : WellFormed w1 ∧ OperandsLinked w1 := by
  unfold MatmulInternal at h
  simp only [bind_eq_ok] at h
  obtain ⟨ta, hta, tb, htb, n, hn, m, hm, p, hp, data, hdata, h⟩ := h
  obtain ⟨hla, hlb⟩ := hsize ta tb n m p hta htb hn hm hp
  rw [MatmulVectors_eq _ _ n m p (by rw [hla]) (by rw [hlb])] at hdata
  simp only [Except.ok.injEq] at hdata
  have hlen : data.length = n * p := by
    rw [← hdata]
    simp
  exact ApplyOperation_well_formed data [n, p] [a, b] (.Matmul a b) w q w1 hwf hl
    (valid_pair w a b ta tb hta htb) (fun _ => Iff.rfl)
    (fun t ht => ⟨ta, tb, n, m, p, hta, htb, hn, hm, hp, hla, hlb, by rw [ht, hlen]⟩) h

/-- PowInternal keeps a store well-formed on an operand without zeros. -/
theorem PowInternal_well_formed (a : SharedTensor) (e : Int) (w : World) (p : SharedTensor)
    (w1 : World) (hwf : WellFormed w) (hl : OperandsLinked w)
    (hnz : ∀ ta, w.deref a = .ok ta → ∀ v ∈ ta.data_, v ≠ 0)
    (h : PowInternal a e w = .ok (p, w1)) : WellFormed w1 ∧ OperandsLinked w1 := by
  unfold PowInternal at h
  simp only [bind_eq_ok] at h
  obtain ⟨ta, hta, data, hdata, h⟩ := h
  rw [powData_eq _ _ (fun _ => hnz ta hta)] at hdata
  simp only [Except.ok.injEq] at hdata
  have hlen : data.length = ta.data_.length := by
    rw [← hdata]
    simp
  exact ApplyOperation_well_formed data ta.shape_ [a] (.Pow a e data) w p w1 hwf hl
    (valid_one w a ta hta) (fun _ => Iff.rfl)
    (fun t ht => ⟨ta, hta, by rw [ht, hlen], by rw [ht], hnz ta hta⟩) h

/-- SumInternal keeps a store well-formed. -/
theorem SumInternal_well_formed (a : SharedTensor) (w : World) (p : SharedTensor)
    (w1 : World) (hwf : WellFormed w) (hl : OperandsLinked w)
    (h : SumInternal a w = .ok (p, w1)) : WellFormed w1 ∧ OperandsLinked w1 := by
  unfold SumInternal at h
  simp only [bind_eq_ok] at h
  obtain ⟨ta, hta, h⟩ := h
  exact ApplyOperation_well_formed _ [] [a] (.Sum a (accumulate ta.data_)) w p w1 hwf hl
    (valid_one w a ta hta) (fun _ => Iff.rfl)
    (fun t ht => ⟨ta, hta, by rw [ht]; rfl⟩) h

/-- ReluInternal keeps a store well-formed. -/
theorem ReluInternal_well_formed (a : SharedTensor) (leaky : ℚ) (w : World)
    (p : SharedTensor) (w1 : World) (hwf : WellFormed w) (hl : OperandsLinked w)
    (h : ReluInternal a leaky w = .ok (p, w1)) : WellFormed w1 ∧ OperandsLinked w1 := by
  unfold ReluInternal at h
  simp only [bind_eq_ok] at h
  obtain ⟨ta, hta, h⟩ := h
  exact ApplyOperation_well_formed _ ta.shape_ [a] (.Relu a leaky) w p w1 hwf hl
    (valid_one w a ta hta) (fun _ => Iff.rfl)
    (fun t ht => ⟨ta, hta, by rw [ht]; simp⟩) h

/-- The empty store is well-formed. -/
theorem init_well_formed : WellFormed World.init ∧ OperandsLinked World.init := by
  have hno : ∀ q t, World.init.deref q = .ok t → False := by
    intro q t hq
    have := deref_lt _ q t hq
    simp [World.init] at this
  exact ⟨⟨fun q t hq => (hno q t hq).elim, fun q t hq => (hno q t hq).elim,
    fun q t hq => (hno q t hq).elim⟩, fun q t _ hq => (hno q t hq).elim⟩

/-- OppositeInternal keeps a store well-formed. -/
theorem OppositeInternal_well_formed (a : SharedTensor) (w : World) (p : SharedTensor)
    (w1 : World) (hwf : WellFormed w) (hl : OperandsLinked w)
    (h : OppositeInternal a w = .ok (p, w1)) : WellFormed w1 ∧ OperandsLinked w1 := by
  unfold OppositeInternal at h
  obtain ⟨hwf2, hl2⟩ := constructed_well_formed w [-1] [] false false hwf hl
  refine MultiplyManyOneInternal_well_formed a _ _ p w1 hwf2 hl2 ?_ h
  intro tb htb
  have hd : (w.alloc (InternalTensor.new [-1] [] false false)).2.deref w.nodes.length =
      .ok (InternalTensor.new [-1] [] false false) := deref_alloc w _
  rw [hd] at htb
  simp only [Except.ok.injEq] at htb
  subst htb
  exact Nat.one_pos

/-- InverseInternal keeps a store well-formed on an operand without zeros. -/
theorem InverseInternal_well_formed (a : SharedTensor) (w : World) (p : SharedTensor)
    (w1 : World) (hwf : WellFormed w) (hl : OperandsLinked w)
    (hnz : ∀ ta, w.deref a = .ok ta → ∀ v ∈ ta.data_, v ≠ 0)
    (h : InverseInternal a w = .ok (p, w1)) : WellFormed w1 ∧ OperandsLinked w1 :=
  PowInternal_well_formed a (-1) w p w1 hwf hl hnz h

end cpp_tensor
